import Mathlib

/-!
# L1 cache coherence simulator: MESI caches on a snooping bus

A shallow embedding of `cache.cpp`, `bus.cpp` and the cycle loop of `main.cpp`.

Modelling conventions.

* Objects that the source shares by pointer or reference (the bus, the caches
  registered on it, the global cycle counter) are gathered in one `System`
  value that every operation takes and returns.
* `uint32_t` addresses and tags, `uint64_t` time stamps and all statistics
  counters are natural numbers; the counters only ever grow and no run can
  wrap a 64-bit counter, so no modulus is applied to them.  The signed fields
  `remainingCycles`, `currentRequestingCore`, `cacheId` and the result codes of
  `read`/`write` are integers.
* A set is the list of its lines in way order.  The constructor sizes every
  set to `associativity` lines and nothing resizes a set afterwards, so each
  source loop `for (i = 0; i < associativity; ++i)` is a scan of that list.
* Indexing a vector out of range is undefined in the source; here such a read
  yields a default value and such a write does nothing.  The well-formedness
  invariant below shows that reachable states never do it.
* The fields `CacheLine::data`, `CacheSet::accessCount`, `Cache::tagBits`,
  `debugMode` and the debug streams are never read by the simulation and are
  left out, as is the `timestamp` of a `BusTransaction`.
-/

namespace L1Sim

/-! ## Data model (`cache.h`, `bus.h`) -/

/-- The four MESI states of `enum class CacheState`. -/
inductive CacheState where
  | MODIFIED
  | EXCLUSIVE
  | SHARED
  | INVALID
deriving DecidableEq

/-- A cache line: `struct CacheLine` without its data bytes. -/
structure CacheLine where
  tag : Nat
  state : CacheState
  dirty : Bool
  lastAccessTime : Nat
deriving DecidableEq

/-- Per-cache counters: `struct CacheStats`. -/
structure CacheStats where
  readCount : Nat
  writeCount : Nat
  hitCount : Nat
  missCount : Nat
  evictionCount : Nat
  writebackCount : Nat
  invalidationCount : Nat
  busTrafficBytes : Nat
  execCycles : Nat
  idleCycles : Nat
  totalCycles : Nat
deriving DecidableEq

/-- One cache: the fields of `class Cache` that the simulation reads. -/
structure Cache where
  numSets : Nat
  associativity : Nat
  blockSize : Nat
  setIndexBits : Nat
  blockBits : Nat
  sets : List (List CacheLine)
  cacheId : Int
  stats : CacheStats
deriving DecidableEq

/-- The three transaction kinds of `enum class BusTransactionType`. -/
inductive BusTransactionType where
  | BusRd
  | BusRdX
  | BusUpgr
deriving DecidableEq

/-- Bus counters: `struct BusStats`. -/
structure BusStats where
  totalTransactions : Nat
  busRdTransactions : Nat
  busRdXTransactions : Nat
  busUpgrTransactions : Nat
  totalBusTraffic : Nat
deriving DecidableEq

/-- The bus: the scalar fields of `class Bus`; its cache list is `System.caches`. -/
structure Bus where
  isBusy : Bool
  remainingCycles : Int
  currentRequestingCore : Int
  stats : BusStats
deriving DecidableEq

/-- The bus, the caches registered on it (in registration order) and the
global cycle counter they all refer to. -/
structure System where
  caches : List Cache
  bus : Bus
  globalCycle : Nat
deriving DecidableEq

/-- Value of `UINT64_MAX`. -/
def UINT64_MAX : Nat := 18446744073709551615

/-- A value-initialised line as left by the constructor: tag 0, `INVALID`,
clean, time stamp 0. -/
def CacheLine.init : CacheLine :=
  { tag := 0, state := CacheState.INVALID, dirty := false, lastAccessTime := 0 }

instance : Inhabited CacheLine := ⟨CacheLine.init⟩

/-- All counters zero (`stats()` followed by `Cache::resetStats`). -/
def CacheStats.zero : CacheStats :=
  { readCount := 0, writeCount := 0, hitCount := 0, missCount := 0,
    evictionCount := 0, writebackCount := 0, invalidationCount := 0,
    busTrafficBytes := 0, execCycles := 0, idleCycles := 0, totalCycles := 0 }

/-- `Cache::Cache`: `1 << s` sets of `associativity` invalid lines; the two
shifts are stored in `uint32_t` fields. -/
def Cache.mk0 (setIndexBits associativity blockBits : Nat) (id : Int) : Cache :=
  { numSets := (1 <<< setIndexBits) % 4294967296
    associativity := associativity
    blockSize := (1 <<< blockBits) % 4294967296
    setIndexBits := setIndexBits
    blockBits := blockBits
    sets := List.replicate ((1 <<< setIndexBits) % 4294967296)
              (List.replicate associativity CacheLine.init)
    cacheId := id
    stats := CacheStats.zero }

/-- `Bus::resetStats`: `stats = BusStats{}`. -/
def BusStats.zero : BusStats :=
  { totalTransactions := 0, busRdTransactions := 0, busRdXTransactions := 0,
    busUpgrTransactions := 0, totalBusTraffic := 0 }

/-- `Bus::Bus`: idle, no cycles pending, owner `-1`, counters reset. -/
def Bus.init : Bus :=
  { isBusy := false, remainingCycles := 0, currentRequestingCore := -1,
    stats := BusStats.zero }

/-- `Bus::resetStats`. -/
def Bus.resetStats (b : Bus) : Bus := { b with stats := BusStats.zero }

/-! ## Address decomposition (`cache.cpp`, lines 76-92) -/

/-- `Cache::getSetIndex`: `(address >> blockBits) & ((1 << setIndexBits) - 1)`. -/
def Cache.getSetIndex (c : Cache) (address : Nat) : Nat :=
  (address >>> c.blockBits) &&& ((1 <<< c.setIndexBits) - 1)

/-- `Cache::getTag`: `address >> (setIndexBits + blockBits)`. -/
def Cache.getTag (c : Cache) (address : Nat) : Nat :=
  address >>> (c.setIndexBits + c.blockBits)

/-- `Cache::getBlockOffset`: `address & ((1 << blockBits) - 1)`. -/
def Cache.getBlockOffset (c : Cache) (address : Nat) : Nat :=
  address &&& ((1 <<< c.blockBits) - 1)

/-! ## Line access -/

/-- The lines of set `setIndex`: `sets[setIndex].lines`. -/
def Cache.setLines (c : Cache) (setIndex : Nat) : List CacheLine :=
  c.sets.getD setIndex []

/-- The line `sets[setIndex].lines[lineIndex]`. -/
def Cache.line (c : Cache) (setIndex lineIndex : Nat) : CacheLine :=
  (c.setLines setIndex).getD lineIndex CacheLine.init

/-- Assignment through the reference `sets[setIndex].lines[lineIndex]`. -/
def Cache.modifyLine (c : Cache) (setIndex lineIndex : Nat)
    (f : CacheLine → CacheLine) : Cache :=
  { c with sets := (c.sets.set setIndex
      ((c.setLines setIndex).set lineIndex (f (c.line setIndex lineIndex)))) }

/-- The probe loop shared by `read`, `write` and `processBusTransaction`:
the first way whose line has `line.tag == tag && line.state != INVALID`. -/
def findWay (tag : Nat) : List CacheLine → Option Nat
  | [] => none
  | l :: ls =>
    if l.tag = tag ∧ l.state ≠ CacheState.INVALID then some 0
    else (findWay tag ls).map (· + 1)

/-- The loop of `Cache::findLRULine` from way `i` on, carrying `minTime` and
`lruLine`. -/
def findLRULineFrom : List CacheLine → Nat → Nat → Nat → Nat
  | [], _, _, lruLine => lruLine
  | l :: ls, i, minTime, lruLine =>
    if l.state = CacheState.INVALID then i
    else if l.lastAccessTime < minTime then findLRULineFrom ls (i + 1) l.lastAccessTime i
    else findLRULineFrom ls (i + 1) minTime lruLine

/-- `Cache::findLRULine`: first invalid way, else the first way with the
smallest time stamp below `UINT64_MAX`, else way 0. -/
def Cache.findLRULine (c : Cache) (setIndex : Nat) : Nat :=
  findLRULineFrom (c.setLines setIndex) 0 UINT64_MAX 0

/-- `Cache::updateLRU`: stamp the line with the global cycle. -/
def Cache.updateLRU (c : Cache) (globalCycle setIndex lineIndex : Nat) : Cache :=
  c.modifyLine setIndex lineIndex (fun l => { l with lastAccessTime := globalCycle })

/-! ## Bus primitives (`bus.cpp`, lines 43-63) -/

/-- `Bus::updateBusState`. -/
def Bus.updateBusState (b : Bus) : Bus :=
  if b.isBusy then
    if b.remainingCycles - 1 ≤ 0 then
      { b with remainingCycles := b.remainingCycles - 1, isBusy := false,
               currentRequestingCore := -1 }
    else { b with remainingCycles := b.remainingCycles - 1 }
  else b

/-- `Bus::addRemainingCycles`. -/
def Bus.addRemainingCycles (b : Bus) (cycles coreId : Int) : Bus :=
  if b.isBusy then { b with remainingCycles := b.remainingCycles + cycles }
  else { b with remainingCycles := b.remainingCycles + cycles, isBusy := true,
                currentRequestingCore := coreId }

/-- The statement `bus->stats.totalBusTraffic += blockSize`. -/
def Bus.addTraffic (b : Bus) (bytes : Nat) : Bus :=
  { b with stats := { b.stats with totalBusTraffic := b.stats.totalBusTraffic + bytes } }

/-! ## Writeback and snooping (`cache.cpp`, lines 121-182) -/

/-- `Cache::writeBackToMemory`: count the writeback and its traffic, charge
100 cycles on the bus, clear the dirty bit.  Returns the cache and the bus. -/
def Cache.writeBackToMemory (c : Cache) (bus : Bus) (setIndex lineIndex : Nat) :
    Cache × Bus :=
  let c1 : Cache := { c with stats := { c.stats with
    writebackCount := c.stats.writebackCount + 1,
    busTrafficBytes := c.stats.busTrafficBytes + c.blockSize } }
  (c1.modifyLine setIndex lineIndex (fun l => { l with dirty := false }),
   (bus.addTraffic c.blockSize).addRemainingCycles 100 c.cacheId)

/-- The snooped-write branch of `processBusTransaction` on the matching way. -/
def Cache.snoopWrite (c : Cache) (bus : Bus) (setIndex i : Nat) : Cache × Bus :=
  let wb := if (c.line setIndex i).state = CacheState.MODIFIED
    then c.writeBackToMemory bus setIndex i else (c, bus)
  (wb.1.modifyLine setIndex i (fun l => { l with state := CacheState.INVALID }), wb.2)

/-- The snooped-read branch of `processBusTransaction` on the matching way. -/
def Cache.snoopRead (c : Cache) (bus : Bus) (setIndex i : Nat) (data_requested : Bool) :
    Cache × Bus :=
  let st := (c.line setIndex i).state
  let dg := if st = CacheState.EXCLUSIVE ∨ st = CacheState.MODIFIED then
      let wb := if st = CacheState.MODIFIED
        then c.writeBackToMemory bus setIndex i else (c, bus)
      (wb.1.modifyLine setIndex i (fun l => { l with state := CacheState.SHARED }), wb.2)
    else (c, bus)
  if data_requested then
    ({ dg.1 with stats := { dg.1.stats with
         busTrafficBytes := dg.1.stats.busTrafficBytes + c.blockSize } },
     dg.2.addRemainingCycles (2 * ((c.blockSize / 4 : Nat) : Int)) c.cacheId)
  else dg

/-- `Cache::processBusTransaction`: returns the cache, the bus and whether
the cache held the block. -/
def Cache.processBusTransaction (c : Cache) (bus : Bus) (address : Nat) (isWrite : Bool)
    (requestingCore : Int) (data_requested : Bool) : Cache × Bus × Bool :=
  if requestingCore = c.cacheId then (c, bus, false)
  else
    match findWay (c.getTag address) (c.setLines (c.getSetIndex address)) with
    | none => (c, bus, false)
    | some i =>
      if isWrite then
        let r := c.snoopWrite bus (c.getSetIndex address) i
        (r.1, r.2, true)
      else
        let r := c.snoopRead bus (c.getSetIndex address) i data_requested
        (r.1, r.2, true)

/-! ## Broadcast (`bus.cpp`, lines 65-151) -/

/-- The statistics switch at the head of `Bus::processTransaction`. -/
def BusStats.count (s : BusStats) : BusTransactionType → BusStats
  | BusTransactionType.BusRd =>
    { s with totalTransactions := s.totalTransactions + 1,
             busRdTransactions := s.busRdTransactions + 1 }
  | BusTransactionType.BusRdX =>
    { s with totalTransactions := s.totalTransactions + 1,
             busRdXTransactions := s.busRdXTransactions + 1 }
  | BusTransactionType.BusUpgr =>
    { s with totalTransactions := s.totalTransactions + 1,
             busUpgrTransactions := s.busUpgrTransactions + 1 }

/-- `isWrite = (type == BusRdX || type == BusUpgr)`. -/
def BusTransactionType.isWrite : BusTransactionType → Bool
  | BusTransactionType.BusRd => false
  | _ => true

/-- The notification loop of `Bus::processTransaction` from cache index `i`
on, threading the bus, `dataFromOtherCache` and `data_requested`. -/
def snoopLoop (address : Nat) (isWrite : Bool) (requestingCore : Int) :
    Nat → List Cache → Bus → Bool → Bool → List Cache × Bus × Bool
  | _, [], bus, dataFromOtherCache, _ => ([], bus, dataFromOtherCache)
  | i, c :: cs, bus, dataFromOtherCache, data_requested =>
    if (i : Int) ≠ requestingCore then
      let dr := if isWrite then false else data_requested
      let r := c.processBusTransaction bus address isWrite requestingCore dr
      let dfo := dataFromOtherCache || r.2.2
      let rest := snoopLoop address isWrite requestingCore (i + 1) cs r.2.1 dfo
        (if dfo then false else dr)
      (r.1 :: rest.1, rest.2.1, rest.2.2)
    else
      let rest := snoopLoop address isWrite requestingCore (i + 1) cs bus
        dataFromOtherCache data_requested
      (c :: rest.1, rest.2.1, rest.2.2)

/-- `Bus::processTransaction`: count the transaction, then notify every other
cache.  Returns the caches, the bus and `dataFromOtherCache`. -/
def Bus.processTransaction (caches : List Cache) (bus : Bus) (type : BusTransactionType)
    (address : Nat) (requestingCore : Int) : List Cache × Bus × Bool :=
  snoopLoop address type.isWrite requestingCore 0 caches
    { bus with stats := bus.stats.count type } false true

/-- `Bus::broadcastTransaction`: rejected (nothing changes, `false`) when the
bus is busy for another core; otherwise the bus is taken and the transaction
processed. -/
def Bus.broadcastTransaction (caches : List Cache) (bus : Bus) (type : BusTransactionType)
    (address : Nat) (requestingCore : Int) : List Cache × Bus × Bool :=
  if bus.isBusy = true ∧ bus.currentRequestingCore ≠ requestingCore then (caches, bus, false)
  else
    Bus.processTransaction caches
      { bus with isBusy := true, currentRequestingCore := requestingCore }
      type address requestingCore

/-! ## Local operations (`cache.cpp`, lines 184-406) -/

/-- Replace element `i` of a list by its image under `f`; nothing happens
when `i` is out of range. -/
def modifyAt {α : Type} (l : List α) (i : Nat) (f : α → α) : List α :=
  match l[i]? with
  | some a => l.set i (f a)
  | none => l

/-- The statement `stats.hitCount++`. -/
def Cache.countHit (c : Cache) : Cache :=
  { c with stats := { c.stats with hitCount := c.stats.hitCount + 1 } }

/-- The statement `stats.missCount++`. -/
def Cache.countMiss (c : Cache) : Cache :=
  { c with stats := { c.stats with missCount := c.stats.missCount + 1 } }

/-- The statement `stats.busTrafficBytes += blockSize`. -/
def Cache.countTraffic (c : Cache) : Cache :=
  { c with stats := { c.stats with busTrafficBytes := c.stats.busTrafficBytes + c.blockSize } }

/-- Victim handling shared by the two miss paths (lines 245-254 and 372-381):
write the victim back if it is `MODIFIED`, then count an eviction if it is
not `INVALID`. -/
def Cache.evictVictim (c : Cache) (bus : Bus) (setIndex replaceIdx : Nat) : Cache × Bus :=
  let wb := if (c.line setIndex replaceIdx).state = CacheState.MODIFIED
    then c.writeBackToMemory bus setIndex replaceIdx else (c, bus)
  if (wb.1.line setIndex replaceIdx).state ≠ CacheState.INVALID then
    ({ wb.1 with stats := { wb.1.stats with evictionCount := wb.1.stats.evictionCount + 1 } },
     wb.2)
  else wb

/-- The miss path of `Cache::read` (lines 229-285) for the cache `c` stored at
index `k`. -/
def Cache.readMiss (sys : System) (k : Nat) (c : Cache) (address : Nat) (coreId : Int) :
    System :=
  let setIndex := c.getSetIndex address
  let tag := c.getTag address
  let c1 := c.countMiss
  let replaceIdx := c1.findLRULine setIndex
  let ev := c1.evictVictim sys.bus setIndex replaceIdx
  let bc := Bus.broadcastTransaction (sys.caches.set k ev.1) ev.2
    BusTransactionType.BusRd address coreId
  let c2 := bc.1.getD k ev.1
  let bus1 := if bc.2.2 then bc.2.1 else bc.2.1.addRemainingCycles 100 c2.cacheId
  let c3 := c2.countTraffic.modifyLine setIndex replaceIdx (fun l =>
    { l with state := if bc.2.2 then CacheState.SHARED else CacheState.EXCLUSIVE,
             tag := tag, dirty := false, lastAccessTime := sys.globalCycle })
  { caches := bc.1.set k c3, bus := bus1.addTraffic c2.blockSize,
    globalCycle := sys.globalCycle }

/-- `Cache::read(address, coreId)` called on the cache at index `k`.  Result
codes: 0 hit, 1 miss issued, -1 bus busy for another core, 2 bus busy for this
core.  A call on an index with no cache changes nothing. -/
def Cache.read (sys : System) (k : Nat) (address : Nat) (coreId : Int) : System × Int :=
  match sys.caches[k]? with
  | none => (sys, -1)
  | some c =>
    if sys.bus.isBusy = true ∧ sys.bus.currentRequestingCore = coreId then (sys, 2)
    else
      match findWay (c.getTag address) (c.setLines (c.getSetIndex address)) with
      | some i =>
        ({ sys with caches := (sys.caches.set k
             (c.countHit.updateLRU sys.globalCycle (c.getSetIndex address) i)) }, 0)
      | none =>
        if sys.bus.isBusy = true ∧ sys.bus.currentRequestingCore ≠ coreId then (sys, -1)
        else (Cache.readMiss sys k c address coreId, 1)

/-- The write-hit branch of `Cache::write` (lines 310-345) on the matching
way `i`. -/
def Cache.writeHit (sys : System) (k : Nat) (c : Cache) (address : Nat) (coreId : Int)
    (i : Nat) : System × Int :=
  let setIndex := c.getSetIndex address
  if (c.line setIndex i).state ≠ CacheState.MODIFIED then
    if sys.bus.isBusy = true then (sys, -1)
    else
      let c1 : Cache := if (c.line setIndex i).state = CacheState.SHARED
        then { c with stats := { c.stats with
                 invalidationCount := c.stats.invalidationCount + 1 } }
        else c
      let bc := Bus.broadcastTransaction (sys.caches.set k c1) sys.bus
        BusTransactionType.BusUpgr address coreId
      let c2 := bc.1.getD k c1
      let c3 := c2.countHit.modifyLine setIndex i (fun l =>
        { l with state := CacheState.MODIFIED, lastAccessTime := sys.globalCycle,
                 dirty := true })
      ({ caches := bc.1.set k c3, bus := bc.2.1, globalCycle := sys.globalCycle }, 0)
  else
    ({ sys with caches := (sys.caches.set k
         (c.countHit.modifyLine setIndex i (fun l =>
            { l with lastAccessTime := sys.globalCycle, dirty := true }))) }, 0)

/-- The miss path of `Cache::write` (lines 356-406) for the cache `c` stored
at index `k`. -/
def Cache.writeMiss (sys : System) (k : Nat) (c : Cache) (address : Nat) (coreId : Int) :
    System :=
  let setIndex := c.getSetIndex address
  let tag := c.getTag address
  let c1 := c.countMiss
  let replaceIdx := c1.findLRULine setIndex
  let ev := c1.evictVictim sys.bus setIndex replaceIdx
  let bc := Bus.broadcastTransaction (sys.caches.set k ev.1) ev.2
    BusTransactionType.BusRdX address coreId
  let c2 := bc.1.getD k ev.1
  let c3 : Cache := if bc.2.2
    then { c2 with stats := { c2.stats with
             invalidationCount := c2.stats.invalidationCount + 1 } }
    else c2
  let c4 := c3.countTraffic.modifyLine setIndex replaceIdx (fun l =>
    { l with tag := tag, state := CacheState.MODIFIED, dirty := true,
             lastAccessTime := sys.globalCycle })
  { caches := bc.1.set k c4,
    bus := (bc.2.1.addRemainingCycles 100 c2.cacheId).addTraffic c2.blockSize,
    globalCycle := sys.globalCycle }

/-- `Cache::write(address, coreId)` called on the cache at index `k`; same
result codes as `read`. -/
def Cache.write (sys : System) (k : Nat) (address : Nat) (coreId : Int) : System × Int :=
  match sys.caches[k]? with
  | none => (sys, -1)
  | some c =>
    if sys.bus.isBusy = true ∧ sys.bus.currentRequestingCore = coreId then (sys, 2)
    else
      match findWay (c.getTag address) (c.setLines (c.getSetIndex address)) with
      | some i => Cache.writeHit sys k c address coreId i
      | none =>
        if sys.bus.isBusy = true ∧ sys.bus.currentRequestingCore ≠ coreId then (sys, -1)
        else (Cache.writeMiss sys k c address coreId, 1)

/-! ## The driver (`main.cpp`, lines 114-219) -/

/-- One trace line: `struct TraceEntry`. -/
structure TraceEntry where
  isWrite : Bool
  address : Nat
deriving DecidableEq

/-- `const long long int numCores = 4`. -/
def numCores : Nat := 4

/-- The variables of the cycle loop: the bus and caches, and per core the
retired-instruction count and the trace pointer. -/
structure Driver where
  sys : System
  totalInstructions : List Nat
  currentInstructionIndex : List Nat
deriving DecidableEq

/-- The system `main` builds: `n` caches with ids `0 .. n-1`, registered in
that order on a fresh bus, global cycle 0. -/
def System.init (n setIndexBits associativity blockBits : Nat) : System :=
  { caches := ((List.range n).map
      (fun (i : Nat) => Cache.mk0 setIndexBits associativity blockBits (i : Int)))
    bus := Bus.init
    globalCycle := 0 }

/-- The driver state before the first cycle. -/
def Driver.init (setIndexBits associativity blockBits : Nat) : Driver :=
  { sys := System.init numCores setIndexBits associativity blockBits
    totalInstructions := List.replicate numCores 0
    currentInstructionIndex := List.replicate numCores 0 }

/-- The statement `stats.execCycles++` on one cache. -/
def Cache.countExec (c : Cache) : Cache :=
  { c with stats := { c.stats with execCycles := c.stats.execCycles + 1 } }

/-- The statement `stats.idleCycles++` on one cache. -/
def Cache.countIdle (c : Cache) : Cache :=
  { c with stats := { c.stats with idleCycles := c.stats.idleCycles + 1 } }

/-- The statements `stats.writeCount++` / `stats.readCount++` chosen by
`entry.isWrite`. -/
def Cache.countAccess (c : Cache) (isWrite : Bool) : Cache :=
  if isWrite then { c with stats := { c.stats with writeCount := c.stats.writeCount + 1 } }
  else { c with stats := { c.stats with readCount := c.stats.readCount + 1 } }

/-- Lines 150-155: when `bus.getRemainingCycles() == 1` the owning core is
charged one exec cycle, its instruction count and its trace pointer advance.
A negative owner indexes nothing. -/
def Driver.retire (d : Driver) : Driver :=
  if d.sys.bus.remainingCycles = 1 then
    if 0 ≤ d.sys.bus.currentRequestingCore then
      let o := d.sys.bus.currentRequestingCore.toNat
      { sys := { d.sys with caches := modifyAt d.sys.caches o Cache.countExec }
        totalInstructions := modifyAt d.totalInstructions o (· + 1)
        currentInstructionIndex := modifyAt d.currentInstructionIndex o (· + 1) }
    else d
  else d

/-- The `switch (result)` of lines 180-213 for core `core`. -/
def Driver.dispatch (d : Driver) (core : Nat) (isWrite : Bool) (result : Int) : Driver :=
  if result = 0 then
    { sys := { d.sys with caches :=
        (modifyAt d.sys.caches core (fun c => c.countExec.countAccess isWrite)) }
      totalInstructions := modifyAt d.totalInstructions core (· + 1)
      currentInstructionIndex := modifyAt d.currentInstructionIndex core (· + 1) }
  else if result = 1 then
    { d with sys := { d.sys with caches :=
        (modifyAt d.sys.caches core (fun c => c.countExec.countAccess isWrite)) } }
  else if result = -1 then
    { d with sys := { d.sys with caches := modifyAt d.sys.caches core Cache.countIdle } }
  else if result = 2 then
    { d with sys := { d.sys with caches := modifyAt d.sys.caches core Cache.countExec } }
  else d

/-- The body of the per-core loop (lines 158-214) for core `core`, on the
driver state and the flag `allTracesComplete`. -/
def Driver.issue (traces : List (List TraceEntry)) (st : Driver × Bool) (core : Nat) :
    Driver × Bool :=
  match (traces.getD core [])[st.1.currentInstructionIndex.getD core 0]? with
  | none => st
  | some entry =>
    let r := if entry.isWrite
      then Cache.write st.1.sys core entry.address (core : Int)
      else Cache.read st.1.sys core entry.address (core : Int)
    (Driver.dispatch { st.1 with sys := r.1 } core entry.isWrite r.2, false)

/-- One iteration of the `while` loop: retirement, `bus.updateBusState()`,
the per-core loop, `globalCycle++`.  The flag is `allTracesComplete`. -/
def Driver.cycle (traces : List (List TraceEntry)) (d : Driver) : Driver × Bool :=
  let d1 := d.retire
  let d2 : Driver := { d1 with sys := { d1.sys with bus := d1.sys.bus.updateBusState } }
  let r := (List.range numCores).foldl (Driver.issue traces) (d2, true)
  ({ r.1 with sys := { r.1.sys with globalCycle := r.1.sys.globalCycle + 1 } }, r.2)

/-- The `while (!allTracesComplete)` loop run for at most `fuel` iterations:
`some` final state when the loop exits within the budget. -/
def Driver.run (traces : List (List TraceEntry)) : Nat → Driver → Option Driver
  | 0, _ => none
  | fuel + 1, d =>
    let r := Driver.cycle traces d
    if r.2 then some r.1 else Driver.run traces fuel r.1

/-- The state after `n` iterations of the loop body. -/
def Driver.cycles (traces : List (List TraceEntry)) : Nat → Driver → Driver
  | 0, d => d
  | n + 1, d => Driver.cycles traces n (Driver.cycle traces d).1

/-! ## Reachable states and the predicates of the coherence invariants -/

/-- One externally visible operation on the system: a local read or write
issued by core `core` with `coreId` equal to the cache's own id, a
`bus.updateBusState()` call, or an increment of the global cycle. -/
inductive Op where
  | read (core : Nat) (address : Nat)
  | write (core : Nat) (address : Nat)
  | tick
  | nextCycle
deriving DecidableEq

/-- The effect of one operation. -/
def System.step (sys : System) : Op → System
  | Op.read k a => (Cache.read sys k a (k : Int)).1
  | Op.write k a => (Cache.write sys k a (k : Int)).1
  | Op.tick => { sys with bus := sys.bus.updateBusState }
  | Op.nextCycle => { sys with globalCycle := sys.globalCycle + 1 }

/-- The state after a finite sequence of operations. -/
def System.run (sys : System) (ops : List Op) : System :=
  ops.foldl System.step sys

/-- The cache holds a valid (non-`INVALID`) line for block `(setIndex, tag)`. -/
def Cache.holds (c : Cache) (setIndex tag : Nat) : Prop :=
  ∃ l ∈ c.setLines setIndex, l.tag = tag ∧ l.state ≠ CacheState.INVALID

/-- The cache holds block `(setIndex, tag)` in `MODIFIED` or `EXCLUSIVE`. -/
def Cache.holdsOwned (c : Cache) (setIndex tag : Nat) : Prop :=
  ∃ l ∈ c.setLines setIndex, l.tag = tag ∧
    (l.state = CacheState.MODIFIED ∨ l.state = CacheState.EXCLUSIVE)

/-- The cache holds block `(setIndex, tag)` in `MODIFIED`. -/
def Cache.holdsModified (c : Cache) (setIndex tag : Nat) : Prop :=
  ∃ l ∈ c.setLines setIndex, l.tag = tag ∧ l.state = CacheState.MODIFIED

/-- MESI coherence: a block owned (`MODIFIED`/`EXCLUSIVE`) by one cache is
held by no other cache. -/
def Coherent (sys : System) : Prop :=
  ∀ (i j : Nat) (ci cj : Cache), sys.caches[i]? = some ci → sys.caches[j]? = some cj → i ≠ j →
    ∀ setIndex tag, ci.holdsOwned setIndex tag → ¬cj.holds setIndex tag

/-- No two valid lines of a set carry the same tag. -/
def NoDupTags (lines : List CacheLine) : Prop :=
  ∀ (i j : Nat) (li lj : CacheLine), lines[i]? = some li → lines[j]? = some lj →
    li.state ≠ CacheState.INVALID → lj.state ≠ CacheState.INVALID →
    li.tag = lj.tag → i = j

/-- What a snoop does to the matching line: a snooped write invalidates it, a
snooped read downgrades `EXCLUSIVE`/`MODIFIED` to `SHARED`; a `MODIFIED` line
is written back (dirty bit cleared) first. -/
def snoopLine (isWrite : Bool) (l : CacheLine) : CacheLine :=
  if isWrite then
    { l with state := CacheState.INVALID,
             dirty := if l.state = CacheState.MODIFIED then false else l.dirty }
  else if l.state = CacheState.EXCLUSIVE ∨ l.state = CacheState.MODIFIED then
    { l with state := CacheState.SHARED,
             dirty := if l.state = CacheState.MODIFIED then false else l.dirty }
  else l

/-- The lines of a cache after it has snooped a transaction for `address`:
the first matching way, if any, is replaced by its `snoopLine`. -/
def Cache.snooped (c : Cache) (address : Nat) (isWrite : Bool) : Cache :=
  match findWay (c.getTag address) (c.setLines (c.getSetIndex address)) with
  | none => c
  | some i => c.modifyLine (c.getSetIndex address) i (snoopLine isWrite)

/-- Two caches agree on every field except the statistics counters. -/
def Cache.sameLines (c c' : Cache) : Prop :=
  c'.sets = c.sets ∧ c'.cacheId = c.cacheId ∧ c'.setIndexBits = c.setIndexBits ∧
    c'.blockBits = c.blockBits ∧ c'.blockSize = c.blockSize ∧ c'.numSets = c.numSets ∧
    c'.associativity = c.associativity

/-- The static shape the constructor gives a cache with parameters `s`, `E`,
`b`: `2^s` sets of `E` lines, blocks of `2^b` bytes. -/
def Cache.WellFormed (s E b : Nat) (c : Cache) : Prop :=
  c.setIndexBits = s ∧ c.blockBits = b ∧ c.blockSize = 2 ^ b ∧ c.sets.length = 2 ^ s ∧
    ∀ ls ∈ c.sets, ls.length = E

/-- The invariant of the cache array: ids follow the registration order, all
caches have the constructor's shape, no set holds a block twice, and the
MESI states of every block are coherent. -/
structure Inv (s E b : Nat) (sys : System) : Prop where
  ids : ∀ (i : Nat) (c : Cache), sys.caches[i]? = some c → c.cacheId = (i : Int)
  shape : ∀ (i : Nat) (c : Cache), sys.caches[i]? = some c → c.WellFormed s E b
  nodup : ∀ (i : Nat) (c : Cache), sys.caches[i]? = some c →
    ∀ setIndex, NoDupTags (c.setLines setIndex)
  coherent : Coherent sys

/-- Position-wise relation between the cache list before and after an
operation. -/
def CachesRel (R : Nat → Cache → Cache → Prop) (cs cs' : List Cache) : Prop :=
  cs'.length = cs.length ∧
    ∀ (j : Nat) (cj : Cache), cs[j]? = some cj → ∃ cj', cs'[j]? = some cj' ∧ R j cj cj'

/-- Every line of every set of the cache satisfies `P`. -/
def Cache.LinesSat (P : CacheLine → Prop) (c : Cache) : Prop :=
  ∀ setIndex, ∀ l ∈ c.setLines setIndex, P l

/-- Every line of every cache of the system satisfies `P`. -/
def System.LinesSat (P : CacheLine → Prop) (sys : System) : Prop :=
  ∀ (i : Nat) (c : Cache), sys.caches[i]? = some c → c.LinesSat P

/-- The state of the line a snoop for `address` finds in the cache
(`INVALID` when the probe finds none). -/
def Cache.snoopState (c : Cache) (address : Nat) : CacheState :=
  match findWay (c.getTag address) (c.setLines (c.getSetIndex address)) with
  | none => CacheState.INVALID
  | some i => (c.line (c.getSetIndex address) i).state

/-- Number of caches other than `requestingCore` whose snooped line is
`MODIFIED`, i.e. the number of writebacks a broadcast triggers. -/
def peerWritebacks (caches : List Cache) (address : Nat) (requestingCore : Int) : Nat :=
  caches.countP (fun c =>
    decide (c.cacheId ≠ requestingCore ∧ c.snoopState address = CacheState.MODIFIED))

/-- Some cache other than `requestingCore` has a valid line for `address`. -/
def peerHolds (caches : List Cache) (address : Nat) (requestingCore : Int) : Bool :=
  caches.any (fun c =>
    decide (c.cacheId ≠ requestingCore ∧ c.snoopState address ≠ CacheState.INVALID))

/-- The counters a snoop never touches agree. -/
def CacheStats.accessEq (s s' : CacheStats) : Prop :=
  s'.readCount = s.readCount ∧ s'.writeCount = s.writeCount ∧ s'.hitCount = s.hitCount ∧
    s'.missCount = s.missCount ∧ s'.evictionCount = s.evictionCount ∧
    s'.invalidationCount = s.invalidationCount ∧ s'.execCycles = s.execCycles ∧
    s'.idleCycles = s.idleCycles ∧ s'.totalCycles = s.totalCycles

/-- The bus with `cycles` more remaining cycles and `bytes` more traffic: the
combined effect of the charges made while the bus is already busy. -/
def Bus.plus (b : Bus) (cycles : Int) (bytes : Nat) : Bus :=
  { b with remainingCycles := b.remainingCycles + cycles,
           stats := { b.stats with totalBusTraffic := b.stats.totalBusTraffic + bytes } }

/-- The bus as `broadcastTransaction` leaves it before notifying the peers:
taken by core `id`, with the transaction `type` counted. -/
def Bus.taken (b : Bus) (type : BusTransactionType) (id : Int) : Bus :=
  { isBusy := true, remainingCycles := b.remainingCycles, currentRequestingCore := id,
    stats := b.stats.count type }

/-! ## Predicates and measures for the cycle loop -/

/-- Core `core` still has an unconsumed trace entry. -/
def Driver.pending (traces : List (List TraceEntry)) (d : Driver) (core : Nat) : Prop :=
  d.currentInstructionIndex.getD core 0 < (traces.getD core []).length

/-- Number of trace entries not yet retired, over all cores. -/
def Driver.remainingWork (traces : List (List TraceEntry)) (d : Driver) : Nat :=
  ((List.range numCores).map
    (fun c => (traces.getD c []).length - d.currentInstructionIndex.getD c 0)).sum

/-- The lowest core that still has an unconsumed trace entry. -/
def Driver.firstPending (traces : List (List TraceEntry)) (d : Driver) : Option Nat :=
  (List.range numCores).find?
    (fun c => decide (d.currentInstructionIndex.getD c 0 < (traces.getD c []).length))

/-- 1 when the next entry of the lowest pending core misses in its cache,
0 otherwise. -/
def Driver.needsFill (traces : List (List TraceEntry)) (d : Driver) : Nat :=
  match Driver.firstPending traces d with
  | none => 0
  | some c =>
    match (traces.getD c [])[d.currentInstructionIndex.getD c 0]?, d.sys.caches[c]? with
    | some e, some cache =>
      if (findWay (cache.getTag e.address)
            (cache.setLines (cache.getSetIndex e.address))).isSome then 0 else 1
    | _, _ => 0

/-- The invariant of the cycle loop: the cache array is coherent and well
formed, the per-core vectors have `numCores` entries, an idle bus has no
cycles left, the instruction count follows the trace pointer, every core's
counters balance, no trace pointer is past the end of its trace, and while
cycles remain on the bus its owner is a core that still waits on its current
entry. -/
structure Driver.Inv (s E b : Nat) (traces : List (List TraceEntry)) (d : Driver) : Prop where
  sys : L1Sim.Inv s E b d.sys
  ncaches : d.sys.caches.length = numCores
  ntotal : d.totalInstructions.length = numCores
  nindex : d.currentInstructionIndex.length = numCores
  idle : d.sys.bus.isBusy = false → d.sys.bus.remainingCycles ≤ 0
  retired : d.totalInstructions = d.currentInstructionIndex
  counts : ∀ (i : Nat) (c : Cache), d.sys.caches[i]? = some c →
    c.stats.hitCount + c.stats.missCount = c.stats.readCount + c.stats.writeCount
  bound : ∀ (i : Nat), d.currentInstructionIndex.getD i 0 ≤ (traces.getD i []).length
  owner : 1 ≤ d.sys.bus.remainingCycles → ∃ o : Nat, o < numCores ∧
    d.sys.bus.currentRequestingCore = (o : Int) ∧
    d.currentInstructionIndex.getD o 0 < (traces.getD o []).length

/-- The outcome of a local access by core `k` as the driver sees it: `r` is
the pair returned for the state `sys`. -/
structure Outcome (sys : System) (k : Nat) (c : Cache) (address : Nat)
    (r : System × Int) : Prop where
  code : r.2 = 0 ∨ r.2 = 1 ∨ r.2 = -1 ∨ r.2 = 2
  cycle : r.1.globalCycle = sys.globalCycle
  stall : (r.2 = -1 ∨ r.2 = 2) → r.1 = sys ∧ sys.bus.isBusy = true
  busy : sys.bus.isBusy = true → r.1.bus = sys.bus
  idle : sys.bus.isBusy = false → r.2 = 0 ∨ r.2 = 1
  self : sys.bus.isBusy = true → sys.bus.currentRequestingCore = (k : Int) → r.2 = 2
  hit : r.2 = 0 → c.holds (c.getSetIndex address) (c.getTag address) ∧
    (r.1.bus = sys.bus ∨ (sys.bus.isBusy = false ∧ r.1.bus.isBusy = true ∧
      r.1.bus.remainingCycles = sys.bus.remainingCycles))
  miss : r.2 = 1 → ¬c.holds (c.getSetIndex address) (c.getTag address) ∧
    sys.bus.isBusy = false ∧ r.1.bus.isBusy = true ∧
    r.1.bus.currentRequestingCore = (k : Int) ∧
    ∃ c', r.1.caches[k]? = some c' ∧ c'.holds (c.getSetIndex address) (c.getTag address)
  counts : CachesRel (fun j cj cj' =>
      cj'.stats.readCount = cj.stats.readCount ∧ cj'.stats.writeCount = cj.stats.writeCount ∧
      cj'.stats.execCycles = cj.stats.execCycles ∧ cj'.stats.idleCycles = cj.stats.idleCycles ∧
      cj'.stats.hitCount = cj.stats.hitCount + (if j = k ∧ r.2 = 0 then 1 else 0) ∧
      cj'.stats.missCount = cj.stats.missCount + (if j = k ∧ r.2 = 1 then 1 else 0))
    sys.caches r.1.caches

/-- What one pass of the per-core loop body does for a core with a pending
entry: the invariant is kept, no work is added, a busy bus is left alone, and
either an instruction retired, or the access stalled and changed no line and
no pointer, or the access was a miss issued on an idle bus that leaves the
block in the core's cache. -/
structure Driver.Issued (s E b : Nat) (traces : List (List TraceEntry)) (core : Nat)
    (d d' : Driver) : Prop where
  inv : Driver.Inv s E b traces d'
  work_le : d'.remainingWork traces ≤ d.remainingWork traces
  busy : d.sys.bus.isBusy = true → d'.sys.bus = d.sys.bus
  cases : d'.remainingWork traces < d.remainingWork traces ∨
    (d'.currentInstructionIndex = d.currentInstructionIndex ∧ d'.sys.bus = d.sys.bus ∧
      d.sys.bus.isBusy = true ∧
      CachesRel (fun _ c c' => c.sameLines c') d.sys.caches d'.sys.caches) ∨
    (d'.currentInstructionIndex = d.currentInstructionIndex ∧ d.sys.bus.isBusy = false ∧
      d'.sys.bus.isBusy = true ∧
      ∃ e c c', (traces.getD core [])[d.currentInstructionIndex.getD core 0]? = some e ∧
        d.sys.caches[core]? = some c ∧ d'.sys.caches[core]? = some c' ∧
        ¬c.holds (c.getSetIndex e.address) (c.getTag e.address) ∧
        c'.holds (c'.getSetIndex e.address) (c'.getTag e.address))

/-- The start of one iteration of the cycle loop: retirement followed by
`bus.updateBusState()`. -/
def Driver.advance (d : Driver) : Driver :=
  { d.retire with sys := { d.retire.sys with bus := d.retire.sys.bus.updateBusState } }

/-- The state of the eviction scenario with `s = 1`, `E = 2`, `b = 2` and two
caches: core 0 has written `0x0` and `0x8` (both ways of set 0 are
`MODIFIED`), each miss has been served, and the bus is idle again. -/
def evictionScenario : System :=
  (System.init 2 1 2 2).run
    ([Op.write 0 0] ++ List.replicate 100 Op.tick ++ [Op.nextCycle, Op.write 0 8] ++
      List.replicate 100 Op.tick ++ [Op.nextCycle])

/-- The call the per-core loop makes for trace entry `e` of core `core`:
`caches[core].write(address, core)` or `caches[core].read(address, core)`. -/
def Driver.access (sys : System) (core : Nat) (e : TraceEntry) : System × Int :=
  if e.isWrite then Cache.write sys core e.address (core : Int)
  else Cache.read sys core e.address (core : Int)

/-- The state inside one iteration of the cycle loop after the cores
`0 .. j-1` have had their turn, starting from the state `d` left by the
retirement step and the bus tick. -/
def Driver.afterCores (traces : List (List TraceEntry)) (d : Driver) (j : Nat) : Driver :=
  ((List.range j).foldl (Driver.issue traces) (d, true)).1

/-- The six counters that an access and its dispatch can change agree. -/
def Cache.sameCounters (c c' : Cache) : Prop :=
  c'.stats.readCount = c.stats.readCount ∧ c'.stats.writeCount = c.stats.writeCount ∧
    c'.stats.hitCount = c.stats.hitCount ∧ c'.stats.missCount = c.stats.missCount ∧
    c'.stats.execCycles = c.stats.execCycles ∧ c'.stats.idleCycles = c.stats.idleCycles

/-- A transaction of core `c` is in flight in driver state `d`: the bus is
busy for `c` with `m` cycles remaining, and the trace pointer, instruction
count, `execCycles` and `idleCycles` of `c` have the given values. -/
structure Driver.InFlight (d : Driver) (c : Nat) (m : Int) (index total exec idle : Nat) :
    Prop where
  rem : d.sys.bus.remainingCycles = m
  busy : d.sys.bus.isBusy = true
  owner : d.sys.bus.currentRequestingCore = (c : Int)
  pointer : d.currentInstructionIndex.getD c 0 = index
  retired : d.totalInstructions.getD c 0 = total
  billed : ∃ y, d.sys.caches[c]? = some y ∧ y.stats.execCycles = exec ∧
    y.stats.idleCycles = idle

/-! ## Calls on the bus alone -/

/-- One call on the bus: `broadcastTransaction(type, address, requestingCore)`
with any arguments (so also broadcasts that the bus rejects),
`addRemainingCycles(cycles, coreId)`, or `updateBusState()`. -/
inductive BusOp where
  | broadcast (type : BusTransactionType) (address : Nat) (requestingCore : Int)
  | addCycles (cycles : Int) (coreId : Int)
  | tick
deriving DecidableEq

/-- The effect of one bus call on the registered caches and the bus. -/
def BusOp.step (st : List Cache × Bus) : BusOp → List Cache × Bus
  | BusOp.broadcast type address requestingCore =>
    ((Bus.broadcastTransaction st.1 st.2 type address requestingCore).1,
     (Bus.broadcastTransaction st.1 st.2 type address requestingCore).2.1)
  | BusOp.addCycles cycles coreId => (st.1, st.2.addRemainingCycles cycles coreId)
  | BusOp.tick => (st.1, st.2.updateBusState)

/-- The caches and the bus after a finite sequence of bus calls. -/
def busRun (st : List Cache × Bus) (ops : List BusOp) : List Cache × Bus :=
  ops.foldl BusOp.step st

/-- The transaction counters of the bus add up:
`totalTransactions = busRd + busRdX + busUpgr`. -/
def BusStats.Balanced (s : BusStats) : Prop :=
  s.totalTransactions = s.busRdTransactions + s.busRdXTransactions + s.busUpgrTransactions

/-- Two bus statistics records agree on the four transaction counters. -/
def BusStats.sameCounts (s s' : BusStats) : Prop :=
  s'.totalTransactions = s.totalTransactions ∧ s'.busRdTransactions = s.busRdTransactions ∧
    s'.busRdXTransactions = s.busRdXTransactions ∧
    s'.busUpgrTransactions = s.busUpgrTransactions

/-- The bus of a system with `n` caches is consistent about its owner: an idle
bus has owner `-1` and no cycles left, a busy bus is owned by one of the `n`
cores. -/
structure Quiescent (n : Nat) (sys : System) : Prop where
  size : sys.caches.length = n
  idle : sys.bus.isBusy = false →
    sys.bus.currentRequestingCore = -1 ∧ sys.bus.remainingCycles ≤ 0
  owner : sys.bus.isBusy = true →
    ∃ o : Nat, o < n ∧ sys.bus.currentRequestingCore = (o : Int)

/-- An operation of the system, or one cache snooping a transaction directly
through `Cache::processBusTransaction`. -/
inductive SnoopOp where
  | op (o : Op)
  | snoop (core : Nat) (address : Nat) (isWrite : Bool) (requestingCore : Int)
      (data_requested : Bool)
deriving DecidableEq

/-- The effect of one operation or direct snoop; a snoop addressed to a cache
that does not exist does nothing. -/
def System.snoopStep (sys : System) : SnoopOp → System
  | SnoopOp.op o => sys.step o
  | SnoopOp.snoop k a w req dr =>
    match sys.caches[k]? with
    | some c =>
      { sys with caches := sys.caches.set k (c.processBusTransaction sys.bus a w req dr).1
                 bus := (c.processBusTransaction sys.bus a w req dr).2.1 }
    | none => sys

/-- The state after a finite sequence of operations and direct snoops. -/
def System.snoopRun (sys : System) (ops : List SnoopOp) : System :=
  ops.foldl System.snoopStep sys

/-- The way a local access of cache `c` to `address` touches: the matching
way when the probe loop finds one, the victim `findLRULine` picks otherwise. -/
def Cache.touchedWay (c : Cache) (address : Nat) : Nat :=
  match findWay (c.getTag address) (c.setLines (c.getSetIndex address)) with
  | some i => i
  | none => c.findLRULine (c.getSetIndex address)

/-- Every line of `c'` has the LRU stamp it has in `c`. -/
def Cache.sameStamps (c c' : Cache) : Prop :=
  ∀ setIndex way, (c'.line setIndex way).lastAccessTime = (c.line setIndex way).lastAccessTime

/-- Every line of `c'` other than `(setIndex, way)` has the LRU stamp it has
in `c`. -/
def Cache.stampsExcept (c c' : Cache) (setIndex way : Nat) : Prop :=
  ∀ si i, ¬(si = setIndex ∧ i = way) →
    (c'.line si i).lastAccessTime = (c.line si i).lastAccessTime

/-- What an access of cache `k` that touches line `(setIndex, way)` does to
the LRU stamps, `sys` being the state before and `sys'` the state after: the
global cycle stands still, the touched line is stamped with it, which is not
below its old stamp, and no other line of any cache changes its stamp. -/
structure Touched (sys : System) (k : Nat) (c : Cache) (setIndex way : Nat)
    (sys' : System) : Prop where
  cycle : sys'.globalCycle = sys.globalCycle
  stamp : ∃ c', sys'.caches[k]? = some c' ∧
    (c'.line setIndex way).lastAccessTime = sys'.globalCycle ∧
    c.stampsExcept c' setIndex way
  before : (c.line setIndex way).lastAccessTime ≤ sys'.globalCycle
  peers : ∀ (j : Nat) (cj : Cache), j ≠ k → sys.caches[j]? = some cj →
    ∃ cj', sys'.caches[j]? = some cj' ∧ cj.sameStamps cj'

/-- The sum of `stats.missCount` over all caches. -/
def missTotal (caches : List Cache) : Nat :=
  (caches.map (fun c => c.stats.missCount)).sum

/-- The sum of `stats.writebackCount` over all caches. -/
def writebackTotal (caches : List Cache) : Nat :=
  (caches.map (fun c => c.stats.writebackCount)).sum

/-! # Theorems -/


theorem findWay_eq_none_iff (tag : Nat) (ls : List CacheLine) :
    findWay tag ls = none ↔ ∀ l ∈ ls, ¬(l.tag = tag ∧ l.state ≠ CacheState.INVALID) := by
  induction ls with
  | nil => simp [findWay]
  | cons l ls ih =>
    by_cases h : l.tag = tag ∧ l.state ≠ CacheState.INVALID
    · simp [findWay, h]
    · simp only [findWay, h, if_false, Option.map_eq_none', ih, List.mem_cons, forall_eq_or_imp,
        not_false_eq_true, true_and]

theorem findWay_isSome_iff (tag : Nat) (ls : List CacheLine) :
    (∃ i, findWay tag ls = some i) ↔
      ∃ l ∈ ls, l.state ≠ CacheState.INVALID ∧ l.tag = tag := by
  constructor
  · rintro ⟨i, hi⟩
    have : ¬ ∀ l ∈ ls, ¬(l.tag = tag ∧ l.state ≠ CacheState.INVALID) := by
      rw [← findWay_eq_none_iff, hi]; simp
    push_neg at this
    obtain ⟨l, hl, h1, h2⟩ := this
    exact ⟨l, hl, h2, h1⟩
  · rintro ⟨l, hl, h1, h2⟩
    cases h : findWay tag ls with
    | none => exact absurd ⟨h2, h1⟩ ((findWay_eq_none_iff tag ls).mp h l hl)
    | some i => exact ⟨i, rfl⟩

/-! ### The four outcomes of `read` and `write` -/

theorem read_self (sys : System) (k : Nat) (c : Cache) (a : Nat) (coreId : Int)
    (hc : sys.caches[k]? = some c)
    (h : sys.bus.isBusy = true ∧ sys.bus.currentRequestingCore = coreId) :
    Cache.read sys k a coreId = (sys, 2) := by
  simp only [Cache.read, hc]; rw [if_pos h]

theorem read_hit (sys : System) (k : Nat) (c : Cache) (a : Nat) (coreId : Int) (i : Nat)
    (hc : sys.caches[k]? = some c)
    (h : ¬(sys.bus.isBusy = true ∧ sys.bus.currentRequestingCore = coreId))
    (hf : findWay (c.getTag a) (c.setLines (c.getSetIndex a)) = some i) :
    Cache.read sys k a coreId =
      ({ sys with caches := (sys.caches.set k
          (c.countHit.updateLRU sys.globalCycle (c.getSetIndex a) i)) }, 0) := by
  simp only [Cache.read, hc]; rw [if_neg h]; simp only [hf]

theorem read_other (sys : System) (k : Nat) (c : Cache) (a : Nat) (coreId : Int)
    (hc : sys.caches[k]? = some c)
    (h : ¬(sys.bus.isBusy = true ∧ sys.bus.currentRequestingCore = coreId))
    (hf : findWay (c.getTag a) (c.setLines (c.getSetIndex a)) = none)
    (hb : sys.bus.isBusy = true) :
    Cache.read sys k a coreId = (sys, -1) := by
  simp only [Cache.read, hc]; rw [if_neg h]; simp only [hf]
  rw [if_pos ⟨hb, fun e => h ⟨hb, e⟩⟩]

theorem read_miss (sys : System) (k : Nat) (c : Cache) (a : Nat) (coreId : Int)
    (hc : sys.caches[k]? = some c)
    (hf : findWay (c.getTag a) (c.setLines (c.getSetIndex a)) = none)
    (hb : sys.bus.isBusy = false) :
    Cache.read sys k a coreId = (Cache.readMiss sys k c a coreId, 1) := by
  simp only [Cache.read, hc]
  rw [if_neg (by simp [hb])]; simp only [hf]
  rw [if_neg (by simp [hb])]

theorem write_self (sys : System) (k : Nat) (c : Cache) (a : Nat) (coreId : Int)
    (hc : sys.caches[k]? = some c)
    (h : sys.bus.isBusy = true ∧ sys.bus.currentRequestingCore = coreId) :
    Cache.write sys k a coreId = (sys, 2) := by
  simp only [Cache.write, hc]; rw [if_pos h]

theorem write_hit (sys : System) (k : Nat) (c : Cache) (a : Nat) (coreId : Int) (i : Nat)
    (hc : sys.caches[k]? = some c)
    (h : ¬(sys.bus.isBusy = true ∧ sys.bus.currentRequestingCore = coreId))
    (hf : findWay (c.getTag a) (c.setLines (c.getSetIndex a)) = some i) :
    Cache.write sys k a coreId = Cache.writeHit sys k c a coreId i := by
  simp only [Cache.write, hc]; rw [if_neg h]; simp only [hf]

theorem write_other (sys : System) (k : Nat) (c : Cache) (a : Nat) (coreId : Int)
    (hc : sys.caches[k]? = some c)
    (h : ¬(sys.bus.isBusy = true ∧ sys.bus.currentRequestingCore = coreId))
    (hf : findWay (c.getTag a) (c.setLines (c.getSetIndex a)) = none)
    (hb : sys.bus.isBusy = true) :
    Cache.write sys k a coreId = (sys, -1) := by
  simp only [Cache.write, hc]; rw [if_neg h]; simp only [hf]
  rw [if_pos ⟨hb, fun e => h ⟨hb, e⟩⟩]

theorem write_miss (sys : System) (k : Nat) (c : Cache) (a : Nat) (coreId : Int)
    (hc : sys.caches[k]? = some c)
    (hf : findWay (c.getTag a) (c.setLines (c.getSetIndex a)) = none)
    (hb : sys.bus.isBusy = false) :
    Cache.write sys k a coreId = (Cache.writeMiss sys k c a coreId, 1) := by
  simp only [Cache.write, hc]
  rw [if_neg (by simp [hb])]; simp only [hf]
  rw [if_neg (by simp [hb])]

theorem read_none (sys : System) (k : Nat) (a : Nat) (coreId : Int)
    (hc : sys.caches[k]? = none) : Cache.read sys k a coreId = (sys, -1) := by
  simp only [Cache.read, hc]

theorem write_none (sys : System) (k : Nat) (a : Nat) (coreId : Int)
    (hc : sys.caches[k]? = none) : Cache.write sys k a coreId = (sys, -1) := by
  simp only [Cache.write, hc]

theorem writeHit_modified (sys : System) (k : Nat) (c : Cache) (a : Nat) (coreId : Int)
    (i : Nat) (h : (c.line (c.getSetIndex a) i).state = CacheState.MODIFIED) :
    Cache.writeHit sys k c a coreId i =
      ({ sys with caches := (sys.caches.set k
         (c.countHit.modifyLine (c.getSetIndex a) i (fun l =>
            { l with lastAccessTime := sys.globalCycle, dirty := true }))) }, 0) := by
  simp only [Cache.writeHit]
  rw [if_neg (by simp [h])]

theorem writeHit_busy (sys : System) (k : Nat) (c : Cache) (a : Nat) (coreId : Int)
    (i : Nat) (h : (c.line (c.getSetIndex a) i).state ≠ CacheState.MODIFIED)
    (hb : sys.bus.isBusy = true) :
    Cache.writeHit sys k c a coreId i = (sys, -1) := by
  simp only [Cache.writeHit]
  rw [if_pos h, if_pos hb]

theorem writeHit_snd (sys : System) (k : Nat) (c : Cache) (a : Nat) (coreId : Int) (i : Nat) :
    (Cache.writeHit sys k c a coreId i).2 = 0 ∨
      ((Cache.writeHit sys k c a coreId i) = (sys, -1) ∧ sys.bus.isBusy = true ∧
        (c.line (c.getSetIndex a) i).state ≠ CacheState.MODIFIED) := by
  by_cases h1 : (c.line (c.getSetIndex a) i).state ≠ CacheState.MODIFIED
  · by_cases h2 : sys.bus.isBusy = true
    · right; exact ⟨writeHit_busy sys k c a coreId i h1 h2, h2, h1⟩
    · left; simp only [Cache.writeHit]; rw [if_pos h1, if_neg h2]
  · left; rw [writeHit_modified sys k c a coreId i (by simpa using h1)]

/-- C7. The result code of `read` called by cache `k` with `coreId = k`: it is
`2` exactly when the bus is busy and owned by `k`; otherwise `0` exactly when
some line of the address's set is valid and carries the address's tag,
whether or not the bus is busy with another core; otherwise `-1` exactly when
the bus is busy; otherwise `1`.  No other value is returned. -/
theorem read_result_code (sys : System) (k : Nat) (c : Cache) (a : Nat)
    (hc : sys.caches[k]? = some c) :
    ((Cache.read sys k a (k : Int)).2 = 2 ↔
        (sys.bus.isBusy = true ∧ sys.bus.currentRequestingCore = (k : Int))) ∧
    ((Cache.read sys k a (k : Int)).2 = 0 ↔
        (¬(sys.bus.isBusy = true ∧ sys.bus.currentRequestingCore = (k : Int)) ∧
          ∃ l ∈ c.setLines (c.getSetIndex a),
            l.state ≠ CacheState.INVALID ∧ l.tag = c.getTag a)) ∧
    ((Cache.read sys k a (k : Int)).2 = -1 ↔
        (¬(sys.bus.isBusy = true ∧ sys.bus.currentRequestingCore = (k : Int)) ∧
          (¬∃ l ∈ c.setLines (c.getSetIndex a),
            l.state ≠ CacheState.INVALID ∧ l.tag = c.getTag a) ∧
          sys.bus.isBusy = true)) ∧
    ((Cache.read sys k a (k : Int)).2 = 1 ↔
        (¬(sys.bus.isBusy = true ∧ sys.bus.currentRequestingCore = (k : Int)) ∧
          (¬∃ l ∈ c.setLines (c.getSetIndex a),
            l.state ≠ CacheState.INVALID ∧ l.tag = c.getTag a) ∧
          sys.bus.isBusy = false)) ∧
    ((Cache.read sys k a (k : Int)).2 = 0 ∨ (Cache.read sys k a (k : Int)).2 = 1 ∨
      (Cache.read sys k a (k : Int)).2 = -1 ∨ (Cache.read sys k a (k : Int)).2 = 2) := by
  have hw := findWay_isSome_iff (c.getTag a) (c.setLines (c.getSetIndex a))
  by_cases hself : sys.bus.isBusy = true ∧ sys.bus.currentRequestingCore = (k : Int)
  · rw [read_self sys k c a _ hc hself]; simp [hself]
  · cases hf : findWay (c.getTag a) (c.setLines (c.getSetIndex a)) with
    | some i =>
      have hhit := hw.mp ⟨i, hf⟩
      rw [read_hit sys k c a _ i hc hself hf]
      simp [hself, hhit]
    | none =>
      have hmiss : ¬∃ l ∈ c.setLines (c.getSetIndex a),
          l.state ≠ CacheState.INVALID ∧ l.tag = c.getTag a := by
        rw [← hw]; simp [hf]
      by_cases hb : sys.bus.isBusy = true
      · have ho : ¬sys.bus.currentRequestingCore = (k : Int) := fun e => hself ⟨hb, e⟩
        rw [read_other sys k c a _ hc hself hf hb]
        simp only [hmiss, hb]
        simp [ho]
      · have hb' : sys.bus.isBusy = false := by simpa using hb
        rw [read_miss sys k c a _ hc hf hb']
        simp only [hmiss, hb']
        simp

theorem read_result_code_witness :
    (Cache.read (System.init 2 1 2 2) 0 0 ((0 : Nat) : Int)).2 = 1 ↔
        (¬((System.init 2 1 2 2).bus.isBusy = true ∧
            (System.init 2 1 2 2).bus.currentRequestingCore = ((0 : Nat) : Int)) ∧
          (¬∃ l ∈ (Cache.mk0 1 2 2 0).setLines ((Cache.mk0 1 2 2 0).getSetIndex 0),
            l.state ≠ CacheState.INVALID ∧ l.tag = (Cache.mk0 1 2 2 0).getTag 0) ∧
          (System.init 2 1 2 2).bus.isBusy = false) :=
  (read_result_code (System.init 2 1 2 2) 0 (Cache.mk0 1 2 2 0) 0 (by decide)).2.2.2.1

/-- C8. Stalls change nothing: whenever `read` or `write` returns `-1` or `2`
the whole system state after the call (every line and every counter of every
cache, the bus flags, its remaining cycles, owner and statistics) is the state
before it.  In particular a write that hits a line that is not `MODIFIED`
while the bus is busy stalls: it charges no hit and issues no `BusUpgr`. -/
theorem stall_changes_nothing (sys : System) (k : Nat) (a : Nat) (coreId : Int) :
    (((Cache.read sys k a coreId).2 = -1 ∨ (Cache.read sys k a coreId).2 = 2) →
      (Cache.read sys k a coreId).1 = sys) ∧
    (((Cache.write sys k a coreId).2 = -1 ∨ (Cache.write sys k a coreId).2 = 2) →
      (Cache.write sys k a coreId).1 = sys) ∧
    (∀ c i, sys.caches[k]? = some c →
      findWay (c.getTag a) (c.setLines (c.getSetIndex a)) = some i →
      (c.line (c.getSetIndex a) i).state ≠ CacheState.MODIFIED →
      sys.bus.isBusy = true →
      ((Cache.write sys k a coreId).2 = -1 ∨ (Cache.write sys k a coreId).2 = 2) ∧
        (Cache.write sys k a coreId).1 = sys) := by
  refine ⟨?_, ?_, ?_⟩
  · cases hc : sys.caches[k]? with
    | none => rw [read_none sys k a coreId hc]; simp
    | some c =>
      by_cases hself : sys.bus.isBusy = true ∧ sys.bus.currentRequestingCore = coreId
      · rw [read_self sys k c a _ hc hself]; simp
      · cases hf : findWay (c.getTag a) (c.setLines (c.getSetIndex a)) with
        | some i => rw [read_hit sys k c a _ i hc hself hf]; simp
        | none =>
          by_cases hb : sys.bus.isBusy = true
          · rw [read_other sys k c a _ hc hself hf hb]; simp
          · rw [read_miss sys k c a _ hc hf (by simpa using hb)]; simp
  · cases hc : sys.caches[k]? with
    | none => rw [write_none sys k a coreId hc]; simp
    | some c =>
      by_cases hself : sys.bus.isBusy = true ∧ sys.bus.currentRequestingCore = coreId
      · rw [write_self sys k c a _ hc hself]; simp
      · cases hf : findWay (c.getTag a) (c.setLines (c.getSetIndex a)) with
        | some i =>
          rw [write_hit sys k c a _ i hc hself hf]
          rcases writeHit_snd sys k c a coreId i with h | ⟨h, _, _⟩
          · rw [h]; simp
          · rw [h]; simp
        | none =>
          by_cases hb : sys.bus.isBusy = true
          · rw [write_other sys k c a _ hc hself hf hb]; simp
          · rw [write_miss sys k c a _ hc hf (by simpa using hb)]; simp
  · intro c i hc hf hst hb
    by_cases hself : sys.bus.isBusy = true ∧ sys.bus.currentRequestingCore = coreId
    · rw [write_self sys k c a _ hc hself]; simp
    · rw [write_hit sys k c a _ i hc hself hf, writeHit_busy sys k c a coreId i hst hb]
      simp


/-! ### Lines of a modified cache -/

theorem setLines_modifyLine (c : Cache) (si li : Nat) (f : CacheLine → CacheLine) (si' : Nat) :
    (c.modifyLine si li f).setLines si' =
      if si' = si then (c.setLines si).set li (f (c.line si li)) else c.setLines si' := by
  unfold Cache.modifyLine Cache.setLines
  simp only [List.getD_eq_getElem?_getD, List.getElem?_set]
  by_cases h : si = si'
  · subst h
    by_cases h2 : si < c.sets.length
    · simp [h2]
    · have : c.sets[si]? = none := List.getElem?_eq_none (by omega)
      simp [h2, this]
  · have h' : ¬ si' = si := fun e => h e.symm
    simp [h, h']

theorem line_modifyLine_state (c : Cache) (si li : Nat) (f : CacheLine → CacheLine)
    (hf : ∀ l, (f l).state = l.state) (si' li' : Nat) :
    ((c.modifyLine si li f).line si' li').state = (c.line si' li').state := by
  unfold Cache.line
  rw [setLines_modifyLine]
  by_cases h : si' = si
  · subst h
    simp only [if_true, List.getD_eq_getElem?_getD, List.getElem?_set]
    by_cases h2 : li = li'
    · subst h2
      by_cases h3 : li < (c.setLines si').length
      · simp only [h3, if_true, Option.getD_some, hf]
        unfold Cache.line
        simp [List.getD_eq_getElem?_getD]
      · simp [h3, List.getElem?_eq_none (not_lt.mp h3)]
    · simp [h2]
  · simp [h]

theorem modifyLine_modifyLine (c : Cache) (si li : Nat) (f g : CacheLine → CacheLine) :
    (c.modifyLine si li f).modifyLine si li g = c.modifyLine si li (fun l => g (f l)) := by
  have hl : (c.modifyLine si li f).setLines si = (c.setLines si).set li (f (c.line si li)) := by
    rw [setLines_modifyLine]; simp
  have hline : (c.setLines si).set li (g ((c.modifyLine si li f).line si li)) =
      (c.setLines si).set li (g (f (c.line si li))) := by
    by_cases h : li < (c.setLines si).length
    · have : (c.modifyLine si li f).line si li = f (c.line si li) := by
        have e1 : (c.modifyLine si li f).line si li =
            ((c.modifyLine si li f).setLines si).getD li CacheLine.init := rfl
        rw [e1, hl]
        simp [List.getD_eq_getElem?_getD, List.getElem?_set, h]
      rw [this]
    · rw [List.set_eq_of_length_le (not_lt.mp h), List.set_eq_of_length_le (not_lt.mp h)]
  show ({ c.modifyLine si li f with sets := _ } : Cache) = { c with sets := _ }
  rw [hl, List.set_set, hline]
  simp [Cache.modifyLine, List.set_set]

/-! ### Membership after replacing one line -/

theorem mem_set_lines {ls : List CacheLine} {i : Nat} {x l : CacheLine}
    (h : l ∈ ls.set i x) : l ∈ ls ∨ (l = x ∧ i < ls.length) := by
  rw [List.mem_iff_getElem?] at h
  obtain ⟨n, hn⟩ := h
  rw [List.getElem?_set] at hn
  by_cases e : i = n
  · subst e
    by_cases hl : i < ls.length
    · simp [hl] at hn; exact Or.inr ⟨hn.symm, hl⟩
    · simp [hl] at hn
  · simp [e] at hn
    exact Or.inl (List.mem_iff_getElem?.mpr ⟨n, hn⟩)

theorem holds_modifyLine {c : Cache} {si li : Nat} {f : CacheLine → CacheLine} {si' t : Nat}
    (h : (c.modifyLine si li f).holds si' t) :
    c.holds si' t ∨ (si' = si ∧ (f (c.line si li)).tag = t ∧
      (f (c.line si li)).state ≠ CacheState.INVALID ∧ li < (c.setLines si).length) := by
  obtain ⟨l, hl, ht, hs⟩ := h
  rw [setLines_modifyLine] at hl
  by_cases e : si' = si
  · rw [if_pos e] at hl
    rcases mem_set_lines hl with h1 | ⟨h1, h2⟩
    · exact Or.inl ⟨l, e ▸ h1, ht, hs⟩
    · subst h1; exact Or.inr ⟨e, ht, hs, h2⟩
  · rw [if_neg e] at hl
    exact Or.inl ⟨l, hl, ht, hs⟩

theorem holdsOwned_modifyLine {c : Cache} {si li : Nat} {f : CacheLine → CacheLine}
    {si' t : Nat} (h : (c.modifyLine si li f).holdsOwned si' t) :
    c.holdsOwned si' t ∨ (si' = si ∧ (f (c.line si li)).tag = t ∧
      ((f (c.line si li)).state = CacheState.MODIFIED ∨
        (f (c.line si li)).state = CacheState.EXCLUSIVE) ∧ li < (c.setLines si).length) := by
  obtain ⟨l, hl, ht, hs⟩ := h
  rw [setLines_modifyLine] at hl
  by_cases e : si' = si
  · rw [if_pos e] at hl
    rcases mem_set_lines hl with h1 | ⟨h1, h2⟩
    · exact Or.inl ⟨l, e ▸ h1, ht, hs⟩
    · subst h1; exact Or.inr ⟨e, ht, hs, h2⟩
  · rw [if_neg e] at hl
    exact Or.inl ⟨l, hl, ht, hs⟩

theorem holdsOwned_holds {c : Cache} {si t : Nat} (h : c.holdsOwned si t) : c.holds si t := by
  obtain ⟨l, hl, ht, hs⟩ := h
  exact ⟨l, hl, ht, by rcases hs with hs | hs <;> simp [hs]⟩

theorem holdsModified_holdsOwned {c : Cache} {si t : Nat} (h : c.holdsModified si t) :
    c.holdsOwned si t := by
  obtain ⟨l, hl, ht, hs⟩ := h
  exact ⟨l, hl, ht, Or.inl hs⟩

/-! ### The probe -/

theorem findWay_some_spec {tag : Nat} {ls : List CacheLine} {i : Nat}
    (h : findWay tag ls = some i) :
    ∃ l, ls[i]? = some l ∧ l.tag = tag ∧ l.state ≠ CacheState.INVALID ∧
      ∀ j l', j < i → ls[j]? = some l' → ¬(l'.tag = tag ∧ l'.state ≠ CacheState.INVALID) := by
  induction ls generalizing i with
  | nil => simp [findWay] at h
  | cons x xs ih =>
    by_cases hx : x.tag = tag ∧ x.state ≠ CacheState.INVALID
    · simp only [findWay, hx, ne_eq, not_false_eq_true, and_self, if_true,
        Option.some.injEq] at h
      subst h
      exact ⟨x, by simp, hx.1, hx.2, by intro j l' hj; omega⟩
    · simp only [findWay, hx, if_false, Option.map_eq_some'] at h
      obtain ⟨i', hi', rfl⟩ := h
      obtain ⟨l, h1, h2, h3, h4⟩ := ih hi'
      refine ⟨l, by simpa using h1, h2, h3, ?_⟩
      intro j l' hj hl'
      cases j with
      | zero => simp at hl'; subst hl'; exact hx
      | succ j => exact h4 j l' (by omega) (by simpa using hl')

theorem findWay_some_line {c : Cache} {si tag i : Nat}
    (h : findWay tag (c.setLines si) = some i) :
    (c.setLines si)[i]? = some (c.line si i) ∧ (c.line si i).tag = tag ∧
      (c.line si i).state ≠ CacheState.INVALID ∧ i < (c.setLines si).length := by
  obtain ⟨l, h1, h2, h3, _⟩ := findWay_some_spec h
  have hl : c.line si i = l := by
    unfold Cache.line; simp [List.getD_eq_getElem?_getD, h1]
  have hlen : i < (c.setLines si).length := by
    rcases List.getElem?_eq_some.mp h1 with ⟨hh, _⟩; exact hh
  rw [hl]; exact ⟨h1, h2, h3, hlen⟩

theorem holds_iff_findWay (c : Cache) (si tag : Nat) :
    c.holds si tag ↔ ∃ i, findWay tag (c.setLines si) = some i := by
  rw [findWay_isSome_iff]
  constructor
  · rintro ⟨l, hl, h1, h2⟩; exact ⟨l, hl, h2, h1⟩
  · rintro ⟨l, hl, h1, h2⟩; exact ⟨l, hl, h2, h1⟩

theorem not_holds_of_findWay_none {c : Cache} {si tag : Nat}
    (h : findWay tag (c.setLines si) = none) : ¬c.holds si tag := by
  rw [holds_iff_findWay, h]; simp


/-! ### Static fields and line sets under the elementary updates -/

theorem sameLines_refl (c : Cache) : c.sameLines c := ⟨rfl, rfl, rfl, rfl, rfl, rfl, rfl⟩

theorem sameLines_trans {a b c : Cache} (h1 : a.sameLines b) (h2 : b.sameLines c) :
    a.sameLines c := by
  obtain ⟨a1, a2, a3, a4, a5, a6, a7⟩ := h1
  obtain ⟨b1, b2, b3, b4, b5, b6, b7⟩ := h2
  exact ⟨b1.trans a1, b2.trans a2, b3.trans a3, b4.trans a4, b5.trans a5, b6.trans a6,
    b7.trans a7⟩

theorem sameLines_symm {a b : Cache} (h : a.sameLines b) : b.sameLines a := by
  obtain ⟨a1, a2, a3, a4, a5, a6, a7⟩ := h
  exact ⟨a1.symm, a2.symm, a3.symm, a4.symm, a5.symm, a6.symm, a7.symm⟩

theorem sameLines_stats (c : Cache) (st : CacheStats) :
    c.sameLines { c with stats := st } := ⟨rfl, rfl, rfl, rfl, rfl, rfl, rfl⟩

theorem sameLines_setLines {c c' : Cache} (h : c.sameLines c') (si : Nat) :
    c'.setLines si = c.setLines si := by
  unfold Cache.setLines; rw [h.1]

theorem sameLines_line {c c' : Cache} (h : c.sameLines c') (si li : Nat) :
    c'.line si li = c.line si li := by
  unfold Cache.line; rw [sameLines_setLines h]

theorem sameLines_getSetIndex {c c' : Cache} (h : c.sameLines c') (a : Nat) :
    c'.getSetIndex a = c.getSetIndex a := by
  unfold Cache.getSetIndex; rw [h.2.2.1, h.2.2.2.1]

theorem sameLines_getTag {c c' : Cache} (h : c.sameLines c') (a : Nat) :
    c'.getTag a = c.getTag a := by
  unfold Cache.getTag; rw [h.2.2.1, h.2.2.2.1]

theorem sameLines_holds {c c' : Cache} (h : c.sameLines c') (si t : Nat) :
    c'.holds si t ↔ c.holds si t := by
  unfold Cache.holds; rw [sameLines_setLines h]

theorem sameLines_holdsOwned {c c' : Cache} (h : c.sameLines c') (si t : Nat) :
    c'.holdsOwned si t ↔ c.holdsOwned si t := by
  unfold Cache.holdsOwned; rw [sameLines_setLines h]

theorem sameLines_modifyLine {c c' : Cache} (h : c.sameLines c') (si li : Nat)
    (f g : CacheLine → CacheLine) (hfg : f (c.line si li) = g (c.line si li)) :
    (c.modifyLine si li f).sameLines (c'.modifyLine si li g) := by
  have h1 := sameLines_setLines h si
  have h2 := sameLines_line h si li
  obtain ⟨a1, a2, a3, a4, a5, a6, a7⟩ := h
  refine ⟨?_, a2, a3, a4, a5, a6, a7⟩
  show c'.sets.set si ((c'.setLines si).set li (g (c'.line si li))) =
    c.sets.set si ((c.setLines si).set li (f (c.line si li)))
  rw [a1, h1, h2, hfg]

theorem snoopLine_tag (w : Bool) (l : CacheLine) : (snoopLine w l).tag = l.tag := by
  unfold snoopLine; split
  · rfl
  · split <;> rfl

theorem snoopLine_time (w : Bool) (l : CacheLine) :
    (snoopLine w l).lastAccessTime = l.lastAccessTime := by
  unfold snoopLine; split
  · rfl
  · split <;> rfl

theorem snoopLine_write_state (l : CacheLine) :
    (snoopLine true l).state = CacheState.INVALID := by
  simp [snoopLine]

theorem snoopLine_not_owned (w : Bool) (l : CacheLine) :
    ¬((snoopLine w l).state = CacheState.MODIFIED ∨
      (snoopLine w l).state = CacheState.EXCLUSIVE) := by
  unfold snoopLine
  cases w
  · by_cases h : l.state = CacheState.EXCLUSIVE ∨ l.state = CacheState.MODIFIED
    · simp [h]
    · simp only [Bool.false_eq_true, if_false, h]
      rintro (h1 | h1)
      · exact h (Or.inr h1)
      · exact h (Or.inl h1)
  · simp

theorem snoopLine_read_valid (l : CacheLine) (h : l.state ≠ CacheState.INVALID) :
    (snoopLine false l).state = CacheState.SHARED := by
  unfold snoopLine
  by_cases h1 : l.state = CacheState.EXCLUSIVE ∨ l.state = CacheState.MODIFIED
  · simp [h1]
  · simp only [Bool.false_eq_true, if_false, h1]
    cases hs : l.state <;> simp_all

/-! ### Tags stay distinct -/

theorem NoDupTags.set {ls : List CacheLine} (h : NoDupTags ls) (i : Nat) (x : CacheLine)
    (hx : x.state ≠ CacheState.INVALID → ∀ j lj, j ≠ i → ls[j]? = some lj →
      lj.state ≠ CacheState.INVALID → lj.tag ≠ x.tag) :
    NoDupTags (ls.set i x) := by
  intro p q lp lq hp hq vp vq htag
  rw [List.getElem?_set] at hp hq
  by_cases ep : i = p
  · by_cases eq : i = q
    · omega
    · subst ep
      simp only [eq, if_false] at hq
      by_cases hl : i < ls.length
      · simp only [if_true, hl, Option.some.injEq] at hp
        subst hp
        exact absurd htag.symm (hx vp q lq (fun e => eq e.symm) hq vq)
      · simp [hl] at hp
  · simp only [ep, if_false] at hp
    by_cases eq : i = q
    · subst eq
      by_cases hl : i < ls.length
      · simp only [if_true, hl, Option.some.injEq] at hq
        subst hq
        exact absurd htag (hx vq p lp (fun e => ep e.symm) hp vp)
      · simp [hl] at hq
    · simp only [eq, if_false] at hq
      exact h p q lp lq hp hq vp vq htag

theorem NoDupTags.set_same_tag {ls : List CacheLine} (h : NoDupTags ls) (i : Nat)
    (l x : CacheLine) (hl : ls[i]? = some l) (hv : l.state ≠ CacheState.INVALID)
    (ht : x.tag = l.tag) : NoDupTags (ls.set i x) := by
  apply h.set
  intro _ j lj hj hlj vj e
  exact hj (h j i lj l hlj hl vj hv (e.trans ht))

theorem NoDupTags.set_fresh {ls : List CacheLine} (h : NoDupTags ls) (i : Nat)
    (x : CacheLine) (hf : findWay x.tag ls = none) : NoDupTags (ls.set i x) := by
  apply h.set
  intro _ j lj _ hlj vj e
  exact (findWay_eq_none_iff _ _).mp hf lj (List.mem_iff_getElem?.mpr ⟨j, hlj⟩) ⟨e, vj⟩

/-! ### Effect of a snoop on what a cache holds -/

theorem snooped_sameFields (c : Cache) (a : Nat) (w : Bool) :
    (c.snooped a w).cacheId = c.cacheId ∧ (c.snooped a w).setIndexBits = c.setIndexBits ∧
    (c.snooped a w).blockBits = c.blockBits ∧ (c.snooped a w).blockSize = c.blockSize ∧
    (c.snooped a w).numSets = c.numSets ∧ (c.snooped a w).associativity = c.associativity ∧
    (c.snooped a w).stats = c.stats := by
  unfold Cache.snooped
  split <;> simp [Cache.modifyLine]

theorem snooped_holds {c : Cache} {a : Nat} {w : Bool} {si t : Nat}
    (h : (c.snooped a w).holds si t) : c.holds si t := by
  unfold Cache.snooped at h
  split at h
  · exact h
  · rename_i i hi
    obtain ⟨h1, h2, h3, h4⟩ := findWay_some_line hi
    rcases holds_modifyLine h with h | ⟨e, ht, _, _⟩
    · exact h
    · rw [snoopLine_tag] at ht
      subst e
      exact ⟨_, List.mem_iff_getElem?.mpr ⟨i, h1⟩, ht, h3⟩

theorem snooped_holdsOwned {c : Cache} {a : Nat} {w : Bool} {si t : Nat}
    (h : (c.snooped a w).holdsOwned si t) : c.holdsOwned si t := by
  unfold Cache.snooped at h
  split at h
  · exact h
  · rcases holdsOwned_modifyLine h with h | ⟨_, _, hs, _⟩
    · exact h
    · exact absurd hs (snoopLine_not_owned _ _)

theorem snooped_nodup {c : Cache} (a : Nat) (w : Bool) (si : Nat)
    (h : NoDupTags (c.setLines si)) : NoDupTags ((c.snooped a w).setLines si) := by
  unfold Cache.snooped
  split
  · exact h
  · rename_i i hi
    obtain ⟨h1, h2, h3, h4⟩ := findWay_some_line hi
    rw [setLines_modifyLine]
    by_cases e : si = c.getSetIndex a
    · rw [if_pos e]
      subst e
      exact h.set_same_tag i _ _ h1 h3 (snoopLine_tag _ _)
    · rw [if_neg e]; exact h

theorem snooped_not_owned {c : Cache} (a : Nat) (w : Bool)
    (h : NoDupTags (c.setLines (c.getSetIndex a))) :
    ¬(c.snooped a w).holdsOwned (c.getSetIndex a) (c.getTag a) := by
  unfold Cache.snooped
  split
  · rename_i hn
    exact fun ho => not_holds_of_findWay_none hn (holdsOwned_holds ho)
  · rename_i i hi
    obtain ⟨h1, h2, h3, h4⟩ := findWay_some_line hi
    rintro ⟨l, hl, ht, hs⟩
    rw [setLines_modifyLine, if_pos rfl] at hl
    obtain ⟨n, hn⟩ := List.mem_iff_getElem?.mp hl
    rw [List.getElem?_set] at hn
    by_cases e : i = n
    · subst e
      simp only [if_true, h4, Option.some.injEq] at hn
      subst hn
      exact snoopLine_not_owned _ _ hs
    · simp only [e, if_false] at hn
      have hv : l.state ≠ CacheState.INVALID := by rcases hs with hs | hs <;> simp [hs]
      exact e (h i n _ l h1 hn h3 hv (h2.trans ht.symm))

theorem snooped_write_not_holds {c : Cache} (a : Nat)
    (h : NoDupTags (c.setLines (c.getSetIndex a))) :
    ¬(c.snooped a true).holds (c.getSetIndex a) (c.getTag a) := by
  unfold Cache.snooped
  split
  · rename_i hn
    exact not_holds_of_findWay_none hn
  · rename_i i hi
    obtain ⟨h1, h2, h3, h4⟩ := findWay_some_line hi
    rintro ⟨l, hl, ht, hs⟩
    rw [setLines_modifyLine, if_pos rfl] at hl
    obtain ⟨n, hn⟩ := List.mem_iff_getElem?.mp hl
    rw [List.getElem?_set] at hn
    by_cases e : i = n
    · subst e
      simp only [if_true, h4, Option.some.injEq] at hn
      subst hn
      exact hs (snoopLine_write_state _)
    · simp only [e, if_false] at hn
      exact e (h i n _ l h1 hn h3 hs (h2.trans ht.symm))


/-! ### Normal form of a snoop -/

theorem writeBack_sameLines (c : Cache) (bus : Bus) (si li : Nat) :
    (c.modifyLine si li (fun l => { l with dirty := false })).sameLines
      (c.writeBackToMemory bus si li).1 := by
  unfold Cache.writeBackToMemory
  exact sameLines_modifyLine (sameLines_stats c _) si li _ _ rfl

theorem pbt_sameLines (c : Cache) (bus : Bus) (a : Nat) (w : Bool) (req : Int) (dr : Bool)
    (h : req ≠ c.cacheId) :
    (c.snooped a w).sameLines (c.processBusTransaction bus a w req dr).1 := by
  unfold Cache.processBusTransaction Cache.snooped
  rw [if_neg h]
  cases hf : findWay (c.getTag a) (c.setLines (c.getSetIndex a)) with
  | none => exact sameLines_refl c
  | some i =>
    simp only []
    cases w with
    | true =>
      simp only [if_true, Cache.snoopWrite]
      by_cases hm : (c.line (c.getSetIndex a) i).state = CacheState.MODIFIED
      · rw [if_pos hm]
        have h1 := sameLines_modifyLine (writeBack_sameLines c bus (c.getSetIndex a) i)
          (c.getSetIndex a) i
          (fun l => { l with state := CacheState.INVALID })
          (fun l => { l with state := CacheState.INVALID }) rfl
        rw [modifyLine_modifyLine] at h1
        refine sameLines_trans ?_ h1
        apply sameLines_modifyLine (sameLines_refl c)
        simp [snoopLine, hm]
      · rw [if_neg hm]
        apply sameLines_modifyLine (sameLines_refl c)
        simp [snoopLine, hm]
    | false =>
      simp only [Bool.false_eq_true, if_false, Cache.snoopRead]
      have key : (c.modifyLine (c.getSetIndex a) i (snoopLine false)).sameLines
          (if (c.line (c.getSetIndex a) i).state = CacheState.EXCLUSIVE ∨
              (c.line (c.getSetIndex a) i).state = CacheState.MODIFIED then
            ((if (c.line (c.getSetIndex a) i).state = CacheState.MODIFIED then
                c.writeBackToMemory bus (c.getSetIndex a) i else (c, bus)).1.modifyLine
                (c.getSetIndex a) i (fun l => { l with state := CacheState.SHARED }),
              (if (c.line (c.getSetIndex a) i).state = CacheState.MODIFIED then
                c.writeBackToMemory bus (c.getSetIndex a) i else (c, bus)).2)
          else (c, bus)).1 := by
        by_cases hem : (c.line (c.getSetIndex a) i).state = CacheState.EXCLUSIVE ∨
            (c.line (c.getSetIndex a) i).state = CacheState.MODIFIED
        · rw [if_pos hem]
          by_cases hm : (c.line (c.getSetIndex a) i).state = CacheState.MODIFIED
          · rw [if_pos hm]
            have h1 := sameLines_modifyLine (writeBack_sameLines c bus (c.getSetIndex a) i)
              (c.getSetIndex a) i
              (fun l => { l with state := CacheState.SHARED })
              (fun l => { l with state := CacheState.SHARED }) rfl
            rw [modifyLine_modifyLine] at h1
            refine sameLines_trans ?_ h1
            apply sameLines_modifyLine (sameLines_refl c)
            simp [snoopLine, hm]
          · rw [if_neg hm]
            apply sameLines_modifyLine (sameLines_refl c)
            have he := hem.resolve_right hm
            simp [snoopLine, he]
        · rw [if_neg hem]
          obtain ⟨h1, h2, h3, h4⟩ := findWay_some_line hf
          refine ⟨?_, rfl, rfl, rfl, rfl, rfl, rfl⟩
          show c.sets = c.sets.set (c.getSetIndex a)
            ((c.setLines (c.getSetIndex a)).set i (snoopLine false (c.line (c.getSetIndex a) i)))
          have e1 : snoopLine false (c.line (c.getSetIndex a) i) = c.line (c.getSetIndex a) i := by
            simp [snoopLine, hem]
          rw [e1]
          have e2 : (c.setLines (c.getSetIndex a)).set i (c.line (c.getSetIndex a) i) =
              c.setLines (c.getSetIndex a) := by
            apply List.ext_getElem?
            intro n
            rw [List.getElem?_set]
            by_cases e : i = n
            · subst e; simp [h4, h1]
            · simp [e]
          rw [e2]
          apply List.ext_getElem?
          intro n
          rw [List.getElem?_set]
          by_cases e : c.getSetIndex a = n
          · subst e
            by_cases hl : c.getSetIndex a < c.sets.length
            · simp [hl, Cache.setLines, List.getD_eq_getElem?_getD]
            · simp [hl, List.getElem?_eq_none (not_lt.mp hl)]
          · simp [e]
      by_cases hdr : dr = true
      · rw [if_pos hdr]
        exact sameLines_trans key (sameLines_stats _ _)
      · rw [if_neg hdr]
        exact key

theorem pbt_flag (c : Cache) (bus : Bus) (a : Nat) (w : Bool) (req : Int) (dr : Bool) :
    (c.processBusTransaction bus a w req dr).2.2 = true ↔
      (req ≠ c.cacheId ∧ c.holds (c.getSetIndex a) (c.getTag a)) := by
  unfold Cache.processBusTransaction
  by_cases h : req = c.cacheId
  · simp [h]
  · rw [if_neg h, holds_iff_findWay]
    cases hf : findWay (c.getTag a) (c.setLines (c.getSetIndex a)) with
    | none => simp
    | some i => cases w <;> simp [h]

theorem pbt_self (c : Cache) (bus : Bus) (a : Nat) (w : Bool) (req : Int) (dr : Bool)
    (h : req = c.cacheId) : c.processBusTransaction bus a w req dr = (c, bus, false) := by
  unfold Cache.processBusTransaction; rw [if_pos h]

/-! ### The notification loop -/

theorem snoopLoop_length (a : Nat) (w : Bool) (req : Int) (cs : List Cache) :
    ∀ (i0 : Nat) (bus : Bus) (dfo dr : Bool),
      (snoopLoop a w req i0 cs bus dfo dr).1.length = cs.length := by
  induction cs with
  | nil => intros; rfl
  | cons c cs ih =>
    intro i0 bus dfo dr
    unfold snoopLoop
    by_cases h : (i0 : Int) ≠ req
    · rw [if_pos h]; simp [ih]
    · rw [if_neg h]; simp [ih]

theorem snoopLoop_getElem? (a : Nat) (w : Bool) (req : Int) (cs : List Cache) :
    ∀ (i0 : Nat) (bus : Bus) (dfo dr : Bool) (j : Nat) (c : Cache), cs[j]? = some c →
      ∃ c', (snoopLoop a w req i0 cs bus dfo dr).1[j]? = some c' ∧
        (((i0 + j : Nat) : Int) = req → c' = c) ∧
        (((i0 + j : Nat) : Int) ≠ req →
          ∃ bus' dr', c' = (c.processBusTransaction bus' a w req dr').1) := by
  induction cs with
  | nil => intro i0 bus dfo dr j c h; simp at h
  | cons x xs ih =>
    intro i0 bus dfo dr j c hj
    unfold snoopLoop
    by_cases h : (i0 : Int) ≠ req
    · rw [if_pos h]
      cases j with
      | zero =>
        simp only [List.getElem?_cons_zero, Option.some.injEq] at hj
        subst hj
        refine ⟨_, List.getElem?_cons_zero, ?_, ?_⟩
        · intro e; exact absurd e (by simpa using h)
        · intro _; exact ⟨_, _, rfl⟩
      | succ j =>
        simp only [List.getElem?_cons_succ] at hj
        obtain ⟨c', h1, h2, h3⟩ := ih (i0 + 1) _ _ _ j c hj
        refine ⟨c', by simpa using h1, ?_, ?_⟩
        · intro e; apply h2; rw [← e]; congr 1; omega
        · intro e; apply h3; intro e'; apply e; rw [← e']; congr 1; omega
    · rw [if_neg h]
      cases j with
      | zero =>
        simp only [List.getElem?_cons_zero, Option.some.injEq] at hj
        subst hj
        refine ⟨_, List.getElem?_cons_zero, ?_, ?_⟩
        · intro _; rfl
        · intro e; exact absurd (by simpa using h) e
      | succ j =>
        simp only [List.getElem?_cons_succ] at hj
        obtain ⟨c', h1, h2, h3⟩ := ih (i0 + 1) _ _ _ j c hj
        refine ⟨c', by simpa using h1, ?_, ?_⟩
        · intro e; apply h2; rw [← e]; congr 1; omega
        · intro e; apply h3; intro e'; apply e; rw [← e']; congr 1; omega

theorem snoopLoop_flag (a : Nat) (w : Bool) (req : Int) (cs : List Cache) :
    ∀ (i0 : Nat) (bus : Bus) (dfo dr : Bool),
      ((snoopLoop a w req i0 cs bus dfo dr).2.2 = true ↔
        (dfo = true ∨ ∃ j c, cs[j]? = some c ∧ ((i0 + j : Nat) : Int) ≠ req ∧
          req ≠ c.cacheId ∧ c.holds (c.getSetIndex a) (c.getTag a))) := by
  induction cs with
  | nil => intro i0 bus dfo dr; simp [snoopLoop]
  | cons x xs ih =>
    intro i0 bus dfo dr
    unfold snoopLoop
    by_cases h : (i0 : Int) ≠ req
    · rw [if_pos h]
      simp only []
      rw [ih]
      constructor
      · rintro (h1 | ⟨j, c, h1, h2, h3⟩)
        · rw [Bool.or_eq_true] at h1
          rcases h1 with h1 | h1
          · exact Or.inl h1
          · rw [pbt_flag] at h1
            exact Or.inr ⟨0, x, by simp, by simpa using h, h1⟩
        · refine Or.inr ⟨j + 1, c, by simpa using h1, ?_, h3⟩
          intro e; apply h2; rw [← e]; congr 1; omega
      · rintro (h1 | ⟨j, c, h1, h2, h3⟩)
        · left; simp [h1]
        · cases j with
          | zero =>
            simp only [List.getElem?_cons_zero, Option.some.injEq] at h1
            subst h1
            left
            rw [Bool.or_eq_true, pbt_flag]
            exact Or.inr h3
          | succ j =>
            right
            refine ⟨j, c, by simpa using h1, ?_, h3⟩
            intro e; apply h2; rw [← e]; congr 1; omega
    · rw [if_neg h]
      simp only []
      rw [ih]
      constructor
      · rintro (h1 | ⟨j, c, h1, h2, h3⟩)
        · exact Or.inl h1
        · refine Or.inr ⟨j + 1, c, by simpa using h1, ?_, h3⟩
          intro e; apply h2; rw [← e]; congr 1; omega
      · rintro (h1 | ⟨j, c, h1, h2, h3⟩)
        · exact Or.inl h1
        · cases j with
          | zero => exact absurd (by simpa using h) h2
          | succ j =>
            right
            refine ⟨j, c, by simpa using h1, ?_, h3⟩
            intro e; apply h2; rw [← e]; congr 1; omega


/-! ### Broadcast seen from the cache list -/

theorem broadcast_eq_loop (caches : List Cache) (bus : Bus) (ty : BusTransactionType)
    (a : Nat) (req : Int)
    (hnr : ¬(bus.isBusy = true ∧ bus.currentRequestingCore ≠ req)) :
    Bus.broadcastTransaction caches bus ty a req =
      snoopLoop a ty.isWrite req 0 caches
        { isBusy := true, remainingCycles := bus.remainingCycles,
          currentRequestingCore := req, stats := bus.stats.count ty } false true := by
  unfold Bus.broadcastTransaction Bus.processTransaction
  rw [if_neg hnr]

theorem broadcast_caches (caches : List Cache) (k : Nat) (x : Cache) (bus : Bus)
    (ty : BusTransactionType) (a : Nat)
    (hnr : ¬(bus.isBusy = true ∧ bus.currentRequestingCore ≠ (k : Int)))
    (hids : ∀ (j : Nat) (cj : Cache), caches[j]? = some cj → cj.cacheId = (j : Int))
    (hk : k < caches.length) :
    (Bus.broadcastTransaction (caches.set k x) bus ty a (k : Int)).1.length = caches.length ∧
    (Bus.broadcastTransaction (caches.set k x) bus ty a (k : Int)).1[k]? = some x ∧
    (∀ j cj, j ≠ k → caches[j]? = some cj →
      ∃ bus' dr', (Bus.broadcastTransaction (caches.set k x) bus ty a (k : Int)).1[j]? =
        some (cj.processBusTransaction bus' a ty.isWrite (k : Int) dr').1) ∧
    ((Bus.broadcastTransaction (caches.set k x) bus ty a (k : Int)).2.2 = true ↔
      ∃ j cj, j ≠ k ∧ caches[j]? = some cj ∧ cj.holds (cj.getSetIndex a) (cj.getTag a)) := by
  rw [broadcast_eq_loop _ _ _ _ _ hnr]
  refine ⟨?_, ?_, ?_, ?_⟩
  · rw [snoopLoop_length, List.length_set]
  · have hx : (caches.set k x)[k]? = some x := by
      rw [List.getElem?_set]; simp [hk]
    obtain ⟨c', h1, h2, _⟩ := snoopLoop_getElem? a ty.isWrite (k : Int) (caches.set k x) 0
      { isBusy := true, remainingCycles := bus.remainingCycles,
        currentRequestingCore := (k : Int), stats := bus.stats.count ty } false true k x hx
    rw [h1, h2 (by simp)]
  · intro j cj hj hcj
    have hx : (caches.set k x)[j]? = some cj := by
      rw [List.getElem?_set]; simp [Ne.symm hj, hcj]
    obtain ⟨c', h1, _, h3⟩ := snoopLoop_getElem? a ty.isWrite (k : Int) (caches.set k x) 0
      { isBusy := true, remainingCycles := bus.remainingCycles,
        currentRequestingCore := (k : Int), stats := bus.stats.count ty } false true j cj hx
    obtain ⟨bus', dr', e⟩ := h3 (by simp only [Nat.zero_add, ne_eq, Nat.cast_inj]; exact hj)
    exact ⟨bus', dr', by rw [h1, e]⟩
  · rw [snoopLoop_flag]
    simp only [Bool.false_eq_true, false_or, Nat.zero_add, ne_eq, Nat.cast_inj]
    constructor
    · rintro ⟨j, c, h1, h2, h3, h4⟩
      rw [List.getElem?_set] at h1
      simp only [Ne.symm h2, if_false] at h1
      exact ⟨j, c, h2, h1, h4⟩
    · rintro ⟨j, c, h1, h2, h3⟩
      refine ⟨j, c, ?_, h1, ?_, h3⟩
      · rw [List.getElem?_set]; simp [Ne.symm h1, h2]
      · rw [hids j c h2]
        simp only [Nat.cast_inj]; exact fun e => h1 e.symm


/-! ### Relating the cache list before and after -/

theorem CachesRel.inv {R : Nat → Cache → Cache → Prop} {cs cs' : List Cache}
    (h : CachesRel R cs cs') {j : Nat} {cj' : Cache} (hj : cs'[j]? = some cj') :
    ∃ cj, cs[j]? = some cj ∧ R j cj cj' := by
  obtain ⟨hl, hr⟩ := h
  have hlt : j < cs.length := by
    rcases List.getElem?_eq_some.mp hj with ⟨hh, _⟩; omega
  obtain ⟨cj, hcj⟩ : ∃ cj, cs[j]? = some cj := ⟨cs[j], List.getElem?_eq_getElem hlt⟩
  obtain ⟨cj'', h1, h2⟩ := hr j cj hcj
  rw [hj] at h1
  cases h1
  exact ⟨cj, hcj, h2⟩

theorem CachesRel.mono {R R' : Nat → Cache → Cache → Prop} {cs cs' : List Cache}
    (h : CachesRel R cs cs') (hr : ∀ j c c', cs[j]? = some c → R j c c' → R' j c c') :
    CachesRel R' cs cs' := by
  refine ⟨h.1, ?_⟩
  intro j cj hj
  obtain ⟨cj', h1, h2⟩ := h.2 j cj hj
  exact ⟨cj', h1, hr j cj cj' hj h2⟩

theorem CachesRel.refl {R : Nat → Cache → Cache → Prop} (cs : List Cache)
    (hr : ∀ j c, cs[j]? = some c → R j c c) : CachesRel R cs cs :=
  ⟨rfl, fun j cj hj => ⟨cj, hj, hr j cj hj⟩⟩

theorem CachesRel.set_at {R : Nat → Cache → Cache → Prop} {cs cs' : List Cache} (k : Nat)
    (x : Cache) (h : CachesRel (fun j c c' => j ≠ k → R j c c') cs cs')
    (hk : ∀ c, cs[k]? = some c → R k c x) : CachesRel R cs (cs'.set k x) := by
  refine ⟨by rw [List.length_set]; exact h.1, ?_⟩
  intro j cj hj
  rw [List.getElem?_set]
  by_cases e : k = j
  · subst e
    have hlt : k < cs'.length := by
      rcases List.getElem?_eq_some.mp hj with ⟨hh, _⟩; rw [h.1]; exact hh
    simp only [if_true, hlt]
    exact ⟨x, rfl, hk cj hj⟩
  · simp only [e, if_false]
    obtain ⟨cj', h1, h2⟩ := h.2 j cj hj
    exact ⟨cj', h1, h2 (fun e' => e e'.symm)⟩

/-! ### Coherence is preserved -/

theorem coherent_mono {sys sys' : System} (hcoh : Coherent sys)
    (h : CachesRel (fun _ c c' => (∀ si t, c'.holds si t → c.holds si t) ∧
      (∀ si t, c'.holdsOwned si t → c.holdsOwned si t)) sys.caches sys'.caches) :
    Coherent sys' := by
  intro i j ci' cj' hi hj hij si t ho hh
  obtain ⟨ci, hci, _, h2⟩ := h.inv hi
  obtain ⟨cj, hcj, h3, _⟩ := h.inv hj
  exact hcoh i j ci cj hci hcj hij si t (h2 si t ho) (h3 si t hh)

theorem coherent_update {sys sys' : System} (k si0 t0 : Nat) (hcoh : Coherent sys)
    (h : CachesRel (fun j c c' =>
      (j ≠ k → (∀ si t, c'.holds si t → c.holds si t) ∧
        (∀ si t, c'.holdsOwned si t → c.holdsOwned si t) ∧ ¬c'.holdsOwned si0 t0) ∧
      (j = k → (∀ si t, c'.holds si t → c.holds si t ∨ (si = si0 ∧ t = t0)) ∧
        (∀ si t, c'.holdsOwned si t → c.holdsOwned si t ∨ (si = si0 ∧ t = t0 ∧
          ∀ (p : Nat) (cp' : Cache), p ≠ k → sys'.caches[p]? = some cp' → ¬cp'.holds si0 t0))))
      sys.caches sys'.caches) :
    Coherent sys' := by
  intro i j ci' cj' hi hj hij si t ho hh
  obtain ⟨ci, hci, hi1, hi2⟩ := h.inv hi
  obtain ⟨cj, hcj, hj1, hj2⟩ := h.inv hj
  by_cases ei : i = k
  · have ej : j ≠ k := fun e => hij (ei.trans e.symm)
    obtain ⟨_, f2⟩ := hi2 ei
    obtain ⟨p1, _, _⟩ := hj1 ej
    rcases f2 si t ho with h1 | ⟨e1, e2, h3⟩
    · exact hcoh i j ci cj hci hcj hij si t h1 (p1 si t hh)
    · subst e1 e2; exact h3 j cj' ej hj hh
  · obtain ⟨q1, q2, q3⟩ := hi1 ei
    by_cases ej : j = k
    · obtain ⟨f1, _⟩ := hj2 ej
      rcases f1 si t hh with h1 | ⟨e1, e2⟩
      · exact hcoh i j ci cj hci hcj hij si t (q2 si t ho) h1
      · subst e1 e2; exact q3 ho
    · obtain ⟨p1, _, _⟩ := hj1 ej
      exact hcoh i j ci cj hci hcj hij si t (q2 si t ho) (p1 si t hh)

/-! ### Shape is preserved -/

theorem wellFormed_sameLines {s E b : Nat} {c c' : Cache} (h : c.sameLines c')
    (hw : c.WellFormed s E b) : c'.WellFormed s E b := by
  obtain ⟨a1, a2, a3, a4, a5, a6, a7⟩ := h
  obtain ⟨w1, w2, w3, w4, w5⟩ := hw
  exact ⟨a3.trans w1, a4.trans w2, a5.trans w3, by rw [a1]; exact w4, by rw [a1]; exact w5⟩

theorem wellFormed_modifyLine {s E b : Nat} {c : Cache} (si li : Nat)
    (f : CacheLine → CacheLine) (hw : c.WellFormed s E b) :
    (c.modifyLine si li f).WellFormed s E b := by
  obtain ⟨w1, w2, w3, w4, w5⟩ := hw
  refine ⟨w1, w2, w3, ?_, ?_⟩
  · show (c.sets.set _ _).length = _
    rw [List.length_set]; exact w4
  · intro ls hls
    have hls' : ls ∈ c.sets.set si ((c.setLines si).set li (f (c.line si li))) := hls
    by_cases e : si < c.sets.length
    · rcases List.mem_or_eq_of_mem_set hls' with h1 | h1
      · exact w5 ls h1
      · rw [h1, List.length_set]
        unfold Cache.setLines
        rw [List.getD_eq_getElem?_getD, List.getElem?_eq_getElem e]
        exact w5 _ (List.getElem_mem _)
    · rw [List.set_eq_of_length_le (not_lt.mp e)] at hls'
      exact w5 ls hls'

theorem wellFormed_snooped {s E b : Nat} {c : Cache} (a : Nat) (w : Bool)
    (hw : c.WellFormed s E b) : (c.snooped a w).WellFormed s E b := by
  unfold Cache.snooped
  split
  · exact hw
  · exact wellFormed_modifyLine _ _ _ hw


/-! ### Lines touched by the local paths -/

theorem line_getElem? {c : Cache} {si li : Nat} (h : li < (c.setLines si).length) :
    (c.setLines si)[li]? = some (c.line si li) := by
  unfold Cache.line
  rw [List.getD_eq_getElem?_getD, List.getElem?_eq_getElem h]; rfl

theorem holds_modifyLine_keep {c : Cache} {si li : Nat} {f : CacheLine → CacheLine}
    (htag : (f (c.line si li)).tag = (c.line si li).tag)
    (hst : (f (c.line si li)).state ≠ CacheState.INVALID →
      (c.line si li).state ≠ CacheState.INVALID)
    {si' t : Nat} (h : (c.modifyLine si li f).holds si' t) : c.holds si' t := by
  rcases holds_modifyLine h with h | ⟨e, ht, hs, hl⟩
  · exact h
  · subst e
    exact ⟨_, List.mem_iff_getElem?.mpr ⟨li, line_getElem? hl⟩, htag ▸ ht, hst hs⟩

theorem holdsOwned_modifyLine_keep {c : Cache} {si li : Nat} {f : CacheLine → CacheLine}
    (htag : (f (c.line si li)).tag = (c.line si li).tag)
    (hst : (f (c.line si li)).state = (c.line si li).state)
    {si' t : Nat} (h : (c.modifyLine si li f).holdsOwned si' t) : c.holdsOwned si' t := by
  rcases holdsOwned_modifyLine h with h | ⟨e, ht, hs, hl⟩
  · exact h
  · subst e
    exact ⟨_, List.mem_iff_getElem?.mpr ⟨li, line_getElem? hl⟩, htag ▸ ht, hst ▸ hs⟩

theorem nodup_modifyLine_keep {c : Cache} {si li : Nat} {f : CacheLine → CacheLine}
    (htag : (f (c.line si li)).tag = (c.line si li).tag)
    (hst : (f (c.line si li)).state ≠ CacheState.INVALID →
      (c.line si li).state ≠ CacheState.INVALID)
    (si' : Nat) (h : NoDupTags (c.setLines si')) :
    NoDupTags ((c.modifyLine si li f).setLines si') := by
  rw [setLines_modifyLine]
  by_cases e : si' = si
  · rw [if_pos e]
    subst e
    by_cases hl : li < (c.setLines si').length
    · apply h.set
      intro hv j lj hj hlj vj ht
      exact hj (h j li lj _ hlj (line_getElem? hl) vj (hst hv) (ht.trans htag))
    · rw [List.set_eq_of_length_le (not_lt.mp hl)]; exact h
  · rw [if_neg e]; exact h

theorem nodup_modifyLine_fresh {c : Cache} {si li : Nat} {x : CacheLine}
    (hf : findWay x.tag (c.setLines si) = none)
    (si' : Nat) (h : NoDupTags (c.setLines si')) :
    NoDupTags ((c.modifyLine si li (fun _ => x)).setLines si') := by
  rw [setLines_modifyLine]
  by_cases e : si' = si
  · rw [if_pos e]; subst e; exact h.set_fresh li x hf
  · rw [if_neg e]; exact h

/-! ### Victim handling -/

theorem evictVictim_fill (c : Cache) (bus : Bus) (si v : Nat) (x : CacheLine) :
    (c.modifyLine si v (fun _ => x)).sameLines
      ((c.evictVictim bus si v).1.modifyLine si v (fun _ => x)) := by
  unfold Cache.evictVictim
  by_cases hm : (c.line si v).state = CacheState.MODIFIED
  · simp only [hm, if_true]
    have h1 := sameLines_modifyLine (writeBack_sameLines c bus si v) si v
      (fun _ => x) (fun _ => x) rfl
    rw [modifyLine_modifyLine] at h1
    split
    · exact sameLines_trans h1 (sameLines_modifyLine (sameLines_stats _ _) si v _ _ rfl)
    · exact h1
  · simp only [hm, if_false]
    split
    · exact sameLines_modifyLine (sameLines_stats _ _) si v _ _ rfl
    · exact sameLines_refl _

theorem evictVictim_static (c : Cache) (bus : Bus) (si v : Nat) :
    (c.evictVictim bus si v).1.cacheId = c.cacheId ∧
    (c.evictVictim bus si v).1.blockSize = c.blockSize := by
  unfold Cache.evictVictim Cache.writeBackToMemory
  by_cases hm : (c.line si v).state = CacheState.MODIFIED
  · simp only [hm, if_true]
    split <;> exact ⟨rfl, rfl⟩
  · simp only [hm, if_false]
    split <;> exact ⟨rfl, rfl⟩

theorem evictVictim_bus (c : Cache) (bus : Bus) (si v : Nat) :
    (c.evictVictim bus si v).2 =
      if (c.line si v).state = CacheState.MODIFIED
      then (bus.addTraffic c.blockSize).addRemainingCycles 100 c.cacheId else bus := by
  unfold Cache.evictVictim Cache.writeBackToMemory
  by_cases hm : (c.line si v).state = CacheState.MODIFIED
  · simp only [hm, if_true]
    split <;> rfl
  · simp only [hm, if_false]
    split <;> rfl

theorem evictVictim_not_rejected (c : Cache) (bus : Bus) (si v : Nat)
    (hb : bus.isBusy = false) :
    ¬((c.evictVictim bus si v).2.isBusy = true ∧
      (c.evictVictim bus si v).2.currentRequestingCore ≠ c.cacheId) := by
  rw [evictVictim_bus]
  by_cases hm : (c.line si v).state = CacheState.MODIFIED
  · rw [if_pos hm]
    simp [Bus.addRemainingCycles, Bus.addTraffic, hb]
  · rw [if_neg hm]; simp [hb]


/-! ### Cache lists after the three broadcasting paths -/

theorem broadcast_rel (caches : List Cache) (k : Nat) (x : Cache) (bus : Bus)
    (ty : BusTransactionType) (a : Nat)
    (hnr : ¬(bus.isBusy = true ∧ bus.currentRequestingCore ≠ (k : Int)))
    (hids : ∀ (j : Nat) (cj : Cache), caches[j]? = some cj → cj.cacheId = (j : Int))
    (hk : k < caches.length) :
    CachesRel (fun j cj cj' => j ≠ k →
        ∃ bus' dr', cj' = (cj.processBusTransaction bus' a ty.isWrite (k : Int) dr').1)
      caches (Bus.broadcastTransaction (caches.set k x) bus ty a (k : Int)).1 := by
  obtain ⟨h1, h2, h3, _⟩ := broadcast_caches caches k x bus ty a hnr hids hk
  refine ⟨h1, ?_⟩
  intro j cj hj
  by_cases e : j = k
  · subst e; exact ⟨x, h2, fun h => absurd rfl h⟩
  · obtain ⟨bus', dr', h⟩ := h3 j cj e hj
    exact ⟨_, h, fun _ => ⟨bus', dr', rfl⟩⟩

theorem getD_of_getElem? {α : Type} {l : List α} {i : Nat} {x d : α} (h : l[i]? = some x) :
    l.getD i d = x := by
  rw [List.getD_eq_getElem?_getD, h]; rfl

theorem lt_of_getElem? {α : Type} {l : List α} {i : Nat} {x : α} (h : l[i]? = some x) :
    i < l.length := by
  rcases List.getElem?_eq_some.mp h with ⟨hh, _⟩; exact hh

theorem findLRULine_countMiss (c : Cache) (si : Nat) :
    c.countMiss.findLRULine si = c.findLRULine si := rfl

theorem requester_rel (caches bcl : List Cache) (k : Nat) (c z : Cache) (a : Nat) (w : Bool)
    (P : Cache → Cache → Prop)
    (hc : caches[k]? = some c)
    (hrel : CachesRel (fun j cj cj' => j ≠ k →
        ∃ bus' dr', cj' = (cj.processBusTransaction bus' a w (k : Int) dr').1) caches bcl)
    (hP : P c z) :
    CachesRel (fun j cj cj' =>
        (j ≠ k → ∃ bus' dr', cj' = (cj.processBusTransaction bus' a w (k : Int) dr').1) ∧
        (j = k → P cj cj'))
      caches (bcl.set k z) := by
  apply CachesRel.set_at
  · exact hrel.mono (fun j cj cj' _ h hj => ⟨fun _ => h hj, fun e => absurd e hj⟩)
  · intro c0 hc0
    rw [hc] at hc0; cases hc0
    exact ⟨fun h => absurd rfl h, fun _ => hP⟩

theorem readMiss_caches (sys : System) (k : Nat) (c : Cache) (a : Nat)
    (hc : sys.caches[k]? = some c)
    (hids : ∀ (j : Nat) (cj : Cache), sys.caches[j]? = some cj → cj.cacheId = (j : Int))
    (hb : sys.bus.isBusy = false) :
    ∃ st, ((st = CacheState.SHARED ∧ ∃ j cj, j ≠ k ∧ sys.caches[j]? = some cj ∧
              cj.holds (cj.getSetIndex a) (cj.getTag a)) ∨
           (st = CacheState.EXCLUSIVE ∧ ¬∃ j cj, j ≠ k ∧ sys.caches[j]? = some cj ∧
              cj.holds (cj.getSetIndex a) (cj.getTag a))) ∧
      CachesRel (fun j cj cj' =>
        (j ≠ k → ∃ bus' dr', cj' = (cj.processBusTransaction bus' a false (k : Int) dr').1) ∧
        (j = k → (cj.modifyLine (c.getSetIndex a) (c.findLRULine (c.getSetIndex a))
          (fun _ => { tag := c.getTag a, state := st, dirty := false,
                      lastAccessTime := sys.globalCycle })).sameLines cj'))
        sys.caches (Cache.readMiss sys k c a (k : Int)).caches := by
  have hk := lt_of_getElem? hc
  have hidc : c.cacheId = (k : Int) := hids k c hc
  have hnr : ¬((c.countMiss.evictVictim sys.bus (c.getSetIndex a)
        (c.findLRULine (c.getSetIndex a))).2.isBusy = true ∧
      (c.countMiss.evictVictim sys.bus (c.getSetIndex a)
        (c.findLRULine (c.getSetIndex a))).2.currentRequestingCore ≠ (k : Int)) := by
    rw [← hidc]
    exact evictVictim_not_rejected c.countMiss sys.bus _ _ hb
  obtain ⟨b1, b2, b3, b4⟩ := broadcast_caches sys.caches k
    (c.countMiss.evictVictim sys.bus (c.getSetIndex a) (c.findLRULine (c.getSetIndex a))).1
    (c.countMiss.evictVictim sys.bus (c.getSetIndex a) (c.findLRULine (c.getSetIndex a))).2
    BusTransactionType.BusRd a hnr hids hk
  have hrel := broadcast_rel sys.caches k
    (c.countMiss.evictVictim sys.bus (c.getSetIndex a) (c.findLRULine (c.getSetIndex a))).1
    (c.countMiss.evictVictim sys.bus (c.getSetIndex a) (c.findLRULine (c.getSetIndex a))).2
    BusTransactionType.BusRd a hnr hids hk
  refine ⟨if (Bus.broadcastTransaction (sys.caches.set k
      (c.countMiss.evictVictim sys.bus (c.getSetIndex a) (c.findLRULine (c.getSetIndex a))).1)
      (c.countMiss.evictVictim sys.bus (c.getSetIndex a) (c.findLRULine (c.getSetIndex a))).2
      BusTransactionType.BusRd a (k : Int)).2.2 = true
      then CacheState.SHARED else CacheState.EXCLUSIVE, ?_, ?_⟩
  · split
    · rename_i hf; exact Or.inl ⟨rfl, b4.mp hf⟩
    · rename_i hf; exact Or.inr ⟨rfl, fun h => hf (b4.mpr h)⟩
  · have hgd := getD_of_getElem? (d := (c.countMiss.evictVictim sys.bus (c.getSetIndex a)
      (c.findLRULine (c.getSetIndex a))).1) b2
    unfold Cache.readMiss
    simp only [findLRULine_countMiss, hgd]
    apply requester_rel sys.caches _ k c _ a false _ hc hrel
    exact sameLines_trans (sameLines_modifyLine (sameLines_stats c _) _ _ _ _ rfl)
      (sameLines_trans (evictVictim_fill c.countMiss sys.bus (c.getSetIndex a)
          (c.findLRULine (c.getSetIndex a)) _)
        (sameLines_modifyLine (sameLines_stats _ _) _ _ _ _ rfl))

theorem writeMiss_caches (sys : System) (k : Nat) (c : Cache) (a : Nat)
    (hc : sys.caches[k]? = some c)
    (hids : ∀ (j : Nat) (cj : Cache), sys.caches[j]? = some cj → cj.cacheId = (j : Int))
    (hb : sys.bus.isBusy = false) :
    CachesRel (fun j cj cj' =>
        (j ≠ k → ∃ bus' dr', cj' = (cj.processBusTransaction bus' a true (k : Int) dr').1) ∧
        (j = k → (cj.modifyLine (c.getSetIndex a) (c.findLRULine (c.getSetIndex a))
          (fun _ => { tag := c.getTag a, state := CacheState.MODIFIED, dirty := true,
                      lastAccessTime := sys.globalCycle })).sameLines cj'))
      sys.caches (Cache.writeMiss sys k c a (k : Int)).caches := by
  have hk := lt_of_getElem? hc
  have hidc : c.cacheId = (k : Int) := hids k c hc
  have hnr : ¬((c.countMiss.evictVictim sys.bus (c.getSetIndex a)
        (c.findLRULine (c.getSetIndex a))).2.isBusy = true ∧
      (c.countMiss.evictVictim sys.bus (c.getSetIndex a)
        (c.findLRULine (c.getSetIndex a))).2.currentRequestingCore ≠ (k : Int)) := by
    rw [← hidc]
    exact evictVictim_not_rejected c.countMiss sys.bus _ _ hb
  obtain ⟨b1, b2, b3, b4⟩ := broadcast_caches sys.caches k
    (c.countMiss.evictVictim sys.bus (c.getSetIndex a) (c.findLRULine (c.getSetIndex a))).1
    (c.countMiss.evictVictim sys.bus (c.getSetIndex a) (c.findLRULine (c.getSetIndex a))).2
    BusTransactionType.BusRdX a hnr hids hk
  have hrel := broadcast_rel sys.caches k
    (c.countMiss.evictVictim sys.bus (c.getSetIndex a) (c.findLRULine (c.getSetIndex a))).1
    (c.countMiss.evictVictim sys.bus (c.getSetIndex a) (c.findLRULine (c.getSetIndex a))).2
    BusTransactionType.BusRdX a hnr hids hk
  have hgd := getD_of_getElem? (d := (c.countMiss.evictVictim sys.bus (c.getSetIndex a)
      (c.findLRULine (c.getSetIndex a))).1) b2
  unfold Cache.writeMiss
  simp only [findLRULine_countMiss, hgd]
  apply requester_rel sys.caches _ k c _ a true _ hc hrel
  refine sameLines_trans (sameLines_modifyLine (sameLines_stats c _) _ _ _ _ rfl)
      (sameLines_trans (evictVictim_fill c.countMiss sys.bus (c.getSetIndex a)
          (c.findLRULine (c.getSetIndex a)) _) ?_)
  split
  · exact sameLines_modifyLine (sameLines_stats _ _) _ _ _ _ rfl
  · exact sameLines_modifyLine (sameLines_stats _ _) _ _ _ _ rfl

theorem writeHit_upgrade (sys : System) (k : Nat) (c : Cache) (a : Nat) (coreId : Int)
    (i : Nat) (h : (c.line (c.getSetIndex a) i).state ≠ CacheState.MODIFIED)
    (hb : sys.bus.isBusy = false) :
    Cache.writeHit sys k c a coreId i =
      ({ caches := (Bus.broadcastTransaction (sys.caches.set k
            (if (c.line (c.getSetIndex a) i).state = CacheState.SHARED
             then { c with stats := { c.stats with
                      invalidationCount := c.stats.invalidationCount + 1 } }
             else c)) sys.bus BusTransactionType.BusUpgr a coreId).1.set k
          (((Bus.broadcastTransaction (sys.caches.set k
            (if (c.line (c.getSetIndex a) i).state = CacheState.SHARED
             then { c with stats := { c.stats with
                      invalidationCount := c.stats.invalidationCount + 1 } }
             else c)) sys.bus BusTransactionType.BusUpgr a coreId).1.getD k
            (if (c.line (c.getSetIndex a) i).state = CacheState.SHARED
             then { c with stats := { c.stats with
                      invalidationCount := c.stats.invalidationCount + 1 } }
             else c)).countHit.modifyLine (c.getSetIndex a) i (fun l =>
              { l with state := CacheState.MODIFIED, lastAccessTime := sys.globalCycle,
                       dirty := true })),
         bus := (Bus.broadcastTransaction (sys.caches.set k
            (if (c.line (c.getSetIndex a) i).state = CacheState.SHARED
             then { c with stats := { c.stats with
                      invalidationCount := c.stats.invalidationCount + 1 } }
             else c)) sys.bus BusTransactionType.BusUpgr a coreId).2.1,
         globalCycle := sys.globalCycle }, 0) := by
  simp only [Cache.writeHit]
  rw [if_pos h, if_neg (by simp [hb])]

theorem upgrade_caches (sys : System) (k : Nat) (c : Cache) (a : Nat) (i : Nat)
    (hc : sys.caches[k]? = some c)
    (hids : ∀ (j : Nat) (cj : Cache), sys.caches[j]? = some cj → cj.cacheId = (j : Int))
    (h : (c.line (c.getSetIndex a) i).state ≠ CacheState.MODIFIED)
    (hb : sys.bus.isBusy = false) :
    CachesRel (fun j cj cj' =>
        (j ≠ k → ∃ bus' dr', cj' = (cj.processBusTransaction bus' a true (k : Int) dr').1) ∧
        (j = k → (cj.modifyLine (c.getSetIndex a) i (fun l =>
              { l with state := CacheState.MODIFIED, lastAccessTime := sys.globalCycle,
                       dirty := true })).sameLines cj'))
      sys.caches (Cache.writeHit sys k c a (k : Int) i).1.caches := by
  have hk := lt_of_getElem? hc
  have hnr : ¬(sys.bus.isBusy = true ∧ sys.bus.currentRequestingCore ≠ (k : Int)) := by
    simp [hb]
  obtain ⟨b1, b2, b3, b4⟩ := broadcast_caches sys.caches k
    (if (c.line (c.getSetIndex a) i).state = CacheState.SHARED
             then { c with stats := { c.stats with
                      invalidationCount := c.stats.invalidationCount + 1 } }
             else c) sys.bus BusTransactionType.BusUpgr a hnr hids hk
  have hrel := broadcast_rel sys.caches k
    (if (c.line (c.getSetIndex a) i).state = CacheState.SHARED
             then { c with stats := { c.stats with
                      invalidationCount := c.stats.invalidationCount + 1 } }
             else c) sys.bus BusTransactionType.BusUpgr a hnr hids hk
  have hgd := getD_of_getElem? (d := (if (c.line (c.getSetIndex a) i).state = CacheState.SHARED
             then { c with stats := { c.stats with
                      invalidationCount := c.stats.invalidationCount + 1 } }
             else c)) b2
  rw [writeHit_upgrade sys k c a _ i h hb]
  simp only [hgd]
  apply requester_rel sys.caches _ k c _ a true _ hc hrel
  split
  · exact sameLines_modifyLine (sameLines_stats _ _) _ _ _ _ rfl
  · exact sameLines_modifyLine (sameLines_stats _ _) _ _ _ _ rfl


/-! ### The invariant is inductive -/

theorem wellFormed_decode {s E b : Nat} {c : Cache} (h : c.WellFormed s E b) (a : Nat) :
    c.getSetIndex a = (a >>> b) &&& ((1 <<< s) - 1) ∧ c.getTag a = a >>> (s + b) := by
  unfold Cache.getSetIndex Cache.getTag
  rw [h.1, h.2.1]; exact ⟨rfl, rfl⟩

theorem Inv.congr {s E b : Nat} {sys sys' : System} (h : Inv s E b sys)
    (e : sys'.caches = sys.caches) : Inv s E b sys' := by
  obtain ⟨h1, h2, h3, h4⟩ := h
  refine ⟨?_, ?_, ?_, ?_⟩
  · rw [e]; exact h1
  · rw [e]; exact h2
  · rw [e]; exact h3
  · unfold Coherent; rw [e]; exact h4

theorem Inv.peer {s E b : Nat} {sys : System} (hinv : Inv s E b sys) {k j : Nat}
    {c cj : Cache} (hc : sys.caches[k]? = some c) (hj : sys.caches[j]? = some cj)
    (hjk : j ≠ k) (a : Nat) (w : Bool) (bus' : Bus) (dr' : Bool) :
    (cj.snooped a w).sameLines (cj.processBusTransaction bus' a w (k : Int) dr').1 ∧
    cj.getSetIndex a = c.getSetIndex a ∧ cj.getTag a = c.getTag a := by
  refine ⟨pbt_sameLines cj bus' a w (k : Int) dr' ?_, ?_, ?_⟩
  · rw [hinv.ids j cj hj]; simp only [ne_eq, Nat.cast_inj]; exact fun e => hjk e.symm
  · rw [(wellFormed_decode (hinv.shape j cj hj) a).1, (wellFormed_decode (hinv.shape k c hc) a).1]
  · rw [(wellFormed_decode (hinv.shape j cj hj) a).2, (wellFormed_decode (hinv.shape k c hc) a).2]

theorem inv_broadcast {s E b : Nat} {sys sys' : System} (hinv : Inv s E b sys)
    (k a : Nat) (w : Bool) (c : Cache) (hc : sys.caches[k]? = some c)
    (hrel : CachesRel (fun j cj cj' =>
      (j ≠ k → ∃ bus' dr', cj' = (cj.processBusTransaction bus' a w (k : Int) dr').1) ∧
      (j = k → cj'.cacheId = c.cacheId ∧ cj'.WellFormed s E b ∧
        (∀ si, NoDupTags (cj'.setLines si)) ∧
        (∀ si t, cj'.holds si t → c.holds si t ∨ (si = c.getSetIndex a ∧ t = c.getTag a)) ∧
        (∀ si t, cj'.holdsOwned si t → c.holdsOwned si t ∨
          (si = c.getSetIndex a ∧ t = c.getTag a ∧
            (w = true ∨ ¬∃ j cj, j ≠ k ∧ sys.caches[j]? = some cj ∧
              cj.holds (cj.getSetIndex a) (cj.getTag a))))))
      sys.caches sys'.caches) :
    Inv s E b sys' := by
  refine ⟨?_, ?_, ?_, ?_⟩
  · intro j cj' hj'
    obtain ⟨cj, hcj, r1, r2⟩ := hrel.inv hj'
    by_cases e : j = k
    · subst e
      rw [hc] at hcj; cases hcj
      rw [(r2 rfl).1]; exact hinv.ids j c hc
    · obtain ⟨bus', dr', rfl⟩ := r1 e
      obtain ⟨p1, _, _⟩ := hinv.peer hc hcj e a w bus' dr'
      rw [p1.2.1, (snooped_sameFields cj a w).1]
      exact hinv.ids j cj hcj
  · intro j cj' hj'
    obtain ⟨cj, hcj, r1, r2⟩ := hrel.inv hj'
    by_cases e : j = k
    · exact (r2 e).2.1
    · obtain ⟨bus', dr', rfl⟩ := r1 e
      obtain ⟨p1, _, _⟩ := hinv.peer hc hcj e a w bus' dr'
      exact wellFormed_sameLines p1 (wellFormed_snooped a w (hinv.shape j cj hcj))
  · intro j cj' hj' si
    obtain ⟨cj, hcj, r1, r2⟩ := hrel.inv hj'
    by_cases e : j = k
    · exact (r2 e).2.2.1 si
    · obtain ⟨bus', dr', rfl⟩ := r1 e
      obtain ⟨p1, _, _⟩ := hinv.peer hc hcj e a w bus' dr'
      rw [sameLines_setLines p1]
      exact snooped_nodup a w si (hinv.nodup j cj hcj si)
  · apply coherent_update k (c.getSetIndex a) (c.getTag a) hinv.coherent
    refine hrel.mono ?_
    intro j cj cj' hcj ⟨r1, r2⟩
    refine ⟨?_, ?_⟩
    · intro e
      obtain ⟨bus', dr', rfl⟩ := r1 e
      obtain ⟨p1, p2, p3⟩ := hinv.peer hc hcj e a w bus' dr'
      refine ⟨?_, ?_, ?_⟩
      · intro si t h
        exact snooped_holds ((sameLines_holds p1 si t).mp h)
      · intro si t h
        exact snooped_holdsOwned ((sameLines_holdsOwned p1 si t).mp h)
      · intro h
        rw [sameLines_holdsOwned p1, ← p2, ← p3] at h
        exact snooped_not_owned a w (hinv.nodup j cj hcj _) h
    · intro e
      subst e
      rw [hc] at hcj; cases hcj
      obtain ⟨_, _, _, f1, f2⟩ := r2 rfl
      refine ⟨f1, ?_⟩
      intro si t h
      rcases f2 si t h with h | ⟨e1, e2, h3⟩
      · exact Or.inl h
      · refine Or.inr ⟨e1, e2, ?_⟩
        intro p cp' hp hcp' hh
        obtain ⟨cp, hcp, q1, _⟩ := hrel.inv hcp'
        obtain ⟨bus', dr', rfl⟩ := q1 hp
        obtain ⟨p1, p2, p3⟩ := hinv.peer hc hcp hp a w bus' dr'
        rw [sameLines_holds p1, ← p2, ← p3] at hh
        rcases h3 with h3 | h3
        · subst h3
          exact snooped_write_not_holds a (hinv.nodup p cp hcp _) hh
        · exact h3 ⟨p, cp, hp, hcp, snooped_holds hh⟩

theorem inv_local {s E b : Nat} {sys sys' : System} (hinv : Inv s E b sys)
    (k : Nat) (c c' : Cache) (hc : sys.caches[k]? = some c)
    (he : sys'.caches = sys.caches.set k c')
    (hid : c'.cacheId = c.cacheId) (hwf : c'.WellFormed s E b)
    (hnd : ∀ si, NoDupTags (c'.setLines si))
    (hh : ∀ si t, c'.holds si t → c.holds si t)
    (ho : ∀ si t, c'.holdsOwned si t → c.holdsOwned si t) :
    Inv s E b sys' := by
  have hrel : CachesRel (fun j cj cj' => (j ≠ k → cj' = cj) ∧ (j = k → cj' = c'))
      sys.caches sys'.caches := by
    rw [he]
    apply CachesRel.set_at
    · exact CachesRel.refl _ (fun j cj _ hjk => ⟨fun _ => rfl, fun e => absurd e hjk⟩)
    · intro c0 _
      exact ⟨fun e => absurd rfl e, fun _ => rfl⟩
  refine ⟨?_, ?_, ?_, ?_⟩
  · intro j cj' hj'
    obtain ⟨cj, hcj, r1, r2⟩ := hrel.inv hj'
    by_cases e : j = k
    · subst e
      rw [hc] at hcj; cases hcj
      rw [r2 rfl, hid]; exact hinv.ids j c hc
    · rw [r1 e]; exact hinv.ids j cj hcj
  · intro j cj' hj'
    obtain ⟨cj, hcj, r1, r2⟩ := hrel.inv hj'
    by_cases e : j = k
    · rw [r2 e]; exact hwf
    · rw [r1 e]; exact hinv.shape j cj hcj
  · intro j cj' hj' si
    obtain ⟨cj, hcj, r1, r2⟩ := hrel.inv hj'
    by_cases e : j = k
    · rw [r2 e]; exact hnd si
    · rw [r1 e]; exact hinv.nodup j cj hcj si
  · apply coherent_mono hinv.coherent
    refine hrel.mono ?_
    intro j cj cj' hcj ⟨r1, r2⟩
    by_cases e : j = k
    · subst e
      rw [hc] at hcj; cases hcj
      rw [r2 rfl]; exact ⟨hh, ho⟩
    · rw [r1 e]; exact ⟨fun _ _ h => h, fun _ _ h => h⟩


theorem inv_fill {s E b : Nat} {sys sys' : System} (hinv : Inv s E b sys)
    (k a : Nat) (w : Bool) (c : Cache) (v : Nat) (x : CacheLine)
    (hc : sys.caches[k]? = some c)
    (hf : findWay (c.getTag a) (c.setLines (c.getSetIndex a)) = none)
    (hx : x.tag = c.getTag a)
    (hown : (x.state = CacheState.MODIFIED ∨ x.state = CacheState.EXCLUSIVE) →
      (w = true ∨ ¬∃ j cj, j ≠ k ∧ sys.caches[j]? = some cj ∧
        cj.holds (cj.getSetIndex a) (cj.getTag a)))
    (hrel : CachesRel (fun j cj cj' =>
      (j ≠ k → ∃ bus' dr', cj' = (cj.processBusTransaction bus' a w (k : Int) dr').1) ∧
      (j = k → (cj.modifyLine (c.getSetIndex a) v (fun _ => x)).sameLines cj'))
      sys.caches sys'.caches) :
    Inv s E b sys' := by
  apply inv_broadcast hinv k a w c hc
  refine hrel.mono ?_
  intro j cj cj' hcj ⟨r1, r2⟩
  refine ⟨r1, ?_⟩
  intro e
  subst e
  rw [hc] at hcj; cases hcj
  have hs := r2 rfl
  refine ⟨hs.2.1, wellFormed_sameLines hs (wellFormed_modifyLine _ _ _ (hinv.shape j c hc)),
    ?_, ?_, ?_⟩
  · intro si
    rw [sameLines_setLines hs]
    exact nodup_modifyLine_fresh (by rw [hx]; exact hf) si (hinv.nodup j c hc si)
  · intro si t h
    rw [sameLines_holds hs] at h
    rcases holds_modifyLine h with h | ⟨e1, e2, _, _⟩
    · exact Or.inl h
    · exact Or.inr ⟨e1, by rw [← e2, hx]⟩
  · intro si t h
    rw [sameLines_holdsOwned hs] at h
    rcases holdsOwned_modifyLine h with h | ⟨e1, e2, e3, _⟩
    · exact Or.inl h
    · exact Or.inr ⟨e1, by rw [← e2, hx], hown e3⟩

theorem inv_hit {s E b : Nat} {sys sys' : System} (hinv : Inv s E b sys)
    (k : Nat) (c c' : Cache) (si i : Nat) (f : CacheLine → CacheLine)
    (hc : sys.caches[k]? = some c)
    (he : sys'.caches = sys.caches.set k c')
    (hs : (c.modifyLine si i f).sameLines c')
    (htag : (f (c.line si i)).tag = (c.line si i).tag)
    (hst : (f (c.line si i)).state = (c.line si i).state) :
    Inv s E b sys' := by
  apply inv_local hinv k c c' hc he hs.2.1
    (wellFormed_sameLines hs (wellFormed_modifyLine _ _ _ (hinv.shape k c hc)))
  · intro si'
    rw [sameLines_setLines hs]
    exact nodup_modifyLine_keep htag (by rw [hst]; exact id) si' (hinv.nodup k c hc si')
  · intro si' t h
    rw [sameLines_holds hs] at h
    exact holds_modifyLine_keep htag (by rw [hst]; exact id) h
  · intro si' t h
    rw [sameLines_holdsOwned hs] at h
    exact holdsOwned_modifyLine_keep htag hst h

theorem inv_read {s E b : Nat} {sys : System} (hinv : Inv s E b sys) (k a : Nat) :
    Inv s E b (Cache.read sys k a (k : Int)).1 := by
  cases hc : sys.caches[k]? with
  | none => rw [read_none sys k a _ hc]; exact hinv
  | some c =>
    by_cases hself : sys.bus.isBusy = true ∧ sys.bus.currentRequestingCore = (k : Int)
    · rw [read_self sys k c a _ hc hself]; exact hinv
    · cases hf : findWay (c.getTag a) (c.setLines (c.getSetIndex a)) with
      | some i =>
        rw [read_hit sys k c a _ i hc hself hf]
        exact inv_hit hinv k c _ (c.getSetIndex a) i
          (fun l => { l with lastAccessTime := sys.globalCycle }) hc rfl
          (sameLines_modifyLine (sameLines_stats c _) _ _ _ _ rfl) rfl rfl
      | none =>
        by_cases hb : sys.bus.isBusy = true
        · rw [read_other sys k c a _ hc hself hf hb]; exact hinv
        · have hb' : sys.bus.isBusy = false := by simpa using hb
          rw [read_miss sys k c a _ hc hf hb']
          obtain ⟨st, hst, hrel⟩ := readMiss_caches sys k c a hc hinv.ids hb'
          refine inv_fill hinv k a false c _ _ hc hf rfl ?_ hrel
          intro hown
          rcases hst with ⟨e, _⟩ | ⟨_, h⟩
          · simp [e] at hown
          · exact Or.inr h

theorem inv_write {s E b : Nat} {sys : System} (hinv : Inv s E b sys) (k a : Nat) :
    Inv s E b (Cache.write sys k a (k : Int)).1 := by
  cases hc : sys.caches[k]? with
  | none => rw [write_none sys k a _ hc]; exact hinv
  | some c =>
    by_cases hself : sys.bus.isBusy = true ∧ sys.bus.currentRequestingCore = (k : Int)
    · rw [write_self sys k c a _ hc hself]; exact hinv
    · cases hf : findWay (c.getTag a) (c.setLines (c.getSetIndex a)) with
      | some i =>
        rw [write_hit sys k c a _ i hc hself hf]
        obtain ⟨l1, l2, l3, l4⟩ := findWay_some_line hf
        by_cases hm : (c.line (c.getSetIndex a) i).state = CacheState.MODIFIED
        · rw [writeHit_modified sys k c a _ i hm]
          exact inv_hit hinv k c _ (c.getSetIndex a) i
            (fun l => { l with lastAccessTime := sys.globalCycle, dirty := true }) hc rfl
            (sameLines_modifyLine (sameLines_stats c _) _ _ _ _ rfl) rfl rfl
        · by_cases hb : sys.bus.isBusy = true
          · rw [writeHit_busy sys k c a _ i hm hb]; exact hinv
          · have hb' : sys.bus.isBusy = false := by simpa using hb
            have hrel := upgrade_caches sys k c a i hc hinv.ids hm hb'
            apply inv_broadcast hinv k a true c hc
            refine hrel.mono ?_
            intro j cj cj' hcj ⟨r1, r2⟩
            refine ⟨r1, ?_⟩
            intro e
            subst e
            rw [hc] at hcj; cases hcj
            have hs := r2 rfl
            refine ⟨hs.2.1,
              wellFormed_sameLines hs (wellFormed_modifyLine _ _ _ (hinv.shape j c hc)),
              ?_, ?_, ?_⟩
            · intro si
              rw [sameLines_setLines hs]
              exact nodup_modifyLine_keep rfl (fun _ => l3) si (hinv.nodup j c hc si)
            · intro si t h
              rw [sameLines_holds hs] at h
              exact Or.inl (holds_modifyLine_keep rfl (fun _ => l3) h)
            · intro si t h
              rw [sameLines_holdsOwned hs] at h
              rcases holdsOwned_modifyLine h with h | ⟨e1, e2, _, _⟩
              · exact Or.inl h
              · exact Or.inr ⟨e1, by rw [← e2]; exact l2, Or.inl rfl⟩
      | none =>
        by_cases hb : sys.bus.isBusy = true
        · rw [write_other sys k c a _ hc hself hf hb]; exact hinv
        · have hb' : sys.bus.isBusy = false := by simpa using hb
          rw [write_miss sys k c a _ hc hf hb']
          exact inv_fill hinv k a true c _ _ hc hf rfl (fun _ => Or.inl rfl)
            (writeMiss_caches sys k c a hc hinv.ids hb')

theorem inv_step {s E b : Nat} {sys : System} (hinv : Inv s E b sys) (op : Op) :
    Inv s E b (sys.step op) := by
  cases op with
  | read k a => exact inv_read hinv k a
  | write k a => exact inv_write hinv k a
  | tick => exact hinv.congr rfl
  | nextCycle => exact hinv.congr rfl

theorem inv_run {s E b : Nat} (ops : List Op) :
    ∀ {sys : System}, Inv s E b sys → Inv s E b (sys.run ops) := by
  induction ops with
  | nil => intro sys h; exact h
  | cons op ops ih =>
    intro sys h
    exact ih (inv_step h op)

theorem mk0_setLines (s E b : Nat) (id : Int) (si : Nat) (l : CacheLine)
    (h : l ∈ (Cache.mk0 s E b id).setLines si) : l = CacheLine.init := by
  unfold Cache.setLines Cache.mk0 at h
  simp only [List.getD_eq_getElem?_getD, List.getElem?_replicate] at h
  split at h
  · simp only [Option.getD_some] at h
    exact List.eq_of_mem_replicate h
  · simp at h

theorem init_getElem? {n s E b i : Nat} {c : Cache}
    (h : (System.init n s E b).caches[i]? = some c) : c = Cache.mk0 s E b (i : Int) := by
  unfold System.init at h
  simp only [List.getElem?_map] at h
  have hi : i < n := by
    by_contra hn
    rw [List.getElem?_eq_none (by simpa using hn)] at h
    simp at h
  rw [List.getElem?_range hi] at h
  simpa using h.symm

theorem inv_init (n s E b : Nat) (hsb : s + b ≤ 31) : Inv s E b (System.init n s E b) := by
  have hs : (1 <<< s) % 4294967296 = 2 ^ s := by
    rw [Nat.shiftLeft_eq, one_mul]
    apply Nat.mod_eq_of_lt
    calc 2 ^ s ≤ 2 ^ 31 := Nat.pow_le_pow_right (by norm_num) (by omega)
      _ < 4294967296 := by norm_num
  have hb : (1 <<< b) % 4294967296 = 2 ^ b := by
    rw [Nat.shiftLeft_eq, one_mul]
    apply Nat.mod_eq_of_lt
    calc 2 ^ b ≤ 2 ^ 31 := Nat.pow_le_pow_right (by norm_num) (by omega)
      _ < 4294967296 := by norm_num
  refine ⟨?_, ?_, ?_, ?_⟩
  · intro i c hc
    rw [init_getElem? hc]; rfl
  · intro i c hc
    rw [init_getElem? hc]
    refine ⟨rfl, rfl, hb, ?_, ?_⟩
    · show (List.replicate _ _).length = _
      rw [List.length_replicate, hs]
    · intro ls hls
      have : ls = List.replicate E CacheLine.init := List.eq_of_mem_replicate hls
      rw [this, List.length_replicate]
  · intro i c hc si p q lp lq hp _ vp _ _
    rw [init_getElem? hc] at hp
    have := mk0_setLines s E b _ si lp (List.mem_iff_getElem?.mpr ⟨p, hp⟩)
    rw [this] at vp
    exact absurd rfl vp
  · intro i j ci cj hi _ _ si t ho
    rw [init_getElem? hi] at ho
    obtain ⟨l, hl, _, hs⟩ := ho
    have := mk0_setLines s E b _ si l hl
    rw [this] at hs
    rcases hs with hs | hs <;> cases hs


/-! ### Line predicates along the operations -/

theorem linesSat_sameLines {P : CacheLine → Prop} {c c' : Cache} (h : c.sameLines c')
    (hp : c.LinesSat P) : c'.LinesSat P := by
  intro si l hl
  rw [sameLines_setLines h] at hl
  exact hp si l hl

theorem linesSat_modifyLine {P Q : CacheLine → Prop} {c : Cache} (si li : Nat)
    (f : CacheLine → CacheLine) (hp : c.LinesSat P) (hpq : ∀ l, P l → Q l)
    (hf : li < (c.setLines si).length → Q (f (c.line si li))) :
    (c.modifyLine si li f).LinesSat Q := by
  intro si' l hl
  rw [setLines_modifyLine] at hl
  by_cases e : si' = si
  · rw [if_pos e] at hl
    rcases mem_set_lines hl with h | ⟨h1, h2⟩
    · exact hpq l (hp si l h)
    · rw [h1]; exact hf h2
  · rw [if_neg e] at hl
    exact hpq l (hp si' l hl)

theorem linesSat_snooped {P Q : CacheLine → Prop} {c : Cache} (a : Nat) (w : Bool)
    (hp : c.LinesSat P) (hpq : ∀ l, P l → Q l)
    (hs : ∀ l, P l → l.state ≠ CacheState.INVALID → Q (snoopLine w l)) :
    (c.snooped a w).LinesSat Q := by
  unfold Cache.snooped
  split
  · exact fun si l hl => hpq l (hp si l hl)
  · rename_i i hi
    obtain ⟨h1, _, h3, _⟩ := findWay_some_line hi
    apply linesSat_modifyLine _ _ _ hp hpq
    intro _
    exact hs _ (hp _ _ (List.mem_iff_getElem?.mpr ⟨i, h1⟩)) h3

theorem linesSat_broadcast {s E b : Nat} {P Q : CacheLine → Prop} {sys sys' : System}
    (hinv : Inv s E b sys) (hp : sys.LinesSat P)
    (k a : Nat) (w : Bool) (c : Cache) (si v : Nat) (g : CacheLine → CacheLine)
    (hc : sys.caches[k]? = some c)
    (hpq : ∀ l, P l → Q l)
    (hs : ∀ l, P l → l.state ≠ CacheState.INVALID → Q (snoopLine w l))
    (hg : v < (c.setLines si).length → Q (g (c.line si v)))
    (hrel : CachesRel (fun j cj cj' =>
      (j ≠ k → ∃ bus' dr', cj' = (cj.processBusTransaction bus' a w (k : Int) dr').1) ∧
      (j = k → (cj.modifyLine si v g).sameLines cj'))
      sys.caches sys'.caches) :
    sys'.LinesSat Q := by
  intro j cj' hj'
  obtain ⟨cj, hcj, r1, r2⟩ := hrel.inv hj'
  by_cases e : j = k
  · subst e
    rw [hc] at hcj; cases hcj
    exact linesSat_sameLines (r2 rfl) (linesSat_modifyLine _ _ _ (hp j c hc) hpq hg)
  · obtain ⟨bus', dr', rfl⟩ := r1 e
    obtain ⟨p1, _, _⟩ := hinv.peer hc hcj e a w bus' dr'
    exact linesSat_sameLines p1 (linesSat_snooped a w (hp j cj hcj) hpq hs)

theorem linesSat_local {P Q : CacheLine → Prop} {sys sys' : System}
    (hp : sys.LinesSat P) (k : Nat) (c c' : Cache) (si i : Nat) (f : CacheLine → CacheLine)
    (hc : sys.caches[k]? = some c)
    (he : sys'.caches = sys.caches.set k c')
    (hs : (c.modifyLine si i f).sameLines c')
    (hpq : ∀ l, P l → Q l)
    (hf : i < (c.setLines si).length → Q (f (c.line si i))) :
    sys'.LinesSat Q := by
  intro j cj' hj'
  rw [he, List.getElem?_set] at hj'
  by_cases e : k = j
  · subst e
    simp only [if_true, lt_of_getElem? hc, Option.some.injEq] at hj'
    subst hj'
    exact linesSat_sameLines hs (linesSat_modifyLine _ _ _ (hp k c hc) hpq hf)
  · simp only [e, if_false] at hj'
    exact fun si l hl => hpq l (hp j cj' hj' si l hl)

theorem linesSat_mono {P Q : CacheLine → Prop} {sys sys' : System}
    (hp : sys.LinesSat P) (he : sys'.caches = sys.caches) (hpq : ∀ l, P l → Q l) :
    sys'.LinesSat Q := by
  intro j cj' hj' si l hl
  rw [he] at hj'
  exact hpq l (hp j cj' hj' si l hl)

theorem linesSat_read {s E b : Nat} {P Q : CacheLine → Prop} {sys : System}
    (hinv : Inv s E b sys) (hp : sys.LinesSat P) (k a : Nat)
    (hpq : ∀ l, P l → Q l)
    (hs : ∀ l, P l → l.state ≠ CacheState.INVALID → Q (snoopLine false l))
    (hhit : ∀ l, P l → l.state ≠ CacheState.INVALID →
      Q { l with lastAccessTime := sys.globalCycle })
    (hfill : ∀ t st, st = CacheState.SHARED ∨ st = CacheState.EXCLUSIVE →
      Q { tag := t, state := st, dirty := false, lastAccessTime := sys.globalCycle }) :
    (Cache.read sys k a (k : Int)).1.LinesSat Q := by
  cases hc : sys.caches[k]? with
  | none => rw [read_none sys k a _ hc]; exact linesSat_mono hp rfl hpq
  | some c =>
    by_cases hself : sys.bus.isBusy = true ∧ sys.bus.currentRequestingCore = (k : Int)
    · rw [read_self sys k c a _ hc hself]; exact linesSat_mono hp rfl hpq
    · cases hf : findWay (c.getTag a) (c.setLines (c.getSetIndex a)) with
      | some i =>
        rw [read_hit sys k c a _ i hc hself hf]
        obtain ⟨l1, _, l3, _⟩ := findWay_some_line hf
        exact linesSat_local hp k c _ (c.getSetIndex a) i
          (fun l => { l with lastAccessTime := sys.globalCycle }) hc rfl
          (sameLines_modifyLine (sameLines_stats c _) _ _ _ _ rfl) hpq
          (fun _ => hhit _ (hp k c hc _ _ (List.mem_iff_getElem?.mpr ⟨i, l1⟩)) l3)
      | none =>
        by_cases hb : sys.bus.isBusy = true
        · rw [read_other sys k c a _ hc hself hf hb]; exact linesSat_mono hp rfl hpq
        · have hb' : sys.bus.isBusy = false := by simpa using hb
          rw [read_miss sys k c a _ hc hf hb']
          obtain ⟨st, hst, hrel⟩ := readMiss_caches sys k c a hc hinv.ids hb'
          refine linesSat_broadcast hinv hp k a false c _ _ _ hc hpq hs ?_ hrel
          intro _
          apply hfill
          rcases hst with ⟨e, _⟩ | ⟨e, _⟩
          · exact Or.inl e
          · exact Or.inr e

theorem linesSat_write {s E b : Nat} {P Q : CacheLine → Prop} {sys : System}
    (hinv : Inv s E b sys) (hp : sys.LinesSat P) (k a : Nat)
    (hpq : ∀ l, P l → Q l)
    (hs : ∀ l, P l → l.state ≠ CacheState.INVALID → Q (snoopLine true l))
    (hhit : ∀ l, P l → l.state = CacheState.MODIFIED →
      Q { l with lastAccessTime := sys.globalCycle, dirty := true })
    (hupg : ∀ l, P l → l.state ≠ CacheState.INVALID → l.state ≠ CacheState.MODIFIED →
      Q { l with state := CacheState.MODIFIED, lastAccessTime := sys.globalCycle,
                 dirty := true })
    (hfill : ∀ t,
      Q { tag := t, state := CacheState.MODIFIED, dirty := true,
          lastAccessTime := sys.globalCycle }) :
    (Cache.write sys k a (k : Int)).1.LinesSat Q := by
  cases hc : sys.caches[k]? with
  | none => rw [write_none sys k a _ hc]; exact linesSat_mono hp rfl hpq
  | some c =>
    by_cases hself : sys.bus.isBusy = true ∧ sys.bus.currentRequestingCore = (k : Int)
    · rw [write_self sys k c a _ hc hself]; exact linesSat_mono hp rfl hpq
    · cases hf : findWay (c.getTag a) (c.setLines (c.getSetIndex a)) with
      | some i =>
        rw [write_hit sys k c a _ i hc hself hf]
        obtain ⟨l1, _, l3, _⟩ := findWay_some_line hf
        have hpl := hp k c hc _ _ (List.mem_iff_getElem?.mpr ⟨i, l1⟩)
        by_cases hm : (c.line (c.getSetIndex a) i).state = CacheState.MODIFIED
        · rw [writeHit_modified sys k c a _ i hm]
          exact linesSat_local hp k c _ (c.getSetIndex a) i
            (fun l => { l with lastAccessTime := sys.globalCycle, dirty := true }) hc rfl
            (sameLines_modifyLine (sameLines_stats c _) _ _ _ _ rfl) hpq
            (fun _ => hhit _ hpl hm)
        · by_cases hb : sys.bus.isBusy = true
          · rw [writeHit_busy sys k c a _ i hm hb]; exact linesSat_mono hp rfl hpq
          · have hb' : sys.bus.isBusy = false := by simpa using hb
            exact linesSat_broadcast hinv hp k a true c _ _ _ hc hpq hs
              (fun _ => hupg _ hpl l3 hm) (upgrade_caches sys k c a i hc hinv.ids hm hb')
      | none =>
        by_cases hb : sys.bus.isBusy = true
        · rw [write_other sys k c a _ hc hself hf hb]; exact linesSat_mono hp rfl hpq
        · have hb' : sys.bus.isBusy = false := by simpa using hb
          rw [write_miss sys k c a _ hc hf hb']
          exact linesSat_broadcast hinv hp k a true c _ _ _ hc hpq hs
            (fun _ => hfill _) (writeMiss_caches sys k c a hc hinv.ids hb')

theorem modified_dirty_step {s E b : Nat} {sys : System} (hinv : Inv s E b sys)
    (hp : sys.LinesSat (fun l => l.state = CacheState.MODIFIED → l.dirty = true))
    (op : Op) :
    (sys.step op).LinesSat (fun l => l.state = CacheState.MODIFIED → l.dirty = true) := by
  cases op with
  | read k a =>
    apply linesSat_read hinv hp k a (fun _ h => h)
    · intro l _ _ h
      exact absurd (Or.inl h) (snoopLine_not_owned false l)
    · intro l h _ hm; exact h hm
    · intro t st hst hm
      rcases hst with e | e <;> · rw [e] at hm; cases hm
  | write k a =>
    apply linesSat_write hinv hp k a (fun _ h => h)
    · intro l _ _ h
      exact absurd (Or.inl h) (snoopLine_not_owned true l)
    · intro l _ _ _; rfl
    · intro l _ _ _ _; rfl
    · intro t _; rfl
  | tick => exact linesSat_mono hp rfl (fun _ h => h)
  | nextCycle => exact linesSat_mono hp rfl (fun _ h => h)

theorem modified_dirty_run {s E b : Nat} (ops : List Op) :
    ∀ {sys : System}, Inv s E b sys →
      sys.LinesSat (fun l => l.state = CacheState.MODIFIED → l.dirty = true) →
      (sys.run ops).LinesSat (fun l => l.state = CacheState.MODIFIED → l.dirty = true) := by
  induction ops with
  | nil => intro sys _ h; exact h
  | cons op ops ih =>
    intro sys hinv h
    exact ih (inv_step hinv op) (modified_dirty_step hinv h op)

theorem init_linesSat (n s E b : Nat) (P : CacheLine → Prop) (h : P CacheLine.init) :
    (System.init n s E b).LinesSat P := by
  intro i c hc si l hl
  rw [init_getElem? hc] at hl
  rw [mk0_setLines s E b _ si l hl]; exact h

theorem writeBack_line (c : Cache) (bus : Bus) (si li : Nat) :
    ((c.writeBackToMemory bus si li).1.line si li).dirty = false ∧
    ((c.writeBackToMemory bus si li).1.line si li).state = (c.line si li).state ∧
    ((c.writeBackToMemory bus si li).1.line si li).tag = (c.line si li).tag := by
  have h := sameLines_line (writeBack_sameLines c bus si li) si li
  rw [h]
  unfold Cache.line
  rw [setLines_modifyLine, if_pos rfl]
  simp only [List.getD_eq_getElem?_getD, List.getElem?_set]
  by_cases hl : li < (c.setLines si).length
  · simp [hl, Cache.line, List.getD_eq_getElem?_getD]
  · simp [hl, List.getElem?_eq_none (not_lt.mp hl), CacheLine.init, Cache.line,
      List.getD_eq_getElem?_getD]


/-- C1. MESI coherence: in every state reached from the initial state of `n`
caches (ids `0 .. n-1` in registration order, common `s`, `E`, `b` with
`s + b ≤ 31`) by any finite sequence of reads, writes, bus ticks and
global-cycle increments, a block that one cache holds in `MODIFIED` or
`EXCLUSIVE` is neither owned nor held valid by any other cache. -/
theorem mesi_coherence (n s E b : Nat) (hsb : s + b ≤ 31) (ops : List Op)
    (i j : Nat) (ci cj : Cache) (setIndex tag : Nat)
    (hi : ((System.init n s E b).run ops).caches[i]? = some ci)
    (hj : ((System.init n s E b).run ops).caches[j]? = some cj)
    (hij : i ≠ j) (hown : ci.holdsOwned setIndex tag) :
    ¬cj.holdsOwned setIndex tag ∧ ¬cj.holds setIndex tag := by
  have hinv := inv_run ops (inv_init n s E b hsb)
  have h := hinv.coherent i j ci cj hi hj hij setIndex tag hown
  exact ⟨fun ho => h (holdsOwned_holds ho), h⟩

set_option maxRecDepth 100000 in
theorem mesi_coherence_witness :
    ¬(((System.init 2 1 2 2).run [Op.read 0 0]).caches.getD 1 (Cache.mk0 1 2 2 1)).holdsOwned
        0 0 ∧
    ¬(((System.init 2 1 2 2).run [Op.read 0 0]).caches.getD 1 (Cache.mk0 1 2 2 1)).holds 0 0 :=
  mesi_coherence 2 1 2 2 (by decide) [Op.read 0 0] 0 1
    (((System.init 2 1 2 2).run [Op.read 0 0]).caches.getD 0 (Cache.mk0 1 2 2 0))
    (((System.init 2 1 2 2).run [Op.read 0 0]).caches.getD 1 (Cache.mk0 1 2 2 1)) 0 0
    (by decide) (by decide) (by decide)
    ⟨{ tag := 0, state := CacheState.EXCLUSIVE, dirty := false, lastAccessTime := 0 },
      by decide, rfl, Or.inr rfl⟩

/-- C2. In every reachable state every `MODIFIED` line is dirty, and
`writeBackToMemory` always leaves the line it wrote back clean (its state and
tag are untouched). -/
theorem modified_lines_dirty (n s E b : Nat) (hsb : s + b ≤ 31) (ops : List Op) :
    (∀ (i : Nat) (c : Cache) (setIndex : Nat) (l : CacheLine),
      ((System.init n s E b).run ops).caches[i]? = some c → l ∈ c.setLines setIndex →
      l.state = CacheState.MODIFIED → l.dirty = true) ∧
    (∀ (c : Cache) (bus : Bus) (setIndex lineIndex : Nat),
      ((c.writeBackToMemory bus setIndex lineIndex).1.line setIndex lineIndex).dirty = false ∧
      ((c.writeBackToMemory bus setIndex lineIndex).1.line setIndex lineIndex).state =
        (c.line setIndex lineIndex).state) := by
  refine ⟨?_, ?_⟩
  · intro i c si l hc hl
    exact modified_dirty_run ops (inv_init n s E b hsb)
      (init_linesSat n s E b _ (by intro h; cases h)) i c hc si l hl
  · intro c bus si li
    exact ⟨(writeBack_line c bus si li).1, (writeBack_line c bus si li).2.1⟩

set_option maxRecDepth 100000 in
theorem modified_lines_dirty_witness :
    (∀ (i : Nat) (c : Cache) (setIndex : Nat) (l : CacheLine),
      ((System.init 2 1 2 2).run [Op.write 0 0]).caches[i]? = some c →
      l ∈ c.setLines setIndex →
      l.state = CacheState.MODIFIED → l.dirty = true) ∧
    (∀ (c : Cache) (bus : Bus) (setIndex lineIndex : Nat),
      ((c.writeBackToMemory bus setIndex lineIndex).1.line setIndex lineIndex).dirty = false ∧
      ((c.writeBackToMemory bus setIndex lineIndex).1.line setIndex lineIndex).state =
        (c.line setIndex lineIndex).state) :=
  modified_lines_dirty 2 1 2 2 (by decide) [Op.write 0 0]


/-! ### The bus during a broadcast -/

theorem plus_zero (bus : Bus) : bus.plus 0 0 = bus := by
  simp [Bus.plus]

theorem plus_plus (bus : Bus) (n m : Int) (t u : Nat) :
    (bus.plus n t).plus m u = bus.plus (n + m) (t + u) := by
  simp [Bus.plus, add_assoc]

theorem plus_isBusy (bus : Bus) (n : Int) (t : Nat) : (bus.plus n t).isBusy = bus.isBusy := rfl

theorem addRemainingCycles_busy (bus : Bus) (n id : Int) (h : bus.isBusy = true) :
    bus.addRemainingCycles n id = bus.plus n 0 := by
  unfold Bus.addRemainingCycles; rw [if_pos h]; simp [Bus.plus]

theorem addTraffic_eq (bus : Bus) (t : Nat) : bus.addTraffic t = bus.plus 0 t := by
  simp [Bus.addTraffic, Bus.plus]

theorem writeBack_bus (c : Cache) (bus : Bus) (si li : Nat) (h : bus.isBusy = true) :
    (c.writeBackToMemory bus si li).2 = bus.plus 100 c.blockSize := by
  show (bus.addTraffic c.blockSize).addRemainingCycles 100 c.cacheId = _
  rw [addTraffic_eq, addRemainingCycles_busy _ _ _ (by rw [plus_isBusy]; exact h), plus_plus]
  simp

theorem snoopWrite_bus (c : Cache) (bus : Bus) (si i : Nat) (h : bus.isBusy = true) :
    (c.snoopWrite bus si i).2 =
      bus.plus (if (c.line si i).state = CacheState.MODIFIED then 100 else 0)
        (if (c.line si i).state = CacheState.MODIFIED then c.blockSize else 0) := by
  unfold Cache.snoopWrite
  by_cases hm : (c.line si i).state = CacheState.MODIFIED
  · simp only [hm, if_true]; exact writeBack_bus c bus si i h
  · simp only [hm, if_false]; exact (plus_zero bus).symm

theorem snoopRead_bus (c : Cache) (bus : Bus) (si i : Nat) (dr : Bool)
    (h : bus.isBusy = true) :
    (c.snoopRead bus si i dr).2 =
      bus.plus ((if (c.line si i).state = CacheState.MODIFIED then 100 else 0) +
          (if dr = true then 2 * ((c.blockSize / 4 : Nat) : Int) else 0))
        (if (c.line si i).state = CacheState.MODIFIED then c.blockSize else 0) := by
  have hdg : (if (c.line si i).state = CacheState.EXCLUSIVE ∨
        (c.line si i).state = CacheState.MODIFIED then
        ((if (c.line si i).state = CacheState.MODIFIED
            then c.writeBackToMemory bus si i else (c, bus)).1.modifyLine si i
            (fun l => { l with state := CacheState.SHARED }),
          (if (c.line si i).state = CacheState.MODIFIED
            then c.writeBackToMemory bus si i else (c, bus)).2)
      else (c, bus)).2 =
      bus.plus (if (c.line si i).state = CacheState.MODIFIED then 100 else 0)
        (if (c.line si i).state = CacheState.MODIFIED then c.blockSize else 0) := by
    by_cases hm : (c.line si i).state = CacheState.MODIFIED
    · simp only [hm, if_true, or_true]; exact writeBack_bus c bus si i h
    · simp only [hm, if_false, or_false]
      split
      · exact (plus_zero bus).symm
      · exact (plus_zero bus).symm
  unfold Cache.snoopRead
  simp only []
  cases dr with
  | true =>
    simp only [if_true]
    rw [hdg, addRemainingCycles_busy _ _ _ (by rw [plus_isBusy]; exact h), plus_plus]
    simp
  | false =>
    simp only [Bool.false_eq_true, if_false]
    rw [hdg]; simp

theorem pbt_bus (c : Cache) (bus : Bus) (a : Nat) (w : Bool) (req : Int) (dr : Bool)
    (hb : bus.isBusy = true) (hreq : req ≠ c.cacheId) :
    (c.processBusTransaction bus a w req dr).2.1 =
      bus.plus ((if c.snoopState a = CacheState.MODIFIED then 100 else 0) +
          (if w = false ∧ dr = true ∧ c.snoopState a ≠ CacheState.INVALID
            then 2 * ((c.blockSize / 4 : Nat) : Int) else 0))
        (if c.snoopState a = CacheState.MODIFIED then c.blockSize else 0) := by
  unfold Cache.processBusTransaction Cache.snoopState
  rw [if_neg hreq]
  cases hf : findWay (c.getTag a) (c.setLines (c.getSetIndex a)) with
  | none => simp [plus_zero]
  | some i =>
    obtain ⟨_, _, l3, _⟩ := findWay_some_line hf
    simp only []
    cases w with
    | true =>
      simp only [if_true]
      rw [snoopWrite_bus c bus _ i hb]
      simp
    | false =>
      simp only [Bool.false_eq_true, if_false]
      rw [snoopRead_bus c bus _ i dr hb]
      simp [l3]

theorem pbt_self_bus (c : Cache) (bus : Bus) (a : Nat) (w : Bool) (req : Int) (dr : Bool)
    (hreq : req = c.cacheId) : (c.processBusTransaction bus a w req dr).2.1 = bus := by
  rw [pbt_self c bus a w req dr hreq]

theorem pbt_stats (c : Cache) (bus : Bus) (a : Nat) (w : Bool) (req : Int) (dr : Bool) :
    c.stats.accessEq (c.processBusTransaction bus a w req dr).1.stats := by
  unfold Cache.processBusTransaction
  split
  · exact ⟨rfl, rfl, rfl, rfl, rfl, rfl, rfl, rfl, rfl⟩
  · split
    · exact ⟨rfl, rfl, rfl, rfl, rfl, rfl, rfl, rfl, rfl⟩
    · split
      · unfold Cache.snoopWrite Cache.writeBackToMemory
        simp only []
        split <;> exact ⟨rfl, rfl, rfl, rfl, rfl, rfl, rfl, rfl, rfl⟩
      · unfold Cache.snoopRead Cache.writeBackToMemory
        simp only []
        split <;> split <;> (try split) <;>
          exact ⟨rfl, rfl, rfl, rfl, rfl, rfl, rfl, rfl, rfl⟩


theorem snoopState_ne_invalid_iff (c : Cache) (a : Nat) :
    c.snoopState a ≠ CacheState.INVALID ↔ c.holds (c.getSetIndex a) (c.getTag a) := by
  rw [holds_iff_findWay]
  unfold Cache.snoopState
  cases hf : findWay (c.getTag a) (c.setLines (c.getSetIndex a)) with
  | none => simp
  | some i =>
    obtain ⟨_, _, l3, _⟩ := findWay_some_line hf
    simp [l3]

theorem peerWritebacks_cons (c : Cache) (cs : List Cache) (a : Nat) (req : Int) :
    peerWritebacks (c :: cs) a req =
      peerWritebacks cs a req +
        (if c.cacheId ≠ req ∧ c.snoopState a = CacheState.MODIFIED then 1 else 0) := by
  unfold peerWritebacks
  rw [List.countP_cons]
  simp

theorem peerHolds_cons (c : Cache) (cs : List Cache) (a : Nat) (req : Int) :
    peerHolds (c :: cs) a req =
      (decide (c.cacheId ≠ req ∧ c.snoopState a ≠ CacheState.INVALID) || peerHolds cs a req) := by
  unfold peerHolds
  rw [List.any_cons]

theorem snoopLoop_bus_nodata (a : Nat) (w : Bool) (req : Int) (bs : Nat) (cs : List Cache) :
    ∀ (i0 : Nat) (bus : Bus) (dfo dr : Bool), bus.isBusy = true →
      (∀ (j : Nat) (c : Cache), cs[j]? = some c → c.cacheId = ((i0 + j : Nat) : Int)) →
      (∀ c ∈ cs, c.blockSize = bs) →
      (w = true ∨ dr = false) →
      (snoopLoop a w req i0 cs bus dfo dr).2.1 =
        bus.plus (100 * (peerWritebacks cs a req : Int)) (bs * peerWritebacks cs a req) := by
  induction cs with
  | nil => intro i0 bus dfo dr _ _ _ _; simp [snoopLoop, peerWritebacks, plus_zero]
  | cons c cs ih =>
    intro i0 bus dfo dr hb hid hbs hw
    have hidc : c.cacheId = (i0 : Int) := by simpa using hid 0 c (by simp)
    have hid' : ∀ (j : Nat) (c' : Cache), cs[j]? = some c' →
        c'.cacheId = ((i0 + 1 + j : Nat) : Int) := by
      intro j c' hj
      rw [hid (j + 1) c' (by simpa using hj)]
      congr 1; omega
    have hbs' : ∀ c' ∈ cs, c'.blockSize = bs := fun c' h => hbs c' (List.mem_cons_of_mem _ h)
    have hbsc : c.blockSize = bs := hbs c (List.mem_cons_self _ _)
    unfold snoopLoop
    by_cases h : (i0 : Int) ≠ req
    · rw [if_pos h]
      simp only []
      have hreq : req ≠ c.cacheId := by rw [hidc]; exact fun e => h e.symm
      have hdr' : (if w = true then false else dr) = false := by
        rcases hw with hw | hw
        · simp [hw]
        · simp [hw]
      rw [hdr']
      rw [ih (i0 + 1) _ _ _ (by rw [pbt_bus c bus a w req false hb hreq, plus_isBusy]; exact hb)
        hid' hbs' (Or.inr (by simp))]
      rw [pbt_bus c bus a w req false hb hreq, plus_plus, peerWritebacks_cons, hbsc]
      have hne : c.cacheId ≠ req := fun e => hreq e.symm
      by_cases hm : c.snoopState a = CacheState.MODIFIED
      · simp only [hm, hne, ne_eq, not_false_eq_true, and_self, if_true]
        congr 1
        · simp; ring
        · ring
      · simp only [hm, hne, ne_eq, and_false, if_false]
        congr 1
        · simp
        · ring
    · rw [if_neg h]
      simp only []
      rw [ih (i0 + 1) bus dfo dr hb hid' hbs' hw, peerWritebacks_cons]
      have he : c.cacheId = req := by rw [hidc]; simpa using h
      simp [he]

theorem snoopLoop_bus_data (a : Nat) (req : Int) (bs : Nat) (cs : List Cache) :
    ∀ (i0 : Nat) (bus : Bus), bus.isBusy = true →
      (∀ (j : Nat) (c : Cache), cs[j]? = some c → c.cacheId = ((i0 + j : Nat) : Int)) →
      (∀ c ∈ cs, c.blockSize = bs) →
      (snoopLoop a false req i0 cs bus false true).2.1 =
        bus.plus (100 * (peerWritebacks cs a req : Int) +
            (if peerHolds cs a req = true then 2 * ((bs / 4 : Nat) : Int) else 0))
          (bs * peerWritebacks cs a req) := by
  induction cs with
  | nil => intro i0 bus _ _ _; simp [snoopLoop, peerWritebacks, peerHolds, plus_zero]
  | cons c cs ih =>
    intro i0 bus hb hid hbs
    have hidc : c.cacheId = (i0 : Int) := by simpa using hid 0 c (by simp)
    have hid' : ∀ (j : Nat) (c' : Cache), cs[j]? = some c' →
        c'.cacheId = ((i0 + 1 + j : Nat) : Int) := by
      intro j c' hj
      rw [hid (j + 1) c' (by simpa using hj)]
      congr 1; omega
    have hbs' : ∀ c' ∈ cs, c'.blockSize = bs := fun c' h => hbs c' (List.mem_cons_of_mem _ h)
    have hbsc : c.blockSize = bs := hbs c (List.mem_cons_self _ _)
    unfold snoopLoop
    by_cases h : (i0 : Int) ≠ req
    · rw [if_pos h]
      simp only [Bool.false_eq_true, if_false, Bool.false_or]
      have hreq : req ≠ c.cacheId := by rw [hidc]; exact fun e => h e.symm
      have hne : c.cacheId ≠ req := fun e => hreq e.symm
      have hb1 : (c.processBusTransaction bus a false req true).2.1.isBusy = true := by
        rw [pbt_bus c bus a false req true hb hreq, plus_isBusy]; exact hb
      by_cases hh : c.snoopState a ≠ CacheState.INVALID
      · have hflag : (c.processBusTransaction bus a false req true).2.2 = true := by
          rw [pbt_flag]; exact ⟨hreq, (snoopState_ne_invalid_iff c a).mp hh⟩
        rw [hflag]
        simp only [if_true]
        rw [snoopLoop_bus_nodata a false req bs cs (i0 + 1) _ true false hb1 hid' hbs'
          (Or.inr rfl)]
        rw [pbt_bus c bus a false req true hb hreq, plus_plus, peerWritebacks_cons,
          peerHolds_cons, hbsc]
        by_cases hm : c.snoopState a = CacheState.MODIFIED
        · simp only [hm, hne, hh, ne_eq, not_false_eq_true, and_self, if_true, decide_True,
            Bool.true_or]
          congr 1
          · simp; ring
          · ring
        · simp only [hm, hne, hh, ne_eq, not_false_eq_true, and_self, and_false, if_false,
            if_true, decide_True, Bool.true_or]
          congr 1
          · simp; ring
          · ring
      · have hflag : (c.processBusTransaction bus a false req true).2.2 = false := by
          rw [← Bool.not_eq_true, pbt_flag]
          exact fun hc => hh ((snoopState_ne_invalid_iff c a).mpr hc.2)
        rw [hflag]
        simp only [Bool.false_eq_true, if_false]
        rw [ih (i0 + 1) _ hb1 hid' hbs']
        rw [pbt_bus c bus a false req true hb hreq, plus_plus, peerWritebacks_cons,
          peerHolds_cons, hbsc]
        have hi : c.snoopState a = CacheState.INVALID := by simpa using hh
        simp only [hi, ne_eq, not_true_eq_false, and_false, if_false, decide_False,
          Bool.false_or, reduceCtorEq]
        congr 1
        · simp
        · ring
    · rw [if_neg h]
      simp only []
      rw [ih (i0 + 1) bus hb hid' hbs', peerWritebacks_cons, peerHolds_cons]
      have he : c.cacheId = req := by rw [hidc]; simpa using h
      simp [he]


theorem countP_set_irrelevant {α : Type} (p : α → Bool) (x : α) (hx : p x = false) :
    ∀ (l : List α) (k : Nat), (∀ c, l[k]? = some c → p c = false) →
      (l.set k x).countP p = l.countP p := by
  intro l
  induction l with
  | nil => intro k _; rfl
  | cons y ys ih =>
    intro k h
    cases k with
    | zero =>
      have hy : p y = false := h y (by simp)
      simp [List.countP_cons, hx, hy]
    | succ k =>
      simp only [List.set_cons_succ, List.countP_cons]
      rw [ih k (fun c hc => h c (by simpa using hc))]

theorem any_set_irrelevant {α : Type} (p : α → Bool) (x : α) (hx : p x = false) :
    ∀ (l : List α) (k : Nat), (∀ c, l[k]? = some c → p c = false) →
      (l.set k x).any p = l.any p := by
  intro l
  induction l with
  | nil => intro k _; rfl
  | cons y ys ih =>
    intro k h
    cases k with
    | zero =>
      have hy : p y = false := h y (by simp)
      simp [hx, hy]
    | succ k =>
      simp only [List.set_cons_succ, List.any_cons]
      rw [ih k (fun c hc => h c (by simpa using hc))]

theorem peerWritebacks_set (caches : List Cache) (k : Nat) (x : Cache) (a : Nat)
    (hids : ∀ (j : Nat) (cj : Cache), caches[j]? = some cj → cj.cacheId = (j : Int))
    (hx : x.cacheId = (k : Int)) :
    peerWritebacks (caches.set k x) a (k : Int) = peerWritebacks caches a (k : Int) := by
  unfold peerWritebacks
  apply countP_set_irrelevant
  · simp [hx]
  · intro c hc; simp [hids k c hc]

theorem peerHolds_set (caches : List Cache) (k : Nat) (x : Cache) (a : Nat)
    (hids : ∀ (j : Nat) (cj : Cache), caches[j]? = some cj → cj.cacheId = (j : Int))
    (hx : x.cacheId = (k : Int)) :
    peerHolds (caches.set k x) a (k : Int) = peerHolds caches a (k : Int) := by
  unfold peerHolds
  apply any_set_irrelevant
  · simp [hx]
  · intro c hc; simp [hids k c hc]

theorem peerHolds_iff (caches : List Cache) (k : Nat) (a : Nat)
    (hids : ∀ (j : Nat) (cj : Cache), caches[j]? = some cj → cj.cacheId = (j : Int)) :
    peerHolds caches a (k : Int) = true ↔
      ∃ j cj, j ≠ k ∧ caches[j]? = some cj ∧ cj.holds (cj.getSetIndex a) (cj.getTag a) := by
  unfold peerHolds
  rw [List.any_eq_true]
  constructor
  · rintro ⟨c, hc, hp⟩
    obtain ⟨j, hj⟩ := List.mem_iff_getElem?.mp hc
    simp only [decide_eq_true_eq] at hp
    refine ⟨j, c, ?_, hj, (snoopState_ne_invalid_iff c a).mp hp.2⟩
    intro e; apply hp.1; rw [hids j c hj, e]
  · rintro ⟨j, cj, hjk, hj, hh⟩
    refine ⟨cj, List.mem_iff_getElem?.mpr ⟨j, hj⟩, ?_⟩
    simp only [decide_eq_true_eq]
    refine ⟨?_, (snoopState_ne_invalid_iff cj a).mpr hh⟩
    rw [hids j cj hj]; simp only [ne_eq, Nat.cast_inj]; exact hjk

theorem broadcast_bus (caches : List Cache) (k : Nat) (x : Cache) (bus : Bus)
    (ty : BusTransactionType) (a : Nat) (bs : Nat)
    (hnr : ¬(bus.isBusy = true ∧ bus.currentRequestingCore ≠ (k : Int)))
    (hids : ∀ (j : Nat) (cj : Cache), caches[j]? = some cj → cj.cacheId = (j : Int))
    (hbs : ∀ c ∈ caches, c.blockSize = bs)
    (hx : x.cacheId = (k : Int)) (hxb : x.blockSize = bs) :
    (Bus.broadcastTransaction (caches.set k x) bus ty a (k : Int)).2.1 =
      ({ isBusy := true, remainingCycles := bus.remainingCycles,
         currentRequestingCore := (k : Int), stats := bus.stats.count ty } : Bus).plus
        (100 * (peerWritebacks caches a (k : Int) : Int) +
          (if ty = BusTransactionType.BusRd ∧ peerHolds caches a (k : Int) = true
            then 2 * ((bs / 4 : Nat) : Int) else 0))
        (bs * peerWritebacks caches a (k : Int)) := by
  rw [broadcast_eq_loop _ _ _ _ _ hnr]
  have hids' : ∀ (j : Nat) (c : Cache), (caches.set k x)[j]? = some c →
      c.cacheId = ((0 + j : Nat) : Int) := by
    intro j c hj
    rw [List.getElem?_set] at hj
    rw [Nat.zero_add]
    by_cases e : k = j
    · subst e
      by_cases hl : k < caches.length
      · simp [hl] at hj; rw [← hj]; exact hx
      · simp [hl] at hj
    · simp only [e, if_false] at hj
      exact hids j c hj
  have hbs' : ∀ c ∈ caches.set k x, c.blockSize = bs := by
    intro c hc
    rcases List.mem_or_eq_of_mem_set hc with h | h
    · exact hbs c h
    · rw [h]; exact hxb
  cases ty with
  | BusRd =>
    rw [show BusTransactionType.BusRd.isWrite = false from rfl]
    rw [snoopLoop_bus_data a (k : Int) bs _ 0 _ rfl hids' hbs',
      peerWritebacks_set caches k x a hids hx, peerHolds_set caches k x a hids hx]
    simp
  | BusRdX =>
    rw [show BusTransactionType.BusRdX.isWrite = true from rfl]
    rw [snoopLoop_bus_nodata a true (k : Int) bs _ 0 _ false true rfl hids' hbs' (Or.inl rfl),
      peerWritebacks_set caches k x a hids hx]
    simp
  | BusUpgr =>
    rw [show BusTransactionType.BusUpgr.isWrite = true from rfl]
    rw [snoopLoop_bus_nodata a true (k : Int) bs _ 0 _ false true rfl hids' hbs' (Or.inl rfl),
      peerWritebacks_set caches k x a hids hx]
    simp


/-! ### Exact effect of the miss and upgrade paths on the requester and the bus -/

theorem evictVictim_stats (c : Cache) (bus : Bus) (si v : Nat) :
    (c.evictVictim bus si v).1.stats =
      { c.stats with
        writebackCount := c.stats.writebackCount +
          (if (c.line si v).state = CacheState.MODIFIED then 1 else 0),
        busTrafficBytes := c.stats.busTrafficBytes +
          (if (c.line si v).state = CacheState.MODIFIED then c.blockSize else 0),
        evictionCount := c.stats.evictionCount +
          (if (c.line si v).state ≠ CacheState.INVALID then 1 else 0) } := by
  unfold Cache.evictVictim
  by_cases hm : (c.line si v).state = CacheState.MODIFIED
  · have h2 : ((c.writeBackToMemory bus si v).1.line si v).state ≠ CacheState.INVALID := by
      rw [(writeBack_line c bus si v).2.1, hm]; simp
    simp only [hm, if_true]
    rw [if_pos h2]
    simp [Cache.writeBackToMemory, Cache.modifyLine]
  · simp only [hm, if_false]
    split <;> simp

theorem evictVictim_bus_idle (c : Cache) (bus : Bus) (si v : Nat) (hb : bus.isBusy = false) :
    (c.evictVictim bus si v).2.remainingCycles = bus.remainingCycles +
        (if (c.line si v).state = CacheState.MODIFIED then 100 else 0) ∧
    (c.evictVictim bus si v).2.stats = { bus.stats with
      totalBusTraffic := bus.stats.totalBusTraffic +
        (if (c.line si v).state = CacheState.MODIFIED then c.blockSize else 0) } := by
  rw [evictVictim_bus]
  by_cases hm : (c.line si v).state = CacheState.MODIFIED
  · simp [hm, Bus.addRemainingCycles, Bus.addTraffic, hb]
  · simp [hm]

theorem broadcast_flag (caches : List Cache) (k : Nat) (x : Cache) (bus : Bus)
    (ty : BusTransactionType) (a : Nat)
    (hnr : ¬(bus.isBusy = true ∧ bus.currentRequestingCore ≠ (k : Int)))
    (hids : ∀ (j : Nat) (cj : Cache), caches[j]? = some cj → cj.cacheId = (j : Int))
    (hk : k < caches.length) :
    (Bus.broadcastTransaction (caches.set k x) bus ty a (k : Int)).2.2 =
      peerHolds caches a (k : Int) := by
  obtain ⟨_, _, _, b4⟩ := broadcast_caches caches k x bus ty a hnr hids hk
  rw [Bool.eq_iff_iff, b4, peerHolds_iff caches k a hids]

theorem readMiss_requester (sys : System) (k : Nat) (c : Cache) (a : Nat)
    (hc : sys.caches[k]? = some c)
    (hids : ∀ (j : Nat) (cj : Cache), sys.caches[j]? = some cj → cj.cacheId = (j : Int))
    (hb : sys.bus.isBusy = false) :
    ∃ c', (Cache.readMiss sys k c a (k : Int)).caches[k]? = some c' ∧
      (c.modifyLine (c.getSetIndex a) (c.findLRULine (c.getSetIndex a))
        (fun _ => { tag := c.getTag a,
                    state := if peerHolds sys.caches a (k : Int) = true
                      then CacheState.SHARED else CacheState.EXCLUSIVE,
                    dirty := false, lastAccessTime := sys.globalCycle })).sameLines c' ∧
      c'.stats = { c.stats with
        missCount := c.stats.missCount + 1,
        writebackCount := c.stats.writebackCount +
          (if (c.line (c.getSetIndex a) (c.findLRULine (c.getSetIndex a))).state =
              CacheState.MODIFIED then 1 else 0),
        busTrafficBytes := c.stats.busTrafficBytes +
          (if (c.line (c.getSetIndex a) (c.findLRULine (c.getSetIndex a))).state =
              CacheState.MODIFIED then c.blockSize else 0) + c.blockSize,
        evictionCount := c.stats.evictionCount +
          (if (c.line (c.getSetIndex a) (c.findLRULine (c.getSetIndex a))).state ≠
              CacheState.INVALID then 1 else 0) } := by
  have hk := lt_of_getElem? hc
  have hidc : c.cacheId = (k : Int) := hids k c hc
  have hnr : ¬((c.countMiss.evictVictim sys.bus (c.getSetIndex a)
        (c.findLRULine (c.getSetIndex a))).2.isBusy = true ∧
      (c.countMiss.evictVictim sys.bus (c.getSetIndex a)
        (c.findLRULine (c.getSetIndex a))).2.currentRequestingCore ≠ (k : Int)) := by
    rw [← hidc]
    exact evictVictim_not_rejected c.countMiss sys.bus _ _ hb
  obtain ⟨b1, b2, _, _⟩ := broadcast_caches sys.caches k
    (c.countMiss.evictVictim sys.bus (c.getSetIndex a) (c.findLRULine (c.getSetIndex a))).1
    (c.countMiss.evictVictim sys.bus (c.getSetIndex a) (c.findLRULine (c.getSetIndex a))).2
    BusTransactionType.BusRd a hnr hids hk
  have hfl := broadcast_flag sys.caches k
    (c.countMiss.evictVictim sys.bus (c.getSetIndex a) (c.findLRULine (c.getSetIndex a))).1
    (c.countMiss.evictVictim sys.bus (c.getSetIndex a) (c.findLRULine (c.getSetIndex a))).2
    BusTransactionType.BusRd a hnr hids hk
  have hgd := getD_of_getElem? (d := (c.countMiss.evictVictim sys.bus (c.getSetIndex a)
      (c.findLRULine (c.getSetIndex a))).1) b2
  unfold Cache.readMiss
  simp only [findLRULine_countMiss, hgd, hfl]
  refine ⟨(c.countMiss.evictVictim sys.bus (c.getSetIndex a)
      (c.findLRULine (c.getSetIndex a))).1.countTraffic.modifyLine (c.getSetIndex a)
      (c.findLRULine (c.getSetIndex a))
      (fun _ => { tag := c.getTag a,
                  state := (if peerHolds sys.caches a (k : Int) = true
                    then CacheState.SHARED else CacheState.EXCLUSIVE),
                  dirty := false, lastAccessTime := sys.globalCycle }), ?_, ?_, ?_⟩
  · rw [List.getElem?_set]; simp only [if_true, b1, hk]
  · exact sameLines_trans (sameLines_modifyLine (sameLines_stats c _) _ _ _ _ rfl)
      (sameLines_trans (evictVictim_fill c.countMiss sys.bus (c.getSetIndex a)
          (c.findLRULine (c.getSetIndex a)) _)
        (sameLines_modifyLine (sameLines_stats _ _) _ _ _ _ rfl))
  · show ((c.countMiss.evictVictim sys.bus (c.getSetIndex a)
        (c.findLRULine (c.getSetIndex a))).1.countTraffic).stats = _
    simp only [Cache.countTraffic, evictVictim_stats, (evictVictim_static _ _ _ _).2]
    simp [Cache.countMiss, Cache.line, Cache.setLines]

theorem bus_after_miss (B0 evb : Bus) (vc : Int) (vb : Nat)
    (he1 : evb.remainingCycles = B0.remainingCycles + vc)
    (he2 : evb.stats = { B0.stats with totalBusTraffic := B0.stats.totalBusTraffic + vb })
    (ty : BusTransactionType) (id : Int) (X extra : Int) (Y bs : Nat) :
    ((evb.taken ty id).plus X Y).plus extra bs =
      (B0.taken ty id).plus (vc + X + extra) (vb + Y + bs) := by
  unfold Bus.taken
  rw [he1, he2, plus_plus]
  cases ty <;> simp [Bus.plus, BusStats.count] <;> constructor <;> ring

theorem readMiss_bus {s E b : Nat} (sys : System) (k : Nat) (c : Cache) (a : Nat)
    (hinv : Inv s E b sys)
    (hc : sys.caches[k]? = some c)
    (hb : sys.bus.isBusy = false) :
    (Cache.readMiss sys k c a (k : Int)).bus =
      (sys.bus.taken BusTransactionType.BusRd (k : Int)).plus
        ((if (c.line (c.getSetIndex a) (c.findLRULine (c.getSetIndex a))).state =
              CacheState.MODIFIED then 100 else 0) +
          (100 * (peerWritebacks sys.caches a (k : Int) : Int) +
            (if peerHolds sys.caches a (k : Int) = true
              then 2 * ((2 ^ b / 4 : Nat) : Int) else 0)) +
          (if peerHolds sys.caches a (k : Int) = true then 0 else 100))
        ((if (c.line (c.getSetIndex a) (c.findLRULine (c.getSetIndex a))).state =
              CacheState.MODIFIED then 2 ^ b else 0) +
          2 ^ b * peerWritebacks sys.caches a (k : Int) + 2 ^ b) := by
  have hk := lt_of_getElem? hc
  have hidc : c.cacheId = (k : Int) := hinv.ids k c hc
  have hbsc : c.blockSize = 2 ^ b := (hinv.shape k c hc).2.2.1
  have hbs : ∀ c' ∈ sys.caches, c'.blockSize = 2 ^ b := by
    intro c' hc'
    obtain ⟨j, hj⟩ := List.mem_iff_getElem?.mp hc'
    exact (hinv.shape j c' hj).2.2.1
  have hnr : ¬((c.countMiss.evictVictim sys.bus (c.getSetIndex a)
        (c.findLRULine (c.getSetIndex a))).2.isBusy = true ∧
      (c.countMiss.evictVictim sys.bus (c.getSetIndex a)
        (c.findLRULine (c.getSetIndex a))).2.currentRequestingCore ≠ (k : Int)) := by
    rw [← hidc]
    exact evictVictim_not_rejected c.countMiss sys.bus _ _ hb
  obtain ⟨b1, b2, _, _⟩ := broadcast_caches sys.caches k
    (c.countMiss.evictVictim sys.bus (c.getSetIndex a) (c.findLRULine (c.getSetIndex a))).1
    (c.countMiss.evictVictim sys.bus (c.getSetIndex a) (c.findLRULine (c.getSetIndex a))).2
    BusTransactionType.BusRd a hnr hinv.ids hk
  have hfl := broadcast_flag sys.caches k
    (c.countMiss.evictVictim sys.bus (c.getSetIndex a) (c.findLRULine (c.getSetIndex a))).1
    (c.countMiss.evictVictim sys.bus (c.getSetIndex a) (c.findLRULine (c.getSetIndex a))).2
    BusTransactionType.BusRd a hnr hinv.ids hk
  have hbus := broadcast_bus sys.caches k
    (c.countMiss.evictVictim sys.bus (c.getSetIndex a) (c.findLRULine (c.getSetIndex a))).1
    (c.countMiss.evictVictim sys.bus (c.getSetIndex a) (c.findLRULine (c.getSetIndex a))).2
    BusTransactionType.BusRd a (2 ^ b) hnr hinv.ids hbs
    ((evictVictim_static _ _ _ _).1.trans hidc) ((evictVictim_static _ _ _ _).2.trans hbsc)
  have hgd := getD_of_getElem? (d := (c.countMiss.evictVictim sys.bus (c.getSetIndex a)
      (c.findLRULine (c.getSetIndex a))).1) b2
  obtain ⟨e1, e2⟩ := evictVictim_bus_idle c.countMiss sys.bus (c.getSetIndex a)
    (c.findLRULine (c.getSetIndex a)) hb
  have hbs2 : (c.countMiss.evictVictim sys.bus (c.getSetIndex a)
      (c.findLRULine (c.getSetIndex a))).1.blockSize = 2 ^ b :=
    (evictVictim_static _ _ _ _).2.trans hbsc
  have hcl : c.countMiss.line (c.getSetIndex a) (c.findLRULine (c.getSetIndex a)) =
      c.line (c.getSetIndex a) (c.findLRULine (c.getSetIndex a)) := rfl
  have hcm : c.countMiss.blockSize = 2 ^ b := hbsc
  rw [hcl] at e1 e2
  rw [hcm] at e2
  have hfin : (Cache.readMiss sys k c a (k : Int)).bus =
      (((c.countMiss.evictVictim sys.bus (c.getSetIndex a)
            (c.findLRULine (c.getSetIndex a))).2.taken BusTransactionType.BusRd (k : Int)).plus
          (100 * (peerWritebacks sys.caches a (k : Int) : Int) +
            (if peerHolds sys.caches a (k : Int) = true
              then 2 * ((2 ^ b / 4 : Nat) : Int) else 0))
          (2 ^ b * peerWritebacks sys.caches a (k : Int))).plus
        (if peerHolds sys.caches a (k : Int) = true then 0 else 100) (2 ^ b) := by
    unfold Cache.readMiss Bus.taken
    simp only [findLRULine_countMiss, hgd, hfl, hbus, hbs2]
    by_cases hp : peerHolds sys.caches a (k : Int) = true
    · simp only [hp, if_true, and_true]
      rw [addTraffic_eq]
    · simp only [hp, if_false, and_false]
      rw [addRemainingCycles_busy _ _ _ (by rw [plus_isBusy]), addTraffic_eq]
      simp only [plus_plus]
      simp
      rw [plus_plus]
      simp
  rw [hfin]
  exact bus_after_miss sys.bus _ _ _ e1 e2 _ _ _ _ _ _


theorem modifyLine_stats (c : Cache) (si li : Nat) (f : CacheLine → CacheLine) :
    (c.modifyLine si li f).stats = c.stats := rfl

theorem countTraffic_stats (c : Cache) :
    c.countTraffic.stats =
      { c.stats with busTrafficBytes := c.stats.busTrafficBytes + c.blockSize } := rfl

theorem countTraffic_blockSize (c : Cache) : c.countTraffic.blockSize = c.blockSize := rfl

theorem set_getElem?_self {α : Type} {l : List α} {k : Nat} (x : α) (h : k < l.length) :
    (l.set k x)[k]? = some x := by
  rw [List.getElem?_set]; simp [h]

theorem miss_stats (c : Cache) (bus : Bus) (si v : Nat) :
    (c.countMiss.evictVictim bus si v).1.stats =
      { c.stats with
        missCount := c.stats.missCount + 1,
        writebackCount := c.stats.writebackCount +
          (if (c.line si v).state = CacheState.MODIFIED then 1 else 0),
        busTrafficBytes := c.stats.busTrafficBytes +
          (if (c.line si v).state = CacheState.MODIFIED then c.blockSize else 0),
        evictionCount := c.stats.evictionCount +
          (if (c.line si v).state ≠ CacheState.INVALID then 1 else 0) } := by
  rw [evictVictim_stats]; rfl

theorem writeMiss_requester (sys : System) (k : Nat) (c : Cache) (a : Nat)
    (hc : sys.caches[k]? = some c)
    (hids : ∀ (j : Nat) (cj : Cache), sys.caches[j]? = some cj → cj.cacheId = (j : Int))
    (hb : sys.bus.isBusy = false) :
    ∃ c', (Cache.writeMiss sys k c a (k : Int)).caches[k]? = some c' ∧
      (c.modifyLine (c.getSetIndex a) (c.findLRULine (c.getSetIndex a))
        (fun _ => { tag := c.getTag a, state := CacheState.MODIFIED, dirty := true,
                    lastAccessTime := sys.globalCycle })).sameLines c' ∧
      c'.stats = { c.stats with
        missCount := c.stats.missCount + 1,
        writebackCount := c.stats.writebackCount +
          (if (c.line (c.getSetIndex a) (c.findLRULine (c.getSetIndex a))).state =
              CacheState.MODIFIED then 1 else 0),
        busTrafficBytes := c.stats.busTrafficBytes +
          (if (c.line (c.getSetIndex a) (c.findLRULine (c.getSetIndex a))).state =
              CacheState.MODIFIED then c.blockSize else 0) + c.blockSize,
        evictionCount := c.stats.evictionCount +
          (if (c.line (c.getSetIndex a) (c.findLRULine (c.getSetIndex a))).state ≠
              CacheState.INVALID then 1 else 0),
        invalidationCount := c.stats.invalidationCount +
          (if peerHolds sys.caches a (k : Int) = true then 1 else 0) } := by
  have hk := lt_of_getElem? hc
  have hidc : c.cacheId = (k : Int) := hids k c hc
  have hnr : ¬((c.countMiss.evictVictim sys.bus (c.getSetIndex a)
        (c.findLRULine (c.getSetIndex a))).2.isBusy = true ∧
      (c.countMiss.evictVictim sys.bus (c.getSetIndex a)
        (c.findLRULine (c.getSetIndex a))).2.currentRequestingCore ≠ (k : Int)) := by
    rw [← hidc]
    exact evictVictim_not_rejected c.countMiss sys.bus _ _ hb
  obtain ⟨b1, b2, _, _⟩ := broadcast_caches sys.caches k
    (c.countMiss.evictVictim sys.bus (c.getSetIndex a) (c.findLRULine (c.getSetIndex a))).1
    (c.countMiss.evictVictim sys.bus (c.getSetIndex a) (c.findLRULine (c.getSetIndex a))).2
    BusTransactionType.BusRdX a hnr hids hk
  have hfl := broadcast_flag sys.caches k
    (c.countMiss.evictVictim sys.bus (c.getSetIndex a) (c.findLRULine (c.getSetIndex a))).1
    (c.countMiss.evictVictim sys.bus (c.getSetIndex a) (c.findLRULine (c.getSetIndex a))).2
    BusTransactionType.BusRdX a hnr hids hk
  have hgd := getD_of_getElem? (d := (c.countMiss.evictVictim sys.bus (c.getSetIndex a)
      (c.findLRULine (c.getSetIndex a))).1) b2
  unfold Cache.writeMiss
  simp only [findLRULine_countMiss, hgd, hfl]
  refine ⟨_, set_getElem?_self _ (by rw [b1]; exact hk), ?_, ?_⟩
  · refine sameLines_trans (sameLines_modifyLine (sameLines_stats c _) _ _ _ _ rfl)
      (sameLines_trans (evictVictim_fill c.countMiss sys.bus (c.getSetIndex a)
          (c.findLRULine (c.getSetIndex a)) _) ?_)
    split
    · exact sameLines_modifyLine (sameLines_stats _ _) _ _ _ _ rfl
    · exact sameLines_modifyLine (sameLines_stats _ _) _ _ _ _ rfl
  · have hbs := (evictVictim_static c.countMiss sys.bus (c.getSetIndex a)
      (c.findLRULine (c.getSetIndex a))).2
    have hst := miss_stats c sys.bus (c.getSetIndex a) (c.findLRULine (c.getSetIndex a))
    rw [modifyLine_stats, countTraffic_stats]
    by_cases hp : peerHolds sys.caches a (k : Int) = true
    · simp only [hp, if_true, hst, hbs]
      rfl
    · simp only [hp, Bool.false_eq_true, if_false]
      rw [hst, hbs]
      simp [Cache.countMiss]

theorem writeMiss_bus {s E b : Nat} (sys : System) (k : Nat) (c : Cache) (a : Nat)
    (hinv : Inv s E b sys)
    (hc : sys.caches[k]? = some c)
    (hb : sys.bus.isBusy = false) :
    (Cache.writeMiss sys k c a (k : Int)).bus =
      (sys.bus.taken BusTransactionType.BusRdX (k : Int)).plus
        ((if (c.line (c.getSetIndex a) (c.findLRULine (c.getSetIndex a))).state =
              CacheState.MODIFIED then 100 else 0) +
          (100 * (peerWritebacks sys.caches a (k : Int) : Int) + 0) + 100)
        ((if (c.line (c.getSetIndex a) (c.findLRULine (c.getSetIndex a))).state =
              CacheState.MODIFIED then 2 ^ b else 0) +
          2 ^ b * peerWritebacks sys.caches a (k : Int) + 2 ^ b) := by
  have hk := lt_of_getElem? hc
  have hidc : c.cacheId = (k : Int) := hinv.ids k c hc
  have hbsc : c.blockSize = 2 ^ b := (hinv.shape k c hc).2.2.1
  have hbs : ∀ c' ∈ sys.caches, c'.blockSize = 2 ^ b := by
    intro c' hc'
    obtain ⟨j, hj⟩ := List.mem_iff_getElem?.mp hc'
    exact (hinv.shape j c' hj).2.2.1
  have hnr : ¬((c.countMiss.evictVictim sys.bus (c.getSetIndex a)
        (c.findLRULine (c.getSetIndex a))).2.isBusy = true ∧
      (c.countMiss.evictVictim sys.bus (c.getSetIndex a)
        (c.findLRULine (c.getSetIndex a))).2.currentRequestingCore ≠ (k : Int)) := by
    rw [← hidc]
    exact evictVictim_not_rejected c.countMiss sys.bus _ _ hb
  obtain ⟨b1, b2, _, _⟩ := broadcast_caches sys.caches k
    (c.countMiss.evictVictim sys.bus (c.getSetIndex a) (c.findLRULine (c.getSetIndex a))).1
    (c.countMiss.evictVictim sys.bus (c.getSetIndex a) (c.findLRULine (c.getSetIndex a))).2
    BusTransactionType.BusRdX a hnr hinv.ids hk
  have hbus := broadcast_bus sys.caches k
    (c.countMiss.evictVictim sys.bus (c.getSetIndex a) (c.findLRULine (c.getSetIndex a))).1
    (c.countMiss.evictVictim sys.bus (c.getSetIndex a) (c.findLRULine (c.getSetIndex a))).2
    BusTransactionType.BusRdX a (2 ^ b) hnr hinv.ids hbs
    ((evictVictim_static _ _ _ _).1.trans hidc) ((evictVictim_static _ _ _ _).2.trans hbsc)
  have hgd := getD_of_getElem? (d := (c.countMiss.evictVictim sys.bus (c.getSetIndex a)
      (c.findLRULine (c.getSetIndex a))).1) b2
  obtain ⟨e1, e2⟩ := evictVictim_bus_idle c.countMiss sys.bus (c.getSetIndex a)
    (c.findLRULine (c.getSetIndex a)) hb
  have hbs2 : (c.countMiss.evictVictim sys.bus (c.getSetIndex a)
      (c.findLRULine (c.getSetIndex a))).1.blockSize = 2 ^ b :=
    (evictVictim_static _ _ _ _).2.trans hbsc
  have hcl : c.countMiss.line (c.getSetIndex a) (c.findLRULine (c.getSetIndex a)) =
      c.line (c.getSetIndex a) (c.findLRULine (c.getSetIndex a)) := rfl
  have hcm : c.countMiss.blockSize = 2 ^ b := hbsc
  rw [hcl] at e1 e2
  rw [hcm] at e2
  have hfin : (Cache.writeMiss sys k c a (k : Int)).bus =
      (((c.countMiss.evictVictim sys.bus (c.getSetIndex a)
            (c.findLRULine (c.getSetIndex a))).2.taken BusTransactionType.BusRdX (k : Int)).plus
          (100 * (peerWritebacks sys.caches a (k : Int) : Int) + 0)
          (2 ^ b * peerWritebacks sys.caches a (k : Int))).plus 100 (2 ^ b) := by
    unfold Cache.writeMiss Bus.taken
    simp only [findLRULine_countMiss, hgd, hbus, hbs2]
    rw [addRemainingCycles_busy _ _ _ (by rw [plus_isBusy]), addTraffic_eq]
    simp only [plus_plus]
    simp
  rw [hfin]
  exact bus_after_miss sys.bus _ _ _ e1 e2 _ _ _ _ _ _

theorem upgrade_requester (sys : System) (k : Nat) (c : Cache) (a : Nat) (i : Nat)
    (hc : sys.caches[k]? = some c)
    (hids : ∀ (j : Nat) (cj : Cache), sys.caches[j]? = some cj → cj.cacheId = (j : Int))
    (h : (c.line (c.getSetIndex a) i).state ≠ CacheState.MODIFIED)
    (hb : sys.bus.isBusy = false) :
    (Cache.writeHit sys k c a (k : Int) i).2 = 0 ∧
    ∃ c', (Cache.writeHit sys k c a (k : Int) i).1.caches[k]? = some c' ∧
      (c.modifyLine (c.getSetIndex a) i (fun l =>
          { l with state := CacheState.MODIFIED, lastAccessTime := sys.globalCycle,
                   dirty := true })).sameLines c' ∧
      c'.stats = { c.stats with
        hitCount := c.stats.hitCount + 1,
        invalidationCount := c.stats.invalidationCount +
          (if (c.line (c.getSetIndex a) i).state = CacheState.SHARED then 1 else 0) } := by
  have hk := lt_of_getElem? hc
  have hnr : ¬(sys.bus.isBusy = true ∧ sys.bus.currentRequestingCore ≠ (k : Int)) := by
    simp [hb]
  obtain ⟨b1, b2, _, _⟩ := broadcast_caches sys.caches k
    (if (c.line (c.getSetIndex a) i).state = CacheState.SHARED
             then { c with stats := { c.stats with
                      invalidationCount := c.stats.invalidationCount + 1 } }
             else c) sys.bus BusTransactionType.BusUpgr a hnr hids hk
  have hgd := getD_of_getElem? (d := (if (c.line (c.getSetIndex a) i).state = CacheState.SHARED
             then { c with stats := { c.stats with
                      invalidationCount := c.stats.invalidationCount + 1 } }
             else c)) b2
  rw [writeHit_upgrade sys k c a _ i h hb]
  refine ⟨rfl, ?_⟩
  simp only [hgd]
  refine ⟨_, set_getElem?_self _ (by rw [b1]; exact hk), ?_, ?_⟩
  · split
    · exact sameLines_modifyLine (sameLines_stats _ _) _ _ _ _ rfl
    · exact sameLines_modifyLine (sameLines_stats _ _) _ _ _ _ rfl
  · split
    · simp [Cache.countHit, Cache.modifyLine]
    · simp [Cache.countHit, Cache.modifyLine]

theorem upgrade_bus {s E b : Nat} (sys : System) (k : Nat) (c : Cache) (a : Nat) (i : Nat)
    (hinv : Inv s E b sys)
    (hc : sys.caches[k]? = some c)
    (h : (c.line (c.getSetIndex a) i).state ≠ CacheState.MODIFIED)
    (hb : sys.bus.isBusy = false) :
    (Cache.writeHit sys k c a (k : Int) i).1.bus =
      (sys.bus.taken BusTransactionType.BusUpgr (k : Int)).plus
        (100 * (peerWritebacks sys.caches a (k : Int) : Int))
        (2 ^ b * peerWritebacks sys.caches a (k : Int)) := by
  have hk := lt_of_getElem? hc
  have hidc : c.cacheId = (k : Int) := hinv.ids k c hc
  have hbsc : c.blockSize = 2 ^ b := (hinv.shape k c hc).2.2.1
  have hbs : ∀ c' ∈ sys.caches, c'.blockSize = 2 ^ b := by
    intro c' hc'
    obtain ⟨j, hj⟩ := List.mem_iff_getElem?.mp hc'
    exact (hinv.shape j c' hj).2.2.1
  have hnr : ¬(sys.bus.isBusy = true ∧ sys.bus.currentRequestingCore ≠ (k : Int)) := by
    simp [hb]
  have hbus := broadcast_bus sys.caches k
    (if (c.line (c.getSetIndex a) i).state = CacheState.SHARED
             then { c with stats := { c.stats with
                      invalidationCount := c.stats.invalidationCount + 1 } }
             else c) sys.bus BusTransactionType.BusUpgr a (2 ^ b) hnr hinv.ids hbs
    (by split <;> exact hidc) (by split <;> exact hbsc)
  rw [writeHit_upgrade sys k c a _ i h hb]
  simp only [hbus]
  unfold Bus.taken
  simp


/-! ### Peers that own the block -/

theorem snoopState_modified_iff {c : Cache} (a : Nat)
    (h : NoDupTags (c.setLines (c.getSetIndex a))) :
    c.snoopState a = CacheState.MODIFIED ↔ c.holdsModified (c.getSetIndex a) (c.getTag a) := by
  unfold Cache.snoopState
  cases hf : findWay (c.getTag a) (c.setLines (c.getSetIndex a)) with
  | none =>
    simp only [reduceCtorEq, false_iff]
    rintro ⟨l, hl, ht, hs⟩
    exact not_holds_of_findWay_none hf ⟨l, hl, ht, by rw [hs]; simp⟩
  | some i =>
    obtain ⟨h1, h2, h3, _⟩ := findWay_some_line hf
    simp only []
    constructor
    · intro hm
      exact ⟨_, List.mem_iff_getElem?.mpr ⟨i, h1⟩, h2, hm⟩
    · rintro ⟨l, hl, ht, hs⟩
      obtain ⟨n, hn⟩ := List.mem_iff_getElem?.mp hl
      have e := h i n _ l h1 hn h3 (by rw [hs]; simp) (h2.trans ht.symm)
      subst e
      rw [h1] at hn
      cases hn
      exact hs

theorem countP_le_one {α : Type} (p : α → Bool) :
    ∀ (l : List α), (∀ (i j : Nat) (x y : α), l[i]? = some x → l[j]? = some y →
      p x = true → p y = true → i = j) → l.countP p ≤ 1 := by
  intro l
  induction l with
  | nil => intro _; simp
  | cons z zs ih =>
    intro h
    have ih' := ih (fun i j x y hx hy px py => by
      have := h (i + 1) (j + 1) x y (by simpa using hx) (by simpa using hy) px py
      omega)
    by_cases hz : p z = true
    · have : zs.countP p = 0 := by
        rw [List.countP_eq_zero]
        intro y hy py
        obtain ⟨n, hn⟩ := List.mem_iff_getElem?.mp hy
        have := h 0 (n + 1) z y (by simp) (by simpa using hn) hz py
        omega
      rw [List.countP_cons_of_pos _ _ hz, this]
    · rw [List.countP_cons_of_neg _ _ hz]; exact ih'

theorem peerWritebacks_le_one {s E b : Nat} {sys : System} (hinv : Inv s E b sys)
    (a : Nat) (req : Int) : peerWritebacks sys.caches a req ≤ 1 := by
  unfold peerWritebacks
  apply countP_le_one
  intro i j x y hx hy px py
  simp only [decide_eq_true_eq] at px py
  by_contra hij
  have hox : x.holdsOwned (x.getSetIndex a) (x.getTag a) :=
    holdsModified_holdsOwned ((snoopState_modified_iff a (hinv.nodup i x hx _)).mp px.2)
  have hoy : y.holds (y.getSetIndex a) (y.getTag a) :=
    holdsOwned_holds (holdsModified_holdsOwned
      ((snoopState_modified_iff a (hinv.nodup j y hy _)).mp py.2))
  rw [(wellFormed_decode (hinv.shape j y hy) a).1, (wellFormed_decode (hinv.shape j y hy) a).2,
    ← (wellFormed_decode (hinv.shape i x hx) a).1,
    ← (wellFormed_decode (hinv.shape i x hx) a).2] at hoy
  exact hinv.coherent i j x y hx hy hij _ _ hox hoy

theorem peerWritebacks_pos_iff {s E b : Nat} {sys : System} (hinv : Inv s E b sys)
    (a k : Nat) (c : Cache) (hc : sys.caches[k]? = some c) :
    0 < peerWritebacks sys.caches a (k : Int) ↔
      ∃ j cj, j ≠ k ∧ sys.caches[j]? = some cj ∧
        cj.holdsModified (c.getSetIndex a) (c.getTag a) := by
  unfold peerWritebacks
  rw [List.countP_pos_iff]
  constructor
  · rintro ⟨x, hx, px⟩
    obtain ⟨j, hj⟩ := List.mem_iff_getElem?.mp hx
    simp only [decide_eq_true_eq] at px
    have hjk : j ≠ k := by
      intro e; apply px.1; rw [hinv.ids j x hj, e]
    refine ⟨j, x, hjk, hj, ?_⟩
    have := (snoopState_modified_iff a (hinv.nodup j x hj _)).mp px.2
    rwa [(wellFormed_decode (hinv.shape j x hj) a).1, (wellFormed_decode (hinv.shape j x hj) a).2,
      ← (wellFormed_decode (hinv.shape k c hc) a).1,
      ← (wellFormed_decode (hinv.shape k c hc) a).2] at this
  · rintro ⟨j, cj, hjk, hj, hm⟩
    refine ⟨cj, List.mem_iff_getElem?.mpr ⟨j, hj⟩, ?_⟩
    simp only [decide_eq_true_eq]
    refine ⟨?_, ?_⟩
    · rw [hinv.ids j cj hj]; simp only [ne_eq, Nat.cast_inj]; exact hjk
    · rw [snoopState_modified_iff a (hinv.nodup j cj hj _)]
      rwa [(wellFormed_decode (hinv.shape j cj hj) a).1,
        (wellFormed_decode (hinv.shape j cj hj) a).2,
        ← (wellFormed_decode (hinv.shape k c hc) a).1,
        ← (wellFormed_decode (hinv.shape k c hc) a).2]

theorem peerWritebacks_zero_of_holds {s E b : Nat} {sys : System} (hinv : Inv s E b sys)
    (a k : Nat) (c : Cache) (hc : sys.caches[k]? = some c)
    (hh : c.holds (c.getSetIndex a) (c.getTag a)) :
    peerWritebacks sys.caches a (k : Int) = 0 := by
  by_contra hne
  obtain ⟨j, cj, hjk, hj, hm⟩ :=
    (peerWritebacks_pos_iff hinv a k c hc).mp (Nat.pos_of_ne_zero hne)
  exact hinv.coherent j k cj c hj hc hjk _ _ (holdsModified_holdsOwned hm) hh

/-! ### The victim is a line of the set -/

theorem findLRULineFrom_lt (ls : List CacheLine) :
    ∀ (i m lru : Nat), lru < i + ls.length → findLRULineFrom ls i m lru < i + ls.length := by
  induction ls with
  | nil => intro i m lru h; simpa [findLRULineFrom] using h
  | cons x xs ih =>
    intro i m lru h
    unfold findLRULineFrom
    simp only [List.length_cons] at h ⊢
    split
    · omega
    · split
      · have := ih (i + 1) x.lastAccessTime i (by omega); omega
      · have := ih (i + 1) m lru (by omega); omega

theorem findLRULine_lt (c : Cache) (si : Nat) (h : 0 < (c.setLines si).length) :
    c.findLRULine si < (c.setLines si).length := by
  have := findLRULineFrom_lt (c.setLines si) 0 UINT64_MAX 0 (by omega)
  simpa [Cache.findLRULine] using this

theorem getSetIndex_lt (c : Cache) (a : Nat) :
    c.getSetIndex a < 2 ^ c.setIndexBits := by
  unfold Cache.getSetIndex
  rw [Nat.shiftLeft_eq, one_mul, Nat.and_pow_two_sub_one_eq_mod]
  exact Nat.mod_lt _ (Nat.two_pow_pos _)

theorem setLines_length {s E b : Nat} {c : Cache} (hw : c.WellFormed s E b) (a : Nat) :
    (c.setLines (c.getSetIndex a)).length = E := by
  have hlt : c.getSetIndex a < c.sets.length := by
    rw [hw.2.2.2.1, ← hw.1]; exact getSetIndex_lt c a
  unfold Cache.setLines
  rw [List.getD_eq_getElem?_getD, List.getElem?_eq_getElem hlt]
  exact hw.2.2.2.2 _ (List.getElem_mem _)

theorem line_modifyLine_self (c : Cache) (si li : Nat) (f : CacheLine → CacheLine)
    (h : li < (c.setLines si).length) :
    (c.modifyLine si li f).line si li = f (c.line si li) := by
  have e1 : (c.modifyLine si li f).line si li =
      ((c.modifyLine si li f).setLines si).getD li CacheLine.init := rfl
  rw [e1, setLines_modifyLine, if_pos rfl]
  simp [List.getD_eq_getElem?_getD, List.getElem?_set, h]

theorem victim_filled {s E b : Nat} {c c' : Cache} (hw : c.WellFormed s E b) (hE : 1 ≤ E)
    (a : Nat) (x : CacheLine)
    (hs : (c.modifyLine (c.getSetIndex a) (c.findLRULine (c.getSetIndex a))
      (fun _ => x)).sameLines c') :
    c'.line (c.getSetIndex a) (c.findLRULine (c.getSetIndex a)) = x := by
  rw [sameLines_line hs]
  exact line_modifyLine_self c _ _ _
    (findLRULine_lt c _ (by rw [setLines_length hw a]; exact hE))

/-! ### A peer after a snooped read -/

theorem snooped_read_shared {c : Cache} (a : Nat)
    (h : NoDupTags (c.setLines (c.getSetIndex a)))
    (hh : c.holds (c.getSetIndex a) (c.getTag a)) :
    (c.snooped a false).holds (c.getSetIndex a) (c.getTag a) ∧
    ∀ l ∈ (c.snooped a false).setLines (c.getSetIndex a), l.tag = c.getTag a →
      l.state ≠ CacheState.INVALID → l.state = CacheState.SHARED := by
  obtain ⟨i, hi⟩ := (holds_iff_findWay c _ _).mp hh
  obtain ⟨h1, h2, h3, h4⟩ := findWay_some_line hi
  unfold Cache.snooped
  rw [hi]
  simp only []
  have hsl : (c.modifyLine (c.getSetIndex a) i (snoopLine false)).setLines (c.getSetIndex a) =
      (c.setLines (c.getSetIndex a)).set i (snoopLine false (c.line (c.getSetIndex a) i)) := by
    rw [setLines_modifyLine, if_pos rfl]
  refine ⟨⟨snoopLine false (c.line (c.getSetIndex a) i), ?_, ?_, ?_⟩, ?_⟩
  · rw [hsl]; exact List.mem_iff_getElem?.mpr ⟨i, set_getElem?_self _ h4⟩
  · rw [snoopLine_tag]; exact h2
  · rw [snoopLine_read_valid _ h3]; simp
  · intro l hl ht hv
    rw [hsl] at hl
    obtain ⟨n, hn⟩ := List.mem_iff_getElem?.mp hl
    rw [List.getElem?_set] at hn
    by_cases e : i = n
    · subst e
      simp only [if_true, h4, Option.some.injEq] at hn
      rw [← hn]; exact snoopLine_read_valid _ h3
    · simp only [e, if_false] at hn
      exact absurd (h i n _ l h1 hn h3 hv (h2.trans ht.symm)) e


set_option maxRecDepth 100000 in
/-- C9. Read-miss fill.  In a reachable state with the bus idle, a read by
cache `k` of a block it does not hold returns `MISS_ISSUED` (1), adds one to
its `missCount` and to the bus's `busRdTransactions`, and leaves the victim
line with the block's tag, clean, stamped with the current global cycle,
`SHARED` when some peer held the block and `EXCLUSIVE` otherwise; every peer
that held the block still holds it and only in `SHARED`; the bus gains 100
cycles per writeback (victim, and at most one `MODIFIED` peer) plus either the
transfer latency `2 * (blockSize / 4)` when a peer held the block or the 100
cycles of the memory fill when none did.  The closing conjunct is the
two-core cold-read scenario with `s = 1`, `E = 2`, `b = 2`. -/
theorem read_miss_fill (n s E b : Nat) (hsb : s + b ≤ 31) (hE : 1 ≤ E) (ops : List Op)
    (sys : System) (hreach : sys = (System.init n s E b).run ops)
    (k a : Nat) (c : Cache) (hc : sys.caches[k]? = some c)
    (hidle : sys.bus.isBusy = false)
    (hmiss : ¬c.holds (c.getSetIndex a) (c.getTag a)) :
    (Cache.read sys k a (k : Int)).2 = 1 ∧
    (∃ c', (Cache.read sys k a (k : Int)).1.caches[k]? = some c' ∧
      c'.stats.missCount = c.stats.missCount + 1 ∧
      c'.line (c.getSetIndex a) (c.findLRULine (c.getSetIndex a)) =
        { tag := c.getTag a,
          state := if peerHolds sys.caches a (k : Int) = true
            then CacheState.SHARED else CacheState.EXCLUSIVE,
          dirty := false, lastAccessTime := sys.globalCycle }) ∧
    (Cache.read sys k a (k : Int)).1.bus.stats.busRdTransactions =
      sys.bus.stats.busRdTransactions + 1 ∧
    (peerHolds sys.caches a (k : Int) = true ↔
      ∃ j cj, j ≠ k ∧ sys.caches[j]? = some cj ∧ cj.holds (c.getSetIndex a) (c.getTag a)) ∧
    (∀ (j : Nat) (cj : Cache), j ≠ k → sys.caches[j]? = some cj →
      cj.holds (c.getSetIndex a) (c.getTag a) →
      ∃ cj', (Cache.read sys k a (k : Int)).1.caches[j]? = some cj' ∧
        cj'.holds (c.getSetIndex a) (c.getTag a) ∧
        ∀ l ∈ cj'.setLines (c.getSetIndex a), l.tag = c.getTag a →
          l.state ≠ CacheState.INVALID → l.state = CacheState.SHARED) ∧
    (Cache.read sys k a (k : Int)).1.bus.remainingCycles =
      sys.bus.remainingCycles +
        (if (c.line (c.getSetIndex a) (c.findLRULine (c.getSetIndex a))).state =
            CacheState.MODIFIED then 100 else 0) +
        100 * (peerWritebacks sys.caches a (k : Int) : Int) +
        (if peerHolds sys.caches a (k : Int) = true
          then 2 * ((2 ^ b / 4 : Nat) : Int) else 100) ∧
    peerWritebacks sys.caches a (k : Int) ≤ 1 ∧
    (0 < peerWritebacks sys.caches a (k : Int) ↔
      ∃ j cj, j ≠ k ∧ sys.caches[j]? = some cj ∧
        cj.holdsModified (c.getSetIndex a) (c.getTag a)) ∧
    (((System.init 2 1 2 2).run
        ([Op.read 0 0] ++ List.replicate 100 Op.tick ++ [Op.read 1 0])).caches.map
        (fun x => (x.stats.missCount, x.stats.hitCount, (x.line 0 0).state)) =
      [(1, 0, CacheState.SHARED), (1, 0, CacheState.SHARED)] ∧
     ((System.init 2 1 2 2).run
        ([Op.read 0 0] ++ List.replicate 100 Op.tick ++ [Op.read 1 0])).bus.stats.busRdTransactions
        = 2 ∧
     ((System.init 2 1 2 2).run
        ([Op.read 0 0] ++ List.replicate 100 Op.tick ++ [Op.read 1 0])).bus.stats.totalBusTraffic
        = 8) := by
  have hinv : Inv s E b sys := hreach ▸ inv_run ops (inv_init n s E b hsb)
  have hf : findWay (c.getTag a) (c.setLines (c.getSetIndex a)) = none := by
    cases h : findWay (c.getTag a) (c.setLines (c.getSetIndex a)) with
    | none => rfl
    | some i => exact absurd ((holds_iff_findWay c _ _).mpr ⟨i, h⟩) hmiss
  have hdec : ∀ (j : Nat) (cj : Cache), sys.caches[j]? = some cj →
      cj.getSetIndex a = c.getSetIndex a ∧ cj.getTag a = c.getTag a := by
    intro j cj hj
    rw [(wellFormed_decode (hinv.shape j cj hj) a).1, (wellFormed_decode (hinv.shape j cj hj) a).2,
      (wellFormed_decode (hinv.shape k c hc) a).1, (wellFormed_decode (hinv.shape k c hc) a).2]
    exact ⟨rfl, rfl⟩
  rw [read_miss sys k c a _ hc hf hidle]
  obtain ⟨c', q1, q2, q3⟩ := readMiss_requester sys k c a hc hinv.ids hidle
  obtain ⟨st, _, hrel⟩ := readMiss_caches sys k c a hc hinv.ids hidle
  have hbus := readMiss_bus sys k c a hinv hc hidle
  refine ⟨rfl, ⟨c', q1, by rw [q3], victim_filled (hinv.shape k c hc) hE a _ q2⟩, ?_, ?_, ?_,
    ?_, peerWritebacks_le_one hinv a _, peerWritebacks_pos_iff hinv a k c hc, ?_⟩
  · show (Cache.readMiss sys k c a (k : Int)).bus.stats.busRdTransactions = _
    rw [hbus]; rfl
  · rw [peerHolds_iff sys.caches k a hinv.ids]
    constructor
    · rintro ⟨j, cj, h1, h2, h3⟩
      rw [(hdec j cj h2).1, (hdec j cj h2).2] at h3
      exact ⟨j, cj, h1, h2, h3⟩
    · rintro ⟨j, cj, h1, h2, h3⟩
      rw [← (hdec j cj h2).1, ← (hdec j cj h2).2] at h3
      exact ⟨j, cj, h1, h2, h3⟩
  · intro j cj hjk hj hh
    obtain ⟨cj', r1, r2, _⟩ := hrel.2 j cj hj
    obtain ⟨bus', dr', rfl⟩ := r2 hjk
    obtain ⟨p1, p2, p3⟩ := hinv.peer hc hj hjk a false bus' dr'
    rw [← p2, ← p3] at hh ⊢
    obtain ⟨s1, s2⟩ := snooped_read_shared a (hinv.nodup j cj hj _) hh
    refine ⟨_, r1, (sameLines_holds p1 _ _).mpr s1, ?_⟩
    intro l hl
    rw [sameLines_setLines p1] at hl
    exact s2 l hl
  · show (Cache.readMiss sys k c a (k : Int)).bus.remainingCycles = _
    rw [hbus]
    simp only [Bus.plus, Bus.taken]
    by_cases hp : peerHolds sys.caches a (k : Int) = true
    · simp only [hp, if_true]; ring
    · simp only [hp, Bool.false_eq_true, if_false]; ring
  · decide


set_option maxRecDepth 100000 in
theorem read_miss_fill_witness :
    (Cache.read ((System.init 2 1 2 2).run ([Op.read 0 0] ++ List.replicate 100 Op.tick))
      1 0 ((1 : Nat) : Int)).2 = 1 :=
  (read_miss_fill 2 1 2 2 (by decide) (by decide) ([Op.read 0 0] ++ List.replicate 100 Op.tick)
    ((System.init 2 1 2 2).run ([Op.read 0 0] ++ List.replicate 100 Op.tick)) rfl
    1 0 (Cache.mk0 1 2 2 1) (by decide) (by decide)
    (by unfold Cache.holds; decide)).1

set_option maxRecDepth 100000 in
/-- C10. Write-miss fill.  In a reachable state with the bus idle, a write by
cache `k` to a block it does not hold returns `MISS_ISSUED` (1), adds one to
its `missCount` and to the bus's `busRdXTransactions`, leaves the victim line
`MODIFIED`, dirty, with the block's tag and the current global cycle as stamp,
leaves no peer with a valid copy, adds one to `invalidationCount` exactly when
a peer held the block, and makes `remainingCycles` grow by 100 for the fill
plus 100 for a `MODIFIED` victim plus 100 for the (at most one) peer that held
the block `MODIFIED`. -/
theorem write_miss_fill (n s E b : Nat) (hsb : s + b ≤ 31) (hE : 1 ≤ E) (ops : List Op)
    (sys : System) (hreach : sys = (System.init n s E b).run ops)
    (k a : Nat) (c : Cache) (hc : sys.caches[k]? = some c)
    (hidle : sys.bus.isBusy = false)
    (hmiss : ¬c.holds (c.getSetIndex a) (c.getTag a)) :
    (Cache.write sys k a (k : Int)).2 = 1 ∧
    (∃ c', (Cache.write sys k a (k : Int)).1.caches[k]? = some c' ∧
      c'.stats.missCount = c.stats.missCount + 1 ∧
      c'.stats.invalidationCount = c.stats.invalidationCount +
        (if peerHolds sys.caches a (k : Int) = true then 1 else 0) ∧
      c'.line (c.getSetIndex a) (c.findLRULine (c.getSetIndex a)) =
        { tag := c.getTag a, state := CacheState.MODIFIED, dirty := true,
          lastAccessTime := sys.globalCycle }) ∧
    (Cache.write sys k a (k : Int)).1.bus.stats.busRdXTransactions =
      sys.bus.stats.busRdXTransactions + 1 ∧
    (peerHolds sys.caches a (k : Int) = true ↔
      ∃ j cj, j ≠ k ∧ sys.caches[j]? = some cj ∧ cj.holds (c.getSetIndex a) (c.getTag a)) ∧
    (∀ (j : Nat) (cj' : Cache), j ≠ k →
      (Cache.write sys k a (k : Int)).1.caches[j]? = some cj' →
      ¬cj'.holds (c.getSetIndex a) (c.getTag a)) ∧
    (Cache.write sys k a (k : Int)).1.bus.remainingCycles =
      sys.bus.remainingCycles + 100 +
        (if (c.line (c.getSetIndex a) (c.findLRULine (c.getSetIndex a))).state =
            CacheState.MODIFIED then 100 else 0) +
        100 * (peerWritebacks sys.caches a (k : Int) : Int) ∧
    peerWritebacks sys.caches a (k : Int) ≤ 1 ∧
    (0 < peerWritebacks sys.caches a (k : Int) ↔
      ∃ j cj, j ≠ k ∧ sys.caches[j]? = some cj ∧
        cj.holdsModified (c.getSetIndex a) (c.getTag a)) := by
  have hinv : Inv s E b sys := hreach ▸ inv_run ops (inv_init n s E b hsb)
  have hf : findWay (c.getTag a) (c.setLines (c.getSetIndex a)) = none := by
    cases h : findWay (c.getTag a) (c.setLines (c.getSetIndex a)) with
    | none => rfl
    | some i => exact absurd ((holds_iff_findWay c _ _).mpr ⟨i, h⟩) hmiss
  have hdec : ∀ (j : Nat) (cj : Cache), sys.caches[j]? = some cj →
      cj.getSetIndex a = c.getSetIndex a ∧ cj.getTag a = c.getTag a := by
    intro j cj hj
    rw [(wellFormed_decode (hinv.shape j cj hj) a).1, (wellFormed_decode (hinv.shape j cj hj) a).2,
      (wellFormed_decode (hinv.shape k c hc) a).1, (wellFormed_decode (hinv.shape k c hc) a).2]
    exact ⟨rfl, rfl⟩
  rw [write_miss sys k c a _ hc hf hidle]
  obtain ⟨c', q1, q2, q3⟩ := writeMiss_requester sys k c a hc hinv.ids hidle
  have hrel := writeMiss_caches sys k c a hc hinv.ids hidle
  have hbus := writeMiss_bus sys k c a hinv hc hidle
  refine ⟨rfl, ⟨c', q1, by rw [q3], by rw [q3], victim_filled (hinv.shape k c hc) hE a _ q2⟩,
    ?_, ?_, ?_, ?_, peerWritebacks_le_one hinv a _, peerWritebacks_pos_iff hinv a k c hc⟩
  · show (Cache.writeMiss sys k c a (k : Int)).bus.stats.busRdXTransactions = _
    rw [hbus]; rfl
  · rw [peerHolds_iff sys.caches k a hinv.ids]
    constructor
    · rintro ⟨j, cj, h1, h2, h3⟩
      rw [(hdec j cj h2).1, (hdec j cj h2).2] at h3
      exact ⟨j, cj, h1, h2, h3⟩
    · rintro ⟨j, cj, h1, h2, h3⟩
      rw [← (hdec j cj h2).1, ← (hdec j cj h2).2] at h3
      exact ⟨j, cj, h1, h2, h3⟩
  · intro j cj' hjk hj'
    obtain ⟨cj, hj, r2, _⟩ := hrel.inv hj'
    obtain ⟨bus', dr', rfl⟩ := r2 hjk
    obtain ⟨p1, p2, p3⟩ := hinv.peer hc hj hjk a true bus' dr'
    rw [sameLines_holds p1, ← p2, ← p3]
    exact snooped_write_not_holds a (hinv.nodup j cj hj _)
  · show (Cache.writeMiss sys k c a (k : Int)).bus.remainingCycles = _
    rw [hbus]
    simp only [Bus.plus, Bus.taken]
    ring

set_option maxRecDepth 100000 in
theorem write_miss_fill_witness :
    (Cache.write ((System.init 2 1 2 2).run ([Op.read 0 0] ++ List.replicate 100 Op.tick))
      1 0 ((1 : Nat) : Int)).2 = 1 :=
  (write_miss_fill 2 1 2 2 (by decide) (by decide)
    ([Op.read 0 0] ++ List.replicate 100 Op.tick)
    ((System.init 2 1 2 2).run ([Op.read 0 0] ++ List.replicate 100 Op.tick)) rfl
    1 0 (Cache.mk0 1 2 2 1) (by decide) (by decide)
    (by unfold Cache.holds; decide)).1


/-! ### What the driver can observe of one access -/

theorem outcome_unchanged (sys : System) (k : Nat) (c : Cache) (a : Nat) (code : Int)
    (hcode : code = -1 ∨ code = 2) (hb : sys.bus.isBusy = true)
    (hself : sys.bus.isBusy = true → sys.bus.currentRequestingCore = (k : Int) → code = 2) :
    Outcome sys k c a (sys, code) := by
  have h0 : code ≠ 0 := by rcases hcode with h | h <;> rw [h] <;> decide
  have h1 : code ≠ 1 := by rcases hcode with h | h <;> rw [h] <;> decide
  refine ⟨?_, rfl, fun _ => ⟨rfl, hb⟩, fun _ => rfl, ?_, hself, fun h => absurd h h0,
    fun h => absurd h h1, ?_⟩
  · rcases hcode with h | h
    · exact Or.inr (Or.inr (Or.inl h))
    · exact Or.inr (Or.inr (Or.inr h))
  · intro h; rw [h] at hb; cases hb
  · apply CachesRel.refl
    intro j cj _
    simp [h0, h1]

theorem holds_of_filled {c c' : Cache} {si v : Nat} {x : CacheLine}
    (hs : (c.modifyLine si v (fun _ => x)).sameLines c')
    (hv : v < (c.setLines si).length) (hx : x.state ≠ CacheState.INVALID) :
    c'.holds si x.tag := by
  refine ⟨x, ?_, rfl, hx⟩
  rw [sameLines_setLines hs, setLines_modifyLine, if_pos rfl]
  exact List.mem_iff_getElem?.mpr ⟨v, set_getElem?_self _ hv⟩

theorem counts_of_rel (sys sys' : System) (k a : Nat) (w : Bool) (c c' : Cache) (code : Int)
    (hc : sys.caches[k]? = some c) (hc' : sys'.caches[k]? = some c')
    (hrel : CachesRel (fun j cj cj' =>
      (j ≠ k → ∃ bus' dr', cj' = (cj.processBusTransaction bus' a w (k : Int) dr').1) ∧
      (j = k → True)) sys.caches sys'.caches)
    (h1 : c'.stats.readCount = c.stats.readCount) (h2 : c'.stats.writeCount = c.stats.writeCount)
    (h3 : c'.stats.execCycles = c.stats.execCycles) (h4 : c'.stats.idleCycles = c.stats.idleCycles)
    (h5 : c'.stats.hitCount = c.stats.hitCount + (if code = 0 then 1 else 0))
    (h6 : c'.stats.missCount = c.stats.missCount + (if code = 1 then 1 else 0)) :
    CachesRel (fun j cj cj' =>
      cj'.stats.readCount = cj.stats.readCount ∧ cj'.stats.writeCount = cj.stats.writeCount ∧
      cj'.stats.execCycles = cj.stats.execCycles ∧ cj'.stats.idleCycles = cj.stats.idleCycles ∧
      cj'.stats.hitCount = cj.stats.hitCount + (if j = k ∧ code = 0 then 1 else 0) ∧
      cj'.stats.missCount = cj.stats.missCount + (if j = k ∧ code = 1 then 1 else 0))
    sys.caches sys'.caches := by
  refine ⟨hrel.1, ?_⟩
  intro j cj hj
  obtain ⟨cj', r1, r2, _⟩ := hrel.2 j cj hj
  refine ⟨cj', r1, ?_⟩
  by_cases e : j = k
  · subst e
    rw [hc] at hj; cases hj
    rw [hc'] at r1; cases r1
    simp only [true_and]
    exact ⟨h1, h2, h3, h4, h5, h6⟩
  · obtain ⟨bus', dr', rfl⟩ := r2 e
    obtain ⟨p1, p2, p3, p4, _, _, p7, p8, _⟩ := pbt_stats cj bus' a w (k : Int) dr'
    simp only [e, false_and, if_false, Nat.add_zero]
    exact ⟨p1, p2, p7, p8, p3, p4⟩

theorem counts_of_set (sys : System) (k : Nat) (c c' : Cache) (code : Int)
    (hc : sys.caches[k]? = some c)
    (h1 : c'.stats.readCount = c.stats.readCount) (h2 : c'.stats.writeCount = c.stats.writeCount)
    (h3 : c'.stats.execCycles = c.stats.execCycles) (h4 : c'.stats.idleCycles = c.stats.idleCycles)
    (h5 : c'.stats.hitCount = c.stats.hitCount + (if code = 0 then 1 else 0))
    (h6 : c'.stats.missCount = c.stats.missCount + (if code = 1 then 1 else 0)) :
    CachesRel (fun j cj cj' =>
      cj'.stats.readCount = cj.stats.readCount ∧ cj'.stats.writeCount = cj.stats.writeCount ∧
      cj'.stats.execCycles = cj.stats.execCycles ∧ cj'.stats.idleCycles = cj.stats.idleCycles ∧
      cj'.stats.hitCount = cj.stats.hitCount + (if j = k ∧ code = 0 then 1 else 0) ∧
      cj'.stats.missCount = cj.stats.missCount + (if j = k ∧ code = 1 then 1 else 0))
    sys.caches (sys.caches.set k c') := by
  apply CachesRel.set_at
  · apply CachesRel.refl
    intro j cj _ hjk
    simp [hjk]
  · intro c0 hc0
    rw [hc] at hc0; cases hc0
    simp only [true_and]
    exact ⟨h1, h2, h3, h4, h5, h6⟩

theorem outcome_read {s E b : Nat} {sys : System} (hinv : Inv s E b sys) (hE : 1 ≤ E)
    (k a : Nat) (c : Cache) (hc : sys.caches[k]? = some c) :
    Outcome sys k c a (Cache.read sys k a (k : Int)) := by
  by_cases hself : sys.bus.isBusy = true ∧ sys.bus.currentRequestingCore = (k : Int)
  · rw [read_self sys k c a _ hc hself]
    exact outcome_unchanged sys k c a 2 (Or.inr rfl) hself.1 (fun _ _ => rfl)
  · cases hf : findWay (c.getTag a) (c.setLines (c.getSetIndex a)) with
    | some i =>
      rw [read_hit sys k c a _ i hc hself hf]
      refine ⟨Or.inl rfl, rfl, ?_, fun _ => rfl, fun _ => Or.inl rfl,
        fun h1 h2 => absurd ⟨h1, h2⟩ hself, ?_, ?_, ?_⟩
      · intro h; rcases h with h | h <;> simp at h
      · intro _; exact ⟨(holds_iff_findWay c _ _).mpr ⟨i, hf⟩, Or.inl rfl⟩
      · intro h; simp at h
      · exact counts_of_set sys k c _ 0 hc rfl rfl rfl rfl rfl rfl
    | none =>
      by_cases hb : sys.bus.isBusy = true
      · rw [read_other sys k c a _ hc hself hf hb]
        exact outcome_unchanged sys k c a (-1) (Or.inl rfl) hb (fun h1 h2 => absurd ⟨h1, h2⟩ hself)
      · have hb' : sys.bus.isBusy = false := by simpa using hb
        rw [read_miss sys k c a _ hc hf hb']
        obtain ⟨c', q1, q2, q3⟩ := readMiss_requester sys k c a hc hinv.ids hb'
        obtain ⟨st, _, hrel⟩ := readMiss_caches sys k c a hc hinv.ids hb'
        have hbus := readMiss_bus sys k c a hinv hc hb'
        have hv : c.findLRULine (c.getSetIndex a) < (c.setLines (c.getSetIndex a)).length :=
          findLRULine_lt c _ (by rw [setLines_length (hinv.shape k c hc) a]; exact hE)
        refine ⟨Or.inr (Or.inl rfl), rfl, ?_, ?_, fun _ => Or.inr rfl,
          fun h1 h2 => absurd ⟨h1, h2⟩ hself, ?_, ?_, ?_⟩
        · intro h; rcases h with h | h <;> simp at h
        · intro h; rw [hb'] at h; cases h
        · intro h; simp at h
        · intro _
          refine ⟨not_holds_of_findWay_none hf, hb', ?_, ?_, c', q1, ?_⟩
          · show (Cache.readMiss sys k c a (k : Int)).bus.isBusy = true
            rw [hbus]; rfl
          · show (Cache.readMiss sys k c a (k : Int)).bus.currentRequestingCore = _
            rw [hbus]; rfl
          · have := holds_of_filled q2 hv (by split <;> simp)
            exact this
        · refine counts_of_rel sys _ k a false c c' 1 hc q1 (hrel.mono
            (fun j cj cj' _ h => ⟨h.1, fun _ => trivial⟩)) ?_ ?_ ?_ ?_ ?_ ?_ <;> rw [q3] <;> rfl

theorem outcome_write {s E b : Nat} {sys : System} (hinv : Inv s E b sys) (hE : 1 ≤ E)
    (k a : Nat) (c : Cache) (hc : sys.caches[k]? = some c) :
    Outcome sys k c a (Cache.write sys k a (k : Int)) := by
  by_cases hself : sys.bus.isBusy = true ∧ sys.bus.currentRequestingCore = (k : Int)
  · rw [write_self sys k c a _ hc hself]
    exact outcome_unchanged sys k c a 2 (Or.inr rfl) hself.1 (fun _ _ => rfl)
  · cases hf : findWay (c.getTag a) (c.setLines (c.getSetIndex a)) with
    | some i =>
      rw [write_hit sys k c a _ i hc hself hf]
      have hh : c.holds (c.getSetIndex a) (c.getTag a) := (holds_iff_findWay c _ _).mpr ⟨i, hf⟩
      by_cases hm : (c.line (c.getSetIndex a) i).state = CacheState.MODIFIED
      · rw [writeHit_modified sys k c a _ i hm]
        refine ⟨Or.inl rfl, rfl, ?_, fun _ => rfl, fun _ => Or.inl rfl,
        fun h1 h2 => absurd ⟨h1, h2⟩ hself, ?_, ?_, ?_⟩
        · intro h; rcases h with h | h <;> simp at h
        · intro _; exact ⟨hh, Or.inl rfl⟩
        · intro h; simp at h
        · exact counts_of_set sys k c _ 0 hc rfl rfl rfl rfl rfl rfl
      · by_cases hb : sys.bus.isBusy = true
        · rw [writeHit_busy sys k c a _ i hm hb]
          exact outcome_unchanged sys k c a (-1) (Or.inl rfl) hb (fun h1 h2 => absurd ⟨h1, h2⟩ hself)
        · have hb' : sys.bus.isBusy = false := by simpa using hb
          obtain ⟨u0, c', q1, q2, q3⟩ := upgrade_requester sys k c a i hc hinv.ids hm hb'
          have hrel := upgrade_caches sys k c a i hc hinv.ids hm hb'
          have hbus := upgrade_bus sys k c a i hinv hc hm hb'
          have hwb := peerWritebacks_zero_of_holds hinv a k c hc hh
          refine ⟨Or.inl u0, ?_, ?_, ?_, fun _ => Or.inl u0,
            fun h1 h2 => absurd ⟨h1, h2⟩ hself, ?_, ?_, ?_⟩
          · rw [writeHit_upgrade sys k c a _ i hm hb']
          · intro h; rw [u0] at h; rcases h with h | h <;> simp at h
          · intro h; rw [hb'] at h; cases h
          · intro _
            refine ⟨hh, Or.inr ⟨hb', ?_, ?_⟩⟩
            · rw [hbus]; rfl
            · rw [hbus, hwb]; simp [Bus.plus, Bus.taken]
          · intro h; rw [u0] at h; simp at h
          · rw [u0]
            refine counts_of_rel sys _ k a true c c' 0 hc q1 (hrel.mono
              (fun j cj cj' _ h => ⟨h.1, fun _ => trivial⟩)) ?_ ?_ ?_ ?_ ?_ ?_ <;>
              rw [q3] <;> rfl
    | none =>
      by_cases hb : sys.bus.isBusy = true
      · rw [write_other sys k c a _ hc hself hf hb]
        exact outcome_unchanged sys k c a (-1) (Or.inl rfl) hb (fun h1 h2 => absurd ⟨h1, h2⟩ hself)
      · have hb' : sys.bus.isBusy = false := by simpa using hb
        rw [write_miss sys k c a _ hc hf hb']
        obtain ⟨c', q1, q2, q3⟩ := writeMiss_requester sys k c a hc hinv.ids hb'
        have hrel := writeMiss_caches sys k c a hc hinv.ids hb'
        have hbus := writeMiss_bus sys k c a hinv hc hb'
        have hv : c.findLRULine (c.getSetIndex a) < (c.setLines (c.getSetIndex a)).length :=
          findLRULine_lt c _ (by rw [setLines_length (hinv.shape k c hc) a]; exact hE)
        refine ⟨Or.inr (Or.inl rfl), rfl, ?_, ?_, fun _ => Or.inr rfl,
          fun h1 h2 => absurd ⟨h1, h2⟩ hself, ?_, ?_, ?_⟩
        · intro h; rcases h with h | h <;> simp at h
        · intro h; rw [hb'] at h; cases h
        · intro h; simp at h
        · intro _
          refine ⟨not_holds_of_findWay_none hf, hb', ?_, ?_, c', q1, ?_⟩
          · show (Cache.writeMiss sys k c a (k : Int)).bus.isBusy = true
            rw [hbus]; rfl
          · show (Cache.writeMiss sys k c a (k : Int)).bus.currentRequestingCore = _
            rw [hbus]; rfl
          · exact holds_of_filled q2 hv (by simp)
        · refine counts_of_rel sys _ k a true c c' 1 hc q1 (hrel.mono
            (fun j cj cj' _ h => ⟨h.1, fun _ => trivial⟩)) ?_ ?_ ?_ ?_ ?_ ?_ <;> rw [q3] <;> rfl


/-! ### The cycle loop: bookkeeping lemmas -/

theorem modifyAt_length {α : Type} (l : List α) (i : Nat) (f : α → α) :
    (modifyAt l i f).length = l.length := by
  unfold modifyAt
  cases h : l[i]? with
  | none => rfl
  | some a => simp

theorem modifyAt_getElem?_ne {α : Type} (l : List α) (i j : Nat) (f : α → α) (h : j ≠ i) :
    (modifyAt l i f)[j]? = l[j]? := by
  unfold modifyAt
  cases hh : l[i]? with
  | none => rfl
  | some a => simp [List.getElem?_set, Ne.symm h]

theorem modifyAt_getElem?_self {α : Type} (l : List α) (i : Nat) (f : α → α) :
    (modifyAt l i f)[i]? = (l[i]?).map f := by
  unfold modifyAt
  cases hh : l[i]? with
  | none => simp [hh]
  | some a =>
    have hlt := lt_of_getElem? hh
    simp [List.getElem?_set, hlt]

theorem modifyAt_getD_ne (l : List Nat) (i j : Nat) (f : Nat → Nat) (h : j ≠ i) :
    (modifyAt l i f).getD j 0 = l.getD j 0 := by
  rw [List.getD_eq_getElem?_getD, List.getD_eq_getElem?_getD, modifyAt_getElem?_ne l i j f h]

theorem modifyAt_getD_self (l : List Nat) (i : Nat) (hi : i < l.length) :
    (modifyAt l i (· + 1)).getD i 0 = l.getD i 0 + 1 := by
  rw [List.getD_eq_getElem?_getD, List.getD_eq_getElem?_getD, modifyAt_getElem?_self]
  rw [List.getElem?_eq_getElem hi]
  rfl

theorem modifyAt_rel (cs : List Cache) (i : Nat) (f : Cache → Cache)
    (R : Nat → Cache → Cache → Prop) (hr : ∀ j c, cs[j]? = some c → R j c c)
    (hf : ∀ c, cs[i]? = some c → R i c (f c)) :
    CachesRel R cs (modifyAt cs i f) := by
  refine ⟨modifyAt_length cs i f, ?_⟩
  intro j cj hj
  by_cases hji : j = i
  · subst hji
    refine ⟨f cj, ?_, hf cj hj⟩
    rw [modifyAt_getElem?_self, hj]; rfl
  · refine ⟨cj, ?_, hr j cj hj⟩
    rw [modifyAt_getElem?_ne cs i j f hji]; exact hj

theorem CachesRel.trans {R1 R2 R3 : Nat → Cache → Cache → Prop} {cs cs' cs'' : List Cache}
    (h1 : CachesRel R1 cs cs') (h2 : CachesRel R2 cs' cs'')
    (hr : ∀ j c c' c'', R1 j c c' → R2 j c' c'' → R3 j c c'') : CachesRel R3 cs cs'' := by
  refine ⟨h2.1.trans h1.1, ?_⟩
  intro j cj hj
  obtain ⟨cj', hj', r1⟩ := h1.2 j cj hj
  obtain ⟨cj'', hj'', r2⟩ := h2.2 j cj' hj'
  exact ⟨cj'', hj'', hr j cj cj' cj'' r1 r2⟩

theorem inv_sameLines {s E b : Nat} {sys sys' : System} (hinv : Inv s E b sys)
    (h : CachesRel (fun _ c c' => c.sameLines c') sys.caches sys'.caches) :
    Inv s E b sys' := by
  refine ⟨?_, ?_, ?_, ?_⟩
  · intro i c hc
    obtain ⟨c0, h0, hs⟩ := h.inv hc
    rw [hs.2.1]; exact hinv.ids i c0 h0
  · intro i c hc
    obtain ⟨c0, h0, hs⟩ := h.inv hc
    exact wellFormed_sameLines hs (hinv.shape i c0 h0)
  · intro i c hc si
    obtain ⟨c0, h0, hs⟩ := h.inv hc
    rw [sameLines_setLines hs]; exact hinv.nodup i c0 h0 si
  · apply coherent_mono hinv.coherent
    apply h.mono
    intro j c c' _ hs
    exact ⟨fun si t => (sameLines_holds hs si t).1, fun si t => (sameLines_holdsOwned hs si t).1⟩

theorem countExec_sameLines (c : Cache) : c.sameLines c.countExec := sameLines_stats c _

theorem countIdle_sameLines (c : Cache) : c.sameLines c.countIdle := sameLines_stats c _

theorem countAccess_sameLines (c : Cache) (w : Bool) : c.sameLines (c.countAccess w) := by
  unfold Cache.countAccess
  cases w
  · exact sameLines_stats c _
  · exact sameLines_stats c _


theorem dispatch_bus (d : Driver) (core : Nat) (w : Bool) (code : Int) :
    (d.dispatch core w code).sys.bus = d.sys.bus := by
  unfold Driver.dispatch
  split_ifs <;> rfl

theorem dispatch_globalCycle (d : Driver) (core : Nat) (w : Bool) (code : Int) :
    (d.dispatch core w code).sys.globalCycle = d.sys.globalCycle := by
  unfold Driver.dispatch
  split_ifs <;> rfl

theorem dispatch_index (d : Driver) (core : Nat) (w : Bool) (code : Int) :
    (d.dispatch core w code).currentInstructionIndex =
      (if code = 0 then modifyAt d.currentInstructionIndex core (· + 1)
        else d.currentInstructionIndex) := by
  unfold Driver.dispatch
  split_ifs <;> rfl

theorem dispatch_total (d : Driver) (core : Nat) (w : Bool) (code : Int) :
    (d.dispatch core w code).totalInstructions =
      (if code = 0 then modifyAt d.totalInstructions core (· + 1)
        else d.totalInstructions) := by
  unfold Driver.dispatch
  split_ifs <;> rfl

theorem countAccess_stats (c : Cache) (w : Bool) :
    (c.countAccess w).stats.hitCount = c.stats.hitCount ∧
    (c.countAccess w).stats.missCount = c.stats.missCount ∧
    (c.countAccess w).stats.readCount + (c.countAccess w).stats.writeCount =
      c.stats.readCount + c.stats.writeCount + 1 ∧
    (c.countAccess w).stats.readCount = c.stats.readCount + (if w then 0 else 1) ∧
    (c.countAccess w).stats.writeCount = c.stats.writeCount + (if w then 1 else 0) := by
  unfold Cache.countAccess
  cases w
  · refine ⟨rfl, rfl, ?_, rfl, rfl⟩
    show c.stats.readCount + 1 + c.stats.writeCount = _
    omega
  · exact ⟨rfl, rfl, rfl, rfl, rfl⟩

theorem dispatch_caches (d : Driver) (core : Nat) (w : Bool) (code : Int) :
    CachesRel (fun j c c' => c.sameLines c' ∧ c'.stats.hitCount = c.stats.hitCount ∧
      c'.stats.missCount = c.stats.missCount ∧
      c'.stats.readCount + c'.stats.writeCount = c.stats.readCount + c.stats.writeCount +
        (if j = core ∧ (code = 0 ∨ code = 1) then 1 else 0))
      d.sys.caches (d.dispatch core w code).sys.caches := by
  have hrefl : ∀ (j : Nat) (c : Cache), d.sys.caches[j]? = some c →
      c.sameLines c ∧ c.stats.hitCount = c.stats.hitCount ∧
      c.stats.missCount = c.stats.missCount ∧
      c.stats.readCount + c.stats.writeCount = c.stats.readCount + c.stats.writeCount +
        (if j = core ∧ (code = 0 ∨ code = 1) then 1 else 0) → True := fun _ _ _ _ => trivial
  have hacc : ∀ c : Cache, c.sameLines (c.countExec.countAccess w) ∧
      (c.countExec.countAccess w).stats.hitCount = c.stats.hitCount ∧
      (c.countExec.countAccess w).stats.missCount = c.stats.missCount ∧
      (c.countExec.countAccess w).stats.readCount + (c.countExec.countAccess w).stats.writeCount
        = c.stats.readCount + c.stats.writeCount + 1 := by
    intro c
    obtain ⟨a1, a2, a3, _, _⟩ := countAccess_stats c.countExec w
    exact ⟨sameLines_trans (countExec_sameLines c) (countAccess_sameLines _ w), a1, a2, a3⟩
  unfold Driver.dispatch
  by_cases h0 : code = 0
  · rw [if_pos h0]
    refine ⟨modifyAt_length _ _ _, ?_⟩
    intro j cj hj
    by_cases hji : j = core
    · refine ⟨cj.countExec.countAccess w, ?_, ?_⟩
      · show (modifyAt d.sys.caches core _)[j]? = _
        rw [hji, modifyAt_getElem?_self, ← hji, hj]; rfl
      · obtain ⟨a0, a1, a2, a3⟩ := hacc cj
        refine ⟨a0, a1, a2, ?_⟩
        rw [a3, if_pos ⟨hji, Or.inl h0⟩]
    · refine ⟨cj, ?_, sameLines_refl cj, rfl, rfl, ?_⟩
      · show (modifyAt d.sys.caches core _)[j]? = _
        rw [modifyAt_getElem?_ne _ _ _ _ hji]; exact hj
      · rw [if_neg (fun h => hji h.1)]; rfl
  · rw [if_neg h0]
    by_cases h1 : code = 1
    · rw [if_pos h1]
      refine ⟨modifyAt_length _ _ _, ?_⟩
      intro j cj hj
      by_cases hji : j = core
      · refine ⟨cj.countExec.countAccess w, ?_, ?_⟩
        · show (modifyAt d.sys.caches core _)[j]? = _
          rw [hji, modifyAt_getElem?_self, ← hji, hj]; rfl
        · obtain ⟨a0, a1, a2, a3⟩ := hacc cj
          refine ⟨a0, a1, a2, ?_⟩
          rw [a3, if_pos ⟨hji, Or.inr h1⟩]
      · refine ⟨cj, ?_, sameLines_refl cj, rfl, rfl, ?_⟩
        · show (modifyAt d.sys.caches core _)[j]? = _
          rw [modifyAt_getElem?_ne _ _ _ _ hji]; exact hj
        · rw [if_neg (fun h => hji h.1)]; rfl
    · rw [if_neg h1]
      have hno : ∀ j : Nat, ¬(j = core ∧ (code = 0 ∨ code = 1)) := by
        intro j h; rcases h.2 with h | h
        · exact h0 h
        · exact h1 h
      by_cases h2 : code = -1
      · rw [if_pos h2]
        apply modifyAt_rel
        · intro j c _; rw [if_neg (hno j)]; exact ⟨sameLines_refl c, rfl, rfl, rfl⟩
        · intro c _; rw [if_neg (hno core)]; exact ⟨countIdle_sameLines c, rfl, rfl, rfl⟩
      · rw [if_neg h2]
        by_cases h3 : code = 2
        · rw [if_pos h3]
          apply modifyAt_rel
          · intro j c _; rw [if_neg (hno j)]; exact ⟨sameLines_refl c, rfl, rfl, rfl⟩
          · intro c _; rw [if_neg (hno core)]; exact ⟨countExec_sameLines c, rfl, rfl, rfl⟩
        · rw [if_neg h3]
          apply CachesRel.refl
          intro j c _; rw [if_neg (hno j)]; exact ⟨sameLines_refl c, rfl, rfl, rfl⟩

theorem work_advance (traces : List (List TraceEntry)) (d d' : Driver) (core : Nat)
    (hn : d.currentInstructionIndex.length = numCores) (hc : core < numCores)
    (hp : d.pending traces core)
    (he : d'.currentInstructionIndex = modifyAt d.currentInstructionIndex core (· + 1)) :
    d'.remainingWork traces + 1 = d.remainingWork traces := by
  have hget : ∀ j, (modifyAt d.currentInstructionIndex core (· + 1)).getD j 0 =
      if j = core then d.currentInstructionIndex.getD j 0 + 1
      else d.currentInstructionIndex.getD j 0 := by
    intro j
    by_cases hj : j = core
    · rw [if_pos hj, hj]; exact modifyAt_getD_self _ _ (by rw [hn]; exact hc)
    · rw [if_neg hj]; exact modifyAt_getD_ne _ _ _ _ hj
  unfold Driver.pending at hp
  unfold Driver.remainingWork
  rw [he]
  simp only [hget]
  unfold numCores at hc ⊢
  simp only [List.range_succ, List.range_zero, List.nil_append, List.cons_append,
    List.map_cons, List.map_nil, List.sum_cons, List.sum_nil]
  interval_cases core <;> simp at hp ⊢ <;> omega

theorem work_same (traces : List (List TraceEntry)) (d d' : Driver)
    (he : d'.currentInstructionIndex = d.currentInstructionIndex) :
    d'.remainingWork traces = d.remainingWork traces := by
  unfold Driver.remainingWork; rw [he]


theorem issue_skip (traces : List (List TraceEntry)) (st : Driver × Bool) (core : Nat)
    (h : ¬st.1.pending traces core) : Driver.issue traces st core = st := by
  unfold Driver.pending at h
  have hnone : (traces.getD core [])[st.1.currentInstructionIndex.getD core 0]? = none :=
    List.getElem?_eq_none (Nat.le_of_not_lt h)
  unfold Driver.issue
  rw [hnone]

theorem issue_entry (traces : List (List TraceEntry)) (st : Driver × Bool) (core : Nat)
    (e : TraceEntry)
    (h : (traces.getD core [])[st.1.currentInstructionIndex.getD core 0]? = some e) :
    Driver.issue traces st core =
      (Driver.dispatch { st.1 with sys := (if e.isWrite
          then Cache.write st.1.sys core e.address (core : Int)
          else Cache.read st.1.sys core e.address (core : Int)).1 } core e.isWrite
        (if e.isWrite then Cache.write st.1.sys core e.address (core : Int)
          else Cache.read st.1.sys core e.address (core : Int)).2, false) := by
  unfold Driver.issue
  rw [h]

theorem issued_of_outcome {s E b : Nat} (traces : List (List TraceEntry)) (d : Driver)
    (core : Nat) (hinv : Driver.Inv s E b traces d) (hcore : core < numCores)
    (hp : d.pending traces core) (e : TraceEntry)
    (he : (traces.getD core [])[d.currentInstructionIndex.getD core 0]? = some e)
    (c : Cache) (hc : d.sys.caches[core]? = some c) (r : System × Int)
    (hout : Outcome d.sys core c e.address r) (hr : Inv s E b r.1) (w : Bool) :
    Driver.Issued s E b traces core d
      (Driver.dispatch { d with sys := r.1 } core w r.2) := by
  have hbus : (Driver.dispatch { d with sys := r.1 } core w r.2).sys.bus = r.1.bus :=
    dispatch_bus _ _ _ _
  have hidx : (Driver.dispatch { d with sys := r.1 } core w r.2).currentInstructionIndex =
      (if r.2 = 0 then modifyAt d.currentInstructionIndex core (· + 1)
        else d.currentInstructionIndex) := dispatch_index _ _ _ _
  have htot : (Driver.dispatch { d with sys := r.1 } core w r.2).totalInstructions =
      (if r.2 = 0 then modifyAt d.totalInstructions core (· + 1)
        else d.totalInstructions) := dispatch_total _ _ _ _
  have hrel := dispatch_caches { d with sys := r.1 } core w r.2
  have hrel' : CachesRel _ r.1.caches
      (Driver.dispatch { d with sys := r.1 } core w r.2).sys.caches := hrel
  have hsys : Inv s E b (Driver.dispatch { d with sys := r.1 } core w r.2).sys :=
    inv_sameLines hr (hrel'.mono (fun _ _ _ _ h => h.1))
  have hwork : (Driver.dispatch { d with sys := r.1 } core w r.2).remainingWork traces + 1
        = d.remainingWork traces ∨
      ((Driver.dispatch { d with sys := r.1 } core w r.2).remainingWork traces
        = d.remainingWork traces ∧ r.2 ≠ 0) := by
    by_cases h0 : r.2 = 0
    · left
      apply work_advance traces d _ core hinv.nindex hcore hp
      rw [hidx, if_pos h0]
    · right
      refine ⟨work_same traces d _ ?_, h0⟩
      rw [hidx, if_neg h0]
  refine ⟨⟨hsys, ?_, ?_, ?_, ?_, ?_, ?_, ?_, ?_⟩, ?_, ?_, ?_⟩
  · exact hrel'.1.trans (hout.counts.1.trans hinv.ncaches)
  · rw [htot]; split_ifs
    · rw [modifyAt_length]; exact hinv.ntotal
    · exact hinv.ntotal
  · rw [hidx]; split_ifs
    · rw [modifyAt_length]; exact hinv.nindex
    · exact hinv.nindex
  · rw [hbus]
    intro hidle
    cases hb : d.sys.bus.isBusy with
    | true =>
      rw [hout.busy hb, hb] at hidle; cases hidle
    | false =>
      rcases hout.idle hb with h0 | h1
      · rcases (hout.hit h0).2 with h | h
        · rw [h]; exact hinv.idle hb
        · rw [h.2.1] at hidle; cases hidle
      · rw [(hout.miss h1).2.2.1] at hidle; cases hidle
  · rw [htot, hidx, hinv.retired]
  · intro i c2 hc2
    obtain ⟨c1, hc1, _, r1, r2, r3⟩ := hrel'.inv hc2
    obtain ⟨c0, hc0, q1, q2, _, _, q5, q6⟩ := hout.counts.inv hc1
    have h0 := hinv.counts i c0 hc0
    rw [r1, r2, r3, q5, q6, q1, q2]
    split_ifs <;> omega
  · intro i
    rw [hidx]
    split_ifs with h0
    · by_cases hi : i = core
      · rw [hi, modifyAt_getD_self _ _ (by rw [hinv.nindex]; exact hcore)]
        exact hp
      · rw [modifyAt_getD_ne _ _ _ _ hi]; exact hinv.bound i
    · exact hinv.bound i
  · rw [hbus]
    intro hrem
    cases hb : d.sys.bus.isBusy with
    | true =>
      rw [hout.busy hb] at hrem ⊢
      obtain ⟨o, ho, howner, hpend⟩ := hinv.owner hrem
      refine ⟨o, ho, howner, ?_⟩
      rw [hidx]
      split_ifs with h0
      · have hne : o ≠ core := by
          intro hoc
          have h2 := hout.self hb (by rw [howner, hoc])
          rw [h0] at h2; cases h2
        rw [modifyAt_getD_ne _ _ _ _ hne]; exact hpend
      · exact hpend
    | false =>
      have hle := hinv.idle hb
      rcases hout.idle hb with h0 | h1
      · rcases (hout.hit h0).2 with h | h
        · rw [h] at hrem; omega
        · rw [h.2.2] at hrem; omega
      · refine ⟨core, hcore, (hout.miss h1).2.2.2.1, ?_⟩
        rw [hidx, if_neg (by rw [h1]; decide)]
        exact hp
  · rcases hwork with h | h
    · omega
    · omega
  · intro hb
    rw [hbus]; exact hout.busy hb
  · rcases hout.code with h0 | h1 | h2
    · left
      rcases hwork with h | h
      · omega
      · exact absurd h0 h.2
    · right; right
      have hn0 : r.2 ≠ 0 := by rw [h1]; decide
      obtain ⟨m1, m2, m3, _, c1, hc1, m5⟩ := hout.miss h1
      obtain ⟨c2, hc2, hs, _⟩ := hrel'.2 core c1 hc1
      refine ⟨by rw [hidx, if_neg hn0], m2, by rw [hbus]; exact m3, e, c, c2, he, hc, hc2, m1, ?_⟩
      have hw0 := wellFormed_decode (hinv.sys.shape core c hc) e.address
      have hw2 := wellFormed_decode (hsys.shape core c2 hc2) e.address
      rw [hw2.1, hw2.2, ← hw0.1, ← hw0.2]
      exact (sameLines_holds hs _ _).2 m5
    · right; left
      have hn0 : r.2 ≠ 0 := by rcases h2 with h | h <;> rw [h] <;> decide
      have hst := (hout.stall h2).1
      refine ⟨by rw [hidx, if_neg hn0], by rw [hbus, hst], (hout.stall h2).2, ?_⟩
      rw [← hst]
      exact hrel'.mono (fun _ _ _ _ h => h.1)

theorem issue_issued {s E b : Nat} (hE : 1 ≤ E) (traces : List (List TraceEntry))
    (d : Driver) (f : Bool) (core : Nat) (hinv : Driver.Inv s E b traces d)
    (hcore : core < numCores) (hp : d.pending traces core) :
    Driver.Issued s E b traces core d (Driver.issue traces (d, f) core).1 ∧
      (Driver.issue traces (d, f) core).2 = false := by
  have hp' := hp
  unfold Driver.pending at hp'
  have he : (traces.getD core [])[d.currentInstructionIndex.getD core 0]? =
      some ((traces.getD core [])[d.currentInstructionIndex.getD core 0]) :=
    List.getElem?_eq_getElem hp'
  have hlt : core < d.sys.caches.length := by rw [hinv.ncaches]; exact hcore
  have hc : d.sys.caches[core]? = some (d.sys.caches[core]) := List.getElem?_eq_getElem hlt
  rw [issue_entry traces (d, f) core _ he]
  refine ⟨?_, rfl⟩
  apply issued_of_outcome traces d core hinv hcore hp _ he _ hc
  · split_ifs
    · exact outcome_write hinv.sys hE core _ _ hc
    · exact outcome_read hinv.sys hE core _ _ hc
  · split_ifs
    · exact inv_write hinv.sys core _
    · exact inv_read hinv.sys core _


/-! ### The cycle loop: retirement and the bus tick -/

theorem cycle_eq (traces : List (List TraceEntry)) (d : Driver) :
    Driver.cycle traces d =
      ({ ((List.range numCores).foldl (Driver.issue traces) (d.advance, true)).1 with
          sys := { ((List.range numCores).foldl (Driver.issue traces) (d.advance, true)).1.sys
            with globalCycle :=
              ((List.range numCores).foldl (Driver.issue traces)
                (d.advance, true)).1.sys.globalCycle + 1 } },
        ((List.range numCores).foldl (Driver.issue traces) (d.advance, true)).2) := rfl

theorem retire_noop (d : Driver) (h : d.sys.bus.remainingCycles ≠ 1) : d.retire = d := by
  unfold Driver.retire; rw [if_neg h]

theorem retire_owner (d : Driver) (o : Nat) (h : d.sys.bus.remainingCycles = 1)
    (ho : d.sys.bus.currentRequestingCore = (o : Int)) :
    d.retire =
      { sys := { d.sys with caches := modifyAt d.sys.caches o Cache.countExec }
        totalInstructions := modifyAt d.totalInstructions o (· + 1)
        currentInstructionIndex := modifyAt d.currentInstructionIndex o (· + 1) } := by
  unfold Driver.retire
  rw [if_pos h, ho, if_pos (Int.ofNat_nonneg o)]
  simp

theorem updateBusState_last (b : Bus) (hb : b.isBusy = true) (h : b.remainingCycles ≤ 1) :
    b.updateBusState.isBusy = false ∧
      b.updateBusState.remainingCycles = b.remainingCycles - 1 := by
  unfold Bus.updateBusState
  rw [if_pos hb, if_pos (by omega)]
  exact ⟨rfl, rfl⟩

theorem updateBusState_many (b : Bus) (hb : b.isBusy = true) (h : 2 ≤ b.remainingCycles) :
    b.updateBusState = { b with remainingCycles := b.remainingCycles - 1 } := by
  unfold Bus.updateBusState
  rw [if_pos hb, if_neg (by omega)]

theorem updateBusState_idle (b : Bus) (hb : b.isBusy = false) : b.updateBusState = b := by
  unfold Bus.updateBusState
  rw [hb]; rfl

theorem driverInv_busy {s E b : Nat} {traces : List (List TraceEntry)} {d : Driver}
    (hinv : Driver.Inv s E b traces d) (h : 1 ≤ d.sys.bus.remainingCycles) :
    d.sys.bus.isBusy = true := by
  cases hb : d.sys.bus.isBusy with
  | true => rfl
  | false => have := hinv.idle hb; omega

theorem advance_retire {s E b : Nat} {traces : List (List TraceEntry)} {d : Driver}
    (hinv : Driver.Inv s E b traces d) (h : d.sys.bus.remainingCycles = 1) :
    Driver.Inv s E b traces d.advance ∧
      d.advance.remainingWork traces + 1 = d.remainingWork traces := by
  obtain ⟨o, ho, howner, hpend⟩ := hinv.owner (by omega)
  have hb := driverInv_busy hinv (by omega)
  have hret := retire_owner d o h howner
  have htick := updateBusState_last d.sys.bus hb (by omega)
  have hbus : d.advance.sys.bus = d.sys.bus.updateBusState := by
    unfold Driver.advance; rw [hret]
  have hcaches : d.advance.sys.caches = modifyAt d.sys.caches o Cache.countExec := by
    unfold Driver.advance; rw [hret]
  have hidx : d.advance.currentInstructionIndex =
      modifyAt d.currentInstructionIndex o (· + 1) := by
    unfold Driver.advance; rw [hret]
  have htot : d.advance.totalInstructions = modifyAt d.totalInstructions o (· + 1) := by
    unfold Driver.advance; rw [hret]
  have hrel : CachesRel (fun _ c c' => c.sameLines c' ∧ c'.stats.hitCount = c.stats.hitCount ∧
      c'.stats.missCount = c.stats.missCount ∧ c'.stats.readCount = c.stats.readCount ∧
      c'.stats.writeCount = c.stats.writeCount) d.sys.caches d.advance.sys.caches := by
    rw [hcaches]
    apply modifyAt_rel
    · intro j c _; exact ⟨sameLines_refl c, rfl, rfl, rfl, rfl⟩
    · intro c _; exact ⟨countExec_sameLines c, rfl, rfl, rfl, rfl⟩
  refine ⟨⟨?_, ?_, ?_, ?_, ?_, ?_, ?_, ?_, ?_⟩, ?_⟩
  · exact inv_sameLines hinv.sys (hrel.mono (fun _ _ _ _ h => h.1))
  · exact hrel.1.trans hinv.ncaches
  · rw [htot, modifyAt_length]; exact hinv.ntotal
  · rw [hidx, modifyAt_length]; exact hinv.nindex
  · intro _; rw [hbus, htick.2]; omega
  · rw [htot, hidx, hinv.retired]
  · intro i c2 hc2
    obtain ⟨c0, hc0, _, r1, r2, r3, r4⟩ := hrel.inv hc2
    rw [r1, r2, r3, r4]; exact hinv.counts i c0 hc0
  · intro i
    rw [hidx]
    by_cases hi : i = o
    · rw [hi, modifyAt_getD_self _ _ (by rw [hinv.nindex]; exact ho)]; exact hpend
    · rw [modifyAt_getD_ne _ _ _ _ hi]; exact hinv.bound i
  · intro hrem; rw [hbus, htick.2] at hrem; omega
  · exact work_advance traces d _ o hinv.nindex ho hpend hidx

theorem advance_wait {s E b : Nat} {traces : List (List TraceEntry)} {d : Driver}
    (hinv : Driver.Inv s E b traces d) (h : d.sys.bus.remainingCycles ≠ 1) :
    Driver.Inv s E b traces d.advance ∧
      d.advance.currentInstructionIndex = d.currentInstructionIndex ∧
      d.advance.sys.caches = d.sys.caches ∧
      (2 ≤ d.sys.bus.remainingCycles → d.advance.sys.bus.isBusy = true ∧
        d.advance.sys.bus.remainingCycles = d.sys.bus.remainingCycles - 1) ∧
      (d.sys.bus.remainingCycles ≤ 0 → d.advance.sys.bus.isBusy = false) := by
  have hret := retire_noop d h
  have hbus : d.advance.sys.bus = d.sys.bus.updateBusState := by
    unfold Driver.advance; rw [hret]
  have hcaches : d.advance.sys.caches = d.sys.caches := by
    unfold Driver.advance; rw [hret]
  have hidx : d.advance.currentInstructionIndex = d.currentInstructionIndex := by
    unfold Driver.advance; rw [hret]
  have htot : d.advance.totalInstructions = d.totalInstructions := by
    unfold Driver.advance; rw [hret]
  have hmany : 2 ≤ d.sys.bus.remainingCycles → d.advance.sys.bus.isBusy = true ∧
      d.advance.sys.bus.remainingCycles = d.sys.bus.remainingCycles - 1 ∧
      d.advance.sys.bus.currentRequestingCore = d.sys.bus.currentRequestingCore := by
    intro h2
    have hb := driverInv_busy hinv (by omega)
    rw [hbus, updateBusState_many _ hb h2]
    exact ⟨hb, rfl, rfl⟩
  have hfew : d.sys.bus.remainingCycles ≤ 0 → d.advance.sys.bus.isBusy = false ∧
      d.advance.sys.bus.remainingCycles ≤ 0 := by
    intro h0
    rw [hbus]
    cases hb : d.sys.bus.isBusy with
    | true =>
      have := updateBusState_last _ hb (by omega)
      exact ⟨this.1, by rw [this.2]; omega⟩
    | false =>
      rw [updateBusState_idle _ hb]; exact ⟨hb, h0⟩
  refine ⟨⟨?_, ?_, ?_, ?_, ?_, ?_, ?_, ?_, ?_⟩, hidx, hcaches, ?_, ?_⟩
  · exact hinv.sys.congr hcaches
  · rw [hcaches]; exact hinv.ncaches
  · rw [htot]; exact hinv.ntotal
  · rw [hidx]; exact hinv.nindex
  · intro hidle
    by_cases h2 : 2 ≤ d.sys.bus.remainingCycles
    · rw [(hmany h2).1] at hidle; cases hidle
    · exact (hfew (by omega)).2
  · rw [htot, hidx, hinv.retired]
  · intro i c hc; rw [hcaches] at hc; exact hinv.counts i c hc
  · intro i; rw [hidx]; exact hinv.bound i
  · intro hrem
    by_cases h2 : 2 ≤ d.sys.bus.remainingCycles
    · obtain ⟨o, ho, howner, hpend⟩ := hinv.owner (by omega)
      refine ⟨o, ho, ?_, ?_⟩
      · rw [(hmany h2).2.2]; exact howner
      · rw [hidx]; exact hpend
    · have := (hfew (by omega)).2; omega
  · intro h2; exact ⟨(hmany h2).1, (hmany h2).2.1⟩
  · intro h0; exact (hfew h0).1

theorem driverInv_init (s E b : Nat) (hsb : s + b ≤ 31) (traces : List (List TraceEntry)) :
    Driver.Inv s E b traces (Driver.init s E b) := by
  refine ⟨inv_init numCores s E b hsb, ?_, ?_, ?_, ?_, rfl, ?_, ?_, ?_⟩
  · simp [Driver.init, System.init]
  · simp [Driver.init]
  · simp [Driver.init]
  · intro _; show (0 : Int) ≤ 0; exact le_refl _
  · intro i c hc
    have := init_getElem? hc
    rw [this]; rfl
  · intro i
    have : (Driver.init s E b).currentInstructionIndex.getD i 0 = 0 := by
      simp only [Driver.init, List.getD_eq_getElem?_getD]
      cases h : (List.replicate numCores 0)[i]? with
      | none => rfl
      | some x =>
        have hx := List.getElem?_eq_some.1 h
        obtain ⟨_, hx⟩ := hx
        simp at hx; simp [hx]
    rw [this]; exact Nat.zero_le _
  · intro h
    have : (1 : Int) ≤ 0 := h
    omega


/-! ### The cycle loop: the per-core loop -/

theorem fold_flag (traces : List (List TraceEntry)) :
    ∀ (cores : List Nat) (d : Driver) (f : Bool),
      (cores.foldl (Driver.issue traces) (d, f)).2 = true →
        f = true ∧ (cores.foldl (Driver.issue traces) (d, f)).1 = d ∧
          ∀ c ∈ cores, ¬d.pending traces c := by
  intro cores
  induction cores with
  | nil => intro d f h; exact ⟨h, rfl, fun c hc => by cases hc⟩
  | cons c rest ih =>
    intro d f h
    rw [List.foldl_cons] at h ⊢
    by_cases hp : d.pending traces c
    · have hp' := hp
      unfold Driver.pending at hp'
      have he := issue_entry traces (d, f) c _ (List.getElem?_eq_getElem hp')
      rw [he] at h
      have := (ih _ _ h).1
      cases this
    · rw [issue_skip traces (d, f) c hp] at h ⊢
      obtain ⟨h1, h2, h3⟩ := ih d f h
      refine ⟨h1, h2, ?_⟩
      intro x hx
      rcases List.mem_cons.1 hx with hx | hx
      · rw [hx]; exact hp
      · exact h3 x hx

theorem fold_inv {s E b : Nat} (hE : 1 ≤ E) (traces : List (List TraceEntry)) :
    ∀ (cores : List Nat), (∀ c ∈ cores, c < numCores) → ∀ (d : Driver) (f : Bool),
      Driver.Inv s E b traces d →
        Driver.Inv s E b traces (cores.foldl (Driver.issue traces) (d, f)).1 ∧
        (cores.foldl (Driver.issue traces) (d, f)).1.remainingWork traces
          ≤ d.remainingWork traces ∧
        (d.sys.bus.isBusy = true →
          (cores.foldl (Driver.issue traces) (d, f)).1.sys.bus = d.sys.bus) := by
  intro cores
  induction cores with
  | nil => intro _ d f hinv; exact ⟨hinv, le_refl _, fun _ => rfl⟩
  | cons c rest ih =>
    intro hlt d f hinv
    have hrest : ∀ x ∈ rest, x < numCores := fun x hx => hlt x (List.mem_cons_of_mem _ hx)
    rw [List.foldl_cons]
    by_cases hp : d.pending traces c
    · have hi0 := (issue_issued hE traces d f c hinv (hlt c (List.mem_cons_self _ _)) hp).1
      generalize Driver.issue traces (d, f) c = st at hi0 ⊢
      obtain ⟨d1, f1⟩ := st
      have hi : Driver.Issued s E b traces c d d1 := hi0
      obtain ⟨a1, a2, a3⟩ := ih hrest d1 f1 hi.inv
      refine ⟨a1, le_trans a2 hi.work_le, ?_⟩
      intro hb
      have hb1 := hi.busy hb
      rw [a3 (by rw [hb1]; exact hb), hb1]
    · rw [issue_skip traces (d, f) c hp]
      exact ih hrest d f hinv

theorem fold_busy {s E b : Nat} (hE : 1 ≤ E) (traces : List (List TraceEntry)) :
    ∀ (cores : List Nat), (∀ c ∈ cores, c < numCores) → ∀ (d : Driver) (f : Bool),
      Driver.Inv s E b traces d → d.sys.bus.isBusy = true →
        (cores.foldl (Driver.issue traces) (d, f)).1.remainingWork traces
            < d.remainingWork traces ∨
        ((cores.foldl (Driver.issue traces) (d, f)).1.currentInstructionIndex
            = d.currentInstructionIndex ∧
          CachesRel (fun _ c c' => c.sameLines c') d.sys.caches
            (cores.foldl (Driver.issue traces) (d, f)).1.sys.caches) := by
  intro cores
  induction cores with
  | nil =>
    intro _ d f _ _
    exact Or.inr ⟨rfl, CachesRel.refl _ (fun _ c _ => sameLines_refl c)⟩
  | cons c rest ih =>
    intro hlt d f hinv hb
    have hrest : ∀ x ∈ rest, x < numCores := fun x hx => hlt x (List.mem_cons_of_mem _ hx)
    rw [List.foldl_cons]
    by_cases hp : d.pending traces c
    · have hi0 := (issue_issued hE traces d f c hinv (hlt c (List.mem_cons_self _ _)) hp).1
      generalize Driver.issue traces (d, f) c = st at hi0 ⊢
      obtain ⟨d1, f1⟩ := st
      have hi : Driver.Issued s E b traces c d d1 := hi0
      have hle := (fold_inv hE traces rest hrest d1 f1 hi.inv).2.1
      rcases hi.cases with h | h | h
      · left; omega
      · obtain ⟨h1, h2, _, h4⟩ := h
        rcases ih hrest d1 f1 hi.inv (by rw [h2]; exact hb) with g | g
        · left
          have := work_same traces d _ h1
          omega
        · right
          exact ⟨g.1.trans h1, h4.trans g.2 (fun _ _ _ _ x y => sameLines_trans x y)⟩
      · rw [hb] at h; cases h.2.1
    · rw [issue_skip traces (d, f) c hp]
      exact ih hrest d f hinv hb

theorem fold_idle {s E b : Nat} (hE : 1 ≤ E) (traces : List (List TraceEntry)) :
    ∀ (cores : List Nat), (∀ c ∈ cores, c < numCores) → ∀ (d : Driver) (f : Bool),
      Driver.Inv s E b traces d → d.sys.bus.isBusy = false →
        (cores.foldl (Driver.issue traces) (d, f) = (d, f)) ∨
        (cores.foldl (Driver.issue traces) (d, f)).1.remainingWork traces
            < d.remainingWork traces ∨
        ((cores.foldl (Driver.issue traces) (d, f)).1.currentInstructionIndex
            = d.currentInstructionIndex ∧
          ∃ c0 e c c', cores.find? (fun x => decide
              (d.currentInstructionIndex.getD x 0 < (traces.getD x []).length)) = some c0 ∧
            (traces.getD c0 [])[d.currentInstructionIndex.getD c0 0]? = some e ∧
            d.sys.caches[c0]? = some c ∧
            (cores.foldl (Driver.issue traces) (d, f)).1.sys.caches[c0]? = some c' ∧
            ¬c.holds (c.getSetIndex e.address) (c.getTag e.address) ∧
            c'.holds (c'.getSetIndex e.address) (c'.getTag e.address)) := by
  intro cores
  induction cores with
  | nil => intro _ d f _ _; exact Or.inl rfl
  | cons c rest ih =>
    intro hlt d f hinv hb
    have hrest : ∀ x ∈ rest, x < numCores := fun x hx => hlt x (List.mem_cons_of_mem _ hx)
    rw [List.foldl_cons]
    by_cases hp : d.pending traces c
    · have hi0 := (issue_issued hE traces d f c hinv (hlt c (List.mem_cons_self _ _)) hp).1
      generalize Driver.issue traces (d, f) c = st at hi0 ⊢
      obtain ⟨d1, f1⟩ := st
      have hi : Driver.Issued s E b traces c d d1 := hi0
      have hle := (fold_inv hE traces rest hrest d1 f1 hi.inv).2.1
      rcases hi.cases with h | h | h
      · right; left; omega
      · rw [hb] at h; cases h.2.2.1
      · obtain ⟨h1, _, h3, e, c1, c2, he, hc1, hc2, hno, hyes⟩ := h
        rcases fold_busy hE traces rest hrest d1 f1 hi.inv h3 with g | g
        · right; left
          have := work_same traces d _ h1
          omega
        · right; right
          obtain ⟨c3, hc3, hs⟩ := g.2.2 c c2 hc2
          refine ⟨g.1.trans h1, c, e, c1, c3, ?_, he, hc1, hc3, hno, ?_⟩
          · rw [List.find?_cons_of_pos]
            exact decide_eq_true hp
          · rw [sameLines_getSetIndex hs, sameLines_getTag hs]
            exact (sameLines_holds hs _ _).2 hyes
    · rw [issue_skip traces (d, f) c hp]
      rcases ih hrest d f hinv hb with g | g | g
      · exact Or.inl g
      · exact Or.inr (Or.inl g)
      · right; right
        obtain ⟨g1, c0, e, c1, c2, g2, g3⟩ := g
        refine ⟨g1, c0, e, c1, c2, ?_, g3⟩
        rw [List.find?_cons_of_neg]
        · exact g2
        · intro h
          have h2 : d.currentInstructionIndex.getD c 0 < (traces.getD c []).length :=
            of_decide_eq_true h
          exact hp h2


/-! ### The cycle loop: the measure that decreases -/

theorem findWay_isSome_holds (c : Cache) (si tag : Nat) :
    (findWay tag (c.setLines si)).isSome = true ↔ c.holds si tag := by
  rw [holds_iff_findWay, Option.isSome_iff_exists]

theorem needsFill_le_one (traces : List (List TraceEntry)) (d : Driver) :
    d.needsFill traces ≤ 1 := by
  unfold Driver.needsFill
  split
  · exact Nat.zero_le _
  · split
    · split_ifs <;> omega
    · exact Nat.zero_le _

theorem needsFill_congr (traces : List (List TraceEntry)) (d d' : Driver)
    (hidx : d'.currentInstructionIndex = d.currentInstructionIndex)
    (hrel : CachesRel (fun _ c c' => c.sameLines c') d.sys.caches d'.sys.caches) :
    d'.needsFill traces = d.needsFill traces := by
  unfold Driver.needsFill Driver.firstPending
  rw [hidx]
  cases (List.range numCores).find? (fun c => decide
      (d.currentInstructionIndex.getD c 0 < (traces.getD c []).length)) with
  | none => rfl
  | some c0 =>
    simp only []
    cases he : (traces.getD c0 [])[d.currentInstructionIndex.getD c0 0]? with
    | none => rfl
    | some e =>
      cases hc : d.sys.caches[c0]? with
      | none =>
        have hlen : d.sys.caches.length ≤ c0 := by
          by_contra hlt
          rw [List.getElem?_eq_getElem (by omega)] at hc
          cases hc
        have hc' : d'.sys.caches[c0]? = none :=
          List.getElem?_eq_none (by rw [hrel.1]; exact hlen)
        rw [hc']
      | some c =>
        obtain ⟨c', hc', hs⟩ := hrel.2 c0 c hc
        rw [hc']
        simp only []
        rw [sameLines_getSetIndex hs, sameLines_getTag hs, sameLines_setLines hs]

theorem needsFill_of_holds (traces : List (List TraceEntry)) (d : Driver) (c0 : Nat)
    (e : TraceEntry) (c : Cache)
    (hf : (List.range numCores).find? (fun x => decide
      (d.currentInstructionIndex.getD x 0 < (traces.getD x []).length)) = some c0)
    (he : (traces.getD c0 [])[d.currentInstructionIndex.getD c0 0]? = some e)
    (hc : d.sys.caches[c0]? = some c) :
    (c.holds (c.getSetIndex e.address) (c.getTag e.address) → d.needsFill traces = 0) ∧
    (¬c.holds (c.getSetIndex e.address) (c.getTag e.address) → d.needsFill traces = 1) := by
  unfold Driver.needsFill Driver.firstPending
  rw [hf]
  simp only []
  rw [he, hc]
  simp only []
  constructor
  · intro h
    rw [if_pos ((findWay_isSome_holds _ _ _).2 h)]
  · intro h
    rw [if_neg (fun h2 => h ((findWay_isSome_holds _ _ _).1 h2))]

theorem mem_range_cores : ∀ c ∈ List.range numCores, c < numCores :=
  fun _ hc => List.mem_range.1 hc

theorem cycle_spec {s E b : Nat} (hE : 1 ≤ E) (traces : List (List TraceEntry)) (d : Driver)
    (hinv : Driver.Inv s E b traces d) :
    Driver.Inv s E b traces (Driver.cycle traces d).1 ∧
    ((Driver.cycle traces d).2 = true →
      ∀ c, c < numCores → ¬(Driver.cycle traces d).1.pending traces c) ∧
    ((Driver.cycle traces d).2 = false →
      (Driver.cycle traces d).1.remainingWork traces < d.remainingWork traces ∨
      ((Driver.cycle traces d).1.remainingWork traces = d.remainingWork traces ∧
        (Driver.cycle traces d).1.needsFill traces < d.needsFill traces) ∨
      ((Driver.cycle traces d).1.remainingWork traces = d.remainingWork traces ∧
        (Driver.cycle traces d).1.needsFill traces = d.needsFill traces ∧
        (Driver.cycle traces d).1.sys.bus.remainingCycles.toNat
          < d.sys.bus.remainingCycles.toNat)) := by
  rw [cycle_eq]
  have hadv : Driver.Inv s E b traces d.advance := by
    by_cases h1 : d.sys.bus.remainingCycles = 1
    · exact (advance_retire hinv h1).1
    · exact (advance_wait hinv h1).1
  have hfold := fold_inv hE traces (List.range numCores) mem_range_cores d.advance true hadv
  have hflag := fold_flag traces (List.range numCores) d.advance true
  have hfb := fold_busy hE traces (List.range numCores) mem_range_cores d.advance true hadv
  have hfi := fold_idle hE traces (List.range numCores) mem_range_cores d.advance true hadv
  generalize (List.range numCores).foldl (Driver.issue traces) (d.advance, true) = st
    at hfold hflag hfb hfi
  obtain ⟨d1, f1⟩ := st
  have hfold1 : Driver.Inv s E b traces d1 := hfold.1
  have hwork1 : d1.remainingWork traces ≤ d.advance.remainingWork traces := hfold.2.1
  have hbus1 : d.advance.sys.bus.isBusy = true → d1.sys.bus = d.advance.sys.bus := hfold.2.2
  have hflag1 : f1 = true → d1 = d.advance ∧ ∀ c ∈ List.range numCores,
      ¬d.advance.pending traces c := fun h => (hflag h).2
  refine ⟨?_, ?_, ?_⟩
  · exact ⟨hfold1.sys.congr rfl, hfold1.ncaches, hfold1.ntotal, hfold1.nindex, hfold1.idle,
      hfold1.retired, hfold1.counts, hfold1.bound, hfold1.owner⟩
  · intro hf c hc hp
    obtain ⟨h1, h2⟩ := hflag1 hf
    apply h2 c (List.mem_range.2 hc)
    rw [← h1]; exact hp
  · intro hf
    have hf1 : f1 = false := hf
    have key : d1.remainingWork traces < d.remainingWork traces ∨
        (d1.remainingWork traces = d.remainingWork traces ∧
          d1.needsFill traces < d.needsFill traces) ∨
        (d1.remainingWork traces = d.remainingWork traces ∧
          d1.needsFill traces = d.needsFill traces ∧
          d1.sys.bus.remainingCycles.toNat < d.sys.bus.remainingCycles.toNat) := by
      by_cases h1 : d.sys.bus.remainingCycles = 1
      · left
        have := (advance_retire hinv h1).2
        omega
      · obtain ⟨_, hidx, hcaches, hmany, hfew⟩ := advance_wait hinv h1
        have hworkA : d.advance.remainingWork traces = d.remainingWork traces :=
          work_same traces d d.advance hidx
        have hnfA : d.advance.needsFill traces = d.needsFill traces :=
          needsFill_congr traces d d.advance hidx
            (by rw [hcaches]; exact CachesRel.refl _ (fun _ c _ => sameLines_refl c))
        by_cases h2 : 2 ≤ d.sys.bus.remainingCycles
        · obtain ⟨hb, hrem⟩ := hmany h2
          rcases hfb hb with g | g
          · left
            have g1 : d1.remainingWork traces < d.advance.remainingWork traces := g
            omega
          · right; right
            have g1 : d1.currentInstructionIndex = d.advance.currentInstructionIndex := g.1
            have g2 : CachesRel (fun _ c c' => c.sameLines c') d.advance.sys.caches
                d1.sys.caches := g.2
            refine ⟨(work_same traces d.advance d1 g1).trans hworkA,
              (needsFill_congr traces d.advance d1 g1 g2).trans hnfA, ?_⟩
            rw [hbus1 hb, hrem]
            omega
        · have hidle := hfew (by omega)
          rcases hfi hidle with g | g | g
          · have : f1 = true := congrArg Prod.snd g
            rw [hf1] at this; cases this
          · left
            have g1 : d1.remainingWork traces < d.advance.remainingWork traces := g
            omega
          · right; left
            obtain ⟨g1, c0, e, c, c', gf, ge, gc, gc', gno, gyes⟩ := g
            have g1' : d1.currentInstructionIndex = d.advance.currentInstructionIndex := g1
            have gc1 : d1.sys.caches[c0]? = some c' := gc'
            refine ⟨(work_same traces d.advance d1 g1').trans hworkA, ?_⟩
            rw [← hnfA, (needsFill_of_holds traces d.advance c0 e c gf ge gc).2 gno,
              (needsFill_of_holds traces d1 c0 e c' (by rw [g1']; exact gf)
                (by rw [g1']; exact ge) gc1).1 gyes]
            exact Nat.zero_lt_one
    exact key


/-! ### The cycle loop: invariance and termination -/

theorem driverInv_cycles {s E b : Nat} (hE : 1 ≤ E) (traces : List (List TraceEntry)) :
    ∀ (n : Nat) (d : Driver), Driver.Inv s E b traces d →
      Driver.Inv s E b traces (Driver.cycles traces n d) := by
  intro n
  induction n with
  | zero => intro d h; exact h
  | succ n ih =>
    intro d h
    exact ih _ (cycle_spec hE traces d h).1

theorem driverInv_run {s E b : Nat} (hE : 1 ≤ E) (traces : List (List TraceEntry)) :
    ∀ (fuel : Nat) (d d' : Driver), Driver.Inv s E b traces d →
      Driver.run traces fuel d = some d' →
        Driver.Inv s E b traces d' ∧ ∀ c, c < numCores → ¬d'.pending traces c := by
  intro fuel
  induction fuel with
  | zero => intro d d' _ h; cases h
  | succ n ih =>
    intro d d' hinv h
    have hs := cycle_spec hE traces d hinv
    unfold Driver.run at h
    simp only [] at h
    cases hf : (Driver.cycle traces d).2 with
    | true =>
      rw [hf] at h
      simp only [if_true] at h
      cases h
      exact ⟨hs.1, hs.2.1 hf⟩
    | false =>
      rw [hf] at h
      simp only [Bool.false_eq_true, if_false] at h
      exact ih _ _ hs.1 h

theorem run_succ (traces : List (List TraceEntry)) :
    ∀ (fuel : Nat) (d d' : Driver), Driver.run traces fuel d = some d' →
      Driver.run traces (fuel + 1) d = some d' := by
  intro fuel
  induction fuel with
  | zero => intro d d' h; cases h
  | succ n ih =>
    intro d d' h
    unfold Driver.run at h ⊢
    simp only [] at h ⊢
    cases hf : (Driver.cycle traces d).2 with
    | true =>
      rw [hf] at h
      simp only [if_true] at h ⊢
      exact h
    | false =>
      rw [hf] at h
      simp only [Bool.false_eq_true, if_false] at h ⊢
      exact ih _ _ h

theorem run_mono (traces : List (List TraceEntry)) (fuel : Nat) (d d' : Driver)
    (h : Driver.run traces fuel d = some d') :
    ∀ fuel', fuel ≤ fuel' → Driver.run traces fuel' d = some d' := by
  intro fuel' hle
  induction fuel' with
  | zero =>
    have : fuel = 0 := by omega
    rw [this] at h; exact h
  | succ n ih =>
    by_cases hn : fuel ≤ n
    · exact run_succ traces n d d' (ih hn)
    · have : fuel = n + 1 := by omega
      rw [this] at h; exact h

theorem run_terminates {s E b : Nat} (hE : 1 ≤ E) (traces : List (List TraceEntry)) :
    ∀ (m k : Nat) (d : Driver), Driver.Inv s E b traces d →
      2 * d.remainingWork traces + d.needsFill traces = m →
      d.sys.bus.remainingCycles.toNat = k →
        ∃ fuel d', Driver.run traces fuel d = some d' := by
  intro m
  induction m using Nat.strong_induction_on with
  | _ m ihm =>
    intro k
    induction k using Nat.strong_induction_on with
    | _ k ihk =>
      intro d hinv hm hk
      have hs := cycle_spec hE traces d hinv
      cases hf : (Driver.cycle traces d).2 with
      | true =>
        refine ⟨1, (Driver.cycle traces d).1, ?_⟩
        unfold Driver.run
        simp only []
        rw [hf]; rfl
      | false =>
        have hnf := needsFill_le_one traces (Driver.cycle traces d).1
        have hnf0 := needsFill_le_one traces d
        have hstep : ∃ fuel d', Driver.run traces fuel (Driver.cycle traces d).1 = some d' := by
          rcases hs.2.2 hf with g | g | g
          · exact ihm _ (by omega) _ _ hs.1 rfl rfl
          · exact ihm _ (by omega) _ _ hs.1 rfl rfl
          · have hm' : 2 * (Driver.cycle traces d).1.remainingWork traces +
                (Driver.cycle traces d).1.needsFill traces = m := by omega
            exact ihk _ (by omega) _ hs.1 hm' rfl
        obtain ⟨fuel, d', h⟩ := hstep
        refine ⟨fuel + 1, d', ?_⟩
        show (if (Driver.cycle traces d).2 = true then some (Driver.cycle traces d).1
          else Driver.run traces fuel (Driver.cycle traces d).1) = some d'
        rw [hf]
        simp only [Bool.false_eq_true, if_false]
        exact h

theorem pending_index {s E b : Nat} {traces : List (List TraceEntry)} {d : Driver}
    (hinv : Driver.Inv s E b traces d) (c : Nat) (h : ¬d.pending traces c) :
    d.currentInstructionIndex.getD c 0 = (traces.getD c []).length := by
  unfold Driver.pending at h
  have := hinv.bound c
  omega


/-! ### The bus flag, the instruction count, the counters and termination -/

set_option maxRecDepth 100000 in
theorem stall_changes_nothing_witness :
    (Cache.read ((System.init 2 1 2 2).run [Op.read 0 0]) 1 0 1).2 = -1 ∧
    (Cache.read ((System.init 2 1 2 2).run [Op.read 0 0]) 1 0 1).1 =
      (System.init 2 1 2 2).run [Op.read 0 0] :=
  ⟨by decide,
    (stall_changes_nothing ((System.init 2 1 2 2).run [Op.read 0 0]) 1 0 1).1
      (Or.inl (by decide))⟩

set_option maxRecDepth 1000000 in
/-- C3. The equivalence of `bus.isBusy` with `bus.remainingCycles > 0` fails in
a reachable state.  With `s = 1`, `E = 2`, `b = 2` and two caches: core 0
reads `0x0` (a miss served by memory), the bus is ticked 100 times, and core 0
writes `0x0`.  The write hits the `EXCLUSIVE` line and broadcasts `BusUpgr`,
which takes the bus without adding a cycle: the bus is busy with
`remainingCycles = 0`.  The next tick releases it with `remainingCycles = -1`,
and the next miss served by memory then counts 99 cycles instead of 100. -/
theorem bus_busy_without_cycles :
    ¬(((System.init 2 1 2 2).run
          ([Op.read 0 0] ++ List.replicate 100 Op.tick ++ [Op.write 0 0])).bus.isBusy = true ↔
        0 < ((System.init 2 1 2 2).run
          ([Op.read 0 0] ++ List.replicate 100 Op.tick ++
            [Op.write 0 0])).bus.remainingCycles) ∧
    ((System.init 2 1 2 2).run
        ([Op.read 0 0] ++ List.replicate 100 Op.tick ++ [Op.write 0 0])).bus.isBusy = true ∧
    ((System.init 2 1 2 2).run
        ([Op.read 0 0] ++ List.replicate 100 Op.tick ++ [Op.write 0 0])).bus.remainingCycles = 0 ∧
    ((System.init 2 1 2 2).run
        ([Op.read 0 0] ++ List.replicate 100 Op.tick ++ [Op.write 0 0, Op.tick])).bus.isBusy
        = false ∧
    ((System.init 2 1 2 2).run
        ([Op.read 0 0] ++ List.replicate 100 Op.tick ++
          [Op.write 0 0, Op.tick])).bus.remainingCycles = -1 ∧
    ((System.init 2 1 2 2).run
        ([Op.read 0 0] ++ List.replicate 100 Op.tick ++
          [Op.write 0 0, Op.tick, Op.read 0 8])).bus.remainingCycles = 99 := by
  decide

set_option maxRecDepth 1000000 in
/-- C4. At termination `totalInstructions` can differ from
`readCount + writeCount`.  With `s = 1`, `E = 2`, `b = 2`, core 0 running
`R 0, R 4, R 8, W 0, W 4` and core 1 running `R 8`, the loop exits with core 1
having retired one instruction while its `readCount` is 2: the two `BusUpgr`
hits of core 0 leave `remainingCycles` at `-2`, the miss of core 1 is served by
core 0 in 2 cycles, so the bus is released without `remainingCycles` ever being
1, the miss is never retired, and the entry is issued again as a hit.  With
`s = 0`, `E = 1`, `b = 0` the same happens when cores 0 and 1 both run `R 0`,
because a cache-to-cache transfer of a 1-byte block adds no cycle. -/
theorem retired_count_mismatch :
    (Driver.run
      [[⟨false, 0⟩, ⟨false, 4⟩, ⟨false, 8⟩, ⟨true, 0⟩, ⟨true, 4⟩], [⟨false, 8⟩], [], []]
      400 (Driver.init 1 2 2)).map
      (fun d => (d.totalInstructions,
        d.sys.caches.map (fun c => (c.stats.readCount, c.stats.writeCount)),
        d.currentInstructionIndex)) =
      some ([5, 1, 0, 0], [(3, 2), (2, 0), (0, 0), (0, 0)], [5, 1, 0, 0]) ∧
    (Driver.run [[⟨false, 0⟩], [⟨false, 0⟩], [], []] 110 (Driver.init 0 1 0)).map
      (fun d => (d.totalInstructions,
        d.sys.caches.map (fun c => (c.stats.readCount, c.stats.writeCount)),
        d.currentInstructionIndex)) =
      some ([1, 1, 0, 0], [(1, 0), (2, 0), (0, 0), (0, 0)], [1, 1, 0, 0]) := by
  decide

/-- C5. For all traces and parameters with `s + b ≤ 31` and `E ≥ 1`: after
every iteration of the cycle loop, and in the state the loop exits with, every
cache has `hitCount + missCount = readCount + writeCount`.  The parts: in a
state satisfying the cache-array invariant a `read` or `write` by cache `k`
raises `k`'s `hitCount` by one exactly when it returns 0 and `k`'s
`missCount` by one exactly when it returns 1, changes no peer's `hitCount` or
`missCount`, and changes nobody's `readCount` or `writeCount`; the driver's
dispatch raises `readCount + writeCount` of the core by one exactly on codes 0
and 1 and leaves `hitCount` and `missCount` alone; a snoop never changes
`hitCount` or `missCount`. -/
theorem counters_balance (s E b : Nat) (hsb : s + b ≤ 31) (hE : 1 ≤ E)
    (traces : List (List TraceEntry)) :
    (∀ (n i : Nat) (c : Cache),
      (Driver.cycles traces n (Driver.init s E b)).sys.caches[i]? = some c →
        c.stats.hitCount + c.stats.missCount = c.stats.readCount + c.stats.writeCount) ∧
    (∀ (fuel : Nat) (d' : Driver), Driver.run traces fuel (Driver.init s E b) = some d' →
      ∀ (i : Nat) (c : Cache), d'.sys.caches[i]? = some c →
        c.stats.hitCount + c.stats.missCount = c.stats.readCount + c.stats.writeCount) ∧
    (∀ (sys : System), Inv s E b sys → ∀ (k a : Nat) (c : Cache), sys.caches[k]? = some c →
      CachesRel (fun j cj cj' =>
          cj'.stats.readCount = cj.stats.readCount ∧ cj'.stats.writeCount = cj.stats.writeCount ∧
          cj'.stats.hitCount = cj.stats.hitCount +
            (if j = k ∧ (Cache.read sys k a (k : Int)).2 = 0 then 1 else 0) ∧
          cj'.stats.missCount = cj.stats.missCount +
            (if j = k ∧ (Cache.read sys k a (k : Int)).2 = 1 then 1 else 0))
        sys.caches (Cache.read sys k a (k : Int)).1.caches ∧
      CachesRel (fun j cj cj' =>
          cj'.stats.readCount = cj.stats.readCount ∧ cj'.stats.writeCount = cj.stats.writeCount ∧
          cj'.stats.hitCount = cj.stats.hitCount +
            (if j = k ∧ (Cache.write sys k a (k : Int)).2 = 0 then 1 else 0) ∧
          cj'.stats.missCount = cj.stats.missCount +
            (if j = k ∧ (Cache.write sys k a (k : Int)).2 = 1 then 1 else 0))
        sys.caches (Cache.write sys k a (k : Int)).1.caches) ∧
    (∀ (d : Driver) (core : Nat) (w : Bool) (code : Int),
      CachesRel (fun j c c' =>
          c'.stats.hitCount = c.stats.hitCount ∧ c'.stats.missCount = c.stats.missCount ∧
          c'.stats.readCount + c'.stats.writeCount = c.stats.readCount + c.stats.writeCount +
            (if j = core ∧ (code = 0 ∨ code = 1) then 1 else 0))
        d.sys.caches (d.dispatch core w code).sys.caches) ∧
    (∀ (c : Cache) (bus : Bus) (a : Nat) (w : Bool) (req : Int) (dr : Bool),
      (c.processBusTransaction bus a w req dr).1.stats.hitCount = c.stats.hitCount ∧
      (c.processBusTransaction bus a w req dr).1.stats.missCount = c.stats.missCount) := by
  have hinit := driverInv_init s E b hsb traces
  refine ⟨?_, ?_, ?_, ?_, ?_⟩
  · intro n i c hc
    exact (driverInv_cycles hE traces n _ hinit).counts i c hc
  · intro fuel d' hrun i c hc
    exact (driverInv_run hE traces fuel _ d' hinit hrun).1.counts i c hc
  · intro sys hinv k a c hc
    constructor
    · exact (outcome_read hinv hE k a c hc).counts.mono
        (fun _ _ _ _ h => ⟨h.1, h.2.1, h.2.2.2.2.1, h.2.2.2.2.2⟩)
    · exact (outcome_write hinv hE k a c hc).counts.mono
        (fun _ _ _ _ h => ⟨h.1, h.2.1, h.2.2.2.2.1, h.2.2.2.2.2⟩)
  · intro d core w code
    exact (dispatch_caches d core w code).mono (fun _ _ _ _ h => h.2)
  · intro c bus a w req dr
    have h := pbt_stats c bus a w req dr
    exact ⟨h.2.2.1, h.2.2.2.1⟩

set_option maxRecDepth 100000 in
theorem counters_balance_witness :
    ((Driver.cycles [[⟨false, 0⟩, ⟨true, 0⟩], [⟨false, 0⟩], [], []] 3
        (Driver.init 1 2 2)).sys.caches.getD 0 (Cache.mk0 1 2 2 0)).stats.hitCount +
      ((Driver.cycles [[⟨false, 0⟩, ⟨true, 0⟩], [⟨false, 0⟩], [], []] 3
        (Driver.init 1 2 2)).sys.caches.getD 0 (Cache.mk0 1 2 2 0)).stats.missCount =
    ((Driver.cycles [[⟨false, 0⟩, ⟨true, 0⟩], [⟨false, 0⟩], [], []] 3
        (Driver.init 1 2 2)).sys.caches.getD 0 (Cache.mk0 1 2 2 0)).stats.readCount +
      ((Driver.cycles [[⟨false, 0⟩, ⟨true, 0⟩], [⟨false, 0⟩], [], []] 3
        (Driver.init 1 2 2)).sys.caches.getD 0 (Cache.mk0 1 2 2 0)).stats.writeCount :=
  (counters_balance 1 2 2 (by decide) (by decide)
    [[⟨false, 0⟩, ⟨true, 0⟩], [⟨false, 0⟩], [], []]).1 3 0 _ (by decide)

/-- C6. For all traces and parameters with `s + b ≤ 31` and `E ≥ 1` the cycle
loop terminates: some number of iterations suffices, every larger budget gives
the same final state, and whenever the loop exits every core's trace index
equals the length of its trace. -/
theorem cycle_loop_terminates (s E b : Nat) (hsb : s + b ≤ 31) (hE : 1 ≤ E)
    (traces : List (List TraceEntry)) :
    (∃ (fuel : Nat) (d' : Driver),
      ∀ fuel', fuel ≤ fuel' → Driver.run traces fuel' (Driver.init s E b) = some d') ∧
    (∀ (fuel : Nat) (d' : Driver), Driver.run traces fuel (Driver.init s E b) = some d' →
      ∀ core, core < numCores →
        d'.currentInstructionIndex.getD core 0 = (traces.getD core []).length) := by
  have hinit := driverInv_init s E b hsb traces
  constructor
  · obtain ⟨fuel, d', h⟩ := run_terminates hE traces _ _ _ hinit rfl rfl
    exact ⟨fuel, d', run_mono traces fuel _ d' h⟩
  · intro fuel d' hrun core hcore
    obtain ⟨hinv, hno⟩ := driverInv_run hE traces fuel _ d' hinit hrun
    exact pending_index hinv core (hno core hcore)

theorem cycle_loop_terminates_witness :
    ∃ (fuel : Nat) (d' : Driver),
      ∀ fuel', fuel ≤ fuel' →
        Driver.run [[⟨false, 0⟩, ⟨true, 0⟩], [⟨false, 0⟩], [], []] fuel' (Driver.init 1 2 2)
          = some d' :=
  (cycle_loop_terminates 1 2 2 (by decide) (by decide)
    [[⟨false, 0⟩, ⟨true, 0⟩], [⟨false, 0⟩], [], []]).1


/-! ### Address decomposition and aliasing -/

theorem decode_of_shift (c : Cache) (a a' : Nat)
    (h : a >>> c.blockBits = a' >>> c.blockBits) :
    c.getSetIndex a = c.getSetIndex a' ∧ c.getTag a = c.getTag a' := by
  unfold Cache.getSetIndex Cache.getTag
  constructor
  · rw [h]
  · rw [Nat.add_comm, Nat.shiftRight_add, Nat.shiftRight_add, h]

theorem pbt_alias (c : Cache) (bus : Bus) (a a' : Nat) (w : Bool) (req : Int) (dr : Bool)
    (h : c.getSetIndex a = c.getSetIndex a' ∧ c.getTag a = c.getTag a') :
    c.processBusTransaction bus a w req dr = c.processBusTransaction bus a' w req dr := by
  unfold Cache.processBusTransaction
  rw [h.1, h.2]

theorem snoopLoop_alias (a a' : Nat) (w : Bool) (req : Int) (cs : List Cache)
    (h : ∀ c ∈ cs, c.getSetIndex a = c.getSetIndex a' ∧ c.getTag a = c.getTag a') :
    ∀ (i : Nat) (bus : Bus) (dfo dr : Bool),
      snoopLoop a w req i cs bus dfo dr = snoopLoop a' w req i cs bus dfo dr := by
  induction cs with
  | nil => intro i bus dfo dr; rfl
  | cons c rest ih =>
    intro i bus dfo dr
    have hrest := ih (fun x hx => h x (List.mem_cons_of_mem _ hx))
    have hp : ∀ (bus : Bus) (dr : Bool), c.processBusTransaction bus a w req dr =
        c.processBusTransaction bus a' w req dr :=
      fun bus dr => pbt_alias c bus a a' w req dr (h c (List.mem_cons_self _ _))
    unfold snoopLoop
    simp only [hrest, hp]

theorem broadcast_alias (a a' : Nat) (ty : BusTransactionType) (req : Int) (cs : List Cache)
    (bus : Bus)
    (h : ∀ c ∈ cs, c.getSetIndex a = c.getSetIndex a' ∧ c.getTag a = c.getTag a') :
    Bus.broadcastTransaction cs bus ty a req = Bus.broadcastTransaction cs bus ty a' req := by
  unfold Bus.broadcastTransaction Bus.processTransaction
  rw [snoopLoop_alias a a' ty.isWrite req cs h]

theorem alias_set (a a' : Nat) (cs : List Cache) (k : Nat) (x : Cache)
    (h : ∀ c ∈ cs, c.getSetIndex a = c.getSetIndex a' ∧ c.getTag a = c.getTag a')
    (hx : x.getSetIndex a = x.getSetIndex a' ∧ x.getTag a = x.getTag a') :
    ∀ c ∈ cs.set k x, c.getSetIndex a = c.getSetIndex a' ∧ c.getTag a = c.getTag a' := by
  intro c hc
  rcases List.mem_or_eq_of_mem_set hc with h1 | h1
  · exact h c h1
  · rw [h1]; exact hx

theorem alias_sameLines {a a' : Nat} {c c' : Cache} (hs : c.sameLines c')
    (h : c.getSetIndex a = c.getSetIndex a' ∧ c.getTag a = c.getTag a') :
    c'.getSetIndex a = c'.getSetIndex a' ∧ c'.getTag a = c'.getTag a' := by
  rw [sameLines_getSetIndex hs, sameLines_getSetIndex hs, sameLines_getTag hs,
    sameLines_getTag hs]
  exact h

theorem evictVictim_bits (c : Cache) (bus : Bus) (si v : Nat) :
    (c.evictVictim bus si v).1.setIndexBits = c.setIndexBits ∧
    (c.evictVictim bus si v).1.blockBits = c.blockBits := by
  unfold Cache.evictVictim Cache.writeBackToMemory
  simp only []
  split_ifs <;> exact ⟨rfl, rfl⟩

theorem decode_congr {c c' : Cache} (h1 : c'.setIndexBits = c.setIndexBits)
    (h2 : c'.blockBits = c.blockBits) (a : Nat) :
    c'.getSetIndex a = c.getSetIndex a ∧ c'.getTag a = c.getTag a := by
  unfold Cache.getSetIndex Cache.getTag
  rw [h1, h2]; exact ⟨rfl, rfl⟩

theorem alias_congr {a a' : Nat} {c c' : Cache} (h1 : c'.setIndexBits = c.setIndexBits)
    (h2 : c'.blockBits = c.blockBits)
    (h : c.getSetIndex a = c.getSetIndex a' ∧ c.getTag a = c.getTag a') :
    c'.getSetIndex a = c'.getSetIndex a' ∧ c'.getTag a = c'.getTag a' := by
  rw [(decode_congr h1 h2 a).1, (decode_congr h1 h2 a).2, (decode_congr h1 h2 a').1,
    (decode_congr h1 h2 a').2]
  exact h

theorem readMiss_alias (sys : System) (k : Nat) (c : Cache) (a a' : Nat) (coreId : Int)
    (h : ∀ x ∈ sys.caches, x.getSetIndex a = x.getSetIndex a' ∧ x.getTag a = x.getTag a')
    (hc : c.getSetIndex a = c.getSetIndex a' ∧ c.getTag a = c.getTag a') :
    Cache.readMiss sys k c a coreId = Cache.readMiss sys k c a' coreId := by
  have hb := broadcast_alias a a' BusTransactionType.BusRd coreId
    (sys.caches.set k (c.countMiss.evictVictim sys.bus (c.getSetIndex a')
      (c.countMiss.findLRULine (c.getSetIndex a'))).1)
    (c.countMiss.evictVictim sys.bus (c.getSetIndex a')
      (c.countMiss.findLRULine (c.getSetIndex a'))).2
    (alias_set a a' sys.caches k _ h
      (alias_congr (evictVictim_bits _ _ _ _).1 (evictVictim_bits _ _ _ _).2 hc))
  unfold Cache.readMiss
  simp only []
  rw [hc.1, hc.2, hb]

theorem writeMiss_alias (sys : System) (k : Nat) (c : Cache) (a a' : Nat) (coreId : Int)
    (h : ∀ x ∈ sys.caches, x.getSetIndex a = x.getSetIndex a' ∧ x.getTag a = x.getTag a')
    (hc : c.getSetIndex a = c.getSetIndex a' ∧ c.getTag a = c.getTag a') :
    Cache.writeMiss sys k c a coreId = Cache.writeMiss sys k c a' coreId := by
  have hb := broadcast_alias a a' BusTransactionType.BusRdX coreId
    (sys.caches.set k (c.countMiss.evictVictim sys.bus (c.getSetIndex a')
      (c.countMiss.findLRULine (c.getSetIndex a'))).1)
    (c.countMiss.evictVictim sys.bus (c.getSetIndex a')
      (c.countMiss.findLRULine (c.getSetIndex a'))).2
    (alias_set a a' sys.caches k _ h
      (alias_congr (evictVictim_bits _ _ _ _).1 (evictVictim_bits _ _ _ _).2 hc))
  unfold Cache.writeMiss
  simp only []
  rw [hc.1, hc.2, hb]

theorem writeHit_alias (sys : System) (k : Nat) (c : Cache) (a a' : Nat) (coreId : Int)
    (i : Nat)
    (h : ∀ x ∈ sys.caches, x.getSetIndex a = x.getSetIndex a' ∧ x.getTag a = x.getTag a')
    (hc : c.getSetIndex a = c.getSetIndex a' ∧ c.getTag a = c.getTag a') :
    Cache.writeHit sys k c a coreId i = Cache.writeHit sys k c a' coreId i := by
  have hb := broadcast_alias a a' BusTransactionType.BusUpgr coreId
    (sys.caches.set k (if (c.line (c.getSetIndex a') i).state = CacheState.SHARED
        then { c with stats := { c.stats with
                 invalidationCount := c.stats.invalidationCount + 1 } }
        else c)) sys.bus
    (alias_set a a' sys.caches k _ h (by split_ifs <;> exact hc))
  unfold Cache.writeHit
  simp only []
  rw [hc.1, hb]

theorem read_alias (sys : System) (k : Nat) (a a' : Nat) (coreId : Int)
    (h : ∀ x ∈ sys.caches, x.getSetIndex a = x.getSetIndex a' ∧ x.getTag a = x.getTag a') :
    Cache.read sys k a coreId = Cache.read sys k a' coreId := by
  unfold Cache.read
  cases hk : sys.caches[k]? with
  | none => rfl
  | some c =>
    have hc := h c (List.getElem?_mem hk)
    simp only []
    rw [hc.1, hc.2, readMiss_alias sys k c a a' coreId h hc]

theorem write_alias (sys : System) (k : Nat) (a a' : Nat) (coreId : Int)
    (h : ∀ x ∈ sys.caches, x.getSetIndex a = x.getSetIndex a' ∧ x.getTag a = x.getTag a') :
    Cache.write sys k a coreId = Cache.write sys k a' coreId := by
  unfold Cache.write
  cases hk : sys.caches[k]? with
  | none => rfl
  | some c =>
    have hc := h c (List.getElem?_mem hk)
    have hw := fun i => writeHit_alias sys k c a a' coreId i h hc
    simp only []
    rw [hc.1, hc.2, writeMiss_alias sys k c a a' coreId h hc]
    simp only [hw]


theorem decode_arith (c : Cache) (a : Nat) :
    c.getBlockOffset a = a % 2 ^ c.blockBits ∧
    c.getSetIndex a = a / 2 ^ c.blockBits % 2 ^ c.setIndexBits ∧
    c.getTag a = a / 2 ^ c.blockBits / 2 ^ c.setIndexBits := by
  unfold Cache.getBlockOffset Cache.getSetIndex Cache.getTag
  refine ⟨?_, ?_, ?_⟩
  · rw [Nat.one_shiftLeft, Nat.and_pow_two_sub_one_eq_mod]
  · rw [Nat.one_shiftLeft, Nat.and_pow_two_sub_one_eq_mod, Nat.shiftRight_eq_div_pow]
  · rw [Nat.add_comm, Nat.shiftRight_add, Nat.shiftRight_eq_div_pow,
      Nat.shiftRight_eq_div_pow]

/-- C12. Address aliasing.  Two addresses with the same block number
(`a >> b = a' >> b`) have the same set index and the same tag in every cache
with `b` block bits, and on every system whose caches all have `b` block bits
`processBusTransaction`, `read` and `write` applied to `a'` return the same
result and the same complete state as when applied to `a`. -/
theorem address_aliasing (b a a' : Nat) (hblock : a >>> b = a' >>> b) :
    (∀ (c : Cache), c.blockBits = b →
      c.getSetIndex a = c.getSetIndex a' ∧ c.getTag a = c.getTag a' ∧
      ∀ (bus : Bus) (w : Bool) (req : Int) (dr : Bool),
        c.processBusTransaction bus a w req dr = c.processBusTransaction bus a' w req dr) ∧
    (∀ (sys : System), (∀ c ∈ sys.caches, c.blockBits = b) →
      ∀ (k : Nat) (coreId : Int),
        Cache.read sys k a coreId = Cache.read sys k a' coreId ∧
        Cache.write sys k a coreId = Cache.write sys k a' coreId) := by
  have hdec : ∀ (c : Cache), c.blockBits = b →
      c.getSetIndex a = c.getSetIndex a' ∧ c.getTag a = c.getTag a' := by
    intro c hc
    exact decode_of_shift c a a' (by rw [hc]; exact hblock)
  constructor
  · intro c hc
    exact ⟨(hdec c hc).1, (hdec c hc).2,
      fun bus w req dr => pbt_alias c bus a a' w req dr (hdec c hc)⟩
  · intro sys hall k coreId
    have h : ∀ x ∈ sys.caches, x.getSetIndex a = x.getSetIndex a' ∧
        x.getTag a = x.getTag a' := fun x hx => hdec x (hall x hx)
    exact ⟨read_alias sys k a a' coreId h, write_alias sys k a a' coreId h⟩

set_option maxRecDepth 100000 in
theorem address_aliasing_witness :
    Cache.read ((System.init 2 1 2 2).run [Op.write 0 0]) 1 5 1 =
        Cache.read ((System.init 2 1 2 2).run [Op.write 0 0]) 1 6 1 ∧
    Cache.write ((System.init 2 1 2 2).run [Op.write 0 0]) 1 5 1 =
        Cache.write ((System.init 2 1 2 2).run [Op.write 0 0]) 1 6 1 :=
  (address_aliasing 2 5 6 (by decide)).2 ((System.init 2 1 2 2).run [Op.write 0 0])
    (by decide) 1 1

/-- C13. Address decomposition is a lossless split.  For a cache with `s`
set-index bits and `b` block bits, `s + b ≤ 31`, and a 32-bit address `a`:
the block offset is below `2^b`, the set index below `2^s`, the tag below
`2^(32-s-b)`, `a = tag * 2^(s+b) + setIndex * 2^b + offset`, and another
address has the same tag and set index exactly when it lies in the same block
(`a / 2^b = a' / 2^b`). -/
theorem address_decomposition (s b : Nat) (hsb : s + b ≤ 31) (c : Cache)
    (hs : c.setIndexBits = s) (hb : c.blockBits = b) (a : Nat) (ha : a < 2 ^ 32) :
    c.getBlockOffset a < 2 ^ b ∧ c.getSetIndex a < 2 ^ s ∧ c.getTag a < 2 ^ (32 - s - b) ∧
    a = c.getTag a * 2 ^ (s + b) + c.getSetIndex a * 2 ^ b + c.getBlockOffset a ∧
    ∀ a' : Nat, (c.getTag a = c.getTag a' ∧ c.getSetIndex a = c.getSetIndex a') ↔
      a / 2 ^ b = a' / 2 ^ b := by
  have hd : ∀ x : Nat, c.getBlockOffset x = x % 2 ^ b ∧
      c.getSetIndex x = x / 2 ^ b % 2 ^ s ∧ c.getTag x = x / 2 ^ b / 2 ^ s := by
    intro x
    have := decode_arith c x
    rw [hs, hb] at this
    exact this
  have hpb : 0 < 2 ^ b := Nat.two_pow_pos b
  have hps : 0 < 2 ^ s := Nat.two_pow_pos s
  rw [(hd a).1, (hd a).2.1, (hd a).2.2]
  refine ⟨Nat.mod_lt _ hpb, Nat.mod_lt _ hps, ?_, ?_, ?_⟩
  · rw [Nat.div_div_eq_div_mul, Nat.div_lt_iff_lt_mul (Nat.mul_pos hpb hps)]
    have h32 : 2 ^ 32 = 2 ^ (32 - s - b) * (2 ^ b * 2 ^ s) := by
      rw [← pow_add, ← pow_add]
      congr 1; omega
    rw [← h32]; exact ha
  · have h1 := Nat.div_add_mod a (2 ^ b)
    have h2 := Nat.div_add_mod (a / 2 ^ b) (2 ^ s)
    calc a = 2 ^ b * (a / 2 ^ b) + a % 2 ^ b := h1.symm
      _ = 2 ^ b * (2 ^ s * (a / 2 ^ b / 2 ^ s) + a / 2 ^ b % 2 ^ s) + a % 2 ^ b := by
          rw [h2]
      _ = a / 2 ^ b / 2 ^ s * 2 ^ (s + b) + a / 2 ^ b % 2 ^ s * 2 ^ b + a % 2 ^ b := by
          rw [pow_add]; ring
  · intro a'
    rw [(hd a').2.1, (hd a').2.2]
    constructor
    · rintro ⟨ht, hi⟩
      have h2 := Nat.div_add_mod (a / 2 ^ b) (2 ^ s)
      have h2' := Nat.div_add_mod (a' / 2 ^ b) (2 ^ s)
      rw [← h2, ← h2', ht, hi]
    · intro h
      rw [h]; exact ⟨rfl, rfl⟩

theorem address_decomposition_witness :
    (Cache.mk0 1 2 2 0).getTag 29 = 3 ∧ (Cache.mk0 1 2 2 0).getSetIndex 29 = 1 ∧
    (Cache.mk0 1 2 2 0).getBlockOffset 29 = 1 ∧
    29 = (Cache.mk0 1 2 2 0).getTag 29 * 2 ^ (1 + 2) +
      (Cache.mk0 1 2 2 0).getSetIndex 29 * 2 ^ 2 + (Cache.mk0 1 2 2 0).getBlockOffset 29 :=
  ⟨by decide, by decide, by decide,
    (address_decomposition 1 2 (by decide) (Cache.mk0 1 2 2 0) rfl rfl 29 (by decide)).2.2.2.1⟩


/-! ### Write hit with upgrade -/

theorem findWay_of_mem {tag : Nat} {ls : List CacheLine} {l : CacheLine} (hnd : NoDupTags ls)
    (hl : l ∈ ls) (ht : l.tag = tag) (hv : l.state ≠ CacheState.INVALID) :
    ∃ i, findWay tag ls = some i ∧ ls[i]? = some l := by
  obtain ⟨i, hi⟩ := (findWay_isSome_iff tag ls).2 ⟨l, hl, hv, ht⟩
  obtain ⟨l0, h0, t0, v0, _⟩ := findWay_some_spec hi
  obtain ⟨j, hj⟩ := List.mem_iff_getElem?.1 hl
  have hij : i = j := hnd i j l0 l h0 hj v0 hv (t0.trans ht.symm)
  subst hij
  rw [h0] at hj
  cases hj
  exact ⟨i, hi, h0⟩

theorem line_modifyLine_other (c : Cache) (si li : Nat) (f : CacheLine → CacheLine)
    (si' li' : Nat) (h : ¬(si' = si ∧ li' = li)) :
    (c.modifyLine si li f).line si' li' = c.line si' li' := by
  unfold Cache.line
  rw [setLines_modifyLine]
  by_cases hs : si' = si
  · rw [if_pos hs]
    have hl : li ≠ li' := fun e => h ⟨hs, e.symm⟩
    rw [List.getD_eq_getElem?_getD, List.getD_eq_getElem?_getD, List.getElem?_set_ne hl, hs]
  · rw [if_neg hs]

theorem line_of_getElem? {c : Cache} {si i : Nat} {l : CacheLine}
    (h : (c.setLines si)[i]? = some l) : c.line si i = l := by
  unfold Cache.line
  rw [List.getD_eq_getElem?_getD, h]; rfl

theorem decode_eq {s E b : Nat} {sys : System} (hinv : Inv s E b sys) {k j : Nat}
    {c cj : Cache} (hc : sys.caches[k]? = some c) (hj : sys.caches[j]? = some cj) (a : Nat) :
    cj.getSetIndex a = c.getSetIndex a ∧ cj.getTag a = c.getTag a := by
  rw [(wellFormed_decode (hinv.shape j cj hj) a).1, (wellFormed_decode (hinv.shape j cj hj) a).2,
    (wellFormed_decode (hinv.shape k c hc) a).1, (wellFormed_decode (hinv.shape k c hc) a).2]
  exact ⟨rfl, rfl⟩

/-- C11. Write-hit upgrade.  In a reachable state with the bus idle, a write by
cache `k` to a block it holds in a line `l` that is `SHARED` or `EXCLUSIVE`
returns `HIT` (0), adds one to its `hitCount` and to the bus's
`busUpgrTransactions`, turns the hit line, and no other line of the cache, into
`MODIFIED` with `dirty = true` (its stamp becomes the global cycle), leaves no
peer with a valid copy of the block, leaves every peer's `hitCount` and
`missCount` as they were, leaves `bus.remainingCycles` unchanged, and adds one
to `invalidationCount` exactly when the line was `SHARED`. -/
theorem write_hit_upgrade (n s E b : Nat) (hsb : s + b ≤ 31) (ops : List Op)
    (sys : System) (hreach : sys = (System.init n s E b).run ops)
    (k a : Nat) (c : Cache) (hc : sys.caches[k]? = some c)
    (hidle : sys.bus.isBusy = false)
    (l : CacheLine) (hl : l ∈ c.setLines (c.getSetIndex a)) (htag : l.tag = c.getTag a)
    (hst : l.state = CacheState.SHARED ∨ l.state = CacheState.EXCLUSIVE) :
    (Cache.write sys k a (k : Int)).2 = 0 ∧
    (∃ c' i, (Cache.write sys k a (k : Int)).1.caches[k]? = some c' ∧
      (c.setLines (c.getSetIndex a))[i]? = some l ∧
      c'.line (c.getSetIndex a) i =
        { l with state := CacheState.MODIFIED, dirty := true,
                 lastAccessTime := sys.globalCycle } ∧
      (∀ si' i', ¬(si' = c.getSetIndex a ∧ i' = i) → c'.line si' i' = c.line si' i') ∧
      c'.stats.hitCount = c.stats.hitCount + 1 ∧
      c'.stats.missCount = c.stats.missCount ∧
      c'.stats.invalidationCount = c.stats.invalidationCount +
        (if l.state = CacheState.SHARED then 1 else 0)) ∧
    (Cache.write sys k a (k : Int)).1.bus.stats.busUpgrTransactions =
      sys.bus.stats.busUpgrTransactions + 1 ∧
    (∀ (j : Nat) (cj cj' : Cache), j ≠ k → sys.caches[j]? = some cj →
      (Cache.write sys k a (k : Int)).1.caches[j]? = some cj' →
      ¬cj'.holds (c.getSetIndex a) (c.getTag a) ∧
      cj'.stats.hitCount = cj.stats.hitCount ∧ cj'.stats.missCount = cj.stats.missCount) ∧
    (Cache.write sys k a (k : Int)).1.bus.remainingCycles = sys.bus.remainingCycles := by
  have hinv : Inv s E b sys := hreach ▸ inv_run ops (inv_init n s E b hsb)
  have hv : l.state ≠ CacheState.INVALID := by
    rcases hst with h | h <;> rw [h] <;> decide
  obtain ⟨i, hf, hi⟩ := findWay_of_mem (hinv.nodup k c hc _) hl htag hv
  have hline : c.line (c.getSetIndex a) i = l := line_of_getElem? hi
  have hnm : (c.line (c.getSetIndex a) i).state ≠ CacheState.MODIFIED := by
    rw [hline]; rcases hst with h | h <;> rw [h] <;> decide
  have hself : ¬(sys.bus.isBusy = true ∧ sys.bus.currentRequestingCore = (k : Int)) := by
    rw [hidle]; intro h; cases h.1
  have hlt : i < (c.setLines (c.getSetIndex a)).length := lt_of_getElem? hi
  rw [write_hit sys k c a _ i hc hself hf]
  obtain ⟨q0, c', q1, q2, q3⟩ := upgrade_requester sys k c a i hc hinv.ids hnm hidle
  have hrel := upgrade_caches sys k c a i hc hinv.ids hnm hidle
  have hbus := upgrade_bus sys k c a i hinv hc hnm hidle
  have hpw : peerWritebacks sys.caches a (k : Int) = 0 :=
    peerWritebacks_zero_of_holds hinv a k c hc ⟨l, hl, htag, hv⟩
  refine ⟨q0, ⟨c', i, q1, hi, ?_, ?_, by rw [q3], by rw [q3], ?_⟩, ?_, ?_, ?_⟩
  · rw [sameLines_line q2, line_modifyLine_self _ _ _ _ hlt, hline]
  · intro si' i' hne
    rw [sameLines_line q2, line_modifyLine_other _ _ _ _ _ _ hne]
  · rw [q3, hline]
  · rw [hbus]; rfl
  · intro j cj cj' hjk hj hj'
    obtain ⟨cj0, hj0, r2, _⟩ := hrel.inv hj'
    rw [hj] at hj0
    cases hj0
    obtain ⟨bus', dr', rfl⟩ := r2 hjk
    obtain ⟨p1, p2, p3⟩ := hinv.peer hc hj hjk a true bus' dr'
    have hs := pbt_stats cj bus' a true (k : Int) dr'
    refine ⟨?_, hs.2.2.1, hs.2.2.2.1⟩
    rw [sameLines_holds p1, ← p2, ← p3]
    exact snooped_write_not_holds a (hinv.nodup j cj hj _)
  · rw [hbus, hpw]
    simp [Bus.plus, Bus.taken]

set_option maxRecDepth 100000 in
theorem write_hit_upgrade_witness :
    (Cache.write ((System.init 2 1 2 2).run ([Op.read 0 0] ++ List.replicate 100 Op.tick))
      0 0 ((0 : Nat) : Int)).1.bus.remainingCycles =
    ((System.init 2 1 2 2).run ([Op.read 0 0] ++ List.replicate 100 Op.tick)).bus.remainingCycles :=
  (write_hit_upgrade 2 1 2 2 (by decide) ([Op.read 0 0] ++ List.replicate 100 Op.tick)
    ((System.init 2 1 2 2).run ([Op.read 0 0] ++ List.replicate 100 Op.tick)) rfl
    0 0 (((System.init 2 1 2 2).run ([Op.read 0 0] ++ List.replicate 100 Op.tick)).caches.getD 0
      (Cache.mk0 1 2 2 0))
    (by decide) (by decide)
    { tag := 0, state := CacheState.EXCLUSIVE, dirty := false, lastAccessTime := 0 }
    (by decide) (by decide) (Or.inr rfl)).2.2.2.2


/-! ### Writebacks triggered by a snoop -/

theorem modifyLine_stats_eq (c : Cache) (si li : Nat) (f : CacheLine → CacheLine) :
    (c.modifyLine si li f).stats = c.stats := rfl

theorem pbt_writeback (c : Cache) (bus : Bus) (a : Nat) (w : Bool) (req : Int) (dr : Bool)
    (h : req ≠ c.cacheId) :
    (c.processBusTransaction bus a w req dr).1.stats.writebackCount =
      c.stats.writebackCount + (if c.snoopState a = CacheState.MODIFIED then 1 else 0) := by
  unfold Cache.processBusTransaction Cache.snoopState
  rw [if_neg h]
  cases hf : findWay (c.getTag a) (c.setLines (c.getSetIndex a)) with
  | none => simp
  | some i =>
    simp only []
    by_cases hm : (c.line (c.getSetIndex a) i).state = CacheState.MODIFIED
    · cases w
      · cases dr <;>
          simp [Cache.snoopRead, Cache.writeBackToMemory, hm, modifyLine_stats_eq]
      · simp [Cache.snoopWrite, Cache.writeBackToMemory, hm, modifyLine_stats_eq]
    · cases w
      · cases dr <;> by_cases he : (c.line (c.getSetIndex a) i).state = CacheState.EXCLUSIVE <;>
          simp [Cache.snoopRead, hm, he, modifyLine_stats_eq]
      · simp [Cache.snoopWrite, hm, modifyLine_stats_eq]

theorem peer_written_back {s E b : Nat} {sys : System} (hinv : Inv s E b sys) {r p : Nat}
    {c cp : Cache} (hc : sys.caches[r]? = some c) (hp : sys.caches[p]? = some cp)
    (hpr : p ≠ r) (a : Nat) (w : Bool) (bus' : Bus) (dr' : Bool) (l : CacheLine)
    (hl : l ∈ cp.setLines (cp.getSetIndex a)) (htag : l.tag = cp.getTag a)
    (hM : l.state = CacheState.MODIFIED) :
    ∃ i, (cp.setLines (cp.getSetIndex a))[i]? = some l ∧
      (cp.processBusTransaction bus' a w (r : Int) dr').1.stats.writebackCount =
        cp.stats.writebackCount + 1 ∧
      (cp.processBusTransaction bus' a w (r : Int) dr').1.line (cp.getSetIndex a) i =
        snoopLine w l := by
  have hv : l.state ≠ CacheState.INVALID := by rw [hM]; decide
  have hnd := hinv.nodup p cp hp (cp.getSetIndex a)
  obtain ⟨i, hf, hi⟩ := findWay_of_mem hnd hl htag hv
  have hne : (r : Int) ≠ cp.cacheId := by
    rw [hinv.ids p cp hp]
    intro e; exact hpr (Int.ofNat_inj.1 e).symm
  have hsn : cp.snoopState a = CacheState.MODIFIED :=
    (snoopState_modified_iff a hnd).2 ⟨l, hl, htag, hM⟩
  refine ⟨i, hi, ?_, ?_⟩
  · rw [pbt_writeback cp bus' a w (r : Int) dr' hne, if_pos hsn]
  · have hs := (hinv.peer hc hp hpr a w bus' dr').1
    rw [sameLines_line hs]
    unfold Cache.snooped
    rw [hf]
    simp only []
    rw [line_modifyLine_self _ _ _ _ (lt_of_getElem? hi), line_of_getElem? hi]


/-- C14. A writeback triggered by a snoop keeps the requester as bus owner.
In a reachable state with the bus idle in which a peer `p ≠ r` holds the block
of `a` in a `MODIFIED` line `l`, a `read` and a `write` of `a` by cache `r`
both miss (result 1); afterwards the bus is busy and owned by `r`, the
`writebackCount` of `p` has grown by one, the line of `p` is clean (`SHARED`
after the read, `INVALID` after the write), and `remainingCycles` is the old
value plus 100 for the writeback of `p` plus the other charges of the call:
100 more when the victim of `r` was `MODIFIED`, and the transfer latency
`2 * (2^b / 4)` for the read or the 100 cycles of the fill for the write. -/
theorem snoop_writeback_owner (n s E b : Nat) (hsb : s + b ≤ 31) (ops : List Op)
    (sys : System) (hreach : sys = (System.init n s E b).run ops)
    (r p a : Nat) (c cp : Cache) (hc : sys.caches[r]? = some c)
    (hp : sys.caches[p]? = some cp) (hpr : p ≠ r) (hidle : sys.bus.isBusy = false)
    (l : CacheLine) (hl : l ∈ cp.setLines (cp.getSetIndex a)) (htag : l.tag = cp.getTag a)
    (hM : l.state = CacheState.MODIFIED) :
    ((Cache.read sys r a (r : Int)).2 = 1 ∧
      (Cache.read sys r a (r : Int)).1.bus.currentRequestingCore = (r : Int) ∧
      (Cache.read sys r a (r : Int)).1.bus.isBusy = true ∧
      (∃ cp' i, (Cache.read sys r a (r : Int)).1.caches[p]? = some cp' ∧
        (cp.setLines (cp.getSetIndex a))[i]? = some l ∧
        cp'.stats.writebackCount = cp.stats.writebackCount + 1 ∧
        cp'.line (cp.getSetIndex a) i =
          { l with state := CacheState.SHARED, dirty := false }) ∧
      (Cache.read sys r a (r : Int)).1.bus.remainingCycles =
        sys.bus.remainingCycles + 100 +
          (if (c.line (c.getSetIndex a) (c.findLRULine (c.getSetIndex a))).state =
              CacheState.MODIFIED then 100 else 0) + 2 * ((2 ^ b / 4 : Nat) : Int)) ∧
    ((Cache.write sys r a (r : Int)).2 = 1 ∧
      (Cache.write sys r a (r : Int)).1.bus.currentRequestingCore = (r : Int) ∧
      (Cache.write sys r a (r : Int)).1.bus.isBusy = true ∧
      (∃ cp' i, (Cache.write sys r a (r : Int)).1.caches[p]? = some cp' ∧
        (cp.setLines (cp.getSetIndex a))[i]? = some l ∧
        cp'.stats.writebackCount = cp.stats.writebackCount + 1 ∧
        cp'.line (cp.getSetIndex a) i =
          { l with state := CacheState.INVALID, dirty := false }) ∧
      (Cache.write sys r a (r : Int)).1.bus.remainingCycles =
        sys.bus.remainingCycles + 100 +
          (if (c.line (c.getSetIndex a) (c.findLRULine (c.getSetIndex a))).state =
              CacheState.MODIFIED then 100 else 0) + 100) := by
  have hinv : Inv s E b sys := hreach ▸ inv_run ops (inv_init n s E b hsb)
  have hdec := decode_eq hinv hc hp a
  have hmod : cp.holdsModified (c.getSetIndex a) (c.getTag a) := by
    rw [← hdec.1, ← hdec.2]; exact ⟨l, hl, htag, hM⟩
  have hmiss : ¬c.holds (c.getSetIndex a) (c.getTag a) :=
    hinv.coherent p r cp c hp hc hpr _ _ (holdsModified_holdsOwned hmod)
  have hf : findWay (c.getTag a) (c.setLines (c.getSetIndex a)) = none := by
    cases h : findWay (c.getTag a) (c.setLines (c.getSetIndex a)) with
    | none => rfl
    | some i => exact absurd ((holds_iff_findWay c _ _).mpr ⟨i, h⟩) hmiss
  have hpw : peerWritebacks sys.caches a (r : Int) = 1 := by
    have h1 := peerWritebacks_le_one hinv a (r : Int)
    have h2 := (peerWritebacks_pos_iff hinv a r c hc).2 ⟨p, cp, hpr, hp, hmod⟩
    omega
  have hph : peerHolds sys.caches a (r : Int) = true :=
    (peerHolds_iff sys.caches r a hinv.ids).2
      ⟨p, cp, hpr, hp, l, hl, htag, by rw [hM]; decide⟩
  have hsl : ∀ w : Bool, snoopLine w l =
      { l with state := if w then CacheState.INVALID else CacheState.SHARED,
               dirty := false } := by
    intro w; cases w <;> simp [snoopLine, hM]
  constructor
  · rw [read_miss sys r c a _ hc hf hidle]
    have hbus := readMiss_bus sys r c a hinv hc hidle
    obtain ⟨st, _, hrel⟩ := readMiss_caches sys r c a hc hinv.ids hidle
    refine ⟨rfl, ?_, ?_, ?_, ?_⟩
    · show (Cache.readMiss sys r c a (r : Int)).bus.currentRequestingCore = _
      rw [hbus]; rfl
    · show (Cache.readMiss sys r c a (r : Int)).bus.isBusy = _
      rw [hbus]; rfl
    · obtain ⟨cp', hp', r2, _⟩ := hrel.2 p cp hp
      obtain ⟨bus', dr', rfl⟩ := r2 hpr
      obtain ⟨i, h1, h2, h3⟩ := peer_written_back hinv hc hp hpr a false bus' dr' l hl htag hM
      exact ⟨_, i, hp', h1, h2, by rw [h3, hsl]; rfl⟩
    · show (Cache.readMiss sys r c a (r : Int)).bus.remainingCycles = _
      rw [hbus, hpw, hph]
      simp only [Bus.plus, Bus.taken, if_true]
      push_cast
      ring
  · rw [write_miss sys r c a _ hc hf hidle]
    have hbus := writeMiss_bus sys r c a hinv hc hidle
    have hrel := writeMiss_caches sys r c a hc hinv.ids hidle
    refine ⟨rfl, ?_, ?_, ?_, ?_⟩
    · show (Cache.writeMiss sys r c a (r : Int)).bus.currentRequestingCore = _
      rw [hbus]; rfl
    · show (Cache.writeMiss sys r c a (r : Int)).bus.isBusy = _
      rw [hbus]; rfl
    · obtain ⟨cp', hp', r2, _⟩ := hrel.2 p cp hp
      obtain ⟨bus', dr', rfl⟩ := r2 hpr
      obtain ⟨i, h1, h2, h3⟩ := peer_written_back hinv hc hp hpr a true bus' dr' l hl htag hM
      exact ⟨_, i, hp', h1, h2, by rw [h3, hsl]; rfl⟩
    · show (Cache.writeMiss sys r c a (r : Int)).bus.remainingCycles = _
      rw [hbus, hpw]
      simp only [Bus.plus, Bus.taken]
      push_cast
      ring

set_option maxRecDepth 100000 in
theorem snoop_writeback_owner_witness :
    (Cache.read ((System.init 2 1 2 2).run ([Op.write 0 0] ++ List.replicate 100 Op.tick))
      1 0 ((1 : Nat) : Int)).1.bus.currentRequestingCore = ((1 : Nat) : Int) :=
  (snoop_writeback_owner 2 1 2 2 (by decide) ([Op.write 0 0] ++ List.replicate 100 Op.tick)
    ((System.init 2 1 2 2).run ([Op.write 0 0] ++ List.replicate 100 Op.tick)) rfl
    1 0 0 (Cache.mk0 1 2 2 1)
    (((System.init 2 1 2 2).run ([Op.write 0 0] ++ List.replicate 100 Op.tick)).caches.getD 0
      (Cache.mk0 1 2 2 0))
    (by decide) (by decide) (by decide) (by decide)
    { tag := 0, state := CacheState.MODIFIED, dirty := true, lastAccessTime := 0 }
    (by decide) (by decide) rfl).1.2.1


/-! ### Eviction accounting -/

theorem findLRULine_single {s E b : Nat} {c : Cache} (hw : c.WellFormed s E b) (hE : E = 1)
    (a : Nat) : c.findLRULine (c.getSetIndex a) = 0 := by
  have hlen := setLines_length hw a
  have := findLRULine_lt c (c.getSetIndex a) (by rw [hlen, hE]; exact Nat.one_pos)
  rw [hlen, hE] at this
  omega

theorem plus_traffic (bus : Bus) (cycles : Int) (bytes : Nat) :
    (bus.plus cycles bytes).stats.totalBusTraffic = bus.stats.totalBusTraffic + bytes := rfl

theorem taken_traffic (bus : Bus) (ty : BusTransactionType) (id : Int) :
    (bus.taken ty id).stats.totalBusTraffic = bus.stats.totalBusTraffic := by
  cases ty <;> rfl

set_option maxRecDepth 100000 in
/-- A miss whose victim is not `MODIFIED` can add more than one block of bus
traffic: with `s = 1`, `E = 2`, `b = 2`, after core 0 wrote `0x0` and the bus
went idle, the read miss of core 1 on `0x0` picks an `INVALID` victim, yet the
bus traffic grows by 8 bytes, not by the block size 4, because core 0 writes
its `MODIFIED` copy back on the snoop. -/
theorem eviction_traffic_counterexample :
    ((System.init 2 1 2 2).run ([Op.write 0 0] ++ List.replicate 100 Op.tick)).bus.isBusy
      = false ∧
    (Cache.read ((System.init 2 1 2 2).run ([Op.write 0 0] ++ List.replicate 100 Op.tick))
      1 0 1).2 = 1 ∧
    ((Cache.mk0 1 2 2 1).line ((Cache.mk0 1 2 2 1).getSetIndex 0)
      ((Cache.mk0 1 2 2 1).findLRULine ((Cache.mk0 1 2 2 1).getSetIndex 0))).state
        = CacheState.INVALID ∧
    ((System.init 2 1 2 2).run ([Op.write 0 0] ++ List.replicate 100 Op.tick)).caches[1]?
      = some (Cache.mk0 1 2 2 1) ∧
    (Cache.read ((System.init 2 1 2 2).run ([Op.write 0 0] ++ List.replicate 100 Op.tick))
      1 0 1).1.bus.stats.totalBusTraffic =
      ((System.init 2 1 2 2).run
        ([Op.write 0 0] ++ List.replicate 100 Op.tick)).bus.stats.totalBusTraffic + 8 ∧
    (Cache.read ((System.init 2 1 2 2).run ([Op.write 0 0] ++ List.replicate 100 Op.tick))
      1 0 1).1.bus.stats.totalBusTraffic ≠
      ((System.init 2 1 2 2).run
        ([Op.write 0 0] ++ List.replicate 100 Op.tick)).bus.stats.totalBusTraffic +
        (Cache.mk0 1 2 2 1).blockSize := by
  decide

set_option maxRecDepth 1000000 in
/-- C16, amended.  Eviction accounting.  In a reachable state with the bus
idle, let `v` be the line `findLRULine` picks in the set of `a` for a `read`
or `write` miss of cache `k`.  The miss adds one to `evictionCount` exactly
when `v` was not `INVALID` and one to `writebackCount` exactly when `v` was
`MODIFIED`, and leaves the tag of `a` in `v`.  The bus's `totalBusTraffic`
grows by one block for the fill, one more when `v` was `MODIFIED`, and one
more when a peer held the block `MODIFIED` and wrote it back on the snoop (at
most one peer does).  With associativity 1 the victim is way 0, so a miss to a
set whose single line is valid adds one to `evictionCount`.  In the scenario
`s = 1`, `E = 2`, `b = 2` where core 0 has written `0x0` and `0x8`, its miss on
`0x10` adds one to its `writebackCount` and `evictionCount` and 8 bytes to the
bus traffic. -/
theorem eviction_accounting (n s E b : Nat) (hsb : s + b ≤ 31) (hE : 1 ≤ E) (ops : List Op)
    (sys : System) (hreach : sys = (System.init n s E b).run ops)
    (k a : Nat) (c : Cache) (hc : sys.caches[k]? = some c)
    (hidle : sys.bus.isBusy = false)
    (hmiss : ¬c.holds (c.getSetIndex a) (c.getTag a)) :
    ((Cache.read sys k a (k : Int)).2 = 1 ∧
      (∃ c', (Cache.read sys k a (k : Int)).1.caches[k]? = some c' ∧
        c'.stats.evictionCount = c.stats.evictionCount +
          (if (c.line (c.getSetIndex a) (c.findLRULine (c.getSetIndex a))).state ≠
              CacheState.INVALID then 1 else 0) ∧
        c'.stats.writebackCount = c.stats.writebackCount +
          (if (c.line (c.getSetIndex a) (c.findLRULine (c.getSetIndex a))).state =
              CacheState.MODIFIED then 1 else 0) ∧
        (c'.line (c.getSetIndex a) (c.findLRULine (c.getSetIndex a))).tag = c.getTag a) ∧
      (Cache.read sys k a (k : Int)).1.bus.stats.totalBusTraffic =
        sys.bus.stats.totalBusTraffic + c.blockSize +
          (if (c.line (c.getSetIndex a) (c.findLRULine (c.getSetIndex a))).state =
              CacheState.MODIFIED then c.blockSize else 0) +
          c.blockSize * peerWritebacks sys.caches a (k : Int)) ∧
    ((Cache.write sys k a (k : Int)).2 = 1 ∧
      (∃ c', (Cache.write sys k a (k : Int)).1.caches[k]? = some c' ∧
        c'.stats.evictionCount = c.stats.evictionCount +
          (if (c.line (c.getSetIndex a) (c.findLRULine (c.getSetIndex a))).state ≠
              CacheState.INVALID then 1 else 0) ∧
        c'.stats.writebackCount = c.stats.writebackCount +
          (if (c.line (c.getSetIndex a) (c.findLRULine (c.getSetIndex a))).state =
              CacheState.MODIFIED then 1 else 0) ∧
        (c'.line (c.getSetIndex a) (c.findLRULine (c.getSetIndex a))).tag = c.getTag a) ∧
      (Cache.write sys k a (k : Int)).1.bus.stats.totalBusTraffic =
        sys.bus.stats.totalBusTraffic + c.blockSize +
          (if (c.line (c.getSetIndex a) (c.findLRULine (c.getSetIndex a))).state =
              CacheState.MODIFIED then c.blockSize else 0) +
          c.blockSize * peerWritebacks sys.caches a (k : Int)) ∧
    peerWritebacks sys.caches a (k : Int) ≤ 1 ∧
    (0 < peerWritebacks sys.caches a (k : Int) ↔
      ∃ j cj, j ≠ k ∧ sys.caches[j]? = some cj ∧
        cj.holdsModified (c.getSetIndex a) (c.getTag a)) ∧
    (E = 1 → c.findLRULine (c.getSetIndex a) = 0) ∧
    ((Cache.read evictionScenario 0 16 0).2 = 1 ∧
      ((Cache.read evictionScenario 0 16 0).1.caches.map
          (fun x => (x.stats.writebackCount, x.stats.evictionCount)),
        (Cache.read evictionScenario 0 16 0).1.bus.stats.totalBusTraffic) =
      (evictionScenario.caches.map
          (fun x => (x.stats.writebackCount + (if x.cacheId = 0 then 1 else 0),
            x.stats.evictionCount + (if x.cacheId = 0 then 1 else 0))),
        evictionScenario.bus.stats.totalBusTraffic + 8)) := by
  have hinv : Inv s E b sys := hreach ▸ inv_run ops (inv_init n s E b hsb)
  have hw := hinv.shape k c hc
  have hbs : c.blockSize = 2 ^ b := hw.2.2.1
  have hf : findWay (c.getTag a) (c.setLines (c.getSetIndex a)) = none := by
    cases h : findWay (c.getTag a) (c.setLines (c.getSetIndex a)) with
    | none => rfl
    | some i => exact absurd ((holds_iff_findWay c _ _).mpr ⟨i, h⟩) hmiss
  refine ⟨?_, ?_, peerWritebacks_le_one hinv a _, peerWritebacks_pos_iff hinv a k c hc,
    fun h1 => findLRULine_single hw h1 a, by decide⟩
  · rw [read_miss sys k c a _ hc hf hidle]
    obtain ⟨c', q1, q2, q3⟩ := readMiss_requester sys k c a hc hinv.ids hidle
    have hbus := readMiss_bus sys k c a hinv hc hidle
    refine ⟨rfl, ⟨c', q1, by rw [q3], by rw [q3], ?_⟩, ?_⟩
    · rw [victim_filled hw hE a _ q2]
    · show (Cache.readMiss sys k c a (k : Int)).bus.stats.totalBusTraffic = _
      rw [hbus, plus_traffic, taken_traffic, hbs]
      split_ifs <;> ring
  · rw [write_miss sys k c a _ hc hf hidle]
    obtain ⟨c', q1, q2, q3⟩ := writeMiss_requester sys k c a hc hinv.ids hidle
    have hbus := writeMiss_bus sys k c a hinv hc hidle
    refine ⟨rfl, ⟨c', q1, by rw [q3], by rw [q3], ?_⟩, ?_⟩
    · rw [victim_filled hw hE a _ q2]
    · show (Cache.writeMiss sys k c a (k : Int)).bus.stats.totalBusTraffic = _
      rw [hbus, plus_traffic, taken_traffic, hbs]
      split_ifs <;> ring

set_option maxRecDepth 1000000 in
theorem eviction_accounting_witness :
    (Cache.write evictionScenario 0 16 ((0 : Nat) : Int)).2 = 1 ∧
    peerWritebacks evictionScenario.caches 16 ((0 : Nat) : Int) ≤ 1 :=
  ⟨(eviction_accounting 2 1 2 2 (by decide) (by decide) _ evictionScenario rfl 0 16
      (evictionScenario.caches.getD 0 (Cache.mk0 1 2 2 0)) (by decide) (by decide)
      (by unfold Cache.holds; decide)).2.1.1,
    (eviction_accounting 2 1 2 2 (by decide) (by decide) _ evictionScenario rfl 0 16
      (evictionScenario.caches.getD 0 (Cache.mk0 1 2 2 0)) (by decide) (by decide)
      (by unfold Cache.holds; decide)).2.2.1⟩


/-! ### The first responder of a `BusRd` -/

theorem pbt_traffic (c : Cache) (bus : Bus) (a : Nat) (req : Int) (dr : Bool)
    (h : req ≠ c.cacheId) :
    (c.processBusTransaction bus a false req dr).1.stats.busTrafficBytes =
      c.stats.busTrafficBytes +
        (if c.snoopState a = CacheState.MODIFIED then c.blockSize else 0) +
        (if dr = true ∧ c.snoopState a ≠ CacheState.INVALID then c.blockSize else 0) := by
  unfold Cache.processBusTransaction Cache.snoopState
  rw [if_neg h]
  cases hf : findWay (c.getTag a) (c.setLines (c.getSetIndex a)) with
  | none => simp
  | some i =>
    obtain ⟨_, _, hv, _⟩ := findWay_some_line hf
    simp only []
    by_cases hm : (c.line (c.getSetIndex a) i).state = CacheState.MODIFIED
    · cases dr <;>
        simp [Cache.snoopRead, Cache.writeBackToMemory, hm, modifyLine_stats_eq]
    · cases dr <;> by_cases he : (c.line (c.getSetIndex a) i).state = CacheState.EXCLUSIVE <;>
        simp [Cache.snoopRead, hm, he, hv, modifyLine_stats_eq]

theorem pbt_flag_bool (c : Cache) (bus : Bus) (a : Nat) (w : Bool) (req : Int) (dr : Bool) :
    (c.processBusTransaction bus a w req dr).2.2 =
      decide (c.cacheId ≠ req ∧ c.snoopState a ≠ CacheState.INVALID) := by
  rw [Bool.eq_iff_iff, pbt_flag, decide_eq_true_iff, snoopState_ne_invalid_iff]
  constructor
  · rintro ⟨h1, h2⟩; exact ⟨fun e => h1 e.symm, h2⟩
  · rintro ⟨h1, h2⟩; exact ⟨fun e => h1 e.symm, h2⟩

theorem snoopLoop_supplier (a : Nat) (req : Int) (cs : List Cache) :
    ∀ (i0 : Nat) (bus : Bus) (dfo dr : Bool),
      (∀ (j : Nat) (c : Cache), cs[j]? = some c → c.cacheId = ((i0 + j : Nat) : Int)) →
      (dfo = true → dr = false) →
      ∀ (j : Nat) (c : Cache), cs[j]? = some c → c.cacheId ≠ req →
        ∃ bus', (snoopLoop a false req i0 cs bus dfo dr).1[j]? =
          some (c.processBusTransaction bus' a false req
            (dr && !peerHolds (cs.take j) a req)).1 := by
  induction cs with
  | nil => intro i0 bus dfo dr _ _ j c hj; simp at hj
  | cons c0 rest ih =>
    intro i0 bus dfo dr hids hinv j c hj hne
    have hid0 : c0.cacheId = (i0 : Int) := by
      have := hids 0 c0 (by simp)
      simpa using this
    have hids' : ∀ (j : Nat) (c : Cache), rest[j]? = some c →
        c.cacheId = ((i0 + 1 + j : Nat) : Int) := by
      intro j' c' hj'
      have := hids (j' + 1) c' (by simpa using hj')
      rw [this]; congr 1; omega
    unfold snoopLoop
    cases j with
    | zero =>
      have hc : c0 = c := by simpa using hj
      subst hc
      have hi : (i0 : Int) ≠ req := by rw [← hid0]; exact hne
      rw [if_pos hi]
      refine ⟨bus, ?_⟩
      simp [peerHolds]
    | succ j =>
      have hj' : rest[j]? = some c := by simpa using hj
      by_cases hi : (i0 : Int) ≠ req
      · rw [if_pos hi]
        simp only [Bool.false_eq_true, if_false]
        have hinv' : (dfo || (c0.processBusTransaction bus a false req dr).2.2) = true →
            (if (dfo || (c0.processBusTransaction bus a false req dr).2.2) = true
              then false else dr) = false := by
          intro h; rw [if_pos h]
        obtain ⟨bus', hb⟩ := ih (i0 + 1) (c0.processBusTransaction bus a false req dr).2.1
          (dfo || (c0.processBusTransaction bus a false req dr).2.2)
          (if (dfo || (c0.processBusTransaction bus a false req dr).2.2) = true
            then false else dr) hids' hinv' j c hj' hne
        refine ⟨bus', ?_⟩
        rw [List.getElem?_cons_succ, hb, List.take_succ_cons, peerHolds_cons, pbt_flag_bool]
        congr 3
        cases hd : dfo
        · cases decide (c0.cacheId ≠ req ∧ c0.snoopState a ≠ CacheState.INVALID) <;>
            cases dr <;> cases peerHolds (List.take j rest) a req <;> rfl
        · rw [hinv hd]
          cases decide (c0.cacheId ≠ req ∧ c0.snoopState a ≠ CacheState.INVALID) <;>
            cases peerHolds (List.take j rest) a req <;> rfl
      · rw [if_neg hi]
        obtain ⟨bus', hb⟩ := ih (i0 + 1) bus dfo dr hids' hinv j c hj' hne
        refine ⟨bus', ?_⟩
        have hno : decide (c0.cacheId ≠ req ∧ c0.snoopState a ≠ CacheState.INVALID) = false := by
          rw [decide_eq_false_iff_not]
          intro h
          apply h.1
          rw [hid0]
          exact not_not.1 hi
        rw [List.getElem?_cons_succ, hb, List.take_succ_cons, peerHolds_cons, hno]
        simp


theorem set_self {α : Type} (l : List α) (i : Nat) (x : α) (h : l[i]? = some x) :
    l.set i x = l := by
  apply List.ext_getElem?
  intro j
  by_cases hj : i = j
  · subst hj
    rw [set_getElem?_self x (lt_of_getElem? h), h]
  · rw [List.getElem?_set_ne hj]

theorem peerHolds_take {s E b : Nat} {sys : System} (hinv : Inv s E b sys) (r a j : Nat) :
    peerHolds (sys.caches.take j) a (r : Int) = true ↔
      ∃ j' cj, j' < j ∧ j' ≠ r ∧ sys.caches[j']? = some cj ∧
        cj.holds (cj.getSetIndex a) (cj.getTag a) := by
  have hids : ∀ (i : Nat) (ci : Cache), (sys.caches.take j)[i]? = some ci →
      ci.cacheId = (i : Int) := by
    intro i ci hi
    rw [List.getElem?_take] at hi
    split_ifs at hi with hlt
    · exact hinv.ids i ci hi
  rw [peerHolds_iff _ r a hids]
  constructor
  · rintro ⟨j', cj, h1, h2, h3⟩
    rw [List.getElem?_take] at h2
    split_ifs at h2 with hlt
    · exact ⟨j', cj, hlt, h1, h2, h3⟩
  · rintro ⟨j', cj, h1, h2, h3, h4⟩
    refine ⟨j', cj, h2, ?_, h4⟩
    rw [List.getElem?_take, if_pos h1]; exact h3

theorem broadcast_peer {s E b : Nat} {sys : System} (hinv : Inv s E b sys) (r a : Nat)
    (c : Cache) (hc : sys.caches[r]? = some c)
    (hnr : ¬(sys.bus.isBusy = true ∧ sys.bus.currentRequestingCore ≠ (r : Int)))
    (j : Nat) (cj : Cache) (hj : sys.caches[j]? = some cj) (hjr : j ≠ r) :
    ∃ cj', (Bus.broadcastTransaction sys.caches sys.bus BusTransactionType.BusRd a
        (r : Int)).1[j]? = some cj' ∧
      (cj.snooped a false).sameLines cj' ∧
      cj'.stats.busTrafficBytes = cj.stats.busTrafficBytes +
        (if cj.snoopState a = CacheState.MODIFIED then cj.blockSize else 0) +
        (if peerHolds (sys.caches.take j) a (r : Int) = false ∧
            cj.snoopState a ≠ CacheState.INVALID then cj.blockSize else 0) := by
  have hne : cj.cacheId ≠ (r : Int) := by
    rw [hinv.ids j cj hj]
    intro e; exact hjr (Int.ofNat_inj.1 e)
  rw [broadcast_eq_loop _ _ _ _ _ hnr]
  obtain ⟨bus', hb⟩ := snoopLoop_supplier a (r : Int) sys.caches 0
    { isBusy := true, remainingCycles := sys.bus.remainingCycles,
      currentRequestingCore := (r : Int),
      stats := sys.bus.stats.count BusTransactionType.BusRd } false true
    (fun i ci hi => by rw [Nat.zero_add]; exact hinv.ids i ci hi)
    (fun h => by cases h) j cj hj hne
  refine ⟨_, hb, (hinv.peer hc hj hjr a false bus' _).1, ?_⟩
  rw [pbt_traffic _ _ _ _ _ (Ne.symm hne)]
  congr 1
  cases peerHolds (List.take j sys.caches) a (r : Int) <;> simp

/-- C15. Only the first responder supplies data.  In a reachable state, for a
`BusRd` broadcast by core `r` that the bus accepts (it is not owned by another
core), when the peer `j0` is the holder of the block with the lowest
registration index: the broadcast returns `true`; `remainingCycles` grows by
the transfer latency `2 * (blockSize / 4)` once, plus 100 per peer that writes
a `MODIFIED` copy back; the `busTrafficBytes` of `j0` grow by `blockSize` for
the supply (and by `blockSize` more when the line it is snooped on is
`MODIFIED` and is written back); every other holder
keeps its `busTrafficBytes`; and every holder, first or not, makes its state
transition (`MODIFIED`/`EXCLUSIVE` to `SHARED`, `SHARED` stays). -/
theorem first_responder_supplies (n s E b : Nat) (hsb : s + b ≤ 31) (ops : List Op)
    (sys : System) (hreach : sys = (System.init n s E b).run ops)
    (r a : Nat) (c : Cache) (hc : sys.caches[r]? = some c)
    (hnr : ¬(sys.bus.isBusy = true ∧ sys.bus.currentRequestingCore ≠ (r : Int)))
    (j0 : Nat) (c0 : Cache) (h0 : sys.caches[j0]? = some c0) (h0r : j0 ≠ r)
    (hh0 : c0.holds (c0.getSetIndex a) (c0.getTag a))
    (hmin : ∀ (j : Nat) (cj : Cache), j < j0 → j ≠ r → sys.caches[j]? = some cj →
      ¬cj.holds (cj.getSetIndex a) (cj.getTag a)) :
    (Bus.broadcastTransaction sys.caches sys.bus BusTransactionType.BusRd a (r : Int)).2.2
      = true ∧
    (Bus.broadcastTransaction sys.caches sys.bus BusTransactionType.BusRd a
        (r : Int)).2.1.remainingCycles =
      sys.bus.remainingCycles + 2 * ((c0.blockSize / 4 : Nat) : Int) +
        100 * (peerWritebacks sys.caches a (r : Int) : Int) ∧
    (∃ c0', (Bus.broadcastTransaction sys.caches sys.bus BusTransactionType.BusRd a
          (r : Int)).1[j0]? = some c0' ∧
      (c0.snooped a false).sameLines c0' ∧
      c0'.stats.busTrafficBytes = c0.stats.busTrafficBytes + c0.blockSize +
        (if c0.snoopState a = CacheState.MODIFIED then c0.blockSize else 0)) ∧
    (∀ (j : Nat) (cj : Cache), j ≠ r → j ≠ j0 → sys.caches[j]? = some cj →
      cj.holds (cj.getSetIndex a) (cj.getTag a) →
      ∃ cj', (Bus.broadcastTransaction sys.caches sys.bus BusTransactionType.BusRd a
          (r : Int)).1[j]? = some cj' ∧
        (cj.snooped a false).sameLines cj' ∧
        cj'.stats.busTrafficBytes = cj.stats.busTrafficBytes) := by
  have hinv : Inv s E b sys := hreach ▸ inv_run ops (inv_init n s E b hsb)
  have hbs : ∀ x ∈ sys.caches, x.blockSize = 2 ^ b := by
    intro x hx
    obtain ⟨i, hi⟩ := List.mem_iff_getElem?.1 hx
    exact (hinv.shape i x hi).2.2.1
  have hph : peerHolds sys.caches a (r : Int) = true :=
    (peerHolds_iff sys.caches r a hinv.ids).2 ⟨j0, c0, h0r, h0, hh0⟩
  have hflag := broadcast_flag sys.caches r c sys.bus BusTransactionType.BusRd a hnr hinv.ids
    (lt_of_getElem? hc)
  have hbus := broadcast_bus sys.caches r c sys.bus BusTransactionType.BusRd a (2 ^ b) hnr
    hinv.ids hbs (hinv.ids r c hc) (hbs c (List.getElem?_mem hc))
  rw [set_self _ _ _ hc] at hflag hbus
  refine ⟨by rw [hflag, hph], ?_, ?_, ?_⟩
  · rw [hbus, hph, hbs c0 (List.getElem?_mem h0)]
    simp only [Bus.plus, true_and, if_true]
    ring
  · obtain ⟨c0', q1, q2, q3⟩ := broadcast_peer hinv r a c hc hnr j0 c0 h0 h0r
    refine ⟨c0', q1, q2, ?_⟩
    have hfirst : peerHolds (sys.caches.take j0) a (r : Int) = false := by
      rw [← Bool.not_eq_true, peerHolds_take hinv]
      rintro ⟨j', cj, g1, g2, g3, g4⟩
      exact hmin j' cj g1 g2 g3 g4
    have hvalid : c0.snoopState a ≠ CacheState.INVALID :=
      (snoopState_ne_invalid_iff c0 a).2 hh0
    have hp : peerHolds (sys.caches.take j0) a (r : Int) = false ∧
        c0.snoopState a ≠ CacheState.INVALID := ⟨hfirst, hvalid⟩
    rw [q3, if_pos hp]
    ring
  · intro j cj hjr hj0 hj hh
    obtain ⟨cj', q1, q2, q3⟩ := broadcast_peer hinv r a c hc hnr j cj hj hjr
    refine ⟨cj', q1, q2, ?_⟩
    have hlt : j0 < j := by
      rcases Nat.lt_trichotomy j j0 with h | h | h
      · exact absurd hh (hmin j cj h hjr hj)
      · exact absurd h hj0
      · exact h
    have hnotfirst : peerHolds (sys.caches.take j) a (r : Int) = true :=
      (peerHolds_take hinv r a j).2 ⟨j0, c0, hlt, h0r, h0, hh0⟩
    have hdec := decode_eq hinv h0 hj a
    have hnm : ¬cj.snoopState a = CacheState.MODIFIED := by
      intro hm
      have hmod := (snoopState_modified_iff a (hinv.nodup j cj hj _)).1 hm
      apply hinv.coherent j j0 cj c0 hj h0 hj0 _ _ (holdsModified_holdsOwned hmod)
      rw [hdec.1, hdec.2]; exact hh0
    rw [q3, if_neg hnm, if_neg (by rw [hnotfirst]; intro h; cases h.1)]
    rfl

set_option maxRecDepth 100000 in
theorem first_responder_supplies_witness :
    (Bus.broadcastTransaction
      ((System.init 3 1 2 2).run ([Op.read 0 0] ++ List.replicate 100 Op.tick)).caches
      ((System.init 3 1 2 2).run ([Op.read 0 0] ++ List.replicate 100 Op.tick)).bus
      BusTransactionType.BusRd 0 ((1 : Nat) : Int)).2.2 = true :=
  (first_responder_supplies 3 1 2 2 (by decide) ([Op.read 0 0] ++ List.replicate 100 Op.tick)
    ((System.init 3 1 2 2).run ([Op.read 0 0] ++ List.replicate 100 Op.tick)) rfl
    1 0 (Cache.mk0 1 2 2 1) (by decide) (by decide) 0
    (((System.init 3 1 2 2).run ([Op.read 0 0] ++ List.replicate 100 Op.tick)).caches.getD 0
      (Cache.mk0 1 2 2 0)) (by decide) (by decide)
    (by unfold Cache.holds; decide)
    (fun j cj hj => absurd hj (Nat.not_lt_zero j))).1


/-! ### A read after a served read miss -/

theorem run_quiet (ops : List Op) :
    ∀ (sys : System), (∀ op ∈ ops, op = Op.tick ∨ op = Op.nextCycle) →
      (sys.run ops).caches = sys.caches := by
  induction ops with
  | nil => intro sys _; rfl
  | cons op rest ih =>
    intro sys h
    have hrest : ∀ x ∈ rest, x = Op.tick ∨ x = Op.nextCycle :=
      fun x hx => h x (List.mem_cons_of_mem _ hx)
    show ((sys.step op).run rest).caches = sys.caches
    rw [ih _ hrest]
    rcases h op (List.mem_cons_self _ _) with e | e <;> rw [e] <;> rfl

/-- C19. Read after read-miss is a hit.  In a reachable state, if a `read` of
`a` by cache `k` returns `MISS_ISSUED` (1) and afterwards only bus ticks and
global-cycle increments happen until the bus is no longer owned by `k`, then
the next `read` of `a` by `k` returns `HIT` (0); the bus (flags, cycles,
transaction counts, traffic) and the global cycle are unchanged, every other
cache is unchanged, and in cache `k` only `hitCount` (one more) and the stamp
of the hit line (now the global cycle) change: no state, tag or dirty flag of
any line changes. -/
theorem read_after_miss_hits (n s E b : Nat) (hsb : s + b ≤ 31) (hE : 1 ≤ E) (ops : List Op)
    (sys : System) (hreach : sys = (System.init n s E b).run ops) (k a : Nat)
    (hmiss : (Cache.read sys k a (k : Int)).2 = 1)
    (quiet : List Op) (hquiet : ∀ op ∈ quiet, op = Op.tick ∨ op = Op.nextCycle)
    (sys2 : System) (hsys2 : sys2 = (Cache.read sys k a (k : Int)).1.run quiet)
    (hfree : ¬(sys2.bus.isBusy = true ∧ sys2.bus.currentRequestingCore = (k : Int))) :
    (Cache.read sys2 k a (k : Int)).2 = 0 ∧
    (Cache.read sys2 k a (k : Int)).1.bus = sys2.bus ∧
    (Cache.read sys2 k a (k : Int)).1.globalCycle = sys2.globalCycle ∧
    (Cache.read sys2 k a (k : Int)).1.caches.length = sys2.caches.length ∧
    (∀ (j : Nat), j ≠ k →
      (Cache.read sys2 k a (k : Int)).1.caches[j]? = sys2.caches[j]?) ∧
    (∃ c2 c2' i, sys2.caches[k]? = some c2 ∧
      (Cache.read sys2 k a (k : Int)).1.caches[k]? = some c2' ∧
      c2'.stats = { c2.stats with hitCount := c2.stats.hitCount + 1 } ∧
      (c2.line (c2.getSetIndex a) i).tag = c2.getTag a ∧
      (c2.line (c2.getSetIndex a) i).state ≠ CacheState.INVALID ∧
      c2'.line (c2.getSetIndex a) i =
        { c2.line (c2.getSetIndex a) i with lastAccessTime := sys2.globalCycle } ∧
      (∀ si' i', ¬(si' = c2.getSetIndex a ∧ i' = i) → c2'.line si' i' = c2.line si' i')) := by
  have hinv : Inv s E b sys := hreach ▸ inv_run ops (inv_init n s E b hsb)
  cases hc : sys.caches[k]? with
  | none =>
    rw [read_none sys k a _ hc] at hmiss
    simp at hmiss
  | some c =>
    have hout := outcome_read hinv hE k a c hc
    obtain ⟨_, _, _, _, c1, hc1, hh⟩ := hout.miss hmiss
    have hinv1 : Inv s E b (Cache.read sys k a (k : Int)).1 := inv_read hinv k a
    have hcaches : sys2.caches = (Cache.read sys k a (k : Int)).1.caches := by
      rw [hsys2]; exact run_quiet quiet _ hquiet
    have hc2 : sys2.caches[k]? = some c1 := by rw [hcaches]; exact hc1
    have hdec : c1.getSetIndex a = c.getSetIndex a ∧ c1.getTag a = c.getTag a := by
      rw [(wellFormed_decode (hinv1.shape k c1 hc1) a).1,
        (wellFormed_decode (hinv1.shape k c1 hc1) a).2,
        (wellFormed_decode (hinv.shape k c hc) a).1, (wellFormed_decode (hinv.shape k c hc) a).2]
      exact ⟨rfl, rfl⟩
    rw [← hdec.1, ← hdec.2] at hh
    obtain ⟨i, hf⟩ := (holds_iff_findWay c1 _ _).1 hh
    obtain ⟨_, f2, f3, f4⟩ := findWay_some_line hf
    rw [read_hit sys2 k c1 a _ i hc2 hfree hf]
    have hk : k < sys2.caches.length := lt_of_getElem? hc2
    refine ⟨rfl, rfl, rfl, ?_, ?_, c1,
      c1.countHit.updateLRU sys2.globalCycle (c1.getSetIndex a) i, i, hc2, ?_, rfl, f2, f3,
      ?_, ?_⟩
    · simp
    · intro j hj
      show (sys2.caches.set k _)[j]? = _
      rw [List.getElem?_set_ne (Ne.symm hj)]
    · exact set_getElem?_self _ hk
    · unfold Cache.updateLRU
      have f4' : i < (c1.countHit.setLines (c1.getSetIndex a)).length := f4
      rw [line_modifyLine_self _ _ _ _ f4']
      rfl
    · intro si' i' hne
      unfold Cache.updateLRU
      rw [line_modifyLine_other _ _ _ _ _ _ hne]
      rfl

set_option maxRecDepth 100000 in
theorem read_after_miss_hits_witness :
    (Cache.read ((Cache.read (System.init 2 1 2 2) 0 0 ((0 : Nat) : Int)).1.run
      (List.replicate 100 Op.tick)) 0 0 ((0 : Nat) : Int)).2 = 0 :=
  (read_after_miss_hits 2 1 2 2 (by decide) (by decide) [] (System.init 2 1 2 2) rfl 0 0
    (by decide) (List.replicate 100 Op.tick)
    (fun op hop => Or.inl (List.eq_of_mem_replicate hop))
    _ rfl (by decide)).1


/-! ### Trace pointers and retired instructions -/

theorem driverInv_advance {s E b : Nat} {traces : List (List TraceEntry)} {d : Driver}
    (hinv : Driver.Inv s E b traces d) : Driver.Inv s E b traces d.advance := by
  by_cases h1 : d.sys.bus.remainingCycles = 1
  · exact (advance_retire hinv h1).1
  · exact (advance_wait hinv h1).1

theorem driverInv_pointers {s E b : Nat} {traces : List (List TraceEntry)} {d : Driver}
    (hinv : Driver.Inv s E b traces d) :
    d.totalInstructions.length = numCores ∧ d.currentInstructionIndex.length = numCores ∧
    ∀ c, d.totalInstructions.getD c 0 = d.currentInstructionIndex.getD c 0 ∧
      d.currentInstructionIndex.getD c 0 ≤ (traces.getD c []).length :=
  ⟨hinv.ntotal, hinv.nindex, fun c => ⟨by rw [hinv.retired], hinv.bound c⟩⟩

/-- C20. Trace pointer and retired-instruction count move together and stay
in range.  For all traces and parameters with `s + b ≤ 31` and `E ≥ 1`, in
every state of the cycle loop (after `n` iterations, after the retirement and
tick of the next iteration, and after any number `j ≤ 4` of cores have issued
in it) both vectors have 4 entries and every core has
`totalInstructions = currentInstructionIndex ≤` the length of its trace.  And
whenever `remainingCycles = 1` at the start of an iteration the bus owner is a
core id below 4 that indexes the cache array and whose trace pointer is
strictly below its trace length. -/
theorem pointer_tracks_retired (s E b : Nat) (hsb : s + b ≤ 31) (hE : 1 ≤ E)
    (traces : List (List TraceEntry)) (n : Nat) :
    ((Driver.cycles traces n (Driver.init s E b)).totalInstructions.length = numCores ∧
      (Driver.cycles traces n (Driver.init s E b)).currentInstructionIndex.length = numCores ∧
      ∀ c, (Driver.cycles traces n (Driver.init s E b)).totalInstructions.getD c 0 =
          (Driver.cycles traces n (Driver.init s E b)).currentInstructionIndex.getD c 0 ∧
        (Driver.cycles traces n (Driver.init s E b)).currentInstructionIndex.getD c 0 ≤
          (traces.getD c []).length) ∧
    ((Driver.cycles traces n (Driver.init s E b)).advance.totalInstructions.length = numCores ∧
      (Driver.cycles traces n (Driver.init s E b)).advance.currentInstructionIndex.length
        = numCores ∧
      ∀ c, (Driver.cycles traces n (Driver.init s E b)).advance.totalInstructions.getD c 0 =
          (Driver.cycles traces n (Driver.init s E b)).advance.currentInstructionIndex.getD c 0 ∧
        (Driver.cycles traces n (Driver.init s E b)).advance.currentInstructionIndex.getD c 0 ≤
          (traces.getD c []).length) ∧
    (∀ j, j ≤ numCores →
      ((List.range j).foldl (Driver.issue traces)
          ((Driver.cycles traces n (Driver.init s E b)).advance, true)).1.totalInstructions.length
        = numCores ∧
      ((List.range j).foldl (Driver.issue traces)
          ((Driver.cycles traces n (Driver.init s E b)).advance,
            true)).1.currentInstructionIndex.length = numCores ∧
      ∀ c, ((List.range j).foldl (Driver.issue traces)
            ((Driver.cycles traces n (Driver.init s E b)).advance,
              true)).1.totalInstructions.getD c 0 =
          ((List.range j).foldl (Driver.issue traces)
            ((Driver.cycles traces n (Driver.init s E b)).advance,
              true)).1.currentInstructionIndex.getD c 0 ∧
        ((List.range j).foldl (Driver.issue traces)
            ((Driver.cycles traces n (Driver.init s E b)).advance,
              true)).1.currentInstructionIndex.getD c 0 ≤ (traces.getD c []).length) ∧
    ((Driver.cycles traces n (Driver.init s E b)).sys.bus.remainingCycles = 1 →
      ∃ o : Nat, o < numCores ∧
        (Driver.cycles traces n (Driver.init s E b)).sys.bus.currentRequestingCore = (o : Int) ∧
        o < (Driver.cycles traces n (Driver.init s E b)).sys.caches.length ∧
        (Driver.cycles traces n (Driver.init s E b)).currentInstructionIndex.getD o 0 <
          (traces.getD o []).length) := by
  have hinv := driverInv_cycles hE traces n _ (driverInv_init s E b hsb traces)
  have hadv := driverInv_advance hinv
  refine ⟨driverInv_pointers hinv, driverInv_pointers hadv, ?_, ?_⟩
  · intro j hj
    have hlt : ∀ c ∈ List.range j, c < numCores :=
      fun c hc => Nat.lt_of_lt_of_le (List.mem_range.1 hc) hj
    exact driverInv_pointers (fold_inv hE traces (List.range j) hlt _ true hadv).1
  · intro h1
    obtain ⟨o, ho, h2, h3⟩ := hinv.owner (by omega)
    exact ⟨o, ho, h2, by rw [hinv.ncaches]; exact ho, h3⟩

set_option maxRecDepth 100000 in
theorem pointer_tracks_retired_witness :
    (Driver.cycles [[⟨false, 0⟩, ⟨true, 0⟩], [⟨false, 0⟩], [], []] 3
        (Driver.init 1 2 2)).totalInstructions.length = numCores :=
  (pointer_tracks_retired 1 2 2 (by decide) (by decide)
    [[⟨false, 0⟩, ⟨true, 0⟩], [⟨false, 0⟩], [], []] 3).1.1


/-! ### What an access leaves of the other caches -/

theorem peers_of_rel {s E b : Nat} {sys sys' : System} (hinv : Inv s E b sys) (k a : Nat)
    (w : Bool) (c : Cache) (hc : sys.caches[k]? = some c) (P : Cache → Cache → Prop)
    (hrel : CachesRel (fun j cj cj' =>
      (j ≠ k → ∃ bus' dr', cj' = (cj.processBusTransaction bus' a w (k : Int) dr').1) ∧
      (j = k → P cj cj')) sys.caches sys'.caches) :
    CachesRel (fun j cj cj' => j ≠ k → ∀ si t, cj'.holds si t → cj.holds si t)
      sys.caches sys'.caches := by
  apply hrel.mono
  intro j cj cj' hj h hjk si t hh
  obtain ⟨bus', dr', rfl⟩ := h.1 hjk
  have hs := (hinv.peer hc hj hjk a w bus' dr').1
  exact snooped_holds ((sameLines_holds hs si t).1 hh)

theorem peers_of_set (sys : System) (k : Nat) (x : Cache) :
    CachesRel (fun j cj cj' => j ≠ k → ∀ si t, cj'.holds si t → cj.holds si t)
      sys.caches (sys.caches.set k x) := by
  apply CachesRel.set_at
  · apply CachesRel.refl
    intro j cj _ _ _ si t h
    exact h
  · intro c0 _ h; exact absurd rfl h

theorem peers_refl (sys : System) (k : Nat) :
    CachesRel (fun j cj cj' => j ≠ k → ∀ si t, cj'.holds si t → cj.holds si t)
      sys.caches sys.caches :=
  CachesRel.refl _ (fun _ _ _ _ _ _ h => h)

theorem peers_read {s E b : Nat} {sys : System} (hinv : Inv s E b sys) (k a : Nat) :
    CachesRel (fun j cj cj' => j ≠ k → ∀ si t, cj'.holds si t → cj.holds si t)
      sys.caches (Cache.read sys k a (k : Int)).1.caches := by
  cases hc : sys.caches[k]? with
  | none => rw [read_none sys k a _ hc]; exact peers_refl sys k
  | some c =>
    by_cases hself : sys.bus.isBusy = true ∧ sys.bus.currentRequestingCore = (k : Int)
    · rw [read_self sys k c a _ hc hself]; exact peers_refl sys k
    · cases hf : findWay (c.getTag a) (c.setLines (c.getSetIndex a)) with
      | some i =>
        rw [read_hit sys k c a _ i hc hself hf]
        exact peers_of_set sys k _
      | none =>
        by_cases hb : sys.bus.isBusy = true
        · rw [read_other sys k c a _ hc hself hf hb]; exact peers_refl sys k
        · have hb' : sys.bus.isBusy = false := by simpa using hb
          rw [read_miss sys k c a _ hc hf hb']
          obtain ⟨st, _, hrel⟩ := readMiss_caches sys k c a hc hinv.ids hb'
          exact peers_of_rel hinv k a false c hc _ hrel

theorem peers_write {s E b : Nat} {sys : System} (hinv : Inv s E b sys) (k a : Nat) :
    CachesRel (fun j cj cj' => j ≠ k → ∀ si t, cj'.holds si t → cj.holds si t)
      sys.caches (Cache.write sys k a (k : Int)).1.caches := by
  cases hc : sys.caches[k]? with
  | none => rw [write_none sys k a _ hc]; exact peers_refl sys k
  | some c =>
    by_cases hself : sys.bus.isBusy = true ∧ sys.bus.currentRequestingCore = (k : Int)
    · rw [write_self sys k c a _ hc hself]; exact peers_refl sys k
    · cases hf : findWay (c.getTag a) (c.setLines (c.getSetIndex a)) with
      | some i =>
        rw [write_hit sys k c a _ i hc hself hf]
        by_cases hm : (c.line (c.getSetIndex a) i).state = CacheState.MODIFIED
        · rw [writeHit_modified sys k c a _ i hm]
          exact peers_of_set sys k _
        · by_cases hb : sys.bus.isBusy = true
          · rw [writeHit_busy sys k c a _ i hm hb]; exact peers_refl sys k
          · have hb' : sys.bus.isBusy = false := by simpa using hb
            exact peers_of_rel hinv k a true c hc _
              (upgrade_caches sys k c a i hc hinv.ids hm hb')
      | none =>
        by_cases hb : sys.bus.isBusy = true
        · rw [write_other sys k c a _ hc hself hf hb]; exact peers_refl sys k
        · have hb' : sys.bus.isBusy = false := by simpa using hb
          rw [write_miss sys k c a _ hc hf hb']
          exact peers_of_rel hinv k a true c hc _ (writeMiss_caches sys k c a hc hinv.ids hb')


/-! ### The per-core loop seen from another core -/

theorem dispatch_caches_ne (d : Driver) (core : Nat) (w : Bool) (code : Int) (i : Nat)
    (h : i ≠ core) : (d.dispatch core w code).sys.caches[i]? = d.sys.caches[i]? := by
  unfold Driver.dispatch
  split_ifs
  · exact modifyAt_getElem?_ne _ _ _ _ h
  · exact modifyAt_getElem?_ne _ _ _ _ h
  · exact modifyAt_getElem?_ne _ _ _ _ h
  · exact modifyAt_getElem?_ne _ _ _ _ h
  · rfl

theorem dispatch_pointers_ne (d : Driver) (core : Nat) (w : Bool) (code : Int) (i : Nat)
    (h : i ≠ core) :
    (d.dispatch core w code).currentInstructionIndex.getD i 0 =
      d.currentInstructionIndex.getD i 0 ∧
    (d.dispatch core w code).totalInstructions.getD i 0 = d.totalInstructions.getD i 0 := by
  rw [dispatch_index, dispatch_total]
  split_ifs
  · exact ⟨modifyAt_getD_ne _ _ _ _ h, modifyAt_getD_ne _ _ _ _ h⟩
  · exact ⟨rfl, rfl⟩

theorem access_outcome {s E b : Nat} {sys : System} (hinv : Inv s E b sys) (hE : 1 ≤ E)
    (k : Nat) (e : TraceEntry) (c : Cache) (hc : sys.caches[k]? = some c) :
    Outcome sys k c e.address (Driver.access sys k e) ∧
    Inv s E b (Driver.access sys k e).1 ∧
    CachesRel (fun j cj cj' => j ≠ k → ∀ si t, cj'.holds si t → cj.holds si t)
      sys.caches (Driver.access sys k e).1.caches := by
  unfold Driver.access
  split_ifs
  · exact ⟨outcome_write hinv hE k _ c hc, inv_write hinv k _, peers_write hinv k _⟩
  · exact ⟨outcome_read hinv hE k _ c hc, inv_read hinv k _, peers_read hinv k _⟩

theorem issue_access (traces : List (List TraceEntry)) (d : Driver) (f : Bool) (core : Nat)
    (e : TraceEntry)
    (h : (traces.getD core [])[d.currentInstructionIndex.getD core 0]? = some e) :
    (Driver.issue traces (d, f) core).1 =
      Driver.dispatch { d with sys := (Driver.access d.sys core e).1 } core e.isWrite
        (Driver.access d.sys core e).2 := by
  rw [issue_entry traces (d, f) core e h]
  rfl

theorem sameCounters_refl (c : Cache) : c.sameCounters c := ⟨rfl, rfl, rfl, rfl, rfl, rfl⟩

theorem sameCounters_trans {a b c : Cache} (h1 : a.sameCounters b) (h2 : b.sameCounters c) :
    a.sameCounters c :=
  ⟨h2.1.trans h1.1, h2.2.1.trans h1.2.1, h2.2.2.1.trans h1.2.2.1,
    h2.2.2.2.1.trans h1.2.2.2.1, h2.2.2.2.2.1.trans h1.2.2.2.2.1,
    h2.2.2.2.2.2.trans h1.2.2.2.2.2⟩

theorem issue_frame {s E b : Nat} (hE : 1 ≤ E) (traces : List (List TraceEntry)) (d : Driver)
    (f : Bool) (j : Nat) (hinv : Driver.Inv s E b traces d) (hj : j < numCores) (i : Nat)
    (hij : i ≠ j) :
    (Driver.issue traces (d, f) j).1.currentInstructionIndex.getD i 0 =
      d.currentInstructionIndex.getD i 0 ∧
    (Driver.issue traces (d, f) j).1.totalInstructions.getD i 0 =
      d.totalInstructions.getD i 0 ∧
    ∀ ci, d.sys.caches[i]? = some ci →
      ∃ ci', (Driver.issue traces (d, f) j).1.sys.caches[i]? = some ci' ∧
        ci.sameCounters ci' ∧ ∀ si t, ci'.holds si t → ci.holds si t := by
  by_cases hp : d.pending traces j
  · have hp' := hp
    unfold Driver.pending at hp'
    have he := List.getElem?_eq_getElem hp'
    have hlt : j < d.sys.caches.length := by rw [hinv.ncaches]; exact hj
    have hc : d.sys.caches[j]? = some (d.sys.caches[j]) := List.getElem?_eq_getElem hlt
    obtain ⟨hout, _, hpeers⟩ := access_outcome hinv.sys hE j _ _ hc
    rw [issue_access traces d f j _ he]
    refine ⟨(dispatch_pointers_ne _ j _ _ i hij).1, (dispatch_pointers_ne _ j _ _ i hij).2, ?_⟩
    intro ci hci
    rw [dispatch_caches_ne _ j _ _ i hij]
    obtain ⟨ci', h1, q1, q2, q3, q4, q5, q6⟩ := hout.counts.2 i ci hci
    obtain ⟨ci'', h2, hh⟩ := hpeers.2 i ci hci
    have h1' : (Driver.access d.sys j (traces.getD j [])[d.currentInstructionIndex.getD j 0]).1.caches[i]?
        = some ci' := h1
    rw [h1'] at h2
    cases h2
    refine ⟨ci', h1, ⟨q1, q2, ?_, ?_, q3, q4⟩, hh hij⟩
    · rw [q5, if_neg (fun h => hij h.1)]; rfl
    · rw [q6, if_neg (fun h => hij h.1)]; rfl
  · rw [issue_skip traces (d, f) j hp]
    exact ⟨rfl, rfl, fun ci hci => ⟨ci, hci, sameCounters_refl ci, fun _ _ h => h⟩⟩


theorem issue_fst_flag (traces : List (List TraceEntry)) (d : Driver) (f f' : Bool)
    (core : Nat) :
    (Driver.issue traces (d, f) core).1 = (Driver.issue traces (d, f') core).1 := by
  unfold Driver.issue
  cases (traces.getD core [])[d.currentInstructionIndex.getD core 0]? <;> rfl

theorem afterCores_zero (traces : List (List TraceEntry)) (d : Driver) :
    d.afterCores traces 0 = d := rfl

theorem afterCores_succ (traces : List (List TraceEntry)) (d : Driver) (j : Nat) :
    d.afterCores traces (j + 1) = (Driver.issue traces (d.afterCores traces j, true) j).1 := by
  unfold Driver.afterCores
  rw [List.range_succ, List.foldl_append]
  simp only [List.foldl_cons, List.foldl_nil]
  exact issue_fst_flag traces _ _ _ j

theorem afterCores_inv {s E b : Nat} (hE : 1 ≤ E) (traces : List (List TraceEntry))
    (d : Driver) (hinv : Driver.Inv s E b traces d) (j : Nat) (hj : j ≤ numCores) :
    Driver.Inv s E b traces (d.afterCores traces j) ∧
      (d.sys.bus.isBusy = true → (d.afterCores traces j).sys.bus = d.sys.bus) := by
  have hlt : ∀ c ∈ List.range j, c < numCores :=
    fun c hc => Nat.lt_of_lt_of_le (List.mem_range.1 hc) hj
  have := fold_inv hE traces (List.range j) hlt d true hinv
  exact ⟨this.1, this.2.2⟩

theorem afterCores_frame {s E b : Nat} (hE : 1 ≤ E) (traces : List (List TraceEntry))
    (d : Driver) (hinv : Driver.Inv s E b traces d) (i j1 : Nat) :
    ∀ j2, j1 ≤ j2 → j2 ≤ numCores → (i < j1 ∨ j2 ≤ i) →
      (d.afterCores traces j2).currentInstructionIndex.getD i 0 =
        (d.afterCores traces j1).currentInstructionIndex.getD i 0 ∧
      (d.afterCores traces j2).totalInstructions.getD i 0 =
        (d.afterCores traces j1).totalInstructions.getD i 0 ∧
      ∀ ci, (d.afterCores traces j1).sys.caches[i]? = some ci →
        ∃ ci', (d.afterCores traces j2).sys.caches[i]? = some ci' ∧
          ci.sameCounters ci' ∧ ∀ si t, ci'.holds si t → ci.holds si t := by
  intro j2
  induction j2 with
  | zero =>
    intro h1 _ _
    have : j1 = 0 := by omega
    subst this
    exact ⟨rfl, rfl, fun ci hci => ⟨ci, hci, sameCounters_refl ci, fun _ _ h => h⟩⟩
  | succ j ih =>
    intro h1 h2 h3
    by_cases heq : j1 = j + 1
    · subst heq
      exact ⟨rfl, rfl, fun ci hci => ⟨ci, hci, sameCounters_refl ci, fun _ _ h => h⟩⟩
    · have hle : j1 ≤ j := by omega
      obtain ⟨a1, a2, a3⟩ := ih hle (by omega) (by omega)
      have hinvj := (afterCores_inv hE traces d hinv j (by omega)).1
      have hij : i ≠ j := by omega
      obtain ⟨b1, b2, b3⟩ := issue_frame hE traces (d.afterCores traces j) true j hinvj
        (by omega) i hij
      rw [afterCores_succ]
      refine ⟨b1.trans a1, b2.trans a2, ?_⟩
      intro ci hci
      obtain ⟨ci', h', c1, c2⟩ := a3 ci hci
      obtain ⟨ci'', h'', d1, d2⟩ := b3 ci' h'
      exact ⟨ci'', h'', sameCounters_trans c1 d1, fun si t h => c2 si t (d2 si t h)⟩


/-! ### The per-core loop seen from the issuing core -/

theorem dispatch_own (d : Driver) (core : Nat) (w : Bool) (code : Int) (c : Cache)
    (hc : d.sys.caches[core]? = some c)
    (hcode : code = 0 ∨ code = 1 ∨ code = -1 ∨ code = 2) :
    ∃ c', (d.dispatch core w code).sys.caches[core]? = some c' ∧ c.sameLines c' ∧
      c'.stats.hitCount = c.stats.hitCount ∧ c'.stats.missCount = c.stats.missCount ∧
      c'.stats.execCycles = c.stats.execCycles + (if code = -1 then 0 else 1) ∧
      c'.stats.idleCycles = c.stats.idleCycles + (if code = -1 then 1 else 0) ∧
      c'.stats.readCount = c.stats.readCount +
        (if (code = 0 ∨ code = 1) ∧ w = false then 1 else 0) ∧
      c'.stats.writeCount = c.stats.writeCount +
        (if (code = 0 ∨ code = 1) ∧ w = true then 1 else 0) := by
  have hacc : ∀ x : Cache, c.sameLines (c.countExec.countAccess w) ∧
      (c.countExec.countAccess w).stats.hitCount = c.stats.hitCount ∧
      (c.countExec.countAccess w).stats.missCount = c.stats.missCount ∧
      (c.countExec.countAccess w).stats.execCycles = c.stats.execCycles + 1 ∧
      (c.countExec.countAccess w).stats.idleCycles = c.stats.idleCycles + 0 ∧
      (c.countExec.countAccess w).stats.readCount =
        c.stats.readCount + (if w = false then 1 else 0) ∧
      (c.countExec.countAccess w).stats.writeCount =
        c.stats.writeCount + (if w = true then 1 else 0) := by
    intro _
    refine ⟨sameLines_trans (countExec_sameLines c) (countAccess_sameLines _ w), ?_⟩
    cases w <;> exact ⟨rfl, rfl, rfl, rfl, rfl, rfl⟩
  have hget : ∀ g : Cache → Cache, (modifyAt d.sys.caches core g)[core]? = some (g c) := by
    intro g; rw [modifyAt_getElem?_self, hc]; rfl
  unfold Driver.dispatch
  rcases hcode with h | h | h | h
  · rw [if_pos h]
    refine ⟨_, hget _, ?_⟩
    have := hacc c
    simpa [h] using this
  · rw [if_neg (by rw [h]; decide), if_pos h]
    refine ⟨_, hget _, ?_⟩
    have := hacc c
    simpa [h] using this
  · rw [if_neg (by rw [h]; decide), if_neg (by rw [h]; decide), if_pos h]
    refine ⟨_, hget _, countIdle_sameLines c, ?_⟩
    subst h
    exact ⟨rfl, rfl, rfl, rfl, rfl, rfl⟩
  · rw [if_neg (by rw [h]; decide), if_neg (by rw [h]; decide), if_neg (by rw [h]; decide),
      if_pos h]
    refine ⟨_, hget _, countExec_sameLines c, ?_⟩
    subst h
    exact ⟨rfl, rfl, rfl, rfl, rfl, rfl⟩

theorem dispatch_pointers_own (d : Driver) (core : Nat) (w : Bool) (code : Int)
    (h1 : core < d.currentInstructionIndex.length) (h2 : core < d.totalInstructions.length) :
    (d.dispatch core w code).currentInstructionIndex.getD core 0 =
      d.currentInstructionIndex.getD core 0 + (if code = 0 then 1 else 0) ∧
    (d.dispatch core w code).totalInstructions.getD core 0 =
      d.totalInstructions.getD core 0 + (if code = 0 then 1 else 0) := by
  rw [dispatch_index, dispatch_total]
  split_ifs
  · exact ⟨modifyAt_getD_self _ _ h1, modifyAt_getD_self _ _ h2⟩
  · exact ⟨rfl, rfl⟩

theorem issue_own {s E b : Nat} (hE : 1 ≤ E) (traces : List (List TraceEntry)) (d : Driver)
    (f : Bool) (j : Nat) (hinv : Driver.Inv s E b traces d) (hj : j < numCores)
    (e : TraceEntry) (cj : Cache)
    (he : (traces.getD j [])[d.currentInstructionIndex.getD j 0]? = some e)
    (hc : d.sys.caches[j]? = some cj) :
    (Driver.issue traces (d, f) j).1.sys.bus = (Driver.access d.sys j e).1.bus ∧
    (Driver.issue traces (d, f) j).1.currentInstructionIndex.getD j 0 =
      d.currentInstructionIndex.getD j 0 + (if (Driver.access d.sys j e).2 = 0 then 1 else 0) ∧
    (Driver.issue traces (d, f) j).1.totalInstructions.getD j 0 =
      d.totalInstructions.getD j 0 + (if (Driver.access d.sys j e).2 = 0 then 1 else 0) ∧
    ∃ cj', (Driver.issue traces (d, f) j).1.sys.caches[j]? = some cj' ∧
      cj'.stats.hitCount = cj.stats.hitCount +
        (if (Driver.access d.sys j e).2 = 0 then 1 else 0) ∧
      cj'.stats.missCount = cj.stats.missCount +
        (if (Driver.access d.sys j e).2 = 1 then 1 else 0) ∧
      cj'.stats.execCycles = cj.stats.execCycles +
        (if (Driver.access d.sys j e).2 = -1 then 0 else 1) ∧
      cj'.stats.idleCycles = cj.stats.idleCycles +
        (if (Driver.access d.sys j e).2 = -1 then 1 else 0) ∧
      cj'.stats.readCount = cj.stats.readCount +
        (if ((Driver.access d.sys j e).2 = 0 ∨ (Driver.access d.sys j e).2 = 1) ∧
            e.isWrite = false then 1 else 0) ∧
      cj'.stats.writeCount = cj.stats.writeCount +
        (if ((Driver.access d.sys j e).2 = 0 ∨ (Driver.access d.sys j e).2 = 1) ∧
            e.isWrite = true then 1 else 0) := by
  obtain ⟨hout, _, _⟩ := access_outcome hinv.sys hE j e cj hc
  rw [issue_access traces d f j e he]
  obtain ⟨c1, h1, q1, q2, q3, q4, q5, q6⟩ := hout.counts.2 j cj hc
  obtain ⟨c2, h2, _, p1, p2, p3, p4, p5, p6⟩ :=
    dispatch_own { d with sys := (Driver.access d.sys j e).1 } j e.isWrite
      (Driver.access d.sys j e).2 c1 h1 hout.code
  refine ⟨dispatch_bus _ _ _ _, ?_, ?_, c2, h2, ?_, ?_, ?_, ?_, ?_, ?_⟩
  · exact (dispatch_pointers_own _ j _ _ (by rw [hinv.nindex]; exact hj)
      (by rw [hinv.ntotal]; exact hj)).1
  · exact (dispatch_pointers_own _ j _ _ (by rw [hinv.nindex]; exact hj)
      (by rw [hinv.ntotal]; exact hj)).2
  · rw [p1, q5]; simp
  · rw [p2, q6]; simp
  · rw [p3, q3]
  · rw [p4, q4]
  · rw [p5, q1]
  · rw [p6, q2]


theorem afterCores_busy {s E b : Nat} (hE : 1 ≤ E) (traces : List (List TraceEntry))
    (d : Driver) (hinv : Driver.Inv s E b traces d) (j1 : Nat) :
    ∀ j2, j1 ≤ j2 → j2 ≤ numCores → (d.afterCores traces j1).sys.bus.isBusy = true →
      (d.afterCores traces j2).sys.bus = (d.afterCores traces j1).sys.bus := by
  intro j2
  induction j2 with
  | zero =>
    intro h1 _ _
    have : j1 = 0 := by omega
    subst this; rfl
  | succ j ih =>
    intro h1 h2 hb
    by_cases heq : j1 = j + 1
    · subst heq; rfl
    · have hprev := ih (by omega) (by omega) hb
      have hinvj := (afterCores_inv hE traces d hinv j (by omega)).1
      have hstep := (fold_inv hE traces [j] (fun c hc => by
        rw [List.mem_singleton] at hc; omega) (d.afterCores traces j) true hinvj).2.2
        (by rw [hprev]; exact hb)
      rw [afterCores_succ]
      exact hstep.trans hprev

theorem cycle_afterCores (traces : List (List TraceEntry)) (d : Driver) :
    (Driver.cycle traces d).1.sys.caches = (d.advance.afterCores traces numCores).sys.caches ∧
    (Driver.cycle traces d).1.sys.bus = (d.advance.afterCores traces numCores).sys.bus ∧
    (Driver.cycle traces d).1.currentInstructionIndex =
      (d.advance.afterCores traces numCores).currentInstructionIndex ∧
    (Driver.cycle traces d).1.totalInstructions =
      (d.advance.afterCores traces numCores).totalInstructions :=
  ⟨rfl, rfl, rfl, rfl⟩

theorem cycles_succ (traces : List (List TraceEntry)) :
    ∀ (n : Nat) (d : Driver),
      Driver.cycles traces (n + 1) d = (Driver.cycle traces (Driver.cycles traces n d)).1 := by
  intro n
  induction n with
  | zero => intro d; rfl
  | succ n ih =>
    intro d
    show Driver.cycles traces (n + 1) (Driver.cycle traces d).1 = _
    rw [ih]; rfl

theorem access_stall_other (sys : System) (k : Nat) (e : TraceEntry) (c : Cache)
    (hc : sys.caches[k]? = some c)
    (hmiss : ¬c.holds (c.getSetIndex e.address) (c.getTag e.address))
    (hb : sys.bus.isBusy = true) (ho : sys.bus.currentRequestingCore ≠ (k : Int)) :
    Driver.access sys k e = (sys, -1) := by
  have hf : findWay (c.getTag e.address) (c.setLines (c.getSetIndex e.address)) = none := by
    cases h : findWay (c.getTag e.address) (c.setLines (c.getSetIndex e.address)) with
    | none => rfl
    | some i => exact absurd ((holds_iff_findWay c _ _).mpr ⟨i, h⟩) hmiss
  have hself : ¬(sys.bus.isBusy = true ∧ sys.bus.currentRequestingCore = (k : Int)) :=
    fun h => ho h.2
  unfold Driver.access
  split_ifs
  · exact write_other sys k c _ _ hc hself hf hb
  · exact read_other sys k c _ _ hc hself hf hb

theorem access_miss_idle {s E b : Nat} {sys : System} (hinv : Inv s E b sys) (hE : 1 ≤ E)
    (k : Nat) (e : TraceEntry) (c : Cache) (hc : sys.caches[k]? = some c)
    (hmiss : ¬c.holds (c.getSetIndex e.address) (c.getTag e.address))
    (hb : sys.bus.isBusy = false) :
    (Driver.access sys k e).2 = 1 ∧ (Driver.access sys k e).1.bus.isBusy = true ∧
      (Driver.access sys k e).1.bus.currentRequestingCore = (k : Int) := by
  obtain ⟨hout, _, _⟩ := access_outcome hinv hE k e c hc
  rcases hout.idle hb with h | h
  · exact absurd (hout.hit h).1 hmiss
  · obtain ⟨_, _, m3, m4, _⟩ := hout.miss h
    exact ⟨h, m3, m4⟩

theorem holds_transfer {s E b : Nat} {c c' : Cache} (hw : c.WellFormed s E b)
    (hw' : c'.WellFormed s E b) (a : Nat)
    (hmono : ∀ si t, c'.holds si t → c.holds si t)
    (hmiss : ¬c.holds (c.getSetIndex a) (c.getTag a)) :
    ¬c'.holds (c'.getSetIndex a) (c'.getTag a) := by
  rw [(wellFormed_decode hw' a).1, (wellFormed_decode hw' a).2]
  rw [(wellFormed_decode hw a).1, (wellFormed_decode hw a).2] at hmiss
  exact fun h => hmiss (hmono _ _ h)


/-- C17. Bus contention is resolved by lowest core id.  Take a state `d` of
the cycle loop, its next iteration after the retirement step and
`updateBusState` (state `d.advance`), two cores `lo < hi` whose pending entries
both miss in their own caches, and assume that the bus is idle when `lo` has
its turn: it was idle after `updateBusState` and no core below `lo` has taken
it in this iteration.  Then the access of `lo` returns `MISS_ISSUED` (1), it is billed one
`execCycle` and counted as one read or write, and the trace pointer of `lo`
stays; the access of `hi` returns `BUS_BUSY_OTHER` (-1); and from the turn of
`hi` to the end of the iteration `idleCycles` of `hi` is one more than before
while its `execCycles`, `hitCount`, `missCount`, `readCount`, `writeCount`,
trace pointer and instruction count are unchanged, so `hi` issues the same
entry again in the next iteration. -/
theorem lowest_core_wins (s E b : Nat) (hsb : s + b ≤ 31) (hE : 1 ≤ E)
    (traces : List (List TraceEntry)) (n : Nat) (d : Driver)
    (hd : d = Driver.cycles traces n (Driver.init s E b))
    (lo hi : Nat) (hlh : lo < hi) (hhi : hi < numCores)
    (elo ehi : TraceEntry) (clo chi : Cache)
    (hplo : (traces.getD lo [])[d.advance.currentInstructionIndex.getD lo 0]? = some elo)
    (hphi : (traces.getD hi [])[d.advance.currentInstructionIndex.getD hi 0]? = some ehi)
    (hclo : d.advance.sys.caches[lo]? = some clo)
    (hchi : d.advance.sys.caches[hi]? = some chi)
    (hmlo : ¬clo.holds (clo.getSetIndex elo.address) (clo.getTag elo.address))
    (hmhi : ¬chi.holds (chi.getSetIndex ehi.address) (chi.getTag ehi.address))
    (hfree : (d.advance.afterCores traces lo).sys.bus.isBusy = false) :
    (Driver.access (d.advance.afterCores traces lo).sys lo elo).2 = 1 ∧
    (∃ x y, (d.advance.afterCores traces lo).sys.caches[lo]? = some x ∧
      (d.advance.afterCores traces (lo + 1)).sys.caches[lo]? = some y ∧
      y.stats.execCycles = x.stats.execCycles + 1 ∧
      y.stats.readCount = x.stats.readCount + (if elo.isWrite = false then 1 else 0) ∧
      y.stats.writeCount = x.stats.writeCount + (if elo.isWrite = true then 1 else 0) ∧
      (d.advance.afterCores traces (lo + 1)).currentInstructionIndex.getD lo 0 =
        d.advance.currentInstructionIndex.getD lo 0) ∧
    (Driver.access (d.advance.afterCores traces hi).sys hi ehi).2 = -1 ∧
    (∀ j, hi < j → j ≤ numCores →
      (d.advance.afterCores traces j).currentInstructionIndex.getD hi 0 =
        d.advance.currentInstructionIndex.getD hi 0 ∧
      (d.advance.afterCores traces j).totalInstructions.getD hi 0 =
        d.advance.totalInstructions.getD hi 0 ∧
      ∃ y, (d.advance.afterCores traces j).sys.caches[hi]? = some y ∧
        y.stats.idleCycles = chi.stats.idleCycles + 1 ∧
        y.stats.execCycles = chi.stats.execCycles ∧
        y.stats.hitCount = chi.stats.hitCount ∧ y.stats.missCount = chi.stats.missCount ∧
        y.stats.readCount = chi.stats.readCount ∧
        y.stats.writeCount = chi.stats.writeCount) ∧
    ((Driver.cycle traces d).1.currentInstructionIndex.getD hi 0 =
        d.advance.currentInstructionIndex.getD hi 0 ∧
      ∃ y, (Driver.cycle traces d).1.sys.caches[hi]? = some y ∧
        y.stats.idleCycles = chi.stats.idleCycles + 1) := by
  have hinvd : Driver.Inv s E b traces d :=
    hd ▸ driverInv_cycles hE traces n _ (driverInv_init s E b hsb traces)
  have hinv0 := driverInv_advance hinvd
  have hlo : lo < numCores := by omega
  -- the turn of `lo`
  have hinvX := (afterCores_inv hE traces d.advance hinv0 lo (by omega)).1
  obtain ⟨x1, _, x3⟩ := afterCores_frame hE traces d.advance hinv0 lo 0 lo (by omega)
    (by omega) (Or.inr (le_refl _))
  obtain ⟨cX, hcX, _, hmonoX⟩ := x3 clo hclo
  have hmX := holds_transfer (hinv0.sys.shape lo clo hclo) (hinvX.sys.shape lo cX hcX)
    elo.address hmonoX hmlo
  have heX : (traces.getD lo [])[(d.advance.afterCores traces lo).currentInstructionIndex.getD
      lo 0]? = some elo := by rw [x1]; exact hplo
  obtain ⟨a1, a2, a3⟩ := access_miss_idle hinvX.sys hE lo elo cX hcX hmX hfree
  obtain ⟨o1, o2, _, cY, hcY, _, _, o5, _, o7, o8⟩ :=
    issue_own hE traces (d.advance.afterCores traces lo) true lo hinvX hlo elo cX heX hcX
  rw [← afterCores_succ] at o1 o2 hcY
  have hbusyY : (d.advance.afterCores traces (lo + 1)).sys.bus.isBusy = true := by
    rw [o1]; exact a2
  -- the turn of `hi`
  have hinvZ := (afterCores_inv hE traces d.advance hinv0 hi (by omega)).1
  have hbusZ := afterCores_busy hE traces d.advance hinv0 (lo + 1) hi (by omega) (by omega) hbusyY
  obtain ⟨z1, z2, z3⟩ := afterCores_frame hE traces d.advance hinv0 hi 0 hi (by omega)
    (by omega) (Or.inr (le_refl _))
  obtain ⟨cZ, hcZ, hsameZ, hmonoZ⟩ := z3 chi hchi
  have hmZ := holds_transfer (hinv0.sys.shape hi chi hchi) (hinvZ.sys.shape hi cZ hcZ)
    ehi.address hmonoZ hmhi
  have heZ : (traces.getD hi [])[(d.advance.afterCores traces hi).currentInstructionIndex.getD
      hi 0]? = some ehi := by rw [z1]; exact hphi
  have hownZ : (d.advance.afterCores traces hi).sys.bus.currentRequestingCore ≠ (hi : Int) := by
    rw [hbusZ, o1, a3]
    intro e; have := Int.ofNat_inj.1 e; omega
  have hstall := access_stall_other (d.advance.afterCores traces hi).sys hi ehi cZ hcZ hmZ
    (by rw [hbusZ]; exact hbusyY) hownZ
  obtain ⟨_, w2, w3, cW, hcW, w4, w5, w6, w7, w8, w9⟩ :=
    issue_own hE traces (d.advance.afterCores traces hi) true hi hinvZ hhi ehi cZ heZ hcZ
  rw [← afterCores_succ] at w2 w3 hcW
  rw [hstall] at w2 w3 w4 w5 w6 w7 w8 w9
  simp only [Int.reduceNeg, neg_eq_zero, one_ne_zero, if_false, Nat.add_zero, if_true,
    false_or, false_and, reduceCtorEq] at w2 w3 w4 w5 w6 w7 w8 w9
  obtain ⟨s1, s2, s3, s4, s5, s6⟩ := hsameZ
  have hafter : ∀ j, hi < j → j ≤ numCores →
      (d.advance.afterCores traces j).currentInstructionIndex.getD hi 0 =
        d.advance.currentInstructionIndex.getD hi 0 ∧
      (d.advance.afterCores traces j).totalInstructions.getD hi 0 =
        d.advance.totalInstructions.getD hi 0 ∧
      ∃ y, (d.advance.afterCores traces j).sys.caches[hi]? = some y ∧
        y.stats.idleCycles = chi.stats.idleCycles + 1 ∧
        y.stats.execCycles = chi.stats.execCycles ∧
        y.stats.hitCount = chi.stats.hitCount ∧ y.stats.missCount = chi.stats.missCount ∧
        y.stats.readCount = chi.stats.readCount ∧
        y.stats.writeCount = chi.stats.writeCount := by
    intro j hj1 hj2
    obtain ⟨f1, f2, f3⟩ := afterCores_frame hE traces d.advance hinv0 hi (hi + 1) j (by omega)
      hj2 (Or.inl (by omega))
    obtain ⟨y, hy, ⟨t1, t2, t3, t4, t5, t6⟩, _⟩ := f3 cW hcW
    refine ⟨by rw [f1, w2, z1]; rfl, by rw [f2, w3, z2]; rfl, y, hy, ?_, ?_, ?_, ?_, ?_, ?_⟩
    · rw [t6, w7, s6]
    · rw [t5, w6, s5]
    · rw [t3, w4, s3]
    · rw [t4, w5, s4]
    · rw [t1, w8, s1]
    · rw [t2, w9, s2]
  refine ⟨a1, ⟨cX, cY, hcX, hcY, ?_, ?_, ?_, ?_⟩, ?_, hafter, ?_⟩
  · rw [o5, a1]; rfl
  · rw [o7, a1]; simp
  · rw [o8, a1]; simp
  · rw [o2, a1, x1]; rfl
  · rw [hstall]
  · obtain ⟨g1, _, y, hy, g3, _⟩ := hafter numCores hhi (le_refl _)
    obtain ⟨k1, _, k3, _⟩ := cycle_afterCores traces d
    exact ⟨by rw [k3]; exact g1, y, by rw [k1]; exact hy, g3⟩

set_option maxRecDepth 100000 in
theorem lowest_core_wins_witness :
    (Driver.access ((Driver.init 1 2 2).advance.afterCores
      [[⟨false, 0⟩], [⟨false, 8⟩], [], []] 1).sys 1 ⟨false, 8⟩).2 = -1 :=
  (lowest_core_wins 1 2 2 (by decide) (by decide) [[⟨false, 0⟩], [⟨false, 8⟩], [], []] 0
    (Driver.init 1 2 2) rfl 0 1 (by decide) (by decide)
    ⟨false, 0⟩ ⟨false, 8⟩ (Cache.mk0 1 2 2 0) (Cache.mk0 1 2 2 1)
    (by decide) (by decide) (by decide) (by decide)
    (by unfold Cache.holds; decide) (by unfold Cache.holds; decide) (by decide)).2.2.1


/-! ### A miss in flight -/

theorem access_self (sys : System) (k : Nat) (e : TraceEntry) (c : Cache)
    (hc : sys.caches[k]? = some c)
    (h : sys.bus.isBusy = true ∧ sys.bus.currentRequestingCore = (k : Int)) :
    Driver.access sys k e = (sys, 2) := by
  unfold Driver.access
  split_ifs
  · exact write_self sys k c _ _ hc h
  · exact read_self sys k c _ _ hc h

theorem advance_bus_wait {s E b : Nat} {traces : List (List TraceEntry)} {d : Driver}
    (hinv : Driver.Inv s E b traces d) (h2 : 2 ≤ d.sys.bus.remainingCycles) :
    d.advance.sys.bus = { d.sys.bus with remainingCycles := d.sys.bus.remainingCycles - 1 } ∧
    d.advance.sys.caches = d.sys.caches ∧
    d.advance.currentInstructionIndex = d.currentInstructionIndex ∧
    d.advance.totalInstructions = d.totalInstructions := by
  have hb := driverInv_busy hinv (by omega)
  have hret := retire_noop d (by omega)
  unfold Driver.advance
  rw [hret, updateBusState_many _ hb h2]
  exact ⟨rfl, rfl, rfl, rfl⟩

theorem retire_cycle {s E b : Nat} {traces : List (List TraceEntry)} {d : Driver}
    (hinv : Driver.Inv s E b traces d) (h1 : d.sys.bus.remainingCycles = 1) (o : Nat)
    (ho : o < numCores) (howner : d.sys.bus.currentRequestingCore = (o : Int)) (co : Cache)
    (hco : d.sys.caches[o]? = some co) :
    d.advance.currentInstructionIndex.getD o 0 = d.currentInstructionIndex.getD o 0 + 1 ∧
    d.advance.totalInstructions.getD o 0 = d.totalInstructions.getD o 0 + 1 ∧
    ∃ co', d.advance.sys.caches[o]? = some co' ∧
      co'.stats.execCycles = co.stats.execCycles + 1 ∧
      co'.stats.idleCycles = co.stats.idleCycles := by
  have hret := retire_owner d o h1 howner
  unfold Driver.advance
  rw [hret]
  refine ⟨modifyAt_getD_self _ _ (by rw [hinv.nindex]; exact ho),
    modifyAt_getD_self _ _ (by rw [hinv.ntotal]; exact ho), co.countExec, ?_, rfl, rfl⟩
  show (modifyAt d.sys.caches o Cache.countExec)[o]? = _
  rw [modifyAt_getElem?_self, hco]; rfl


theorem inFlight_rest {s E b : Nat} (hE : 1 ≤ E) (traces : List (List TraceEntry))
    (d0 : Driver) (hinv0 : Driver.Inv s E b traces d0) (c : Nat)
    (m : Int) (ix tt ex il : Nat)
    (h : (d0.afterCores traces (c + 1)).InFlight c m ix tt ex il) :
    ∀ j, c < j → j ≤ numCores → (d0.afterCores traces j).InFlight c m ix tt ex il := by
  intro j hj1 hj2
  have hbus := afterCores_busy hE traces d0 hinv0 (c + 1) j (by omega) hj2 h.busy
  obtain ⟨f1, f2, f3⟩ := afterCores_frame hE traces d0 hinv0 c (c + 1) j (by omega) hj2
    (Or.inl (by omega))
  obtain ⟨y, hy, e1, e2⟩ := h.billed
  obtain ⟨y', hy', ⟨_, _, _, _, t5, t6⟩, _⟩ := f3 y hy
  exact ⟨by rw [hbus]; exact h.rem, by rw [hbus]; exact h.busy, by rw [hbus]; exact h.owner,
    by rw [f1]; exact h.pointer, by rw [f2]; exact h.retired,
    y', hy', by rw [t5]; exact e1, by rw [t6]; exact e2⟩

theorem inFlight_cycle (traces : List (List TraceEntry)) (d : Driver) (c : Nat) (m : Int)
    (ix tt ex il : Nat) (h : (d.advance.afterCores traces numCores).InFlight c m ix tt ex il) :
    (Driver.cycle traces d).1.InFlight c m ix tt ex il := by
  obtain ⟨k1, k2, k3, k4⟩ := cycle_afterCores traces d
  obtain ⟨y, hy, e1, e2⟩ := h.billed
  exact ⟨by rw [k2]; exact h.rem, by rw [k2]; exact h.busy, by rw [k2]; exact h.owner,
    by rw [k3]; exact h.pointer, by rw [k4]; exact h.retired, y, by rw [k1]; exact hy, e1, e2⟩

theorem wait_cycle {s E b : Nat} (hE : 1 ≤ E) (traces : List (List TraceEntry)) (d : Driver)
    (hinv : Driver.Inv s E b traces d) (c : Nat) (hc : c < numCores) (m : Int)
    (ix tt ex il : Nat) (h : d.InFlight c m ix tt ex il) (h2 : 2 ≤ m) :
    (Driver.cycle traces d).1.InFlight c (m - 1) ix tt (ex + 1) il ∧
    (∀ j, j ≤ numCores →
      (d.advance.afterCores traces j).sys.bus.remainingCycles = m - 1) ∧
    (∀ e, (traces.getD c [])[ix]? = some e →
      (Driver.access (d.advance.afterCores traces c).sys c e).2 = 2) := by
  have hrem := h.rem
  obtain ⟨b1, b2, b3, b4⟩ := advance_bus_wait hinv (by rw [hrem]; exact h2)
  have hinv0 := driverInv_advance hinv
  have hbusy0 : d.advance.sys.bus.isBusy = true := by rw [b1]; exact h.busy
  have hbusAll : ∀ j, j ≤ numCores →
      (d.advance.afterCores traces j).sys.bus = d.advance.sys.bus :=
    fun j hj => (afterCores_inv hE traces d.advance hinv0 j hj).2 hbusy0
  obtain ⟨o, _, howner, hpend⟩ := hinv.owner (by rw [hrem]; omega)
  have hoc : o = c := by
    rw [h.owner] at howner
    exact (Int.ofNat_inj.1 howner).symm
  subst hoc
  have he := List.getElem?_eq_getElem hpend
  obtain ⟨y, hy, e1, e2⟩ := h.billed
  -- the turn of the owner
  have hinvX := (afterCores_inv hE traces d.advance hinv0 o (by omega)).1
  obtain ⟨x1, x2, x3⟩ := afterCores_frame hE traces d.advance hinv0 o 0 o (by omega)
    (by omega) (Or.inr (le_refl _))
  obtain ⟨cX, hcX, ⟨_, _, _, _, s5, s6⟩, _⟩ := x3 y (by rw [afterCores_zero, b2]; exact hy)
  have hx1 : (d.advance.afterCores traces o).currentInstructionIndex.getD o 0 =
      d.currentInstructionIndex.getD o 0 := by rw [x1, afterCores_zero, b3]
  have hx2 : (d.advance.afterCores traces o).totalInstructions.getD o 0 =
      d.totalInstructions.getD o 0 := by rw [x2, afterCores_zero, b4]
  have hself : (d.advance.afterCores traces o).sys.bus.isBusy = true ∧
      (d.advance.afterCores traces o).sys.bus.currentRequestingCore = (o : Int) := by
    rw [hbusAll o (by omega), b1]; exact ⟨h.busy, h.owner⟩
  have hacc : ∀ e, Driver.access (d.advance.afterCores traces o).sys o e =
      ((d.advance.afterCores traces o).sys, 2) :=
    fun e => access_self _ o e cX hcX hself
  have heX : (traces.getD o [])[(d.advance.afterCores traces o).currentInstructionIndex.getD
      o 0]? = some ((traces.getD o [])[d.currentInstructionIndex.getD o 0]) := by
    rw [hx1]; exact he
  obtain ⟨w1, w2, w3, cW, hcW, _, _, w6, w7, _, _⟩ :=
    issue_own hE traces (d.advance.afterCores traces o) true o hinvX hc _ cX heX hcX
  rw [← afterCores_succ] at w1 w2 w3 hcW
  rw [hacc] at w1 w2 w3 w6 w7
  simp only [OfNat.ofNat_ne_zero, if_false, Nat.add_zero, reduceCtorEq, if_true] at w2 w3 w6 w7
  have hW : (d.advance.afterCores traces (o + 1)).InFlight o (m - 1) ix tt (ex + 1) il := by
    refine ⟨?_, ?_, ?_, ?_, ?_, cW, hcW, ?_, ?_⟩
    · rw [w1, hbusAll o (by omega), b1]; show d.sys.bus.remainingCycles - 1 = m - 1; rw [hrem]
    · rw [w1]; exact hself.1
    · rw [w1]; exact hself.2
    · rw [w2, hx1]; exact h.pointer
    · rw [w3, hx2]; exact h.retired
    · have : cW.stats.execCycles = cX.stats.execCycles + 1 := by
        rw [w6]
      rw [this, s5, e1]
    · have : cW.stats.idleCycles = cX.stats.idleCycles := by
        rw [w7]
      rw [this, s6, e2]
  refine ⟨inFlight_cycle traces d o _ _ _ _ _
    (inFlight_rest hE traces d.advance hinv0 o _ _ _ _ _ hW numCores hc (le_refl _)), ?_, ?_⟩
  · intro j hj
    rw [hbusAll j hj, b1]
    show d.sys.bus.remainingCycles - 1 = m - 1
    rw [hrem]
  · intro e _
    rw [hacc]


theorem issue_inFlight {s E b : Nat} (hE : 1 ≤ E) (traces : List (List TraceEntry))
    (d0 : Driver) (hinv0 : Driver.Inv s E b traces d0) (c : Nat) (hc : c < numCores)
    (e : TraceEntry) (cx : Cache) (m : Int)
    (he : (traces.getD c [])[(d0.afterCores traces c).currentInstructionIndex.getD c 0]?
      = some e)
    (hcx : (d0.afterCores traces c).sys.caches[c]? = some cx)
    (hcode : (Driver.access (d0.afterCores traces c).sys c e).2 = 1)
    (hrem : (Driver.access (d0.afterCores traces c).sys c e).1.bus.remainingCycles = m) :
    (d0.afterCores traces (c + 1)).InFlight c m
      ((d0.afterCores traces c).currentInstructionIndex.getD c 0)
      ((d0.afterCores traces c).totalInstructions.getD c 0)
      (cx.stats.execCycles + 1) cx.stats.idleCycles := by
  have hinvX := (afterCores_inv hE traces d0 hinv0 c (by omega)).1
  obtain ⟨hout, _, _⟩ := access_outcome hinvX.sys hE c e cx hcx
  obtain ⟨_, _, m3, m4, _⟩ := hout.miss hcode
  obtain ⟨w1, w2, w3, cW, hcW, _, _, w6, w7, _, _⟩ :=
    issue_own hE traces (d0.afterCores traces c) true c hinvX hc e cx he hcx
  rw [← afterCores_succ] at w1 w2 w3 hcW
  rw [hcode] at w2 w3 w6 w7
  simp only [one_ne_zero, if_false, Nat.add_zero, reduceCtorEq] at w2 w3 w6 w7
  refine ⟨by rw [w1]; exact hrem, by rw [w1]; exact m3, by rw [w1]; exact m4, w2, w3,
    cW, hcW, ?_, ?_⟩
  · rw [w6]
  · rw [w7]

set_option maxRecDepth 1000000 in
/-- C18. Miss service and retirement timing.  In iteration `t` of the cycle
loop let core `c` have its turn in state `x`, with pending entry `e`, and let
its access return `MISS_ISSUED` (1) and leave `remainingCycles = n ≥ 1`.  Then
at the end of each of the iterations `t, t+1, .., t+n-1` (index `i < n`) the
bus is still busy for `c` with `n - i` cycles remaining, the trace pointer and
instruction count of `c` are those of `x`, its `idleCycles` are unchanged and
its `execCycles` are those before the access plus `1 + i`; in each iteration
`t+i` with `1 ≤ i < n` the access of `c` returns `BUS_BUSY_SELF` (2) and
`remainingCycles` is `n - i` at every turn of that iteration (no core changes
it); iteration `t+n` starts with `remainingCycles = 1` and its retirement
step advances the trace pointer and the instruction count of `c` by one and
bills the last cycle, `n + 1` `execCycles` in all.  A cold read miss served by
memory costs 101 `execCycles`. -/
theorem miss_service_timing (s E b : Nat) (hsb : s + b ≤ 31) (hE : 1 ≤ E)
    (traces : List (List TraceEntry)) (t c : Nat) (hc : c < numCores) (x : Driver)
    (hx : x = (Driver.cycles traces t (Driver.init s E b)).advance.afterCores traces c)
    (e : TraceEntry) (cx : Cache) (n : Nat) (hn : 1 ≤ n)
    (he : (traces.getD c [])[x.currentInstructionIndex.getD c 0]? = some e)
    (hcx : x.sys.caches[c]? = some cx)
    (hcode : (Driver.access x.sys c e).2 = 1)
    (hrem : (Driver.access x.sys c e).1.bus.remainingCycles = (n : Int)) :
    (∀ i, i < n →
      (Driver.cycles traces (t + 1 + i) (Driver.init s E b)).InFlight c ((n : Int) - (i : Int))
        (x.currentInstructionIndex.getD c 0) (x.totalInstructions.getD c 0)
        (cx.stats.execCycles + 1 + i) cx.stats.idleCycles) ∧
    (∀ i, 1 ≤ i → i < n →
      (Driver.access ((Driver.cycles traces (t + i) (Driver.init s E b)).advance.afterCores
        traces c).sys c e).2 = 2 ∧
      ∀ j, j ≤ numCores →
        ((Driver.cycles traces (t + i) (Driver.init s E b)).advance.afterCores
          traces j).sys.bus.remainingCycles = (n : Int) - (i : Int)) ∧
    ((Driver.cycles traces (t + n) (Driver.init s E b)).sys.bus.remainingCycles = 1 ∧
      (Driver.cycles traces (t + n) (Driver.init s E b)).advance.currentInstructionIndex.getD c 0
        = x.currentInstructionIndex.getD c 0 + 1 ∧
      (Driver.cycles traces (t + n) (Driver.init s E b)).advance.totalInstructions.getD c 0
        = x.totalInstructions.getD c 0 + 1 ∧
      ∃ y, (Driver.cycles traces (t + n) (Driver.init s E b)).advance.sys.caches[c]? = some y ∧
        y.stats.execCycles = cx.stats.execCycles + (n + 1) ∧
        y.stats.idleCycles = cx.stats.idleCycles) ∧
    (Driver.run [[⟨false, 0⟩], [], [], []] 200 (Driver.init 1 2 2)).map
      (fun d => (d.totalInstructions, d.sys.caches.map (fun k => k.stats.execCycles))) =
      some ([1, 0, 0, 0], [101, 0, 0, 0]) := by
  have hinvAll : ∀ k, Driver.Inv s E b traces (Driver.cycles traces k (Driver.init s E b)) :=
    fun k => driverInv_cycles hE traces k _ (driverInv_init s E b hsb traces)
  have hflight : ∀ i, i < n →
      (Driver.cycles traces (t + 1 + i) (Driver.init s E b)).InFlight c ((n : Int) - (i : Int))
        (x.currentInstructionIndex.getD c 0) (x.totalInstructions.getD c 0)
        (cx.stats.execCycles + 1 + i) cx.stats.idleCycles := by
    intro i
    induction i with
    | zero =>
      intro _
      have hinv0 := driverInv_advance (hinvAll t)
      have h1 := issue_inFlight hE traces _ hinv0 c hc e cx (n : Int) (hx ▸ he) (hx ▸ hcx)
        (hx ▸ hcode) (hx ▸ hrem)
      have h2 := inFlight_cycle traces _ c _ _ _ _ _
        (inFlight_rest hE traces _ hinv0 c _ _ _ _ _ h1 numCores hc (le_refl _))
      rw [← cycles_succ] at h2
      rw [hx]
      simpa using h2
    | succ i ih =>
      intro hi
      have hprev := ih (by omega)
      have h1 := (wait_cycle hE traces _ (hinvAll (t + 1 + i)) c hc _ _ _ _ _ hprev
        (by omega)).1
      rw [← cycles_succ] at h1
      have e1 : (n : Int) - ((i + 1 : Nat) : Int) = (n : Int) - (i : Int) - 1 := by
        push_cast; ring
      rw [e1]
      exact h1
  refine ⟨hflight, ?_, ?_, by decide⟩
  · intro i hi1 hi2
    obtain ⟨i', rfl⟩ : ∃ i', i = i' + 1 := ⟨i - 1, by omega⟩
    have hprev := hflight i' (by omega)
    have hw := wait_cycle hE traces _ (hinvAll (t + 1 + i')) c hc _ _ _ _ _ hprev (by omega)
    have e0 : t + (i' + 1) = t + 1 + i' := by omega
    have e1 : (n : Int) - ((i' + 1 : Nat) : Int) = (n : Int) - (i' : Int) - 1 := by
      push_cast; ring
    rw [e0, e1]
    exact ⟨hw.2.2 e he, hw.2.1⟩
  · obtain ⟨n', rfl⟩ : ∃ n', n = n' + 1 := ⟨n - 1, by omega⟩
    have hlast := hflight n' (by omega)
    have e0 : t + (n' + 1) = t + 1 + n' := by omega
    rw [e0]
    have hrem1 : (Driver.cycles traces (t + 1 + n') (Driver.init s E b)).sys.bus.remainingCycles
        = 1 := by
      rw [hlast.rem]; push_cast; ring
    obtain ⟨y, hy, y1, y2⟩ := hlast.billed
    obtain ⟨r1, r2, y', hy', r3, r4⟩ := retire_cycle (hinvAll (t + 1 + n')) hrem1 c hc
      hlast.owner y hy
    refine ⟨hrem1, by rw [r1, hlast.pointer], by rw [r2, hlast.retired], y', hy', ?_, ?_⟩
    · rw [r3, y1]; omega
    · rw [r4, y2]

set_option maxRecDepth 100000 in
theorem miss_service_timing_witness :
    (Driver.cycles [[⟨false, 0⟩], [], [], []] (0 + 100)
      (Driver.init 1 2 2)).sys.bus.remainingCycles = 1 :=
  (miss_service_timing 1 2 2 (by decide) (by decide) [[⟨false, 0⟩], [], [], []] 0 0
    (by decide) _ rfl ⟨false, 0⟩ (Cache.mk0 1 2 2 0) 100 (by decide) (by decide) (by decide)
    (by decide) (by decide)).2.2.1.1


/-! ### The transaction counters of the bus -/

theorem sameCounts_refl (s : BusStats) : s.sameCounts s := ⟨rfl, rfl, rfl, rfl⟩

theorem sameCounts_trans {a b c : BusStats} (h1 : a.sameCounts b) (h2 : b.sameCounts c) :
    a.sameCounts c :=
  ⟨h2.1.trans h1.1, h2.2.1.trans h1.2.1, h2.2.2.1.trans h1.2.2.1, h2.2.2.2.trans h1.2.2.2⟩

theorem sameCounts_balanced {a b : BusStats} (h : a.sameCounts b) (hb : a.Balanced) :
    b.Balanced := by
  unfold BusStats.Balanced at hb ⊢
  rw [h.1, h.2.1, h.2.2.1, h.2.2.2]; exact hb

theorem addRemainingCycles_counts (bus : Bus) (cycles coreId : Int) :
    bus.stats.sameCounts (bus.addRemainingCycles cycles coreId).stats := by
  unfold Bus.addRemainingCycles
  split_ifs <;> exact sameCounts_refl _

theorem updateBusState_counts (bus : Bus) : bus.stats.sameCounts bus.updateBusState.stats := by
  unfold Bus.updateBusState
  split_ifs <;> exact sameCounts_refl _

theorem addTraffic_counts (bus : Bus) (bytes : Nat) :
    bus.stats.sameCounts (bus.addTraffic bytes).stats := ⟨rfl, rfl, rfl, rfl⟩

theorem writeBack_counts (c : Cache) (bus : Bus) (si li : Nat) :
    bus.stats.sameCounts (c.writeBackToMemory bus si li).2.stats :=
  sameCounts_trans (addTraffic_counts bus c.blockSize) (addRemainingCycles_counts _ _ _)

theorem addRemainingCycles_stats (bus : Bus) (cycles coreId : Int) :
    (bus.addRemainingCycles cycles coreId).stats = bus.stats := by
  unfold Bus.addRemainingCycles
  split_ifs <;> rfl

theorem snoopWrite_counts (c : Cache) (bus : Bus) (si i : Nat) :
    bus.stats.sameCounts (c.snoopWrite bus si i).2.stats := by
  unfold Cache.snoopWrite
  by_cases hm : (c.line si i).state = CacheState.MODIFIED
  · simp only [hm, if_true]
    exact writeBack_counts _ _ _ _
  · simp only [hm, if_false]
    exact sameCounts_refl _

theorem snoopRead_counts (c : Cache) (bus : Bus) (si i : Nat) (dr : Bool) :
    bus.stats.sameCounts (c.snoopRead bus si i dr).2.stats := by
  unfold Cache.snoopRead
  by_cases hm : (c.line si i).state = CacheState.MODIFIED
  · cases dr
    · simp only [hm, or_true, if_true, Bool.false_eq_true, if_false]
      exact writeBack_counts _ _ _ _
    · simp only [hm, or_true, if_true]
      rw [addRemainingCycles_stats]
      exact writeBack_counts _ _ _ _
  · by_cases he : (c.line si i).state = CacheState.EXCLUSIVE
    · cases dr
      · simp only [hm, he, true_or, if_true, Bool.false_eq_true, if_false]
        exact sameCounts_refl _
      · simp only [he, true_or, if_true]
        rw [addRemainingCycles_stats]
        simp only [reduceCtorEq, if_false]
        exact sameCounts_refl _
    · cases dr
      · simp only [hm, he, or_self, if_false, Bool.false_eq_true]
        exact sameCounts_refl _
      · simp only [hm, he, or_self, if_false, if_true]
        rw [addRemainingCycles_stats]
        exact sameCounts_refl _

theorem pbt_counts (c : Cache) (bus : Bus) (a : Nat) (w : Bool) (req : Int) (dr : Bool) :
    bus.stats.sameCounts (c.processBusTransaction bus a w req dr).2.1.stats := by
  unfold Cache.processBusTransaction
  split
  · exact sameCounts_refl _
  · split
    · exact sameCounts_refl _
    · split
      · exact snoopWrite_counts _ _ _ _
      · exact snoopRead_counts _ _ _ _ _

theorem snoopLoop_counts (a : Nat) (w : Bool) (req : Int) (cs : List Cache) :
    ∀ (i : Nat) (bus : Bus) (dfo dr : Bool),
      bus.stats.sameCounts (snoopLoop a w req i cs bus dfo dr).2.1.stats := by
  induction cs with
  | nil => intro i bus dfo dr; exact sameCounts_refl _
  | cons c rest ih =>
    intro i bus dfo dr
    unfold snoopLoop
    by_cases hi : (i : Int) ≠ req
    · rw [if_pos hi]
      exact sameCounts_trans (pbt_counts c bus a w req _) (ih _ _ _ _)
    · rw [if_neg hi]
      exact ih _ _ _ _

theorem count_balanced (s : BusStats) (ty : BusTransactionType) (h : s.Balanced) :
    (s.count ty).Balanced := by
  unfold BusStats.Balanced at h ⊢
  cases ty <;> simp only [BusStats.count] <;> omega

theorem broadcast_balanced (caches : List Cache) (bus : Bus) (ty : BusTransactionType)
    (a : Nat) (req : Int) (h : bus.stats.Balanced) :
    (Bus.broadcastTransaction caches bus ty a req).2.1.stats.Balanced := by
  unfold Bus.broadcastTransaction
  split_ifs
  · exact h
  · unfold Bus.processTransaction
    exact sameCounts_balanced (snoopLoop_counts a ty.isWrite req caches 0 _ false true)
      (count_balanced _ ty h)

theorem busRun_balanced (ops : List BusOp) :
    ∀ (st : List Cache × Bus), st.2.stats.Balanced → (busRun st ops).2.stats.Balanced := by
  induction ops with
  | nil => intro st h; exact h
  | cons op rest ih =>
    intro st h
    show (busRun (BusOp.step st op) rest).2.stats.Balanced
    apply ih
    cases op with
    | broadcast ty a req => exact broadcast_balanced st.1 st.2 ty a req h
    | addCycles cy id => exact sameCounts_balanced (addRemainingCycles_counts st.2 cy id) h
    | tick => exact sameCounts_balanced (updateBusState_counts st.2) h

/-- C21. From any bus whose statistics have just been reset (in particular
the freshly constructed bus), with any list of registered caches, after any
sequence of `broadcastTransaction`, `addRemainingCycles` and `updateBusState`
calls with arbitrary arguments (rejected broadcasts included),
`totalTransactions = busRdTransactions + busRdXTransactions +
busUpgrTransactions`. -/
theorem bus_transactions_add_up (caches : List Cache) (bus : Bus) (ops : List BusOp) :
    (busRun (caches, bus.resetStats) ops).2.stats.totalTransactions =
      (busRun (caches, bus.resetStats) ops).2.stats.busRdTransactions +
      (busRun (caches, bus.resetStats) ops).2.stats.busRdXTransactions +
      (busRun (caches, bus.resetStats) ops).2.stats.busUpgrTransactions ∧
    (busRun (caches, Bus.init) ops).2.stats.totalTransactions =
      (busRun (caches, Bus.init) ops).2.stats.busRdTransactions +
      (busRun (caches, Bus.init) ops).2.stats.busRdXTransactions +
      (busRun (caches, Bus.init) ops).2.stats.busUpgrTransactions :=
  ⟨busRun_balanced ops (caches, bus.resetStats) rfl, busRun_balanced ops (caches, Bus.init) rfl⟩


/-! ### The idle bus -/

theorem read_bus_cases {s E b : Nat} {sys : System} (hinv : Inv s E b sys) (k a : Nat) :
    (Cache.read sys k a (k : Int)).1.bus = sys.bus ∨
      (sys.bus.isBusy = false ∧ k < sys.caches.length ∧
        (Cache.read sys k a (k : Int)).1.bus.isBusy = true ∧
        (Cache.read sys k a (k : Int)).1.bus.currentRequestingCore = (k : Int)) := by
  cases hc : sys.caches[k]? with
  | none => rw [read_none sys k a _ hc]; exact Or.inl rfl
  | some c =>
    by_cases hself : sys.bus.isBusy = true ∧ sys.bus.currentRequestingCore = (k : Int)
    · rw [read_self sys k c a _ hc hself]; exact Or.inl rfl
    · cases hf : findWay (c.getTag a) (c.setLines (c.getSetIndex a)) with
      | some i => rw [read_hit sys k c a _ i hc hself hf]; exact Or.inl rfl
      | none =>
        by_cases hb : sys.bus.isBusy = true
        · rw [read_other sys k c a _ hc hself hf hb]; exact Or.inl rfl
        · have hb' : sys.bus.isBusy = false := by simpa using hb
          rw [read_miss sys k c a _ hc hf hb']
          have hbus := readMiss_bus sys k c a hinv hc hb'
          right
          refine ⟨hb', lt_of_getElem? hc, ?_, ?_⟩
          · show (Cache.readMiss sys k c a (k : Int)).bus.isBusy = true
            rw [hbus]; rfl
          · show (Cache.readMiss sys k c a (k : Int)).bus.currentRequestingCore = _
            rw [hbus]; rfl

theorem write_bus_cases {s E b : Nat} {sys : System} (hinv : Inv s E b sys) (k a : Nat) :
    (Cache.write sys k a (k : Int)).1.bus = sys.bus ∨
      (sys.bus.isBusy = false ∧ k < sys.caches.length ∧
        (Cache.write sys k a (k : Int)).1.bus.isBusy = true ∧
        (Cache.write sys k a (k : Int)).1.bus.currentRequestingCore = (k : Int)) := by
  cases hc : sys.caches[k]? with
  | none => rw [write_none sys k a _ hc]; exact Or.inl rfl
  | some c =>
    by_cases hself : sys.bus.isBusy = true ∧ sys.bus.currentRequestingCore = (k : Int)
    · rw [write_self sys k c a _ hc hself]; exact Or.inl rfl
    · cases hf : findWay (c.getTag a) (c.setLines (c.getSetIndex a)) with
      | some i =>
        rw [write_hit sys k c a _ i hc hself hf]
        by_cases hm : (c.line (c.getSetIndex a) i).state = CacheState.MODIFIED
        · rw [writeHit_modified sys k c a _ i hm]; exact Or.inl rfl
        · by_cases hb : sys.bus.isBusy = true
          · rw [writeHit_busy sys k c a _ i hm hb]; exact Or.inl rfl
          · have hb' : sys.bus.isBusy = false := by simpa using hb
            have hbus := upgrade_bus sys k c a i hinv hc hm hb'
            right
            refine ⟨hb', lt_of_getElem? hc, ?_, ?_⟩
            · rw [hbus]; rfl
            · rw [hbus]; rfl
      | none =>
        by_cases hb : sys.bus.isBusy = true
        · rw [write_other sys k c a _ hc hself hf hb]; exact Or.inl rfl
        · have hb' : sys.bus.isBusy = false := by simpa using hb
          rw [write_miss sys k c a _ hc hf hb']
          have hbus := writeMiss_bus sys k c a hinv hc hb'
          right
          refine ⟨hb', lt_of_getElem? hc, ?_, ?_⟩
          · show (Cache.writeMiss sys k c a (k : Int)).bus.isBusy = true
            rw [hbus]; rfl
          · show (Cache.writeMiss sys k c a (k : Int)).bus.currentRequestingCore = _
            rw [hbus]; rfl


theorem quiescent_bus {n : Nat} {sys sys' : System} (h : Quiescent n sys)
    (hlen : sys'.caches.length = sys.caches.length) (k : Nat)
    (hbus : sys'.bus = sys.bus ∨ (sys.bus.isBusy = false ∧ k < sys.caches.length ∧
      sys'.bus.isBusy = true ∧ sys'.bus.currentRequestingCore = (k : Int))) :
    Quiescent n sys' := by
  rcases hbus with e | ⟨_, hk, hb, ho⟩
  · exact ⟨hlen.trans h.size, by rw [e]; exact h.idle, by rw [e]; exact h.owner⟩
  · refine ⟨hlen.trans h.size, ?_, ?_⟩
    · intro hi; rw [hb] at hi; cases hi
    · intro _; exact ⟨k, by rw [← h.size]; exact hk, ho⟩

theorem quiescent_tick {n : Nat} {sys : System} (h : Quiescent n sys) :
    Quiescent n { sys with bus := sys.bus.updateBusState } := by
  refine ⟨h.size, ?_, ?_⟩
  · show sys.bus.updateBusState.isBusy = false → _
    by_cases hb : sys.bus.isBusy = true
    · by_cases hle : sys.bus.remainingCycles - 1 ≤ 0
      · intro _
        unfold Bus.updateBusState
        rw [if_pos hb, if_pos hle]
        exact ⟨rfl, hle⟩
      · intro hi
        unfold Bus.updateBusState at hi
        rw [if_pos hb, if_neg hle] at hi
        exact absurd (hb.symm.trans hi) (by decide)
    · intro _
      unfold Bus.updateBusState
      rw [if_neg hb]
      exact h.idle (by simpa using hb)
  · show sys.bus.updateBusState.isBusy = true → _
    by_cases hb : sys.bus.isBusy = true
    · by_cases hle : sys.bus.remainingCycles - 1 ≤ 0
      · intro hi
        unfold Bus.updateBusState at hi
        rw [if_pos hb, if_pos hle] at hi
        cases hi
      · intro _
        unfold Bus.updateBusState
        rw [if_pos hb, if_neg hle]
        exact h.owner hb
    · intro hi
      unfold Bus.updateBusState at hi
      rw [if_neg hb] at hi
      exact absurd hi hb

theorem quiescent_step {n s E b : Nat} {sys : System} (hinv : Inv s E b sys)
    (h : Quiescent n sys) (op : Op) : Quiescent n (sys.step op) := by
  cases op with
  | read k a => exact quiescent_bus h (peers_read hinv k a).1 k (read_bus_cases hinv k a)
  | write k a => exact quiescent_bus h (peers_write hinv k a).1 k (write_bus_cases hinv k a)
  | tick => exact quiescent_tick h
  | nextCycle => exact ⟨h.size, h.idle, h.owner⟩

theorem quiescent_run {n s E b : Nat} (ops : List Op) :
    ∀ {sys : System}, Inv s E b sys → Quiescent n sys → Quiescent n (sys.run ops) := by
  induction ops with
  | nil => intro sys _ h; exact h
  | cons op rest ih =>
    intro sys hinv h
    exact ih (inv_step hinv op) (quiescent_step hinv h op)

theorem quiescent_init (n s E b : Nat) : Quiescent n (System.init n s E b) := by
  refine ⟨by simp [System.init], ?_, ?_⟩
  · intro _; exact ⟨rfl, le_refl _⟩
  · intro h; cases h

/-- C22. An idle bus is quiescent.  In every state reachable from the initial
state of `n` caches by reads and writes (each with `coreId` the cache's own
id), bus ticks and global-cycle increments: when `isBusy` is false the owner
is `-1` and `remainingCycles ≤ 0`; equivalently, `remainingCycles > 0` implies
that the bus is busy; and a busy bus is owned by a core id below `n`. -/
theorem idle_bus_quiescent (n s E b : Nat) (hsb : s + b ≤ 31) (ops : List Op) :
    (((System.init n s E b).run ops).bus.isBusy = false →
      ((System.init n s E b).run ops).bus.currentRequestingCore = -1 ∧
      ((System.init n s E b).run ops).bus.remainingCycles ≤ 0) ∧
    (0 < ((System.init n s E b).run ops).bus.remainingCycles →
      ((System.init n s E b).run ops).bus.isBusy = true ∧
      ∃ o : Nat, o < n ∧ ((System.init n s E b).run ops).bus.currentRequestingCore = (o : Int)) ∧
    (((System.init n s E b).run ops).bus.isBusy = true →
      ∃ o : Nat, o < n ∧
        ((System.init n s E b).run ops).bus.currentRequestingCore = (o : Int)) := by
  have h := quiescent_run ops (inv_init n s E b hsb) (quiescent_init n s E b)
  refine ⟨h.idle, ?_, h.owner⟩
  intro hpos
  cases hb : ((System.init n s E b).run ops).bus.isBusy with
  | false => have := (h.idle hb).2; omega
  | true => exact ⟨rfl, h.owner hb⟩

set_option maxRecDepth 100000 in
theorem idle_bus_quiescent_witness :
    ((System.init 2 1 2 2).run ([Op.read 0 0] ++ List.replicate 100 Op.tick)).bus.currentRequestingCore
        = -1 ∧
    ((System.init 2 1 2 2).run ([Op.read 0 0] ++ List.replicate 100 Op.tick)).bus.remainingCycles
        ≤ 0 :=
  (idle_bus_quiescent 2 1 2 2 (by decide) ([Op.read 0 0] ++ List.replicate 100 Op.tick)).1
    (by decide)


theorem findLRULineFrom_valid (ls : List CacheLine) :
    ∀ (pre : List CacheLine) (m lru : Nat),
      (∀ l ∈ ls, l.state ≠ CacheState.INVALID) →
      (∀ l ∈ pre, m ≤ l.lastAccessTime) →
      (∀ (j : Nat) (l : CacheLine), j < lru → pre[j]? = some l → m < l.lastAccessTime) →
      ((∃ l, pre[lru]? = some l ∧ l.lastAccessTime = m) ∨ (m = UINT64_MAX ∧ lru = 0)) →
      ∃ m2, (∀ l ∈ pre ++ ls, m2 ≤ l.lastAccessTime) ∧
        (∀ (j : Nat) (l : CacheLine), j < findLRULineFrom ls pre.length m lru →
          (pre ++ ls)[j]? = some l → m2 < l.lastAccessTime) ∧
        ((∃ l, (pre ++ ls)[findLRULineFrom ls pre.length m lru]? = some l ∧
            l.lastAccessTime = m2) ∨
          (m2 = UINT64_MAX ∧ findLRULineFrom ls pre.length m lru = 0)) := by
  induction ls with
  | nil =>
    intro pre m lru _ h1 h2 h3
    refine ⟨m, ?_, ?_, ?_⟩
    · simpa using h1
    · simpa [findLRULineFrom] using h2
    · simpa [findLRULineFrom] using h3
  | cons x xs ih =>
    intro pre m lru hv h1 h2 h3
    have hx : x.state ≠ CacheState.INVALID := hv x (List.mem_cons_self _ _)
    have hxs : ∀ l ∈ xs, l.state ≠ CacheState.INVALID :=
      fun l hl => hv l (List.mem_cons_of_mem _ hl)
    have hlen : (pre ++ [x]).length = pre.length + 1 := by simp
    have happ : pre ++ x :: xs = (pre ++ [x]) ++ xs := by simp
    have hlru : lru < pre.length ∨ lru = 0 := by
      rcases h3 with ⟨l, hl, _⟩ | ⟨_, h0⟩
      · left
        by_contra hge
        rw [List.getElem?_eq_none (by omega)] at hl
        cases hl
      · right; exact h0
    unfold findLRULineFrom
    rw [if_neg hx]
    by_cases hlt : x.lastAccessTime < m
    · rw [if_pos hlt, happ, ← hlen]
      refine ih (pre ++ [x]) x.lastAccessTime pre.length hxs ?_ ?_ ?_
      · intro l hl
        rcases List.mem_append.1 hl with hp | hp
        · exact le_of_lt (lt_of_lt_of_le hlt (h1 l hp))
        · rw [List.mem_singleton.1 hp]
      · intro j l hj hl
        rw [List.getElem?_append_left hj] at hl
        exact lt_of_lt_of_le hlt (h1 l (List.getElem?_mem hl))
      · left
        exact ⟨x, by simp, rfl⟩
    · rw [if_neg hlt, happ, ← hlen]
      refine ih (pre ++ [x]) m lru hxs ?_ ?_ ?_
      · intro l hl
        rcases List.mem_append.1 hl with hp | hp
        · exact h1 l hp
        · rw [List.mem_singleton.1 hp]; omega
      · intro j l hj hl
        rcases hlru with hl2 | hl2
        · rw [List.getElem?_append_left (by omega)] at hl
          exact h2 j l hj hl
        · omega
      · rcases h3 with ⟨l, hl, he⟩ | h0
        · left
          refine ⟨l, ?_, he⟩
          rcases hlru with hl2 | hl2
          · rw [List.getElem?_append_left hl2]; exact hl
          · have hp : lru < pre.length := by
              by_contra hge
              rw [List.getElem?_eq_none (by omega)] at hl
              cases hl
            rw [List.getElem?_append_left hp]; exact hl
        · right; exact h0

theorem findLRULineFrom_invalid (ls : List CacheLine) :
    ∀ (i m lru : Nat), (∃ l ∈ ls, l.state = CacheState.INVALID) →
      i ≤ findLRULineFrom ls i m lru ∧
      (∃ l, ls[findLRULineFrom ls i m lru - i]? = some l ∧ l.state = CacheState.INVALID) ∧
      ∀ (j : Nat) (l : CacheLine), j < findLRULineFrom ls i m lru - i → ls[j]? = some l →
        l.state ≠ CacheState.INVALID := by
  induction ls with
  | nil => intro i m lru h; obtain ⟨l, hl, _⟩ := h; cases hl
  | cons x xs ih =>
    intro i m lru h
    unfold findLRULineFrom
    by_cases hx : x.state = CacheState.INVALID
    · rw [if_pos hx]
      refine ⟨le_refl _, ⟨x, by simp, hx⟩, ?_⟩
      intro j l hj; omega
    · rw [if_neg hx]
      have hrest : ∃ l ∈ xs, l.state = CacheState.INVALID := by
        obtain ⟨l, hl, hs⟩ := h
        rcases List.mem_cons.1 hl with e | e
        · rw [e] at hs; exact absurd hs hx
        · exact ⟨l, e, hs⟩
      have key : ∀ (m2 lru2 : Nat),
          i ≤ findLRULineFrom xs (i + 1) m2 lru2 ∧
          (∃ l, (x :: xs)[findLRULineFrom xs (i + 1) m2 lru2 - i]? = some l ∧
            l.state = CacheState.INVALID) ∧
          ∀ (j : Nat) (l : CacheLine), j < findLRULineFrom xs (i + 1) m2 lru2 - i →
            (x :: xs)[j]? = some l → l.state ≠ CacheState.INVALID := by
        intro m2 lru2
        obtain ⟨h1, ⟨l, h2, h3⟩, h4⟩ := ih (i + 1) m2 lru2 hrest
        have e : findLRULineFrom xs (i + 1) m2 lru2 - i =
            (findLRULineFrom xs (i + 1) m2 lru2 - (i + 1)) + 1 := by omega
        refine ⟨by omega, ⟨l, ?_, h3⟩, ?_⟩
        · rw [e, List.getElem?_cons_succ]; exact h2
        · intro j l2 hj hl2
          cases j with
          | zero =>
            rw [List.getElem?_cons_zero] at hl2
            cases hl2; exact hx
          | succ j2 =>
            rw [List.getElem?_cons_succ] at hl2
            exact h4 j2 l2 (by omega) hl2
      by_cases hlt : x.lastAccessTime < m
      · rw [if_pos hlt]; exact key _ _
      · rw [if_neg hlt]; exact key _ _

/-- C23. Victim selection.  For a set with at least one way whose stamps fit
the 64-bit counter, `findLRULine` returns a way index inside the set; when
some line of the set is INVALID it is the lowest-indexed INVALID way;
otherwise the chosen line carries the minimum `lastAccessTime` of the set and
no way of lower index carries the same stamp. -/
theorem victim_selection (c : Cache) (setIndex : Nat)
    (hE : 1 ≤ (c.setLines setIndex).length)
    (hmax : ∀ l ∈ c.setLines setIndex, l.lastAccessTime ≤ UINT64_MAX) :
    c.findLRULine setIndex < (c.setLines setIndex).length ∧
    ((∃ l ∈ c.setLines setIndex, l.state = CacheState.INVALID) →
      (c.line setIndex (c.findLRULine setIndex)).state = CacheState.INVALID ∧
      ∀ j, j < c.findLRULine setIndex →
        (c.line setIndex j).state ≠ CacheState.INVALID) ∧
    ((∀ l ∈ c.setLines setIndex, l.state ≠ CacheState.INVALID) →
      (∀ l ∈ c.setLines setIndex,
        (c.line setIndex (c.findLRULine setIndex)).lastAccessTime ≤ l.lastAccessTime) ∧
      ∀ j, j < c.findLRULine setIndex →
        (c.line setIndex j).lastAccessTime ≠
          (c.line setIndex (c.findLRULine setIndex)).lastAccessTime) := by
  have hlt := findLRULine_lt c setIndex hE
  have hline : ∀ (j : Nat) (l : CacheLine), (c.setLines setIndex)[j]? = some l →
      c.line setIndex j = l := by
    intro j l hl
    unfold Cache.line
    rw [List.getD_eq_getElem?_getD, hl]; rfl
  have hget : ∀ j, j < (c.setLines setIndex).length →
      (c.setLines setIndex)[j]? = some (c.line setIndex j) := by
    intro j hj
    rw [List.getElem?_eq_getElem hj, hline j _ (List.getElem?_eq_getElem hj)]
  refine ⟨hlt, ?_, ?_⟩
  · intro hinv
    obtain ⟨_, ⟨l, h2, h3⟩, h4⟩ := findLRULineFrom_invalid (c.setLines setIndex) 0 UINT64_MAX 0 hinv
    rw [Nat.sub_zero] at h2 h4
    refine ⟨?_, ?_⟩
    · show (c.line setIndex (findLRULineFrom (c.setLines setIndex) 0 UINT64_MAX 0)).state = _
      rw [hline _ l h2]; exact h3
    · intro j hj
      exact h4 j _ hj (hget j (lt_trans hj hlt))
  · intro hval
    obtain ⟨m2, h1, h2, h3⟩ := findLRULineFrom_valid (c.setLines setIndex) [] UINT64_MAX 0 hval
      (by intro l hl; cases hl) (by intro j l hj; omega) (Or.inr ⟨rfl, rfl⟩)
    simp only [List.nil_append, List.length_nil] at h1 h2 h3
    have hm : (c.line setIndex (c.findLRULine setIndex)).lastAccessTime = m2 := by
      rcases h3 with ⟨l, hl, he⟩ | ⟨hm, h0⟩
      · show (c.line setIndex (findLRULineFrom (c.setLines setIndex) 0 UINT64_MAX 0)).lastAccessTime
          = _
        rw [hline _ l hl]; exact he
      · have hmem := List.getElem?_mem (hget _ hlt)
        have := h1 _ hmem
        have := hmax _ hmem
        omega
    rw [hm]
    refine ⟨h1, ?_⟩
    intro j hj
    exact Nat.ne_of_gt (h2 j _ hj (hget j (lt_trans hj hlt)))

set_option maxRecDepth 1000000 in
theorem victim_selection_witness :
    (evictionScenario.caches.getD 0 (Cache.mk0 1 2 2 0)).findLRULine 0 = 0 ∧
    (evictionScenario.caches.getD 0 (Cache.mk0 1 2 2 0)).findLRULine 0 <
      ((evictionScenario.caches.getD 0 (Cache.mk0 1 2 2 0)).setLines 0).length ∧
    ∀ l ∈ (evictionScenario.caches.getD 0 (Cache.mk0 1 2 2 0)).setLines 0,
      ((evictionScenario.caches.getD 0 (Cache.mk0 1 2 2 0)).line 0
        ((evictionScenario.caches.getD 0 (Cache.mk0 1 2 2 0)).findLRULine 0)).lastAccessTime ≤
        l.lastAccessTime :=
  ⟨by decide,
    (victim_selection (evictionScenario.caches.getD 0 (Cache.mk0 1 2 2 0)) 0
      (by decide) (by decide)).1,
    ((victim_selection (evictionScenario.caches.getD 0 (Cache.mk0 1 2 2 0)) 0
      (by decide) (by decide)).2.2 (by decide)).1⟩


/-! ### Dirty lines are `MODIFIED` -/

theorem dirty_modified_step {s E b : Nat} {sys : System} (hinv : Inv s E b sys)
    (hp : sys.LinesSat (fun l => l.dirty = true → l.state = CacheState.MODIFIED))
    (op : Op) :
    (sys.step op).LinesSat (fun l => l.dirty = true → l.state = CacheState.MODIFIED) := by
  have hsnoop : ∀ (w : Bool) (l : CacheLine),
      (l.dirty = true → l.state = CacheState.MODIFIED) →
      (snoopLine w l).dirty = true → (snoopLine w l).state = CacheState.MODIFIED := by
    intro w l hl hd
    have hclean : l.state ≠ CacheState.MODIFIED → l.dirty = false := by
      intro hne
      cases hdl : l.dirty with
      | false => rfl
      | true => exact absurd (hl hdl) hne
    unfold snoopLine at hd ⊢
    by_cases hm : l.state = CacheState.MODIFIED
    · cases w <;> simp [hm] at hd
    · have hc := hclean hm
      cases w
      · by_cases he : l.state = CacheState.EXCLUSIVE
        · simp [he, hc] at hd
        · simp [he, hm, hc] at hd
      · simp [hm, hc] at hd
  cases op with
  | read k a =>
    apply linesSat_read hinv hp k a (fun _ h => h)
    · intro l h _; exact hsnoop false l h
    · intro l h _ hd; exact h hd
    · intro t st _ hd; cases hd
  | write k a =>
    apply linesSat_write hinv hp k a (fun _ h => h)
    · intro l h _; exact hsnoop true l h
    · intro l _ hm _; exact hm
    · intro l _ _ _ _; rfl
    · intro t _; rfl
  | tick => exact linesSat_mono hp rfl (fun _ h => h)
  | nextCycle => exact linesSat_mono hp rfl (fun _ h => h)

theorem dirty_modified_run {s E b : Nat} (ops : List Op) :
    ∀ {sys : System}, Inv s E b sys →
      sys.LinesSat (fun l => l.dirty = true → l.state = CacheState.MODIFIED) →
      (sys.run ops).LinesSat (fun l => l.dirty = true → l.state = CacheState.MODIFIED) := by
  induction ops with
  | nil => intro sys _ h; exact h
  | cons op ops ih =>
    intro sys hinv h
    exact ih (inv_step hinv op) (dirty_modified_step hinv h op)

/-- C27. The dirty flag is set only on `MODIFIED` lines.  In every state
reached from the initial state by reads and writes (each with `coreId` the
cache's own id), bus ticks and global-cycle increments, every line with
`dirty = true` is `MODIFIED`; so every line in another state (one downgraded
to `SHARED` or invalidated by a snoop, one filled by a read miss) is clean. -/
theorem dirty_only_on_modified (n s E b : Nat) (hsb : s + b ≤ 31) (ops : List Op) :
    ∀ (i : Nat) (c : Cache) (setIndex : Nat) (l : CacheLine),
      ((System.init n s E b).run ops).caches[i]? = some c → l ∈ c.setLines setIndex →
      (l.dirty = true → l.state = CacheState.MODIFIED) ∧
      (l.state ≠ CacheState.MODIFIED → l.dirty = false) := by
  intro i c si l hc hl
  have h : l.dirty = true → l.state = CacheState.MODIFIED :=
    dirty_modified_run ops (inv_init n s E b hsb)
      (init_linesSat n s E b _ (by intro h; cases h)) i c hc si l hl
  refine ⟨h, ?_⟩
  intro hne
  cases hd : l.dirty with
  | false => rfl
  | true => exact absurd (h hd) hne

set_option maxRecDepth 100000 in
theorem dirty_only_on_modified_witness :
    ((((System.init 2 1 2 2).run ([Op.write 0 0] ++ List.replicate 100 Op.tick ++
        [Op.read 1 0])).caches.getD 0 (Cache.mk0 1 2 2 0)).line 0 0).state =
      CacheState.SHARED ∧
    ((((System.init 2 1 2 2).run ([Op.write 0 0] ++ List.replicate 100 Op.tick ++
        [Op.read 1 0])).caches.getD 0 (Cache.mk0 1 2 2 0)).line 0 0).dirty = false :=
  ⟨by decide,
    (dirty_only_on_modified 2 1 2 2 (by decide)
      ([Op.write 0 0] ++ List.replicate 100 Op.tick ++ [Op.read 1 0]) 0
      (((System.init 2 1 2 2).run ([Op.write 0 0] ++ List.replicate 100 Op.tick ++
        [Op.read 1 0])).caches.getD 0 (Cache.mk0 1 2 2 0)) 0
      ((((System.init 2 1 2 2).run ([Op.write 0 0] ++ List.replicate 100 Op.tick ++
        [Op.read 1 0])).caches.getD 0 (Cache.mk0 1 2 2 0)).line 0 0)
      (by decide) (by decide)).2 (by decide)⟩

/-! ### No block twice in a set -/

theorem pbt_own (c : Cache) (bus : Bus) (a : Nat) (w : Bool) (req : Int) (dr : Bool)
    (h : req = c.cacheId) : c.processBusTransaction bus a w req dr = (c, bus, false) := by
  unfold Cache.processBusTransaction
  rw [if_pos h]

theorem inv_shrink {s E b : Nat} {sys sys' : System} (hinv : Inv s E b sys)
    (h : CachesRel (fun _ c c' => c' = c ∨ ∃ a w, (c.snooped a w).sameLines c')
      sys.caches sys'.caches) : Inv s E b sys' := by
  refine ⟨?_, ?_, ?_, ?_⟩
  · intro i c' hc'
    obtain ⟨c, hc, hr⟩ := h.inv hc'
    rcases hr with e | ⟨a, w, hs⟩
    · rw [e]; exact hinv.ids i c hc
    · rw [hs.2.1, (snooped_sameFields c a w).1]; exact hinv.ids i c hc
  · intro i c' hc'
    obtain ⟨c, hc, hr⟩ := h.inv hc'
    rcases hr with e | ⟨a, w, hs⟩
    · rw [e]; exact hinv.shape i c hc
    · exact wellFormed_sameLines hs (wellFormed_snooped a w (hinv.shape i c hc))
  · intro i c' hc' si
    obtain ⟨c, hc, hr⟩ := h.inv hc'
    rcases hr with e | ⟨a, w, hs⟩
    · rw [e]; exact hinv.nodup i c hc si
    · rw [sameLines_setLines hs si]
      exact snooped_nodup a w si (hinv.nodup i c hc si)
  · apply coherent_mono hinv.coherent
    apply h.mono
    intro j c c' _ hr
    rcases hr with e | ⟨a, w, hs⟩
    · rw [e]; exact ⟨fun _ _ x => x, fun _ _ x => x⟩
    · exact ⟨fun si t x => snooped_holds ((sameLines_holds hs si t).1 x),
        fun si t x => snooped_holdsOwned ((sameLines_holdsOwned hs si t).1 x)⟩

theorem inv_snoopStep {s E b : Nat} {sys : System} (hinv : Inv s E b sys) (op : SnoopOp) :
    Inv s E b (sys.snoopStep op) := by
  cases op with
  | op o => exact inv_step hinv o
  | snoop k a w req dr =>
    cases hk : sys.caches[k]? with
    | none => simp only [System.snoopStep, hk]; exact hinv
    | some c =>
      simp only [System.snoopStep, hk]
      apply inv_shrink hinv
      show CachesRel _ sys.caches
        (sys.caches.set k (c.processBusTransaction sys.bus a w req dr).1)
      apply CachesRel.set_at k
      · exact CachesRel.refl _ (fun _ _ _ _ => Or.inl rfl)
      · intro c2 hc2
        rw [hk] at hc2
        cases hc2
        by_cases hreq : req = c.cacheId
        · left; rw [pbt_own c sys.bus a w req dr hreq]
        · right; exact ⟨a, w, pbt_sameLines c sys.bus a w req dr hreq⟩

theorem inv_snoopRun {s E b : Nat} (ops : List SnoopOp) :
    ∀ {sys : System}, Inv s E b sys → Inv s E b (sys.snoopRun ops) := by
  induction ops with
  | nil => intro sys h; exact h
  | cons op ops ih =>
    intro sys hinv
    exact ih (inv_snoopStep hinv op)

/-- C26. No duplicate blocks inside a cache.  In every state reached from the
initial state by reads, writes, bus ticks, cycle increments and direct snoops,
no set of any cache holds two distinct non-INVALID lines with the same tag;
so a line that matches the tag the hit probe looks for sits at the way the
probe returns. -/
theorem no_duplicate_blocks (n s E b : Nat) (hsb : s + b ≤ 31) (ops : List SnoopOp) :
    ∀ (i : Nat) (c : Cache) (setIndex : Nat),
      ((System.init n s E b).snoopRun ops).caches[i]? = some c →
      (∀ (j1 j2 : Nat) (l1 l2 : CacheLine),
        (c.setLines setIndex)[j1]? = some l1 → (c.setLines setIndex)[j2]? = some l2 →
        l1.state ≠ CacheState.INVALID → l2.state ≠ CacheState.INVALID →
        l1.tag = l2.tag → j1 = j2) ∧
      (∀ (tag j j2 : Nat) (l2 : CacheLine), findWay tag (c.setLines setIndex) = some j →
        (c.setLines setIndex)[j2]? = some l2 → l2.tag = tag →
        l2.state ≠ CacheState.INVALID → j2 = j) := by
  intro i c si hc
  have hnd : NoDupTags (c.setLines si) :=
    (inv_snoopRun ops (inv_init n s E b hsb)).nodup i c hc si
  refine ⟨hnd, ?_⟩
  intro tag j j2 l2 hf h2 ht hv
  obtain ⟨l, hl, hlt, hlv, _⟩ := findWay_some_spec hf
  exact hnd j2 j l2 l h2 hl hv hlv (ht.trans hlt.symm)

set_option maxRecDepth 100000 in
theorem no_duplicate_blocks_witness :
    findWay 0 ((((System.init 2 1 2 2).snoopRun [SnoopOp.op (Op.write 0 0),
        SnoopOp.snoop 0 0 false 1 true, SnoopOp.op (Op.read 0 8)]).caches.getD 0
          (Cache.mk0 1 2 2 0)).setLines 0) = some 0 ∧
    (∀ (j2 : Nat) (l2 : CacheLine),
      ((((System.init 2 1 2 2).snoopRun [SnoopOp.op (Op.write 0 0),
        SnoopOp.snoop 0 0 false 1 true, SnoopOp.op (Op.read 0 8)]).caches.getD 0
          (Cache.mk0 1 2 2 0)).setLines 0)[j2]? = some l2 →
      l2.tag = 0 → l2.state ≠ CacheState.INVALID → j2 = 0) :=
  ⟨by decide, fun j2 l2 =>
    ((no_duplicate_blocks 2 1 2 2 (by decide)
      [SnoopOp.op (Op.write 0 0), SnoopOp.snoop 0 0 false 1 true, SnoopOp.op (Op.read 0 8)]
      0 (((System.init 2 1 2 2).snoopRun [SnoopOp.op (Op.write 0 0),
        SnoopOp.snoop 0 0 false 1 true, SnoopOp.op (Op.read 0 8)]).caches.getD 0
          (Cache.mk0 1 2 2 0)) 0 (by decide)).2 0 0 j2 l2 (by decide))⟩

/-! ### The bus never rejects a broadcast of the caches -/

theorem read_issued (sys : System) (k : Nat) (c : Cache) (a : Nat) (coreId : Int)
    (hc : sys.caches[k]? = some c) (h : (Cache.read sys k a coreId).2 = 1) :
    sys.bus.isBusy = false ∧ findWay (c.getTag a) (c.setLines (c.getSetIndex a)) = none := by
  by_cases hself : sys.bus.isBusy = true ∧ sys.bus.currentRequestingCore = coreId
  · rw [read_self sys k c a _ hc hself] at h; simp at h
  · cases hf : findWay (c.getTag a) (c.setLines (c.getSetIndex a)) with
    | some i => rw [read_hit sys k c a _ i hc hself hf] at h; simp at h
    | none =>
      by_cases hb : sys.bus.isBusy = true
      · rw [read_other sys k c a _ hc hself hf hb] at h; simp at h
      · exact ⟨by simpa using hb, rfl⟩

theorem write_issued (sys : System) (k : Nat) (c : Cache) (a : Nat) (coreId : Int)
    (hc : sys.caches[k]? = some c) (h : (Cache.write sys k a coreId).2 = 1) :
    sys.bus.isBusy = false ∧ findWay (c.getTag a) (c.setLines (c.getSetIndex a)) = none := by
  by_cases hself : sys.bus.isBusy = true ∧ sys.bus.currentRequestingCore = coreId
  · rw [write_self sys k c a _ hc hself] at h; simp at h
  · cases hf : findWay (c.getTag a) (c.setLines (c.getSetIndex a)) with
    | some i =>
      rw [write_hit sys k c a _ i hc hself hf] at h
      rcases writeHit_snd sys k c a coreId i with h0 | ⟨h1, _, _⟩
      · rw [h0] at h; exact absurd h (by decide)
      · rw [h1] at h; simp at h
    | none =>
      by_cases hb : sys.bus.isBusy = true
      · rw [write_other sys k c a _ hc hself hf hb] at h; simp at h
      · exact ⟨by simpa using hb, rfl⟩

theorem read_quiet_bus (sys : System) (k : Nat) (c : Cache) (a : Nat) (coreId : Int)
    (hc : sys.caches[k]? = some c) (h : (Cache.read sys k a coreId).2 ≠ 1) :
    (Cache.read sys k a coreId).1.bus = sys.bus := by
  by_cases hself : sys.bus.isBusy = true ∧ sys.bus.currentRequestingCore = coreId
  · rw [read_self sys k c a _ hc hself]
  · cases hf : findWay (c.getTag a) (c.setLines (c.getSetIndex a)) with
    | some i => rw [read_hit sys k c a _ i hc hself hf]
    | none =>
      by_cases hb : sys.bus.isBusy = true
      · rw [read_other sys k c a _ hc hself hf hb]
      · rw [read_miss sys k c a _ hc hf (by simpa using hb)] at h
        exact absurd rfl h

theorem write_quiet_bus (sys : System) (k : Nat) (c : Cache) (a : Nat) (coreId : Int)
    (hc : sys.caches[k]? = some c) (h : (Cache.write sys k a coreId).2 ≠ 1)
    (hm : ∀ i, findWay (c.getTag a) (c.setLines (c.getSetIndex a)) = some i →
      (Cache.write sys k a coreId).2 = 0 →
      (c.line (c.getSetIndex a) i).state = CacheState.MODIFIED) :
    (Cache.write sys k a coreId).1.bus = sys.bus := by
  by_cases hself : sys.bus.isBusy = true ∧ sys.bus.currentRequestingCore = coreId
  · rw [write_self sys k c a _ hc hself]
  · cases hf : findWay (c.getTag a) (c.setLines (c.getSetIndex a)) with
    | some i =>
      have hm2 := hm i hf
      rw [write_hit sys k c a _ i hc hself hf] at hm2 ⊢
      rcases writeHit_snd sys k c a coreId i with h0 | ⟨h1, _, _⟩
      · rw [writeHit_modified sys k c a coreId i (hm2 h0)]
      · rw [h1]
    | none =>
      by_cases hb : sys.bus.isBusy = true
      · rw [write_other sys k c a _ hc hself hf hb]
      · rw [write_miss sys k c a _ hc hf (by simpa using hb)] at h
        exact absurd rfl h

theorem write_upgrade_idle (sys : System) (k : Nat) (c : Cache) (a : Nat) (coreId : Int)
    (i : Nat) (hc : sys.caches[k]? = some c)
    (hf : findWay (c.getTag a) (c.setLines (c.getSetIndex a)) = some i)
    (hm : (c.line (c.getSetIndex a) i).state ≠ CacheState.MODIFIED)
    (h : (Cache.write sys k a coreId).2 = 0) :
    sys.bus.isBusy = false ∧ Cache.write sys k a coreId = Cache.writeHit sys k c a coreId i := by
  by_cases hself : sys.bus.isBusy = true ∧ sys.bus.currentRequestingCore = coreId
  · rw [write_self sys k c a _ hc hself] at h; simp at h
  · rw [write_hit sys k c a _ i hc hself hf] at h ⊢
    by_cases hb : sys.bus.isBusy = true
    · rw [writeHit_busy sys k c a coreId i hm hb] at h; simp at h
    · exact ⟨by simpa using hb, rfl⟩

theorem broadcast_accepted (caches : List Cache) (bus : Bus) (ty : BusTransactionType)
    (a : Nat) (req : Int)
    (hnr : ¬(bus.isBusy = true ∧ bus.currentRequestingCore ≠ req)) :
    Bus.broadcastTransaction caches bus ty a req =
      Bus.processTransaction caches
        { bus with isBusy := true, currentRequestingCore := req } ty a req := by
  unfold Bus.broadcastTransaction
  rw [if_neg hnr]

/-- C25. The defensive rejection of the bus is unreachable from the caches.
In a reachable state, for a call `read(a, k)` or `write(a, k)` on cache `k`
of associativity at least one: (1) when the call issues a miss, the bus it
hands to `broadcastTransaction`, i.e. the bus after the victim's writeback,
does not satisfy the rejection guard, and the broadcast is the processing of
the transaction on the taken bus; (2) a write hit that upgrades finds the bus
idle, so its broadcast is not rejected either, and counts exactly one
`BusUpgr`; (3) a read miss counts exactly one `BusRd` and fills the victim
`EXCLUSIVE` exactly when no peer held the block; (4) a write miss counts
exactly one `BusRdX`; (5) and (6) every other call leaves the bus as it was. -/
theorem bus_never_rejects (n s E b : Nat) (hsb : s + b ≤ 31) (hE : 1 ≤ E) (ops : List Op)
    (sys : System) (hreach : sys = (System.init n s E b).run ops)
    (k a : Nat) (c : Cache) (hc : sys.caches[k]? = some c) :
    (((Cache.read sys k a (k : Int)).2 = 1 ∨ (Cache.write sys k a (k : Int)).2 = 1) →
      ¬((c.countMiss.evictVictim sys.bus (c.getSetIndex a)
            (c.countMiss.findLRULine (c.getSetIndex a))).2.isBusy = true ∧
        (c.countMiss.evictVictim sys.bus (c.getSetIndex a)
            (c.countMiss.findLRULine (c.getSetIndex a))).2.currentRequestingCore ≠ (k : Int)) ∧
      ∀ ty : BusTransactionType,
        Bus.broadcastTransaction
          (sys.caches.set k (c.countMiss.evictVictim sys.bus (c.getSetIndex a)
            (c.countMiss.findLRULine (c.getSetIndex a))).1)
          (c.countMiss.evictVictim sys.bus (c.getSetIndex a)
            (c.countMiss.findLRULine (c.getSetIndex a))).2 ty a (k : Int) =
        Bus.processTransaction
          (sys.caches.set k (c.countMiss.evictVictim sys.bus (c.getSetIndex a)
            (c.countMiss.findLRULine (c.getSetIndex a))).1)
          { (c.countMiss.evictVictim sys.bus (c.getSetIndex a)
              (c.countMiss.findLRULine (c.getSetIndex a))).2 with
            isBusy := true, currentRequestingCore := (k : Int) } ty a (k : Int)) ∧
    (∀ i, findWay (c.getTag a) (c.setLines (c.getSetIndex a)) = some i →
      (c.line (c.getSetIndex a) i).state ≠ CacheState.MODIFIED →
      (Cache.write sys k a (k : Int)).2 = 0 →
      ¬(sys.bus.isBusy = true ∧ sys.bus.currentRequestingCore ≠ (k : Int)) ∧
      (Cache.write sys k a (k : Int)).1.bus.stats.busUpgrTransactions =
        sys.bus.stats.busUpgrTransactions + 1 ∧
      (Cache.write sys k a (k : Int)).1.bus.stats.totalTransactions =
        sys.bus.stats.totalTransactions + 1 ∧
      (Cache.write sys k a (k : Int)).1.bus.stats.busRdTransactions =
        sys.bus.stats.busRdTransactions ∧
      (Cache.write sys k a (k : Int)).1.bus.stats.busRdXTransactions =
        sys.bus.stats.busRdXTransactions) ∧
    ((Cache.read sys k a (k : Int)).2 = 1 →
      (Cache.read sys k a (k : Int)).1.bus.stats.busRdTransactions =
        sys.bus.stats.busRdTransactions + 1 ∧
      (Cache.read sys k a (k : Int)).1.bus.stats.totalTransactions =
        sys.bus.stats.totalTransactions + 1 ∧
      (Cache.read sys k a (k : Int)).1.bus.stats.busRdXTransactions =
        sys.bus.stats.busRdXTransactions ∧
      (Cache.read sys k a (k : Int)).1.bus.stats.busUpgrTransactions =
        sys.bus.stats.busUpgrTransactions ∧
      ∃ c', (Cache.read sys k a (k : Int)).1.caches[k]? = some c' ∧
        ((c'.line (c.getSetIndex a) (c.findLRULine (c.getSetIndex a))).state =
            CacheState.EXCLUSIVE ↔
          ¬∃ j cj, j ≠ k ∧ sys.caches[j]? = some cj ∧
            cj.holds (c.getSetIndex a) (c.getTag a))) ∧
    ((Cache.write sys k a (k : Int)).2 = 1 →
      (Cache.write sys k a (k : Int)).1.bus.stats.busRdXTransactions =
        sys.bus.stats.busRdXTransactions + 1 ∧
      (Cache.write sys k a (k : Int)).1.bus.stats.totalTransactions =
        sys.bus.stats.totalTransactions + 1 ∧
      (Cache.write sys k a (k : Int)).1.bus.stats.busRdTransactions =
        sys.bus.stats.busRdTransactions ∧
      (Cache.write sys k a (k : Int)).1.bus.stats.busUpgrTransactions =
        sys.bus.stats.busUpgrTransactions) ∧
    ((Cache.read sys k a (k : Int)).2 ≠ 1 → (Cache.read sys k a (k : Int)).1.bus = sys.bus) ∧
    ((Cache.write sys k a (k : Int)).2 ≠ 1 →
      (∀ i, findWay (c.getTag a) (c.setLines (c.getSetIndex a)) = some i →
        (Cache.write sys k a (k : Int)).2 = 0 →
        (c.line (c.getSetIndex a) i).state = CacheState.MODIFIED) →
      (Cache.write sys k a (k : Int)).1.bus = sys.bus) := by
  have hinv : Inv s E b sys := hreach ▸ inv_run ops (inv_init n s E b hsb)
  have hid : c.countMiss.cacheId = (k : Int) := hinv.ids k c hc
  have hdec : ∀ (j : Nat) (cj : Cache), sys.caches[j]? = some cj →
      cj.getSetIndex a = c.getSetIndex a ∧ cj.getTag a = c.getTag a := by
    intro j cj hj
    rw [(wellFormed_decode (hinv.shape j cj hj) a).1, (wellFormed_decode (hinv.shape j cj hj) a).2,
      (wellFormed_decode (hinv.shape k c hc) a).1, (wellFormed_decode (hinv.shape k c hc) a).2]
    exact ⟨rfl, rfl⟩
  refine ⟨?_, ?_, ?_, ?_, read_quiet_bus sys k c a _ hc, write_quiet_bus sys k c a _ hc⟩
  · intro h
    have hidle : sys.bus.isBusy = false := by
      rcases h with h | h
      · exact (read_issued sys k c a _ hc h).1
      · exact (write_issued sys k c a _ hc h).1
    have hnr := evictVictim_not_rejected c.countMiss sys.bus (c.getSetIndex a)
      (c.countMiss.findLRULine (c.getSetIndex a)) hidle
    rw [hid] at hnr
    exact ⟨hnr, fun ty => broadcast_accepted _ _ ty a _ hnr⟩
  · intro i hf hm h0
    obtain ⟨hidle, he⟩ := write_upgrade_idle sys k c a _ i hc hf hm h0
    have hbus := upgrade_bus sys k c a i hinv hc hm hidle
    rw [he, hbus]
    exact ⟨by simp [hidle], rfl, rfl, rfl, rfl⟩
  · intro h
    obtain ⟨hidle, hf⟩ := read_issued sys k c a _ hc h
    rw [read_miss sys k c a _ hc hf hidle]
    obtain ⟨c', q1, q2, _⟩ := readMiss_requester sys k c a hc hinv.ids hidle
    have hbus := readMiss_bus sys k c a hinv hc hidle
    have hline := victim_filled (hinv.shape k c hc) hE a _ q2
    refine ⟨?_, ?_, ?_, ?_, c', q1, ?_⟩
    · show (Cache.readMiss sys k c a (k : Int)).bus.stats.busRdTransactions = _
      rw [hbus]; rfl
    · show (Cache.readMiss sys k c a (k : Int)).bus.stats.totalTransactions = _
      rw [hbus]; rfl
    · show (Cache.readMiss sys k c a (k : Int)).bus.stats.busRdXTransactions = _
      rw [hbus]; rfl
    · show (Cache.readMiss sys k c a (k : Int)).bus.stats.busUpgrTransactions = _
      rw [hbus]; rfl
    · rw [hline]
      have hp : peerHolds sys.caches a (k : Int) = true ↔
          ∃ j cj, j ≠ k ∧ sys.caches[j]? = some cj ∧
            cj.holds (c.getSetIndex a) (c.getTag a) := by
        rw [peerHolds_iff sys.caches k a hinv.ids]
        constructor
        · rintro ⟨j, cj, h1, h2, h3⟩
          rw [(hdec j cj h2).1, (hdec j cj h2).2] at h3
          exact ⟨j, cj, h1, h2, h3⟩
        · rintro ⟨j, cj, h1, h2, h3⟩
          rw [← (hdec j cj h2).1, ← (hdec j cj h2).2] at h3
          exact ⟨j, cj, h1, h2, h3⟩
      rw [← hp]
      by_cases hph : peerHolds sys.caches a (k : Int) = true
      · simp [hph]
      · simp [hph]
  · intro h
    obtain ⟨hidle, hf⟩ := write_issued sys k c a _ hc h
    rw [write_miss sys k c a _ hc hf hidle]
    have hbus := writeMiss_bus sys k c a hinv hc hidle
    refine ⟨?_, ?_, ?_, ?_⟩
    · show (Cache.writeMiss sys k c a (k : Int)).bus.stats.busRdXTransactions = _
      rw [hbus]; rfl
    · show (Cache.writeMiss sys k c a (k : Int)).bus.stats.totalTransactions = _
      rw [hbus]; rfl
    · show (Cache.writeMiss sys k c a (k : Int)).bus.stats.busRdTransactions = _
      rw [hbus]; rfl
    · show (Cache.writeMiss sys k c a (k : Int)).bus.stats.busUpgrTransactions = _
      rw [hbus]; rfl

set_option maxRecDepth 1000000 in
theorem bus_never_rejects_witness :
    ((evictionScenario.caches.getD 0 (Cache.mk0 1 2 2 0)).countMiss.evictVictim
        evictionScenario.bus
        ((evictionScenario.caches.getD 0 (Cache.mk0 1 2 2 0)).getSetIndex 16)
        ((evictionScenario.caches.getD 0 (Cache.mk0 1 2 2 0)).countMiss.findLRULine
          ((evictionScenario.caches.getD 0 (Cache.mk0 1 2 2 0)).getSetIndex 16))).2.isBusy
        = true ∧
    ¬(((evictionScenario.caches.getD 0 (Cache.mk0 1 2 2 0)).countMiss.evictVictim
        evictionScenario.bus
        ((evictionScenario.caches.getD 0 (Cache.mk0 1 2 2 0)).getSetIndex 16)
        ((evictionScenario.caches.getD 0 (Cache.mk0 1 2 2 0)).countMiss.findLRULine
          ((evictionScenario.caches.getD 0 (Cache.mk0 1 2 2 0)).getSetIndex 16))).2.isBusy
        = true ∧
      ((evictionScenario.caches.getD 0 (Cache.mk0 1 2 2 0)).countMiss.evictVictim
        evictionScenario.bus
        ((evictionScenario.caches.getD 0 (Cache.mk0 1 2 2 0)).getSetIndex 16)
        ((evictionScenario.caches.getD 0 (Cache.mk0 1 2 2 0)).countMiss.findLRULine
          ((evictionScenario.caches.getD 0 (Cache.mk0 1 2 2 0)).getSetIndex
            16))).2.currentRequestingCore ≠ ((0 : Nat) : Int)) :=
  ⟨by decide,
    ((bus_never_rejects 2 1 2 2 (by decide) (by decide) _ evictionScenario rfl 0 16
      (evictionScenario.caches.getD 0 (Cache.mk0 1 2 2 0)) (by decide)).1
        (Or.inl (by decide))).1⟩


/-! ### LRU stamps never run ahead of the global cycle -/

theorem read_cycle (sys : System) (k a : Nat) (coreId : Int) :
    (Cache.read sys k a coreId).1.globalCycle = sys.globalCycle := by
  cases hc : sys.caches[k]? with
  | none => rw [read_none sys k a _ hc]
  | some c =>
    by_cases hself : sys.bus.isBusy = true ∧ sys.bus.currentRequestingCore = coreId
    · rw [read_self sys k c a _ hc hself]
    · cases hf : findWay (c.getTag a) (c.setLines (c.getSetIndex a)) with
      | some i => rw [read_hit sys k c a _ i hc hself hf]
      | none =>
        by_cases hb : sys.bus.isBusy = true
        · rw [read_other sys k c a _ hc hself hf hb]
        · rw [read_miss sys k c a _ hc hf (by simpa using hb)]; rfl

theorem writeHit_cycle (sys : System) (k : Nat) (c : Cache) (a : Nat) (coreId : Int)
    (i : Nat) : (Cache.writeHit sys k c a coreId i).1.globalCycle = sys.globalCycle := by
  by_cases h1 : (c.line (c.getSetIndex a) i).state ≠ CacheState.MODIFIED
  · by_cases h2 : sys.bus.isBusy = true
    · rw [writeHit_busy sys k c a coreId i h1 h2]
    · simp only [Cache.writeHit]; rw [if_pos h1, if_neg h2]
  · rw [writeHit_modified sys k c a coreId i (by simpa using h1)]

theorem write_cycle (sys : System) (k a : Nat) (coreId : Int) :
    (Cache.write sys k a coreId).1.globalCycle = sys.globalCycle := by
  cases hc : sys.caches[k]? with
  | none => rw [write_none sys k a _ hc]
  | some c =>
    by_cases hself : sys.bus.isBusy = true ∧ sys.bus.currentRequestingCore = coreId
    · rw [write_self sys k c a _ hc hself]
    · cases hf : findWay (c.getTag a) (c.setLines (c.getSetIndex a)) with
      | some i => rw [write_hit sys k c a _ i hc hself hf]; exact writeHit_cycle sys k c a _ i
      | none =>
        by_cases hb : sys.bus.isBusy = true
        · rw [write_other sys k c a _ hc hself hf hb]
        · rw [write_miss sys k c a _ hc hf (by simpa using hb)]; rfl

theorem stamps_read {s E b : Nat} {sys : System} (hinv : Inv s E b sys) (g : Nat)
    (hg : sys.globalCycle ≤ g)
    (hp : sys.LinesSat (fun l => l.lastAccessTime ≤ g)) (k a : Nat) :
    (Cache.read sys k a (k : Int)).1.LinesSat (fun l => l.lastAccessTime ≤ g) := by
  apply linesSat_read hinv hp k a (fun _ h => h)
  · intro l h _; rw [snoopLine_time]; exact h
  · intro l _ _; exact hg
  · intro t st _; exact hg

theorem stamps_write {s E b : Nat} {sys : System} (hinv : Inv s E b sys) (g : Nat)
    (hg : sys.globalCycle ≤ g)
    (hp : sys.LinesSat (fun l => l.lastAccessTime ≤ g)) (k a : Nat) :
    (Cache.write sys k a (k : Int)).1.LinesSat (fun l => l.lastAccessTime ≤ g) := by
  apply linesSat_write hinv hp k a (fun _ h => h)
  · intro l h _; rw [snoopLine_time]; exact h
  · intro l _ _; exact hg
  · intro l _ _ _; exact hg
  · intro t; exact hg

theorem stamps_step {s E b : Nat} {sys : System} (hinv : Inv s E b sys)
    (hp : sys.LinesSat (fun l => l.lastAccessTime ≤ sys.globalCycle)) (op : Op) :
    (sys.step op).LinesSat (fun l => l.lastAccessTime ≤ (sys.step op).globalCycle) := by
  cases op with
  | read k a =>
    show (Cache.read sys k a (k : Int)).1.LinesSat
      (fun l => l.lastAccessTime ≤ (Cache.read sys k a (k : Int)).1.globalCycle)
    rw [read_cycle]
    exact stamps_read hinv _ (le_refl _) hp k a
  | write k a =>
    show (Cache.write sys k a (k : Int)).1.LinesSat
      (fun l => l.lastAccessTime ≤ (Cache.write sys k a (k : Int)).1.globalCycle)
    rw [write_cycle]
    exact stamps_write hinv _ (le_refl _) hp k a
  | tick => exact linesSat_mono hp rfl (fun _ h => h)
  | nextCycle =>
    exact linesSat_mono hp rfl (fun _ h => Nat.le_succ_of_le h)

theorem stamps_run {s E b : Nat} (ops : List Op) :
    ∀ {sys : System}, Inv s E b sys →
      sys.LinesSat (fun l => l.lastAccessTime ≤ sys.globalCycle) →
      (sys.run ops).LinesSat (fun l => l.lastAccessTime ≤ (sys.run ops).globalCycle) := by
  induction ops with
  | nil => intro sys _ h; exact h
  | cons op ops ih =>
    intro sys hinv h
    exact ih (inv_step hinv op) (stamps_step hinv h op)

theorem linesSat_rel {P : CacheLine → Prop} {sys sys' : System} (hp : sys.LinesSat P)
    (h : CachesRel (fun _ c c' => c.sameLines c') sys.caches sys'.caches) :
    sys'.LinesSat P := by
  intro i c' hc'
  obtain ⟨c, hc, hs⟩ := h.inv hc'
  exact linesSat_sameLines hs (hp i c hc)

theorem stamps_access {s E b : Nat} {sys : System} (hinv : Inv s E b sys)
    (hp : sys.LinesSat (fun l => l.lastAccessTime ≤ sys.globalCycle)) (k : Nat)
    (e : TraceEntry) :
    (Driver.access sys k e).1.globalCycle = sys.globalCycle ∧
    (Driver.access sys k e).1.LinesSat (fun l => l.lastAccessTime ≤ sys.globalCycle) := by
  unfold Driver.access
  by_cases hw : e.isWrite = true
  · rw [if_pos hw]
    exact ⟨write_cycle _ _ _ _, stamps_write hinv _ (le_refl _) hp k _⟩
  · rw [if_neg hw]
    exact ⟨read_cycle _ _ _ _, stamps_read hinv _ (le_refl _) hp k _⟩

theorem stamps_retire (d : Driver)
    (hp : d.sys.LinesSat (fun l => l.lastAccessTime ≤ d.sys.globalCycle)) :
    d.advance.sys.globalCycle = d.sys.globalCycle ∧
    d.advance.sys.LinesSat (fun l => l.lastAccessTime ≤ d.sys.globalCycle) := by
  have key : d.retire.sys.globalCycle = d.sys.globalCycle ∧
      CachesRel (fun _ c c' => c.sameLines c') d.sys.caches d.retire.sys.caches := by
    unfold Driver.retire
    split_ifs
    · exact ⟨rfl, modifyAt_rel _ _ _ _ (fun _ c _ => sameLines_refl c)
        (fun c _ => countExec_sameLines c)⟩
    · exact ⟨rfl, CachesRel.refl _ (fun _ c _ => sameLines_refl c)⟩
    · exact ⟨rfl, CachesRel.refl _ (fun _ c _ => sameLines_refl c)⟩
  refine ⟨key.1, ?_⟩
  have h1 : d.retire.sys.LinesSat (fun l => l.lastAccessTime ≤ d.sys.globalCycle) :=
    linesSat_rel hp key.2
  exact linesSat_mono h1 rfl (fun _ h => h)

theorem stamps_issue {s E b : Nat} (traces : List (List TraceEntry)) (d : Driver) (f : Bool)
    (core : Nat) (hinv : Inv s E b d.sys)
    (hp : d.sys.LinesSat (fun l => l.lastAccessTime ≤ d.sys.globalCycle)) :
    (Driver.issue traces (d, f) core).1.sys.globalCycle = d.sys.globalCycle ∧
    (Driver.issue traces (d, f) core).1.sys.LinesSat
      (fun l => l.lastAccessTime ≤ d.sys.globalCycle) := by
  cases he : (traces.getD core [])[d.currentInstructionIndex.getD core 0]? with
  | none =>
    have hs : Driver.issue traces (d, f) core = (d, f) := by
      simp only [Driver.issue, he]
    rw [hs]; exact ⟨rfl, hp⟩
  | some e =>
    rw [issue_access traces d f core e he]
    obtain ⟨h1, h2⟩ := stamps_access hinv hp core e
    refine ⟨by rw [dispatch_globalCycle]; exact h1, ?_⟩
    apply linesSat_rel h2
    exact (dispatch_caches _ core e.isWrite _).mono (fun _ _ _ _ h => h.1)

theorem stamps_fold {s E b : Nat} (hE : 1 ≤ E) (traces : List (List TraceEntry)) :
    ∀ (cores : List Nat), (∀ c ∈ cores, c < numCores) → ∀ (d : Driver) (f : Bool),
      Driver.Inv s E b traces d →
      d.sys.LinesSat (fun l => l.lastAccessTime ≤ d.sys.globalCycle) →
      (cores.foldl (Driver.issue traces) (d, f)).1.sys.globalCycle = d.sys.globalCycle ∧
      (cores.foldl (Driver.issue traces) (d, f)).1.sys.LinesSat
        (fun l => l.lastAccessTime ≤ d.sys.globalCycle) := by
  intro cores
  induction cores with
  | nil => intro _ d f _ hp; exact ⟨rfl, hp⟩
  | cons c rest ih =>
    intro hlt d f hinv hp
    have hrest : ∀ x ∈ rest, x < numCores := fun x hx => hlt x (List.mem_cons_of_mem _ hx)
    rw [List.foldl_cons]
    have hstep := stamps_issue traces d f c hinv.sys hp
    have hi0 : Driver.Inv s E b traces ([c].foldl (Driver.issue traces) (d, f)).1 :=
      (fold_inv hE traces [c] (fun x hx => by
        rw [List.mem_singleton.1 hx]; exact hlt c (List.mem_cons_self _ _)) d f hinv).1
    have hi1 : Driver.Inv s E b traces (Driver.issue traces (d, f) c).1 := hi0
    generalize Driver.issue traces (d, f) c = st at hstep hi1 ⊢
    obtain ⟨d1, f1⟩ := st
    have hg : d1.sys.globalCycle = d.sys.globalCycle := hstep.1
    have hp1 : d1.sys.LinesSat (fun l => l.lastAccessTime ≤ d1.sys.globalCycle) := by
      rw [hg]; exact hstep.2
    have hi2 : Driver.Inv s E b traces d1 := hi1
    obtain ⟨a1, a2⟩ := ih hrest d1 f1 hi2 hp1
    rw [hg] at a1 a2
    exact ⟨a1, a2⟩

theorem stamps_cycle {s E b : Nat} (hE : 1 ≤ E) (traces : List (List TraceEntry))
    (d : Driver) (hinv : Driver.Inv s E b traces d)
    (hp : d.sys.LinesSat (fun l => l.lastAccessTime ≤ d.sys.globalCycle)) :
    (Driver.cycle traces d).1.sys.LinesSat
      (fun l => l.lastAccessTime ≤ (Driver.cycle traces d).1.sys.globalCycle) := by
  obtain ⟨r1, r2⟩ := stamps_retire d hp
  have hp2 : d.advance.sys.LinesSat (fun l => l.lastAccessTime ≤ d.advance.sys.globalCycle) := by
    rw [r1]; exact r2
  obtain ⟨f1, f2⟩ := stamps_fold hE traces (List.range numCores)
    (fun c hc => List.mem_range.1 hc) d.advance true (driverInv_advance hinv) hp2
  rw [cycle_eq]
  exact linesSat_mono f2 rfl (fun l h => by
    show l.lastAccessTime ≤
      ((List.range numCores).foldl (Driver.issue traces) (d.advance, true)).1.sys.globalCycle + 1
    rw [f1]; exact Nat.le_succ_of_le h)

theorem stamps_cycles {s E b : Nat} (hE : 1 ≤ E) (traces : List (List TraceEntry)) :
    ∀ (m : Nat) (d : Driver), Driver.Inv s E b traces d →
      d.sys.LinesSat (fun l => l.lastAccessTime ≤ d.sys.globalCycle) →
      (Driver.cycles traces m d).sys.LinesSat
        (fun l => l.lastAccessTime ≤ (Driver.cycles traces m d).sys.globalCycle) := by
  intro m
  induction m with
  | zero => intro d _ hp; exact hp
  | succ m ih =>
    intro d hinv hp
    exact ih _ (cycle_spec hE traces d hinv).1 (stamps_cycle hE traces d hinv hp)

/-! ### What an access does to the stamps -/

theorem snooped_stamps (c : Cache) (a : Nat) (w : Bool) : c.sameStamps (c.snooped a w) := by
  intro si i
  unfold Cache.snooped
  cases hf : findWay (c.getTag a) (c.setLines (c.getSetIndex a)) with
  | none => rfl
  | some j =>
    show ((c.modifyLine (c.getSetIndex a) j (snoopLine w)).line si i).lastAccessTime = _
    by_cases e : si = c.getSetIndex a ∧ i = j
    · obtain ⟨e1, e2⟩ := e
      subst e1; subst e2
      obtain ⟨l, hl, _⟩ := findWay_some_spec hf
      rw [line_modifyLine_self c _ _ _ (lt_of_getElem? hl), snoopLine_time]
    · rw [line_modifyLine_other c _ _ _ _ _ e]

theorem pbt_stamps (c : Cache) (bus : Bus) (a : Nat) (w : Bool) (req : Int) (dr : Bool) :
    c.sameStamps (c.processBusTransaction bus a w req dr).1 := by
  by_cases h : req = c.cacheId
  · rw [pbt_own c bus a w req dr h]; intro _ _; rfl
  · intro si i
    rw [sameLines_line (pbt_sameLines c bus a w req dr h)]
    exact snooped_stamps c a w si i

theorem modify_stamps {c c' : Cache} (si way : Nat) (f : CacheLine → CacheLine) (g : Nat)
    (hs : (c.modifyLine si way f).sameLines c') (hway : way < (c.setLines si).length)
    (hf : (f (c.line si way)).lastAccessTime = g) :
    (c'.line si way).lastAccessTime = g ∧ c.stampsExcept c' si way := by
  refine ⟨?_, ?_⟩
  · rw [sameLines_line hs, line_modifyLine_self c si way f hway]; exact hf
  · intro si2 i2 hne
    rw [sameLines_line hs, line_modifyLine_other c si way f si2 i2 hne]

theorem touched_of_rel {sys sys' : System}
    (hp : sys.LinesSat (fun l => l.lastAccessTime ≤ sys.globalCycle))
    (k a : Nat) (c : Cache) (hc : sys.caches[k]? = some c) (si way : Nat)
    (hway : way < (c.setLines si).length)
    (hcy : sys'.globalCycle = sys.globalCycle)
    (hrel : CachesRel (fun j cj cj' =>
      (j ≠ k → cj' = cj ∨ ∃ bus' w dr', cj' = (cj.processBusTransaction bus' a w (k : Int) dr').1) ∧
      (j = k → ∃ f : CacheLine → CacheLine,
        (f (cj.line si way)).lastAccessTime = sys.globalCycle ∧
        (cj.modifyLine si way f).sameLines cj')) sys.caches sys'.caches) :
    Touched sys k c si way sys' := by
  refine ⟨hcy, ?_, ?_, ?_⟩
  · obtain ⟨c', h1, _, h2⟩ := hrel.2 k c hc
    obtain ⟨f, hf, hs⟩ := h2 rfl
    obtain ⟨m1, m2⟩ := modify_stamps si way f _ hs hway hf
    exact ⟨c', h1, by rw [hcy]; exact m1, m2⟩
  · rw [hcy]
    have hmem : c.line si way ∈ c.setLines si := by
      unfold Cache.line
      rw [List.getD_eq_getElem?_getD, List.getElem?_eq_getElem hway]
      exact List.getElem_mem _
    exact hp k c hc si _ hmem
  · intro j cj hjk hj
    obtain ⟨cj', h1, h2, _⟩ := hrel.2 j cj hj
    refine ⟨cj', h1, ?_⟩
    rcases h2 hjk with e | ⟨bus', w, dr', e⟩
    · rw [e]; intro _ _; rfl
    · rw [e]; exact pbt_stamps cj bus' a w _ dr'

theorem touched_set {sys : System}
    (hp : sys.LinesSat (fun l => l.lastAccessTime ≤ sys.globalCycle))
    (k a : Nat) (c : Cache) (hc : sys.caches[k]? = some c) (si way : Nat)
    (hway : way < (c.setLines si).length) (x : Cache) (f : CacheLine → CacheLine)
    (hf : (f (c.line si way)).lastAccessTime = sys.globalCycle)
    (hx : (c.modifyLine si way f).sameLines x) :
    Touched sys k c si way { sys with caches := sys.caches.set k x } := by
  have hcy : ({ sys with caches := sys.caches.set k x } : System).globalCycle =
      sys.globalCycle := rfl
  refine touched_of_rel hp k a c hc si way hway hcy ?_
  show CachesRel _ sys.caches (sys.caches.set k x)
  apply CachesRel.set_at k
  · exact CachesRel.refl _ (fun j cj _ hjk => ⟨fun _ => Or.inl rfl, fun e => absurd e hjk⟩)
  · intro c2 hc2
    rw [hc] at hc2
    cases hc2
    exact ⟨fun h => absurd rfl h, fun _ => ⟨f, hf, hx⟩⟩

theorem touchedWay_hit (c : Cache) (a i : Nat)
    (hf : findWay (c.getTag a) (c.setLines (c.getSetIndex a)) = some i) :
    c.touchedWay a = i := by
  unfold Cache.touchedWay; rw [hf]

theorem touchedWay_miss (c : Cache) (a : Nat)
    (hf : findWay (c.getTag a) (c.setLines (c.getSetIndex a)) = none) :
    c.touchedWay a = c.findLRULine (c.getSetIndex a) := by
  unfold Cache.touchedWay; rw [hf]

theorem touched_read {s E b : Nat} {sys : System} (hinv : Inv s E b sys) (hE : 1 ≤ E)
    (hp : sys.LinesSat (fun l => l.lastAccessTime ≤ sys.globalCycle))
    (k a : Nat) (c : Cache) (hc : sys.caches[k]? = some c)
    (hcode : (Cache.read sys k a (k : Int)).2 = 0 ∨ (Cache.read sys k a (k : Int)).2 = 1) :
    Touched sys k c (c.getSetIndex a) (c.touchedWay a) (Cache.read sys k a (k : Int)).1 := by
  by_cases hself : sys.bus.isBusy = true ∧ sys.bus.currentRequestingCore = (k : Int)
  · rw [read_self sys k c a _ hc hself] at hcode; simp at hcode
  · cases hf : findWay (c.getTag a) (c.setLines (c.getSetIndex a)) with
    | some i =>
      rw [read_hit sys k c a _ i hc hself hf, touchedWay_hit c a i hf]
      obtain ⟨l, hl, _⟩ := findWay_some_spec hf
      exact touched_set hp k a c hc _ i (lt_of_getElem? hl) _
        (fun l => { l with lastAccessTime := sys.globalCycle }) rfl
        (sameLines_modifyLine (sameLines_stats c _) _ _ _ _ rfl)
    | none =>
      by_cases hb : sys.bus.isBusy = true
      · rw [read_other sys k c a _ hc hself hf hb] at hcode; simp at hcode
      · have hidle : sys.bus.isBusy = false := by simpa using hb
        rw [read_miss sys k c a _ hc hf hidle, touchedWay_miss c a hf]
        obtain ⟨st, _, hrel⟩ := readMiss_caches sys k c a hc hinv.ids hidle
        have hcy : (Cache.readMiss sys k c a (k : Int)).globalCycle = sys.globalCycle := rfl
        refine touched_of_rel hp k a c hc _ _
          (findLRULine_lt c _ (by rw [setLines_length (hinv.shape k c hc) a]; exact hE)) hcy ?_
        apply hrel.mono
        intro j cj cj' hj h
        refine ⟨fun hjk => ?_, fun hjk => ?_⟩
        · obtain ⟨bus', dr', e⟩ := h.1 hjk
          exact Or.inr ⟨bus', false, dr', e⟩
        · exact ⟨_, rfl, h.2 hjk⟩

theorem touched_write {s E b : Nat} {sys : System} (hinv : Inv s E b sys) (hE : 1 ≤ E)
    (hp : sys.LinesSat (fun l => l.lastAccessTime ≤ sys.globalCycle))
    (k a : Nat) (c : Cache) (hc : sys.caches[k]? = some c)
    (hcode : (Cache.write sys k a (k : Int)).2 = 0 ∨ (Cache.write sys k a (k : Int)).2 = 1) :
    Touched sys k c (c.getSetIndex a) (c.touchedWay a) (Cache.write sys k a (k : Int)).1 := by
  by_cases hself : sys.bus.isBusy = true ∧ sys.bus.currentRequestingCore = (k : Int)
  · rw [write_self sys k c a _ hc hself] at hcode; simp at hcode
  · cases hf : findWay (c.getTag a) (c.setLines (c.getSetIndex a)) with
    | some i =>
      rw [write_hit sys k c a _ i hc hself hf] at hcode ⊢
      rw [touchedWay_hit c a i hf]
      obtain ⟨l, hl, _⟩ := findWay_some_spec hf
      by_cases hm : (c.line (c.getSetIndex a) i).state = CacheState.MODIFIED
      · rw [writeHit_modified sys k c a _ i hm]
        exact touched_set hp k a c hc _ i (lt_of_getElem? hl) _
          (fun l => { l with lastAccessTime := sys.globalCycle, dirty := true }) rfl
          (sameLines_modifyLine (sameLines_stats c _) _ _ _ _ rfl)
      · by_cases hb : sys.bus.isBusy = true
        · rw [writeHit_busy sys k c a _ i hm hb] at hcode; simp at hcode
        · have hidle : sys.bus.isBusy = false := by simpa using hb
          have hrel := upgrade_caches sys k c a i hc hinv.ids hm hidle
          refine touched_of_rel hp k a c hc _ _ (lt_of_getElem? hl)
            (writeHit_cycle sys k c a _ i) ?_
          apply hrel.mono
          intro j cj cj' hj h
          refine ⟨fun hjk => ?_, fun hjk => ?_⟩
          · obtain ⟨bus', dr', e⟩ := h.1 hjk
            exact Or.inr ⟨bus', true, dr', e⟩
          · exact ⟨_, rfl, h.2 hjk⟩
    | none =>
      by_cases hb : sys.bus.isBusy = true
      · rw [write_other sys k c a _ hc hself hf hb] at hcode; simp at hcode
      · have hidle : sys.bus.isBusy = false := by simpa using hb
        rw [write_miss sys k c a _ hc hf hidle, touchedWay_miss c a hf]
        have hrel := writeMiss_caches sys k c a hc hinv.ids hidle
        have hcy : (Cache.writeMiss sys k c a (k : Int)).globalCycle = sys.globalCycle := rfl
        refine touched_of_rel hp k a c hc _ _
          (findLRULine_lt c _ (by rw [setLines_length (hinv.shape k c hc) a]; exact hE)) hcy ?_
        apply hrel.mono
        intro j cj cj' hj h
        refine ⟨fun hjk => ?_, fun hjk => ?_⟩
        · obtain ⟨bus', dr', e⟩ := h.1 hjk
          exact Or.inr ⟨bus', true, dr', e⟩
        · exact ⟨_, rfl, h.2 hjk⟩

theorem touched_access {s E b : Nat} {sys : System} (hinv : Inv s E b sys) (hE : 1 ≤ E)
    (hp : sys.LinesSat (fun l => l.lastAccessTime ≤ sys.globalCycle))
    (k : Nat) (e : TraceEntry) (c : Cache) (hc : sys.caches[k]? = some c)
    (hcode : (Driver.access sys k e).2 = 0 ∨ (Driver.access sys k e).2 = 1) :
    Touched sys k c (c.getSetIndex e.address) (c.touchedWay e.address)
      (Driver.access sys k e).1 := by
  unfold Driver.access at hcode ⊢
  by_cases hw : e.isWrite = true
  · rw [if_pos hw] at hcode ⊢
    exact touched_write hinv hE hp k _ c hc hcode
  · rw [if_neg hw] at hcode ⊢
    exact touched_read hinv hE hp k _ c hc hcode

theorem stamps_afterCores {s E b : Nat} (hE : 1 ≤ E) (traces : List (List TraceEntry))
    (d : Driver) (hinv : Driver.Inv s E b traces d)
    (hp : d.sys.LinesSat (fun l => l.lastAccessTime ≤ d.sys.globalCycle))
    (j : Nat) (hj : j ≤ numCores) :
    (d.advance.afterCores traces j).sys.LinesSat
      (fun l => l.lastAccessTime ≤ (d.advance.afterCores traces j).sys.globalCycle) := by
  obtain ⟨r1, r2⟩ := stamps_retire d hp
  have hp2 : d.advance.sys.LinesSat (fun l => l.lastAccessTime ≤ d.advance.sys.globalCycle) := by
    rw [r1]; exact r2
  obtain ⟨f1, f2⟩ := stamps_fold hE traces (List.range j)
    (fun c hc => lt_of_lt_of_le (List.mem_range.1 hc) hj) d.advance true
    (driverInv_advance hinv) hp2
  have e : (d.advance.afterCores traces j).sys.globalCycle = d.advance.sys.globalCycle := f1
  rw [e]; exact f2

theorem touched_frame {sys sys1 sys2 : System} {k : Nat} {c : Cache} {si way : Nat}
    (h : Touched sys k c si way sys1)
    (hrel : CachesRel (fun _ x y => x.sameLines y) sys1.caches sys2.caches)
    (hcy : sys2.globalCycle = sys1.globalCycle) : Touched sys k c si way sys2 := by
  refine ⟨hcy.trans h.cycle, ?_, ?_, ?_⟩
  · obtain ⟨c1, h1, h2, h3⟩ := h.stamp
    obtain ⟨c2, g1, g2⟩ := hrel.2 k c1 h1
    refine ⟨c2, g1, ?_, ?_⟩
    · rw [sameLines_line g2, hcy]; exact h2
    · intro si2 i2 hne
      rw [sameLines_line g2]; exact h3 si2 i2 hne
  · rw [hcy]; exact h.before
  · intro j cj hjk hj
    obtain ⟨c1, h1, h2⟩ := h.peers j cj hjk hj
    obtain ⟨c2, g1, g2⟩ := hrel.2 j c1 h1
    refine ⟨c2, g1, ?_⟩
    intro si2 i2
    rw [sameLines_line g2]; exact h2 si2 i2

theorem touched_turn {s E b : Nat} (hE : 1 ≤ E) (traces : List (List TraceEntry))
    (d : Driver) (hinv : Driver.Inv s E b traces d)
    (hp : d.sys.LinesSat (fun l => l.lastAccessTime ≤ d.sys.globalCycle))
    (j : Nat) (hj : j < numCores) (e : TraceEntry) (c : Cache)
    (hc : (d.advance.afterCores traces j).sys.caches[j]? = some c)
    (hcode : (Driver.access (d.advance.afterCores traces j).sys j e).2 = 0 ∨
      (Driver.access (d.advance.afterCores traces j).sys j e).2 = 1) :
    Touched (d.advance.afterCores traces j).sys j c (c.getSetIndex e.address)
      (c.touchedWay e.address) (Driver.access (d.advance.afterCores traces j).sys j e).1 ∧
    ((traces.getD j [])[(d.advance.afterCores traces j).currentInstructionIndex.getD j 0]? =
        some e →
      Touched (d.advance.afterCores traces j).sys j c (c.getSetIndex e.address)
        (c.touchedWay e.address) (d.advance.afterCores traces (j + 1)).sys) := by
  have hi := (afterCores_inv hE traces d.advance (driverInv_advance hinv) j (le_of_lt hj)).1
  have hs := stamps_afterCores hE traces d hinv hp j (le_of_lt hj)
  have ht := touched_access hi.sys hE hs j e c hc hcode
  refine ⟨ht, ?_⟩
  intro he
  rw [afterCores_succ, issue_access traces _ true j e he]
  refine touched_frame ht ?_ (dispatch_globalCycle _ _ _ _)
  exact (dispatch_caches _ j e.isWrite _).mono (fun _ _ _ _ h => h.1)

/-- C24. LRU stamps are current and monotone.  With associativity at least
one: (1) in every state reached by reads, writes, bus ticks and increments of
the global cycle, (2) at every head of the driver's cycle loop, and (5) inside
every iteration after the retirement step and `updateBusState` and after each
core's turn, the `lastAccessTime` of every line is at most the current global
cycle.  (3), (4), (6) In each of these states, the states in which the loop
really calls `read`/`write` for core `j` included, an access that hits or
issues a miss (result 0 or 1) leaves the line it touches (the matching way on
a hit, the victim on a miss) stamped with the current global cycle, which is
not below the stamp the line had, and changes the stamp of no other line of
any cache; for the pending entry of core `j` the same holds of the driver
state after the turn of core `j`. -/
theorem lru_stamps_current (n s E b : Nat) (hsb : s + b ≤ 31) (hE : 1 ≤ E) :
    (∀ (ops : List Op) (i : Nat) (c : Cache) (setIndex : Nat) (l : CacheLine),
      ((System.init n s E b).run ops).caches[i]? = some c → l ∈ c.setLines setIndex →
      l.lastAccessTime ≤ ((System.init n s E b).run ops).globalCycle) ∧
    (∀ (traces : List (List TraceEntry)) (m i : Nat) (c : Cache) (setIndex : Nat)
      (l : CacheLine),
      (Driver.cycles traces m (Driver.init s E b)).sys.caches[i]? = some c →
      l ∈ c.setLines setIndex →
      l.lastAccessTime ≤ (Driver.cycles traces m (Driver.init s E b)).sys.globalCycle) ∧
    (∀ (ops : List Op) (k : Nat) (e : TraceEntry) (c : Cache),
      ((System.init n s E b).run ops).caches[k]? = some c →
      ((Driver.access ((System.init n s E b).run ops) k e).2 = 0 ∨
        (Driver.access ((System.init n s E b).run ops) k e).2 = 1) →
      Touched ((System.init n s E b).run ops) k c (c.getSetIndex e.address)
        (c.touchedWay e.address) (Driver.access ((System.init n s E b).run ops) k e).1) ∧
    (∀ (traces : List (List TraceEntry)) (m k : Nat) (e : TraceEntry) (c : Cache),
      (Driver.cycles traces m (Driver.init s E b)).sys.caches[k]? = some c →
      ((Driver.access (Driver.cycles traces m (Driver.init s E b)).sys k e).2 = 0 ∨
        (Driver.access (Driver.cycles traces m (Driver.init s E b)).sys k e).2 = 1) →
      Touched (Driver.cycles traces m (Driver.init s E b)).sys k c (c.getSetIndex e.address)
        (c.touchedWay e.address)
        (Driver.access (Driver.cycles traces m (Driver.init s E b)).sys k e).1) ∧
    (∀ (traces : List (List TraceEntry)) (m j i : Nat) (c : Cache) (setIndex : Nat)
      (l : CacheLine), j ≤ numCores →
      ((Driver.cycles traces m (Driver.init s E b)).advance.afterCores traces j).sys.caches[i]?
        = some c →
      l ∈ c.setLines setIndex →
      l.lastAccessTime ≤
        ((Driver.cycles traces m (Driver.init s E b)).advance.afterCores traces
          j).sys.globalCycle) ∧
    (∀ (traces : List (List TraceEntry)) (m j : Nat) (e : TraceEntry) (c : Cache),
      j < numCores →
      ((Driver.cycles traces m (Driver.init s E b)).advance.afterCores traces j).sys.caches[j]?
        = some c →
      ((Driver.access ((Driver.cycles traces m (Driver.init s E b)).advance.afterCores
          traces j).sys j e).2 = 0 ∨
        (Driver.access ((Driver.cycles traces m (Driver.init s E b)).advance.afterCores
          traces j).sys j e).2 = 1) →
      Touched ((Driver.cycles traces m (Driver.init s E b)).advance.afterCores traces j).sys
        j c (c.getSetIndex e.address) (c.touchedWay e.address)
        (Driver.access ((Driver.cycles traces m (Driver.init s E b)).advance.afterCores
          traces j).sys j e).1 ∧
      ((traces.getD j [])[((Driver.cycles traces m (Driver.init s E b)).advance.afterCores
          traces j).currentInstructionIndex.getD j 0]? = some e →
        Touched ((Driver.cycles traces m (Driver.init s E b)).advance.afterCores traces j).sys
          j c (c.getSetIndex e.address) (c.touchedWay e.address)
          ((Driver.cycles traces m (Driver.init s E b)).advance.afterCores traces
            (j + 1)).sys)) := by
  have hrun : ∀ ops : List Op, ((System.init n s E b).run ops).LinesSat
      (fun l => l.lastAccessTime ≤ ((System.init n s E b).run ops).globalCycle) :=
    fun ops => stamps_run ops (inv_init n s E b hsb)
      (init_linesSat n s E b _ (Nat.zero_le _))
  have hdrv : ∀ (traces : List (List TraceEntry)) (m : Nat),
      (Driver.cycles traces m (Driver.init s E b)).sys.LinesSat
        (fun l => l.lastAccessTime ≤
          (Driver.cycles traces m (Driver.init s E b)).sys.globalCycle) :=
    fun traces m => stamps_cycles hE traces m _ (driverInv_init s E b hsb traces)
      (init_linesSat numCores s E b _ (Nat.zero_le _))
  refine ⟨?_, ?_, ?_, ?_, ?_, ?_⟩
  · intro ops i c si l hc hl
    exact hrun ops i c hc si l hl
  · intro traces m i c si l hc hl
    exact hdrv traces m i c hc si l hl
  · intro ops k e c hc hcode
    exact touched_access (inv_run ops (inv_init n s E b hsb)) hE (hrun ops) k e c hc hcode
  · intro traces m k e c hc hcode
    exact touched_access (driverInv_cycles hE traces m _ (driverInv_init s E b hsb traces)).sys
      hE (hdrv traces m) k e c hc hcode
  · intro traces m j i c si l hj hc hl
    exact stamps_afterCores hE traces _
      (driverInv_cycles hE traces m _ (driverInv_init s E b hsb traces)) (hdrv traces m)
      j hj i c hc si l hl
  · intro traces m j e c hj hc hcode
    exact touched_turn hE traces _
      (driverInv_cycles hE traces m _ (driverInv_init s E b hsb traces)) (hdrv traces m)
      j hj e c hc hcode

set_option maxRecDepth 100000 in
theorem lru_stamps_current_witness :
    (Driver.access (Driver.cycles [[⟨false, 0⟩, ⟨false, 0⟩], [], [], []] 100
      (Driver.init 1 2 2)).sys 0 ⟨false, 0⟩).2 = 2 ∧
    (Driver.access ((Driver.cycles [[⟨false, 0⟩, ⟨false, 0⟩], [], [], []] 100
      (Driver.init 1 2 2)).advance.afterCores [[⟨false, 0⟩, ⟨false, 0⟩], [], [], []] 0).sys
      0 ⟨false, 0⟩).2 = 0 ∧
    Touched
      ((Driver.cycles [[⟨false, 0⟩, ⟨false, 0⟩], [], [], []] 100
        (Driver.init 1 2 2)).advance.afterCores [[⟨false, 0⟩, ⟨false, 0⟩], [], [], []] 0).sys
      0 (((Driver.cycles [[⟨false, 0⟩, ⟨false, 0⟩], [], [], []] 100
        (Driver.init 1 2 2)).advance.afterCores
          [[⟨false, 0⟩, ⟨false, 0⟩], [], [], []] 0).sys.caches.getD 0 (Cache.mk0 1 2 2 0))
      ((((Driver.cycles [[⟨false, 0⟩, ⟨false, 0⟩], [], [], []] 100
        (Driver.init 1 2 2)).advance.afterCores
          [[⟨false, 0⟩, ⟨false, 0⟩], [], [], []] 0).sys.caches.getD 0
            (Cache.mk0 1 2 2 0)).getSetIndex (TraceEntry.mk false 0).address)
      ((((Driver.cycles [[⟨false, 0⟩, ⟨false, 0⟩], [], [], []] 100
        (Driver.init 1 2 2)).advance.afterCores
          [[⟨false, 0⟩, ⟨false, 0⟩], [], [], []] 0).sys.caches.getD 0
            (Cache.mk0 1 2 2 0)).touchedWay (TraceEntry.mk false 0).address)
      ((Driver.cycles [[⟨false, 0⟩, ⟨false, 0⟩], [], [], []] 100
        (Driver.init 1 2 2)).advance.afterCores [[⟨false, 0⟩, ⟨false, 0⟩], [], [], []]
          (0 + 1)).sys :=
  ⟨by decide!, by decide!,
    ((lru_stamps_current 4 1 2 2 (by decide) (by decide)).2.2.2.2.2
      [[⟨false, 0⟩, ⟨false, 0⟩], [], [], []] 100 0 (TraceEntry.mk false 0)
      (((Driver.cycles [[⟨false, 0⟩, ⟨false, 0⟩], [], [], []] 100
        (Driver.init 1 2 2)).advance.afterCores
          [[⟨false, 0⟩, ⟨false, 0⟩], [], [], []] 0).sys.caches.getD 0 (Cache.mk0 1 2 2 0))
      (by decide) (by decide!) (Or.inl (by decide!))).2 (by decide!)⟩


/-! ### Bus traffic against misses and writebacks -/

theorem sum_rel (g d : Cache → Nat) :
    ∀ (cs cs' : List Cache), cs'.length = cs.length →
      (∀ (j : Nat) (c c' : Cache), cs[j]? = some c → cs'[j]? = some c' → g c' = g c + d c) →
      (cs'.map g).sum = (cs.map g).sum + (cs.map d).sum := by
  intro cs
  induction cs with
  | nil =>
    intro cs' hl _
    have : cs' = [] := List.length_eq_zero.1 hl
    rw [this]; rfl
  | cons x xs ih =>
    intro cs' hl h
    cases cs' with
    | nil => simp at hl
    | cons y ys =>
      have h0 := h 0 x y (by simp) (by simp)
      have hrest := ih ys (by simpa using hl)
        (fun j c c' hc hc' => h (j + 1) c c' (by simpa using hc) (by simpa using hc'))
      simp only [List.map_cons, List.sum_cons]
      rw [hrest, h0]; ring

theorem delta_sum (a k x : Nat) :
    ∀ (cs : List Cache) (i0 : Nat),
      (∀ (j : Nat) (c : Cache), cs[j]? = some c → c.cacheId = ((i0 + j : Nat) : Int)) →
      (cs.map (fun c => (if c.cacheId = (k : Int) then x else 0) +
        (if c.cacheId ≠ (k : Int) ∧ c.snoopState a = CacheState.MODIFIED then 1 else 0))).sum =
      (if i0 ≤ k ∧ k < i0 + cs.length then x else 0) + peerWritebacks cs a (k : Int) := by
  intro cs
  induction cs with
  | nil =>
    intro i0 _
    have hn : ¬(i0 ≤ k ∧ k < i0 + ([] : List Cache).length) := by
      simp only [List.length_nil]; omega
    rw [if_neg hn]; rfl
  | cons y ys ih =>
    intro i0 hids
    have hy : y.cacheId = (i0 : Int) := by simpa using hids 0 y (by simp)
    have hrest := ih (i0 + 1) (fun j c hc => by
      have := hids (j + 1) c (by simpa using hc)
      rw [this]; congr 1; omega)
    have hpw : peerWritebacks (y :: ys) a (k : Int) = peerWritebacks ys a (k : Int) +
        (if y.cacheId ≠ (k : Int) ∧ y.snoopState a = CacheState.MODIFIED then 1 else 0) := by
      unfold peerWritebacks
      rw [List.countP_cons]
      simp only [decide_eq_true_eq]
    simp only [List.map_cons, List.sum_cons, List.length_cons]
    rw [hrest, hpw, hy]
    by_cases e : i0 = k
    · subst e
      have h1 : i0 ≤ i0 ∧ i0 < i0 + (ys.length + 1) := ⟨le_refl _, by omega⟩
      have h2 : ¬(i0 + 1 ≤ i0 ∧ i0 < i0 + 1 + ys.length) := by omega
      rw [if_pos rfl, if_pos h1, if_neg h2]
      simp
    · have h0 : ¬((i0 : Int) = (k : Int)) := by
        intro h; exact e (by exact_mod_cast h)
      rw [if_neg h0]
      by_cases hin : i0 ≤ k ∧ k < i0 + (ys.length + 1)
      · have h2 : i0 + 1 ≤ k ∧ k < i0 + 1 + ys.length := by omega
        rw [if_pos hin, if_pos h2]; ring
      · have h2 : ¬(i0 + 1 ≤ k ∧ k < i0 + 1 + ys.length) := by omega
        rw [if_neg hin, if_neg h2]; ring

theorem units_split (cs : List Cache) :
    (cs.map (fun c => c.stats.missCount + c.stats.writebackCount)).sum =
      missTotal cs + writebackTotal cs := by
  unfold missTotal writebackTotal
  induction cs with
  | nil => rfl
  | cons y ys ih =>
    simp only [List.map_cons, List.sum_cons]
    rw [ih]; ring

theorem units_after {s E b : Nat} {sys : System} (hinv : Inv s E b sys) (k a : Nat)
    (c : Cache) (hc : sys.caches[k]? = some c) (w : Bool) (x : Nat) (caches' : List Cache)
    (hrel : CachesRel (fun j cj cj' =>
      j ≠ k → ∃ bus' dr', cj' = (cj.processBusTransaction bus' a w (k : Int) dr').1)
      sys.caches caches')
    (c' : Cache) (hc' : caches'[k]? = some c')
    (hx : c'.stats.missCount + c'.stats.writebackCount =
      c.stats.missCount + c.stats.writebackCount + x) :
    missTotal caches' + writebackTotal caches' =
      missTotal sys.caches + writebackTotal sys.caches + x +
        peerWritebacks sys.caches a (k : Int) := by
  rw [← units_split, ← units_split]
  rw [sum_rel _ (fun c => (if c.cacheId = (k : Int) then x else 0) +
    (if c.cacheId ≠ (k : Int) ∧ c.snoopState a = CacheState.MODIFIED then 1 else 0))
    sys.caches caches' hrel.1 ?_]
  · rw [delta_sum a k x sys.caches 0 (fun j cj hj => by
      rw [hinv.ids j cj hj, Nat.zero_add])]
    have hk : 0 ≤ k ∧ k < 0 + sys.caches.length :=
      ⟨Nat.zero_le _, by rw [Nat.zero_add]; exact lt_of_getElem? hc⟩
    rw [if_pos hk]; ring
  · intro j cj cj' hj hj'
    show cj'.stats.missCount + cj'.stats.writebackCount =
      cj.stats.missCount + cj.stats.writebackCount +
        ((if cj.cacheId = (k : Int) then x else 0) +
          (if cj.cacheId ≠ (k : Int) ∧ cj.snoopState a = CacheState.MODIFIED then 1 else 0))
    have hid : cj.cacheId = (j : Int) := hinv.ids j cj hj
    by_cases hjk : j = k
    · rw [hjk] at hj hj' hid
      have e1 : cj = c := Option.some.inj (hj.symm.trans hc)
      have e2 : cj' = c' := Option.some.inj (hj'.symm.trans hc')
      have hn : ¬(cj.cacheId ≠ (k : Int) ∧ cj.snoopState a = CacheState.MODIFIED) :=
        fun h => h.1 hid
      rw [if_pos hid, if_neg hn, e2, hx, e1]; ring
    · obtain ⟨cj2, h1, h2⟩ := hrel.2 j cj hj
      have e3 : cj2 = cj' := Option.some.inj (h1.symm.trans hj')
      rw [e3] at h2
      obtain ⟨bus', dr', e⟩ := h2 hjk
      have hne : (k : Int) ≠ cj.cacheId := by
        rw [hid]; intro h; exact hjk (by exact_mod_cast h.symm)
      have hwb := pbt_writeback cj bus' a w (k : Int) dr' hne
      have hms := (pbt_stats cj bus' a w (k : Int) dr').2.2.2.1
      rw [e, hwb, hms]
      have h0 : ¬(cj.cacheId = (k : Int)) := fun h => hne h.symm
      rw [if_neg h0]
      by_cases hM : cj.snoopState a = CacheState.MODIFIED
      · rw [if_pos hM, if_pos ⟨h0, hM⟩]; ring
      · rw [if_neg hM, if_neg (fun h => hM h.2)]; ring

theorem units_set (cs : List Cache) (k : Nat) (c x : Cache) (hc : cs[k]? = some c)
    (hx : x.stats.missCount + x.stats.writebackCount =
      c.stats.missCount + c.stats.writebackCount) :
    missTotal (cs.set k x) + writebackTotal (cs.set k x) = missTotal cs + writebackTotal cs := by
  rw [← units_split, ← units_split]
  rw [sum_rel _ (fun _ => 0) cs (cs.set k x) (List.length_set _ _ _) ?_]
  · simp
  · intro j cj cj' hj hj'
    show cj'.stats.missCount + cj'.stats.writebackCount =
      cj.stats.missCount + cj.stats.writebackCount + 0
    rw [List.getElem?_set] at hj'
    by_cases e : k = j
    · rw [← e] at hj
      have e1 : cj = c := Option.some.inj (hj.symm.trans hc)
      simp only [e, if_true, lt_of_getElem? hc] at hj'
      have hlt : j < cs.length := by rw [← e]; exact lt_of_getElem? hc
      simp only [hlt, if_true] at hj'
      have e2 : cj' = x := (Option.some.inj hj').symm
      rw [e2, hx, e1]; rfl
    · simp only [e, if_false] at hj'
      have e2 : cj' = cj := Option.some.inj (hj'.symm.trans hj)
      rw [e2]; rfl

theorem traffic_read {s E b : Nat} {sys : System} (hinv : Inv s E b sys)
    (ht : sys.bus.stats.totalBusTraffic =
      2 ^ b * (missTotal sys.caches + writebackTotal sys.caches)) (k a : Nat) :
    (Cache.read sys k a (k : Int)).1.bus.stats.totalBusTraffic =
      2 ^ b * (missTotal (Cache.read sys k a (k : Int)).1.caches +
        writebackTotal (Cache.read sys k a (k : Int)).1.caches) := by
  cases hc : sys.caches[k]? with
  | none => rw [read_none sys k a _ hc]; exact ht
  | some c =>
    by_cases hself : sys.bus.isBusy = true ∧ sys.bus.currentRequestingCore = (k : Int)
    · rw [read_self sys k c a _ hc hself]; exact ht
    · cases hf : findWay (c.getTag a) (c.setLines (c.getSetIndex a)) with
      | some i =>
        rw [read_hit sys k c a _ i hc hself hf]
        show sys.bus.stats.totalBusTraffic = 2 ^ b * (missTotal (sys.caches.set k _) +
          writebackTotal (sys.caches.set k _))
        rw [units_set sys.caches k c
          (c.countHit.updateLRU sys.globalCycle (c.getSetIndex a) i) hc rfl]
        exact ht
      | none =>
        by_cases hb : sys.bus.isBusy = true
        · rw [read_other sys k c a _ hc hself hf hb]; exact ht
        · have hidle : sys.bus.isBusy = false := by simpa using hb
          rw [read_miss sys k c a _ hc hf hidle]
          obtain ⟨c', q1, _, q3⟩ := readMiss_requester sys k c a hc hinv.ids hidle
          obtain ⟨st, _, hrel⟩ := readMiss_caches sys k c a hc hinv.ids hidle
          have hbus := readMiss_bus sys k c a hinv hc hidle
          have hu := units_after hinv k a c hc false
            (1 + (if (c.line (c.getSetIndex a) (c.findLRULine (c.getSetIndex a))).state =
              CacheState.MODIFIED then 1 else 0))
            (Cache.readMiss sys k c a (k : Int)).caches
            (hrel.mono (fun _ _ _ _ h => h.1)) c' q1 (by rw [q3]; ring)
          show (Cache.readMiss sys k c a (k : Int)).bus.stats.totalBusTraffic =
            2 ^ b * (missTotal (Cache.readMiss sys k c a (k : Int)).caches +
              writebackTotal (Cache.readMiss sys k c a (k : Int)).caches)
          rw [hu, hbus, plus_traffic, taken_traffic, ht]
          by_cases hM : (c.line (c.getSetIndex a) (c.findLRULine (c.getSetIndex a))).state =
              CacheState.MODIFIED
          · rw [if_pos hM, if_pos hM]; ring
          · rw [if_neg hM, if_neg hM]; ring

theorem upgrade_no_writeback {s E b : Nat} {sys : System} (hinv : Inv s E b sys)
    (k a : Nat) (c : Cache) (hc : sys.caches[k]? = some c)
    (hh : c.holds (c.getSetIndex a) (c.getTag a)) :
    peerWritebacks sys.caches a (k : Int) = 0 := by
  by_contra hne
  have hpos : 0 < peerWritebacks sys.caches a (k : Int) := Nat.pos_of_ne_zero hne
  obtain ⟨j, cj, hjk, hj, l, hl, htag, hM⟩ := (peerWritebacks_pos_iff hinv a k c hc).1 hpos
  exact hinv.coherent j k cj c hj hc hjk _ _ ⟨l, hl, htag, Or.inl hM⟩ hh

theorem traffic_write {s E b : Nat} {sys : System} (hinv : Inv s E b sys)
    (ht : sys.bus.stats.totalBusTraffic =
      2 ^ b * (missTotal sys.caches + writebackTotal sys.caches)) (k a : Nat) :
    (Cache.write sys k a (k : Int)).1.bus.stats.totalBusTraffic =
      2 ^ b * (missTotal (Cache.write sys k a (k : Int)).1.caches +
        writebackTotal (Cache.write sys k a (k : Int)).1.caches) := by
  cases hc : sys.caches[k]? with
  | none => rw [write_none sys k a _ hc]; exact ht
  | some c =>
    by_cases hself : sys.bus.isBusy = true ∧ sys.bus.currentRequestingCore = (k : Int)
    · rw [write_self sys k c a _ hc hself]; exact ht
    · cases hf : findWay (c.getTag a) (c.setLines (c.getSetIndex a)) with
      | some i =>
        rw [write_hit sys k c a _ i hc hself hf]
        by_cases hm : (c.line (c.getSetIndex a) i).state = CacheState.MODIFIED
        · rw [writeHit_modified sys k c a _ i hm]
          show sys.bus.stats.totalBusTraffic = 2 ^ b * (missTotal (sys.caches.set k _) +
            writebackTotal (sys.caches.set k _))
          rw [units_set sys.caches k c (c.countHit.modifyLine (c.getSetIndex a) i (fun l =>
            { l with lastAccessTime := sys.globalCycle, dirty := true })) hc rfl]
          exact ht
        · by_cases hb : sys.bus.isBusy = true
          · rw [writeHit_busy sys k c a _ i hm hb]; exact ht
          · have hidle : sys.bus.isBusy = false := by simpa using hb
            obtain ⟨_, c', q1, _, q3⟩ := upgrade_requester sys k c a i hc hinv.ids hm hidle
            have hrel := upgrade_caches sys k c a i hc hinv.ids hm hidle
            have hbus := upgrade_bus sys k c a i hinv hc hm hidle
            have hu := units_after hinv k a c hc true 0
              (Cache.writeHit sys k c a (k : Int) i).1.caches
              (hrel.mono (fun _ _ _ _ h => h.1)) c' q1 (by rw [q3]; rfl)
            rw [hu, hbus, plus_traffic, taken_traffic, ht]; ring
      | none =>
        by_cases hb : sys.bus.isBusy = true
        · rw [write_other sys k c a _ hc hself hf hb]; exact ht
        · have hidle : sys.bus.isBusy = false := by simpa using hb
          rw [write_miss sys k c a _ hc hf hidle]
          obtain ⟨c', q1, _, q3⟩ := writeMiss_requester sys k c a hc hinv.ids hidle
          have hrel := writeMiss_caches sys k c a hc hinv.ids hidle
          have hbus := writeMiss_bus sys k c a hinv hc hidle
          have hu := units_after hinv k a c hc true
            (1 + (if (c.line (c.getSetIndex a) (c.findLRULine (c.getSetIndex a))).state =
              CacheState.MODIFIED then 1 else 0))
            (Cache.writeMiss sys k c a (k : Int)).caches
            (hrel.mono (fun _ _ _ _ h => h.1)) c' q1 (by rw [q3]; ring)
          show (Cache.writeMiss sys k c a (k : Int)).bus.stats.totalBusTraffic =
            2 ^ b * (missTotal (Cache.writeMiss sys k c a (k : Int)).caches +
              writebackTotal (Cache.writeMiss sys k c a (k : Int)).caches)
          rw [hu, hbus, plus_traffic, taken_traffic, ht]
          by_cases hM : (c.line (c.getSetIndex a) (c.findLRULine (c.getSetIndex a))).state =
              CacheState.MODIFIED
          · rw [if_pos hM, if_pos hM]; ring
          · rw [if_neg hM, if_neg hM]; ring

theorem traffic_step {s E b : Nat} {sys : System} (hinv : Inv s E b sys)
    (ht : sys.bus.stats.totalBusTraffic =
      2 ^ b * (missTotal sys.caches + writebackTotal sys.caches)) (op : Op) :
    (sys.step op).bus.stats.totalBusTraffic =
      2 ^ b * (missTotal (sys.step op).caches + writebackTotal (sys.step op).caches) := by
  cases op with
  | read k a => exact traffic_read hinv ht k a
  | write k a => exact traffic_write hinv ht k a
  | tick =>
    show sys.bus.updateBusState.stats.totalBusTraffic = _
    have e : sys.bus.updateBusState.stats = sys.bus.stats := by
      unfold Bus.updateBusState
      split_ifs <;> rfl
    rw [e]; exact ht
  | nextCycle => exact ht

theorem traffic_run {s E b : Nat} (ops : List Op) :
    ∀ {sys : System}, Inv s E b sys →
      sys.bus.stats.totalBusTraffic =
        2 ^ b * (missTotal sys.caches + writebackTotal sys.caches) →
      (sys.run ops).bus.stats.totalBusTraffic =
        2 ^ b * (missTotal (sys.run ops).caches + writebackTotal (sys.run ops).caches) := by
  induction ops with
  | nil => intro sys _ h; exact h
  | cons op ops ih =>
    intro sys hinv h
    exact ih (inv_step hinv op) (traffic_step hinv h op)

theorem traffic_init (n s E b : Nat) :
    (System.init n s E b).bus.stats.totalBusTraffic =
      2 ^ b * (missTotal (System.init n s E b).caches +
        writebackTotal (System.init n s E b).caches) := by
  have h : ∀ (cs : List Cache), (∀ c ∈ cs, c.stats.missCount = 0 ∧ c.stats.writebackCount = 0) →
      missTotal cs + writebackTotal cs = 0 := by
    intro cs
    induction cs with
    | nil => intro _; rfl
    | cons y ys ih =>
      intro hy
      have h1 := hy y (List.mem_cons_self _ _)
      have h2 := ih (fun c hc => hy c (List.mem_cons_of_mem _ hc))
      unfold missTotal writebackTotal at h2 ⊢
      simp only [List.map_cons, List.sum_cons, h1.1, h1.2]
      omega
  rw [h]
  · rfl
  · intro c hc
    obtain ⟨j, hj⟩ := List.mem_iff_getElem?.mp hc
    have := init_getElem? hj
    rw [this]; exact ⟨rfl, rfl⟩

/-- C28. Bus traffic identity.  In every state reached from the initial state
by reads, writes, bus ticks and global-cycle increments (counters as unbounded
naturals), `bus.stats.totalBusTraffic` equals the block size times the sum
over all caches of `missCount` plus the sum over all caches of
`writebackCount`, the block size being `2 ^ b` in every cache.  A write hit
that upgrades (`BusUpgr`) leaves the bus total as it was, and a read miss adds
one block for the fill plus one block per writeback, whether or not a peer
supplied the data. -/
theorem bus_traffic_identity (n s E b : Nat) (hsb : s + b ≤ 31) (ops : List Op)
    (sys : System) (hreach : sys = (System.init n s E b).run ops) :
    sys.bus.stats.totalBusTraffic =
      2 ^ b * (missTotal sys.caches + writebackTotal sys.caches) ∧
    (∀ (i : Nat) (c : Cache), sys.caches[i]? = some c →
      c.blockSize = 2 ^ b ∧
      sys.bus.stats.totalBusTraffic =
        c.blockSize * (missTotal sys.caches + writebackTotal sys.caches)) ∧
    (∀ (k a i : Nat) (c : Cache), sys.caches[k]? = some c →
      findWay (c.getTag a) (c.setLines (c.getSetIndex a)) = some i →
      (c.line (c.getSetIndex a) i).state ≠ CacheState.MODIFIED →
      (Cache.write sys k a (k : Int)).1.bus.stats.totalBusTraffic =
        sys.bus.stats.totalBusTraffic) ∧
    (∀ (k a : Nat) (c : Cache), sys.caches[k]? = some c →
      (Cache.read sys k a (k : Int)).2 = 1 →
      (Cache.read sys k a (k : Int)).1.bus.stats.totalBusTraffic =
        sys.bus.stats.totalBusTraffic + 2 ^ b * (1 +
          (if (c.line (c.getSetIndex a) (c.findLRULine (c.getSetIndex a))).state =
            CacheState.MODIFIED then 1 else 0) +
          peerWritebacks sys.caches a (k : Int))) := by
  have hinv : Inv s E b sys := hreach ▸ inv_run ops (inv_init n s E b hsb)
  have ht : sys.bus.stats.totalBusTraffic =
      2 ^ b * (missTotal sys.caches + writebackTotal sys.caches) :=
    hreach ▸ traffic_run ops (inv_init n s E b hsb) (traffic_init n s E b)
  refine ⟨ht, ?_, ?_, ?_⟩
  · intro i c hc
    have hbs : c.blockSize = 2 ^ b := (hinv.shape i c hc).2.2.1
    exact ⟨hbs, by rw [hbs]; exact ht⟩
  · intro k a i c hc hf hm
    by_cases hself : sys.bus.isBusy = true ∧ sys.bus.currentRequestingCore = (k : Int)
    · rw [write_self sys k c a _ hc hself]
    · rw [write_hit sys k c a _ i hc hself hf]
      by_cases hb : sys.bus.isBusy = true
      · rw [writeHit_busy sys k c a _ i hm hb]
      · have hidle : sys.bus.isBusy = false := by simpa using hb
        rw [upgrade_bus sys k c a i hinv hc hm hidle, plus_traffic, taken_traffic,
          upgrade_no_writeback hinv k a c hc ((holds_iff_findWay c _ _).mpr ⟨i, hf⟩)]
        simp
  · intro k a c hc h1
    obtain ⟨hidle, hf⟩ := read_issued sys k c a _ hc h1
    rw [read_miss sys k c a _ hc hf hidle]
    show (Cache.readMiss sys k c a (k : Int)).bus.stats.totalBusTraffic = _
    rw [readMiss_bus sys k c a hinv hc hidle, plus_traffic, taken_traffic]
    by_cases hM : (c.line (c.getSetIndex a) (c.findLRULine (c.getSetIndex a))).state =
        CacheState.MODIFIED
    · rw [if_pos hM, if_pos hM]; ring
    · rw [if_neg hM, if_neg hM]; ring

set_option maxRecDepth 1000000 in
theorem bus_traffic_identity_witness :
    ((System.init 2 1 2 2).run ([Op.write 0 0] ++ List.replicate 100 Op.tick ++
        [Op.write 0 8] ++ List.replicate 100 Op.tick ++
        [Op.read 0 16])).bus.stats.totalBusTraffic =
      2 ^ 2 * (missTotal ((System.init 2 1 2 2).run ([Op.write 0 0] ++
          List.replicate 100 Op.tick ++ [Op.write 0 8] ++ List.replicate 100 Op.tick ++
          [Op.read 0 16])).caches +
        writebackTotal ((System.init 2 1 2 2).run ([Op.write 0 0] ++
          List.replicate 100 Op.tick ++ [Op.write 0 8] ++ List.replicate 100 Op.tick ++
          [Op.read 0 16])).caches) ∧
    ((System.init 2 1 2 2).run ([Op.write 0 0] ++ List.replicate 100 Op.tick ++
        [Op.write 0 8] ++ List.replicate 100 Op.tick ++
        [Op.read 0 16])).bus.stats.totalBusTraffic = 16 :=
  ⟨(bus_traffic_identity 2 1 2 2 (by decide) ([Op.write 0 0] ++ List.replicate 100 Op.tick ++
      [Op.write 0 8] ++ List.replicate 100 Op.tick ++ [Op.read 0 16]) _ rfl).1, by decide⟩


end L1Sim
